import Mathlib

/-!
# dtconvert: tabular codecs of `lib/converters/data_convert.c`

A shallow embedding of the table model and of the CSV, JSON and YAML codecs.
A C string is a list of characters without its terminating NUL; a cursor over
a buffer is the list of characters that are still unread.
-/

namespace DataConvert

/-- A C string (the bytes before the terminating NUL). -/
abbrev Str := List Char

/-- The C-locale `isspace` on an `unsigned char`. -/
def isspace (c : Char) : Bool :=
  c = ' ' || c = '\t' || c = '\n' || c = '\x0b' || c = '\x0c' || c = '\r'

/-- The content of a buffer read as a C string: everything before the first NUL. -/
def cstr (s : List Char) : Str := s.takeWhile (fun c => c != '\x00')

/-- In `Table`, `headers` are the column names and `rows` the cells, row by row. -/
structure Table where
  headers : List Str
  rows : List (List Str)
deriving DecidableEq, Repr

/-- The table after `memset(out, 0, sizeof(*out))`. -/
def Table.empty : Table := ⟨[], []⟩

/-- Source `rstrip`: remove trailing `isspace` characters. -/
def rstrip (s : Str) : Str := s.rdropWhile isspace

/-- Source `lskip`: advance over leading `isspace` characters. -/
def lskip (s : Str) : Str := s.dropWhile isspace

/-- The scan of `find_header` from index `i` on. -/
def find_header_from : List Str → Str → Nat → Option Nat
  | [], _, _ => none
  | h :: hs, key, i => if h = key then some i else find_header_from hs key (i + 1)

/-- Source `find_header`: index of the first header equal to `key` (`none` for `-1`). -/
def find_header (t : Table) (key : Str) : Option Nat := find_header_from t.headers key 0

/-- Source `ensure_col`: append the column `key`, widening every row, unless it exists. -/
def ensure_col (t : Table) (key : Str) : Table :=
  match find_header t key with
  | some _ => t
  | none => { headers := t.headers ++ [key], rows := t.rows.map (fun r => r ++ [[]]) }

/-- Source `table_add_row`: append a row of empty cells; returns the table and the row index. -/
def table_add_row (t : Table) : Table × Nat :=
  ({ t with rows := t.rows ++ [List.replicate t.headers.length []] }, t.rows.length)

/-- Source `table_set`: store `value` in row `row` under column `key`. -/
def table_set (t : Table) (row : Nat) (key value : Str) : Table :=
  let t1 := ensure_col t key
  match find_header t1 key with
  | none => t1
  | some idx => { t1 with rows := t1.rows.set row ((t1.rows.getD row []).set idx value) }

/-! ## CSV -/

/-- Source `cur_peek`: the next unread character, NUL at the end of the buffer. -/
def cur_peek (c : List Char) : Char := c.headD '\x00'

/-- The delimiter test of `csv_write_escaped`. -/
def csv_special (c : Char) : Bool := c = ',' || c = '"' || c = '\n' || c = '\r'

/-- The first loop of `csv_write_escaped`: does the text need quoting. -/
def csv_need_quote : Str → Bool
  | [] => false
  | c :: s => if csv_special c then true else csv_need_quote s

/-- The second loop of `csv_write_escaped`: the text with every quote doubled. -/
def csv_double_quotes : Str → List Char
  | [] => []
  | c :: s => if c = '"' then '"' :: c :: csv_double_quotes s else c :: csv_double_quotes s

/-- Source `csv_write_escaped` (data_convert.c): the characters written for one field. -/
def csv_write_escaped (s : Str) : List Char :=
  if csv_need_quote s then '"' :: csv_double_quotes s ++ ['"'] else s

/-- The blank test of the CSV reader: a space or a tab. -/
def csv_blank (c : Char) : Bool := c = ' ' || c = '\t'

/-- The state in which the `while` loop of `csv_parse_field` ends: the `quoted` flag,
the unread input and the characters appended to `out`. -/
structure FieldScan where
  quoted : Bool
  rest : List Char
  out : List Char
deriving DecidableEq, Repr

/-- The append `out[n++] = ch` seen from the front of the scan. -/
def FieldScan.push (ch : Char) (x : FieldScan) : FieldScan := { x with out := ch :: x.out }

/-- The `while (!cur_eof(c))` loop of `csv_parse_field`. After a doubled quote the loop
runs on into `ch = cur_get(c)`, which reads one more character (NUL at the end of the
buffer) and appends that one. -/
def csv_field_loop : Bool → List Char → FieldScan
  | quoted, [] => ⟨quoted, [], []⟩
  | true, ch :: r =>
    if ch = '"' then
      match r with
      | [] => ⟨false, [], []⟩
      | d :: r2 =>
        if d = '"' then
          match r2 with
          | [] => ⟨true, [], ['\x00']⟩
          | e :: r3 => (csv_field_loop true r3).push e
        else ⟨false, (d :: r2).dropWhile csv_blank, []⟩
    else (csv_field_loop true r).push ch
  | false, ch :: r =>
    if ch = ',' ∨ ch = '\n' ∨ ch = '\r' then ⟨false, ch :: r, []⟩
    else (csv_field_loop false r).push ch

/-- The part of `csv_parse_field` behind its loop. When nothing was appended (`out` is
still `NULL`) the function returns early, before the comma test. -/
def csv_field_result (x : FieldScan) : Str × List Char :=
  if x.out = [] then ([], x.rest)
  else (cstr x.out, if !x.quoted && cur_peek x.rest = ',' then x.rest.tail else x.rest)

/-- Source `csv_parse_field`: the field and the unread input. -/
def csv_parse_field (c : List Char) : Str × List Char :=
  csv_field_result
    (if cur_peek c = '"' then csv_field_loop true c.tail else csv_field_loop false c)

/-- Source `csv_consume_newline`: consume one `\n`, `\r\n` or `\r`. -/
def csv_consume_newline : List Char → Bool × List Char
  | [] => (false, [])
  | ch :: r =>
    if ch = '\n' then (true, r)
    else if ch = '\r' then (true, if cur_peek r = '\n' then r.tail else r)
    else (false, ch :: r)

/-- The loop of `csv_skip_empty_lines`, one iteration per unit of fuel. -/
def csv_skip_empty_lines_fuel : Nat → List Char → List Char
  | 0, c => c
  | n + 1, c =>
    match csv_consume_newline (c.dropWhile csv_blank) with
    | (true, c1) => csv_skip_empty_lines_fuel n c1
    | (false, _) => c

/-- Source `csv_skip_empty_lines`: every iteration but the last consumes a line break,
so the length of the input bounds the number of iterations. -/
def csv_skip_empty_lines (c : List Char) : List Char := csv_skip_empty_lines_fuel c.length c

/-- The header loop of `csv_read_table`, one iteration per unit of fuel. -/
def csv_header_loop : Nat → Table → List Char → Table × List Char
  | 0, t, c => (t, c)
  | n + 1, t, c =>
    if c = [] then (t, c)
    else
      let f := csv_parse_field c
      let t1 := ensure_col t (lskip (rstrip f.1))
      if cur_peek f.2 = ',' then csv_header_loop n t1 f.2.tail
      else
        let nl := csv_consume_newline f.2
        if nl.1 then (t1, nl.2)
        else if nl.2 = [] then (t1, nl.2)
        else csv_header_loop n t1 nl.2

/-- The `for (col = 0; col < out->ncols; col++)` loop of `csv_read_table` over the header
names still to be filled (`table_set` on an existing column leaves the header as it is);
returns the table, the unread input and `line_done`. -/
def csv_row_loop : List Str → Nat → Table → List Char → Table × List Char × Bool
  | [], _, t, c => (t, c, false)
  | h :: hs, row, t, c =>
    let f := csv_parse_field c
    let t1 := table_set t row h (rstrip f.1)
    if cur_peek f.2 = ',' then csv_row_loop hs row t1 f.2.tail
    else if cur_peek f.2 = '\n' ∨ cur_peek f.2 = '\r' then (t1, (csv_consume_newline f.2).2, true)
    else if f.2 = [] then (t1, f.2, false)
    else csv_row_loop hs row t1 f.2

/-- The discard of extra fields: skip to the line break and consume it. -/
def csv_skip_line (c : List Char) : List Char :=
  (csv_consume_newline (c.dropWhile (fun ch => ch != '\n' && ch != '\r'))).2

/-- The row loop of `csv_read_table`, one record per unit of fuel. -/
def csv_rows_loop : Nat → Table → List Char → Table
  | 0, t, _ => t
  | n + 1, t, c =>
    if c = [] then t
    else
      let c1 := csv_skip_empty_lines c
      if c1 = [] then t
      else
        let a := table_add_row t
        let r := csv_row_loop a.1.headers a.2 a.1 c1
        csv_rows_loop n r.1 (if r.2.2 then r.2.1 else csv_skip_line r.2.1)

/-- Source `csv_read_table` on the bytes of the file; `none` is the return value 1.
Every iteration of either loop consumes input, so the length of the input is fuel enough. -/
def csv_read_table (buf : List Char) : Option Table :=
  let c := csv_skip_empty_lines buf
  let h := csv_header_loop c.length Table.empty c
  if h.1.headers.length = 0 then none
  else some (csv_rows_loop h.2.length h.1 h.2)

/-- One line of `csv_write_table`: the fields escaped and separated by commas, then `\n`. -/
def csv_write_line : List Str → List Char
  | [] => ['\n']
  | [s] => csv_write_escaped s ++ ['\n']
  | s :: s2 :: ss => csv_write_escaped s ++ ',' :: csv_write_line (s2 :: ss)

/-- The cells `t->rows[r][c]` for `c < t->ncols` of one row. -/
def row_cells (t : Table) (r : List Str) : List Str :=
  (List.range t.headers.length).map (fun c => r.getD c [])

/-- Source `csv_write_table`: the bytes written to the file. -/
def csv_write_table (t : Table) : List Char :=
  csv_write_line t.headers ++ (t.rows.map (fun r => csv_write_line (row_cells t r))).flatten

/-! ## JSON -/

/-- Source `jskip`: advance over `isspace` characters. -/
def jskip (j : List Char) : List Char := j.dropWhile isspace

/-- Source `jmatch`: skip blanks, then consume `ch` if it is next. The cursor stays behind
the blanks when the match fails. -/
def jmatch (j : List Char) (ch : Char) : Bool × List Char :=
  match jskip j with
  | [] => (false, [])
  | c :: r => if c = ch then (true, r) else (false, c :: r)

/-- Source `jexpect`: `none` is the `exit(1)` of a failed match. -/
def jexpect (j : List Char) (ch : Char) : Option (List Char) :=
  if (jmatch j ch).1 then some (jmatch j ch).2 else none

/-- The append `out[len++] = ch` seen from the front of the scan. -/
def push_out (ch : Char) (x : Option (List Char × List Char)) : Option (List Char × List Char) :=
  x.map (fun y => (ch :: y.1, y.2))

/-- The `switch (esc)` of `jparse_string` without its `case 'u'`: the byte an escape
stands for; `none` is the `default:` branch, `die`. -/
def jescape (esc : Char) : Option Char :=
  if esc = '"' then some '"'
  else if esc = '\\' then some '\\'
  else if esc = '/' then some '/'
  else if esc = 'b' then some '\x08'
  else if esc = 'f' then some '\x0c'
  else if esc = 'n' then some '\n'
  else if esc = 'r' then some '\r'
  else if esc = 't' then some '\t'
  else none

/-- The loop of `jparse_string` behind the opening quote: the characters appended and the
unread input; `none` is `die`. The second argument counts the characters that
`j->i += 4` still has to pass. The loop also ends, without failure, at the end of the
buffer. -/
def jstring_loop : List Char → Nat → Option (List Char × List Char)
  | [], _ => some ([], [])
  | _ :: r, k + 1 => jstring_loop r k
  | ch :: r, 0 =>
    if ch = '"' then some ([], r)
    else if ch = '\\' then
      match r with
      | [] => none
      | esc :: r2 =>
        if esc = 'u' then
          push_out '?' (if 4 ≤ r2.length then jstring_loop r2 4 else jstring_loop r2 0)
        else
          match jescape esc with
          | some c => push_out c (jstring_loop r2 0)
          | none => none
    else push_out ch (jstring_loop r 0)

/-- Source `jparse_string`: the string value and the unread input; `none` is `die`. -/
def jparse_string (j : List Char) : Option (Str × List Char) :=
  match jskip j with
  | [] => none
  | c :: r => if c = '"' then (jstring_loop r 0).map (fun y => (cstr y.1, y.2)) else none

/-- The characters that end an unquoted token in `jparse_primitive_as_string`. -/
def jdelim (ch : Char) : Bool := ch = ',' || ch = '}' || ch = ']' || isspace ch

/-- Source `jparse_primitive_as_string`: a string literal or the text of an unquoted token. -/
def jparse_primitive_as_string (j : List Char) : Option (Str × List Char) :=
  if cur_peek (jskip j) = '"' then jparse_string (jskip j)
  else some (cstr ((jskip j).takeWhile (fun ch => !jdelim ch)),
    (jskip j).dropWhile (fun ch => !jdelim ch))

/-- The inner loop of `json_read_table` over the `key: value` pairs of one object, one pair
per unit of fuel; returns the table and the input behind the closing brace. -/
def json_pairs_loop : Nat → Nat → Table → List Char → Option (Table × List Char)
  | 0, _, _, _ => none
  | n + 1, row, t, j =>
    match jparse_string j with
    | none => none
    | some (key, j1) =>
      match jexpect j1 ':' with
      | none => none
      | some j2 =>
        match jparse_primitive_as_string j2 with
        | none => none
        | some (val, j3) =>
          if (jmatch (jskip j3) '}').1 then some (table_set t row key val, (jmatch (jskip j3) '}').2)
          else
            match jexpect (jmatch (jskip j3) '}').2 ',' with
            | none => none
            | some j4 => json_pairs_loop n row (table_set t row key val) j4

/-- The outer loop of `json_read_table` over the objects of the array, one object per unit
of fuel; the inner loop gets the length of its input as fuel. -/
def json_objects_loop : Nat → Table → List Char → Option Table
  | 0, _, _ => none
  | n + 1, t, j =>
    match jexpect j '{' with
    | none => none
    | some j1 =>
      let a := table_add_row t
      let o : Option (Table × List Char) :=
        if (jmatch (jskip j1) '}').1 then some (a.1, (jmatch (jskip j1) '}').2)
        else json_pairs_loop (jmatch (jskip j1) '}').2.length a.2 a.1 (jmatch (jskip j1) '}').2
      match o with
      | none => none
      | some (t1, j2) =>
        if (jmatch (jskip j2) ']').1 then some t1
        else
          match jexpect (jmatch (jskip j2) ']').2 ',' with
          | none => none
          | some j3 => json_objects_loop n t1 j3

/-- Source `json_read_table` on the bytes of the file; `none` is a fatal parse error.
Every object and every pair consumes input, so the length of the input is fuel enough. -/
def json_read_table (buf : List Char) : Option Table :=
  match jexpect buf '[' with
  | none => none
  | some j =>
    if (jmatch (jskip j) ']').1 then some Table.empty
    else json_objects_loop (jmatch (jskip j) ']').2.length Table.empty (jmatch (jskip j) ']').2

/-- A lower-case hexadecimal digit, as printed by `%x`. -/
def hexdigit (n : Nat) : Char := if n < 10 then Char.ofNat (48 + n) else Char.ofNat (87 + n)

/-- The characters `json_write_escaped` writes for one byte of the text. -/
def json_escape_char (ch : Char) : List Char :=
  if ch = '"' then ['\\', '"']
  else if ch = '\\' then ['\\', '\\']
  else if ch = '\x08' then ['\\', 'b']
  else if ch = '\x0c' then ['\\', 'f']
  else if ch = '\n' then ['\\', 'n']
  else if ch = '\r' then ['\\', 'r']
  else if ch = '\t' then ['\\', 't']
  else if ch.toNat < 0x20 then ['\\', 'u', '0', '0', hexdigit (ch.toNat / 16), hexdigit (ch.toNat % 16)]
  else [ch]

/-- The loop of `json_write_escaped` over the text. -/
def json_escape_body : Str → List Char
  | [] => []
  | ch :: s => json_escape_char ch ++ json_escape_body s

/-- Source `json_write_escaped`: the quoted, escaped literal. -/
def json_write_escaped (s : Str) : List Char := '"' :: json_escape_body s ++ ['"']

/-- The `for (c = 0; c < t->ncols; c++)` loop of `json_write_table` over the columns from
`c` on, given as names paired with cells. -/
def json_write_pairs : Bool → List (Str × Str) → List Char
  | _, [] => []
  | first, (k, v) :: ps =>
    (if first then [] else [',', ' ']) ++ json_write_escaped k ++ [':', ' '] ++ json_write_escaped v
      ++ json_write_pairs false ps

/-- The `for (r = 0; r < t->nrows; r++)` loop of `json_write_table` over the rows still to
be written. -/
def json_write_rows (t : Table) : List (List Str) → List Char
  | [] => []
  | r :: rs =>
    [' ', ' ', '{'] ++ json_write_pairs true (t.headers.zip (row_cells t r)) ++ ['}']
      ++ (if rs = [] then [] else [',']) ++ ['\n'] ++ json_write_rows t rs

/-- Source `json_write_table`: the bytes written to the file. -/
def json_write_table (t : Table) : List Char :=
  ['[', '\n'] ++ json_write_rows t t.rows ++ [']', '\n']

/-! ## YAML -/

/-- Source `getline` repeated to the end of the file: the lines, each with its `\n`. -/
def getlines : List Char → List (List Char)
  | [] => []
  | c :: r =>
    if c = '\n' then [c] :: getlines r
    else
      match getlines r with
      | [] => [[c]]
      | l :: ls => (c :: l) :: ls

/-- The escape table of `yaml_parse_value`. -/
def yaml_unescape (esc : Char) : Char :=
  if esc = 'n' then '\n' else if esc = 'r' then '\r' else if esc = 't' then '\t' else esc

/-- The loop of `yaml_parse_value` behind the opening quote. A backslash that is the last
character takes the string terminator as `esc` and moves on behind it; the next read is
outside the string, which is `none` here, whatever byte is found there. (Where `rstrip` has
cut blanks or a line break off the value, that byte is a NUL written by `rstrip`, and the
code then returns the value read so far; the read is behind the terminator all the same.) -/
def yaml_value_loop : List Char → Option (List Char)
  | [] => some []
  | ch :: r =>
    if ch = '"' then some []
    else if ch = '\\' then
      match r with
      | [] => none
      | esc :: r2 => (yaml_value_loop r2).map (fun o => yaml_unescape esc :: o)
    else (yaml_value_loop r).map (fun o => ch :: o)

/-- Source `yaml_parse_value`: the value of a `key: value` line; `none` where the loop reads
behind the string terminator. -/
def yaml_parse_value (s : Str) : Option Str :=
  if cur_peek (rstrip (lskip s)) = '"' then yaml_value_loop (rstrip (lskip s)).tail
  else some (rstrip (lskip s))

/-- The part of the loop body of `yaml_read_table` behind the record start: `p` is the rest
of the line, `cur` the current row; `none` is `die`. -/
def yaml_key_value (t : Table) (cur : Option Nat) (p : Str) : Option (Table × Option Nat) :=
  match cur with
  | none => none
  | some row =>
    if ':' ∈ lskip p then
      match yaml_parse_value ((lskip p).dropWhile (fun c => c != ':')).tail with
      | none => none
      | some val =>
        some (table_set t row (rstrip ((lskip p).takeWhile (fun c => c != ':'))) val, cur)
    else some (t, cur)

/-- The loop body of `yaml_read_table` for one line returned by `getline`. -/
def yaml_line (t : Table) (cur : Option Nat) (line : List Char) : Option (Table × Option Nat) :=
  let p := lskip (rstrip (cstr line))
  if p = [] then some (t, cur)
  else if cur_peek p = '#' then some (t, cur)
  else if p.take 2 = ['-', ' '] then
    if lskip (p.drop 2) = [] then some ((table_add_row t).1, some (table_add_row t).2)
    else yaml_key_value (table_add_row t).1 (some (table_add_row t).2) (lskip (p.drop 2))
  else yaml_key_value t cur p

/-- The `while (getline(...) >= 0)` loop of `yaml_read_table`. -/
def yaml_lines_loop : Table → Option Nat → List (List Char) → Option Table
  | t, _, [] => some t
  | t, cur, l :: ls =>
    match yaml_line t cur l with
    | none => none
    | some (t1, cur1) => yaml_lines_loop t1 cur1 ls

/-- Source `yaml_read_table` on the bytes of the file; `none` is a fatal parse error. -/
def yaml_read_table (buf : List Char) : Option Table :=
  yaml_lines_loop Table.empty none (getlines buf)

/-- The characters `yaml_write_escaped` writes for one byte of the text. -/
def yaml_escape_char (ch : Char) : List Char :=
  if ch = '"' then ['\\', '"']
  else if ch = '\\' then ['\\', '\\']
  else if ch = '\n' then ['\\', 'n']
  else if ch = '\r' then ['\\', 'r']
  else if ch = '\t' then ['\\', 't']
  else [ch]

/-- The loop of `yaml_write_escaped` over the text. -/
def yaml_escape_body : Str → List Char
  | [] => []
  | ch :: s => yaml_escape_char ch ++ yaml_escape_body s

/-- Source `yaml_write_escaped`: the quoted, escaped literal. -/
def yaml_write_escaped (s : Str) : List Char := '"' :: yaml_escape_body s ++ ['"']

/-- The `for (c = 1; c < t->ncols; c++)` loop of `yaml_write_table`: one indented line per
further column. -/
def yaml_write_more : List (Str × Str) → List Char
  | [] => []
  | (k, v) :: ps => [' ', ' '] ++ k ++ [':', ' '] ++ yaml_write_escaped v ++ ['\n'] ++ yaml_write_more ps

/-- One record of `yaml_write_table`. -/
def yaml_write_row (t : Table) (r : List Str) : List Char :=
  match t.headers.zip (row_cells t r) with
  | [] => ['-', ' ', '{', '}', '\n']
  | (k, v) :: ps => ['-', ' '] ++ k ++ [':', ' '] ++ yaml_write_escaped v ++ ['\n'] ++ yaml_write_more ps

/-- Source `yaml_write_table`: the bytes written to the file. -/
def yaml_write_table (t : Table) : List Char := (t.rows.map (yaml_write_row t)).flatten

end DataConvert

namespace SqlConvert

open DataConvert (Str csv_special)

/-- The first loop of `csv_write_escaped` in sql_convert.c. -/
def csv_need_quote : Str → Bool
  | [] => false
  | c :: s => if c = ',' || c = '"' || c = '\n' || c = '\r' then true else csv_need_quote s

/-- The second loop of `csv_write_escaped` in sql_convert.c. -/
def csv_double_quotes : Str → List Char
  | [] => []
  | c :: s => if c = '"' then '"' :: c :: csv_double_quotes s else c :: csv_double_quotes s

/-- Source `csv_write_escaped` (sql_convert.c): the characters written for one field. -/
def csv_write_escaped (s : Str) : List Char :=
  if csv_need_quote s then '"' :: csv_double_quotes s ++ ['"'] else s

end SqlConvert

namespace SqlConvert

open DataConvert (Str isspace cstr getlines)

/-! ## SQL: `lib/converters/sql_convert.c`

A `const char *` into a NUL-terminated buffer is the list of the characters in front of the
NUL that are still unread. -/

/-- The character a `const char *` points at: NUL at the end of the string. -/
def deref (s : List Char) : Char := s.headD '\x00'

/-- The C-locale `isalpha` on an `unsigned char`. -/
def isalpha (c : Char) : Bool := (65 ≤ c.toNat && c.toNat ≤ 90) || (97 ≤ c.toNat && c.toNat ≤ 122)

/-- The C-locale `isalnum` on an `unsigned char`. -/
def isalnum (c : Char) : Bool := isalpha c || (48 ≤ c.toNat && c.toNat ≤ 57)

/-- The C-locale `tolower` on an `unsigned char`. -/
def tolower (c : Char) : Char := if 65 ≤ c.toNat ∧ c.toNat ≤ 90 then Char.ofNat (c.toNat + 32) else c

/-- Source `rstrip` (sql_convert.c): remove trailing `\n` and `\r`. -/
def rstrip (s : Str) : Str := s.rdropWhile (fun c => c = '\n' || c = '\r')

/-- Source `is_ident`. -/
def is_ident : Str → Bool
  | [] => false
  | c :: r => (isalpha c || c = '_') && r.all (fun x => isalnum x || x = '_')

/-- Source `escape_sql_literal`: every single quote twice. -/
def escape_sql_literal : Str → Str
  | [] => []
  | c :: s => if c = '\'' then c :: '\'' :: escape_sql_literal s else c :: escape_sql_literal s

/-- In `Csv`, `header` are the fields of the first line and `rows` the data rows, each of
`ncols` cells. -/
structure Csv where
  header : List Str
  rows : List (List Str)
deriving DecidableEq, Repr

/-- The append `out[len++] = ch` seen from the front of the scan. -/
def keep (ch : Char) (x : Str × List Char) : Str × List Char := (ch :: x.1, x.2)

/-- The `while (*s)` loop of `csv_parse_field` (sql_convert.c): the field and the unread
input. A doubled quote inside a quoted field gives one quote. -/
def csv_scan_field : Bool → List Char → Str × List Char
  | _, [] => ([], [])
  | true, ch :: r =>
    if ch = '"' then
      match r with
      | [] => ([], [])
      | d :: r2 => if d = '"' then keep '"' (csv_scan_field true r2) else ([], d :: r2)
    else keep ch (csv_scan_field true r)
  | false, ch :: r =>
    if ch = ',' ∨ ch = '\n' ∨ ch = '\r' then ([], ch :: r) else keep ch (csv_scan_field false r)

/-- Source `csv_parse_field` (sql_convert.c). -/
def csv_parse_field (p : List Char) : Str × List Char :=
  if deref p = '"' then csv_scan_field true p.tail else csv_scan_field false p

/-- Source `csv_consume_delim`: consume one comma or one line break. -/
def csv_consume_delim : List Char → List Char
  | [] => []
  | c :: r =>
    if c = ',' then r
    else if c = '\r' then (if deref r = '\n' then r.tail else r)
    else if c = '\n' then r
    else c :: r

/-- Source `csv_at_eol`. -/
def csv_at_eol (s : List Char) : Bool := deref s = '\x00' || deref s = '\n' || deref s = '\r'

/-- The test for an empty line in `csv_read_all`: behind spaces and tabs stands a line
break. -/
def csv_blank_line (p : List Char) : Bool :=
  deref (p.dropWhile (fun c => c = ' ' || c = '\t')) = '\r'
    || deref (p.dropWhile (fun c => c = ' ' || c = '\t')) = '\n'

/-- The loop `skip leading empty lines` of `csv_read_all`, one line per unit of fuel. -/
def csv_skip_leading : Nat → List Char → List Char
  | 0, p => p
  | n + 1, p =>
    if p = [] then p
    else if csv_blank_line p then
      csv_skip_leading n (csv_consume_delim (p.dropWhile (fun c => c = ' ' || c = '\t')))
    else p

/-- The header loop of `csv_read_all`, one field per unit of fuel: the fields and the
unread input. -/
def csv_header_fields : Nat → List Char → List Str × List Char
  | 0, p => ([], p)
  | n + 1, p =>
    if p = [] then ([], p)
    else
      let f := csv_parse_field p
      if csv_at_eol f.2 then ([f.1], csv_consume_delim f.2)
      else if deref f.2 = ',' then
        (f.1 :: (csv_header_fields n (csv_consume_delim f.2)).1,
          (csv_header_fields n (csv_consume_delim f.2)).2)
      else (f.1 :: (csv_header_fields n f.2).1, (csv_header_fields n f.2).2)

/-- The `for (c = 0; c < out->ncols; c++)` loop of `csv_read_all` over the columns still to
be filled: the fields read and the unread input. At the end of a line the loop consumes
the line break and ends. -/
def csv_row_fields : Nat → List Char → List Str × List Char
  | 0, p => ([], p)
  | k + 1, p =>
    let f := csv_parse_field p
    if csv_at_eol f.2 then ([f.1], csv_consume_delim f.2)
    else if deref f.2 = ',' then
      (f.1 :: (csv_row_fields k (csv_consume_delim f.2)).1,
        (csv_row_fields k (csv_consume_delim f.2)).2)
    else (f.1 :: (csv_row_fields k f.2).1, (csv_row_fields k f.2).2)

/-- The code `consume rest of line if any` of `csv_read_all`: it runs behind every row,
also when the field loop has consumed the line break of the row already. -/
def csv_rest_of_line (p : List Char) : List Char :=
  csv_consume_delim (p.dropWhile (fun c => c != '\n' && c != '\r'))

/-- The row loop of `csv_read_all`, one line per unit of fuel. A row starts as `ncols`
empty cells, of which the fields read replace the first ones. -/
def csv_rows_loop : Nat → Nat → List Char → List (List Str)
  | 0, _, _ => []
  | n + 1, ncols, p =>
    if p = [] then []
    else if csv_blank_line p then
      csv_rows_loop n ncols (csv_consume_delim (p.dropWhile (fun c => c = ' ' || c = '\t')))
    else
      ((csv_row_fields ncols p).1 ++ List.replicate (ncols - (csv_row_fields ncols p).1.length) [])
        :: csv_rows_loop n ncols (csv_rest_of_line (csv_row_fields ncols p).2)

/-- Source `csv_read_all` on the bytes of the file; `none` is the return value 1. Every
iteration of each loop consumes input, so the length of the input is fuel enough. -/
def csv_read_all (buf : List Char) : Option Csv :=
  let p := csv_skip_leading (cstr buf).length (cstr buf)
  let h := csv_header_fields p.length p
  if h.1 = [] then none
  else some ⟨h.1, csv_rows_loop h.2.length h.1.length h.2⟩

/-- One line of `csv_write`: the fields escaped and separated by commas, then `\n`. -/
def csv_write_line (cells : List Str) : List Char :=
  List.intercalate [','] (cells.map csv_write_escaped) ++ ['\n']

/-- Source `csv_write`: the bytes written to the file. -/
def csv_write (header : List Str) (rows : List (List Str)) : List Char :=
  csv_write_line header ++ (rows.map csv_write_line).flatten

/-- The column name that the loop `Normalize column identifiers` of `csv_to_sql` leaves in
`csv.header[i]`. -/
def sql_column_name (i : Nat) (h : Str) : Str :=
  if h.dropWhile isspace = [] then "col".toList ++ (Nat.repr (i + 1)).toList
  else h.dropWhile isspace

/-- The loop `Normalize column identifiers` of `csv_to_sql` from column `i` on; `none` is
the `return 1` at the first name that is no identifier. -/
def sql_normalize : Nat → List Str → Option (List Str)
  | _, [] => some []
  | i, h :: hs =>
    if is_ident (sql_column_name i h) then
      (sql_normalize (i + 1) hs).map (fun l => sql_column_name i h :: l)
    else none

/-- The `CREATE TABLE` line of `csv_to_sql`. -/
def sql_create_line (table : Str) (names : List Str) : List Char :=
  "CREATE TABLE IF NOT EXISTS ".toList ++ table ++ " (".toList
    ++ List.intercalate ", ".toList (names.map (fun n => n ++ " TEXT".toList)) ++ ");\n".toList

/-- One `INSERT` line of `csv_to_sql`. -/
def sql_insert_line (table : Str) (names : List Str) (row : List Str) : List Char :=
  "INSERT INTO ".toList ++ table ++ " (".toList ++ List.intercalate ", ".toList names
    ++ ") VALUES (".toList
    ++ List.intercalate ", ".toList (row.map (fun c => '\'' :: escape_sql_literal c ++ ['\'']))
    ++ ");\n".toList

/-- What `csv_to_sql` writes for a table it has read. -/
def sql_text (table : Str) (names : List Str) (rows : List (List Str)) (create_table : Bool) :
    List Char :=
  "-- Generated by dtconvert (csv -> sql)\n".toList
    ++ (if create_table then sql_create_line table names else [])
    ++ (rows.map (sql_insert_line table names)).flatten ++ ['\n']

/-- Source `csv_to_sql` on the bytes of the CSV file: the bytes written to the SQL file;
`none` is a `return 1`, which comes before the output file is opened. -/
def csv_to_sql (csv : List Char) (table : Str) (create_table : Bool) : Option (List Char) :=
  if is_ident table then
    match csv_read_all csv with
    | none => none
    | some c =>
      match sql_normalize 0 c.header with
      | none => none
      | some names => some (sql_text table names c.rows create_table)
  else none

/-- Source `skip_ws`. -/
def skip_ws (p : List Char) : List Char := p.dropWhile isspace

/-- Source `match_ci`: the input behind the keyword, `none` when it does not match. -/
def match_ci : List Char → List Char → Option (List Char)
  | p, [] => some p
  | [], _ :: _ => none
  | c :: r, k :: ks => if tolower c = tolower k then match_ci r ks else none

/-- Source `parse_ident`: the identifier (`none` for `NULL`) and the unread input, which is
behind the blanks in either case. -/
def parse_ident (p : List Char) : Option Str × List Char :=
  if isalpha (deref (skip_ws p)) || deref (skip_ws p) = '_' then
    (some ((skip_ws p).takeWhile (fun c => isalnum c || c = '_')),
      (skip_ws p).dropWhile (fun c => isalnum c || c = '_'))
  else (none, skip_ws p)

/-- Source `consume_char`. -/
def consume_char (p : List Char) (ch : Char) : Bool × List Char :=
  match skip_ws p with
  | [] => (false, [])
  | c :: r => if c = ch then (true, r) else (false, c :: r)

/-- The `while (**p)` loop of `parse_sql_string_literal`: the value and the unread input. -/
def sql_scan_literal : List Char → Str × List Char
  | [] => ([], [])
  | ch :: r =>
    if ch = '\'' then
      match r with
      | [] => ([], [])
      | d :: r2 => if d = '\'' then keep '\'' (sql_scan_literal r2) else ([], d :: r2)
    else keep ch (sql_scan_literal r)

/-- Source `parse_sql_string_literal`: the value (`none` for `NULL`) and the unread input. -/
def parse_sql_string_literal (p : List Char) : Option Str × List Char :=
  match skip_ws p with
  | [] => (none, [])
  | c :: r =>
    if c = '\'' then (some (sql_scan_literal r).1, (sql_scan_literal r).2)
    else (none, c :: r)

/-- The loop `parse columns` of `sql_to_csv`, one column per unit of fuel; `none` is
`goto next_line`. -/
def sql_columns_loop : Nat → List Char → Option (List Str × List Char)
  | 0, _ => none
  | n + 1, p =>
    match (parse_ident p).1 with
    | none => none
    | some col =>
      if (consume_char (parse_ident p).2 ')').1 then
        some ([col], (consume_char (parse_ident p).2 ')').2)
      else if (consume_char (consume_char (parse_ident p).2 ')').2 ',').1 then
        (sql_columns_loop n (consume_char (consume_char (parse_ident p).2 ')').2 ',').2).map
          (fun x => (col :: x.1, x.2))
      else none

/-- The loop `parse values` of `sql_to_csv`, one literal per unit of fuel; `none` is
`goto next_line`. -/
def sql_values_loop : Nat → List Char → Option (List Str × List Char)
  | 0, _ => none
  | n + 1, p =>
    match (parse_sql_string_literal p).1 with
    | none => none
    | some v =>
      if (consume_char (parse_sql_string_literal p).2 ')').1 then
        some ([v], (consume_char (parse_sql_string_literal p).2 ')').2)
      else if (consume_char (consume_char (parse_sql_string_literal p).2 ')').2 ',').1 then
        (sql_values_loop n
          (consume_char (consume_char (parse_sql_string_literal p).2 ')').2 ',').2).map
          (fun x => (v :: x.1, x.2))
      else none

/-- The body of the `getline` loop of `sql_to_csv` up to `(void)consume_char(&p, ';')`: the
column names and the values of the `INSERT` statement on the line; `none` when the line is
passed over. Every column and every literal consumes input, so the length of the input is
fuel enough. -/
def sql_parse_line (line : List Char) : Option (List Str × List Str) :=
  let p := skip_ws (rstrip (cstr line))
  if p = [] ∨ deref p = '-' then none
  else
    match match_ci p "insert".toList with
    | none => none
    | some p1 =>
      match match_ci (skip_ws p1) "into".toList with
      | none => none
      | some p2 =>
        if (consume_char (parse_ident p2).2 '(').1 then
          match sql_columns_loop ((consume_char (parse_ident p2).2 '(').2.length + 1)
              (consume_char (parse_ident p2).2 '(').2 with
          | none => none
          | some (cols, p3) =>
            match match_ci (skip_ws p3) "values".toList with
            | none => none
            | some p4 =>
              if (consume_char p4 '(').1 then
                match sql_values_loop ((consume_char p4 '(').2.length + 1) (consume_char p4 '(').2 with
                | none => none
                | some (vals, _) => some (cols, vals)
              else none
        else none

/-- The code `store row` of `sql_to_csv`: the values padded with empty strings to
`columns.len`, of which the first `columns.len` are kept. -/
def sql_store_row (ncols : Nat) (vals : List Str) : List Str :=
  (vals ++ List.replicate (ncols - vals.length) []).take ncols

/-- The `getline` loop of `sql_to_csv` over the lines still to be read, with the column
list adopted so far (empty before the first statement) and the rows stored so far; `none`
is the `return 1` at a statement with another column list. -/
def sql_lines_loop : List Str → List (List Str) → List (List Char) →
    Option (List Str × List (List Str))
  | columns, rows, [] => some (columns, rows)
  | columns, rows, line :: ls =>
    match sql_parse_line line with
    | none => sql_lines_loop columns rows ls
    | some (cols_this, vals) =>
      if columns = [] then
        sql_lines_loop cols_this (rows ++ [sql_store_row cols_this.length vals]) ls
      else if columns.length ≠ cols_this.length then none
      else if columns ≠ cols_this then none
      else sql_lines_loop columns (rows ++ [sql_store_row columns.length vals]) ls

/-- Source `sql_to_csv` on the bytes of the SQL file: the bytes written to the CSV file;
`none` is a `return 1`, which comes before the output file is opened. -/
def sql_to_csv (sql : List Char) : Option (List Char) :=
  match sql_lines_loop [] [] (getlines sql) with
  | none => none
  | some (columns, rows) => if columns = [] then none else some (csv_write columns rows)

end SqlConvert

namespace Conversion

open DataConvert (Str)

/-! ## The path finder: `src/conversion.c`

The registry is the static array `converters` of the source, up to its sentinel. The
functions that walk over it take it as an argument here, so that they can be stated for
every registry; `converters` below is the one of the source. -/

/-- In `Converter`, one edge of the registry. -/
structure Converter where
  from_format : Str
  to_format : Str
  converter_path : Str
  description : Str
deriving DecidableEq, Repr

/-- The built-in converter registry. -/
def converters : List Converter :=
  [⟨"docx".toList, "pdf".toList, "modules/docx_to_pdf.sh".toList, "DOCX to PDF converter".toList⟩,
   ⟨"docx".toList, "odt".toList, "modules/docx_to_odt.sh".toList, "DOCX to ODT converter".toList⟩,
   ⟨"odt".toList, "pdf".toList, "modules/odt_to_pdf.sh".toList, "ODT to PDF converter".toList⟩,
   ⟨"odt".toList, "docx".toList, "modules/odt_to_docx.sh".toList, "ODT to DOCX converter".toList⟩,
   ⟨"txt".toList, "pdf".toList, "modules/txt_to_pdf.sh".toList, "Text to PDF converter".toList⟩,
   ⟨"csv".toList, "txt".toList, "modules/csv_to_txt.sh".toList, "CSV to Text converter".toList⟩,
   ⟨"csv".toList, "pdf".toList, "modules/csv_to_pdf.sh".toList, "CSV to PDF converter".toList⟩,
   ⟨"csv".toList, "xlsx".toList, "modules/csv_to_xlsx.sh".toList, "CSV to XLSX converter".toList⟩,
   ⟨"xlsx".toList, "csv".toList, "modules/xlsx_to_csv.sh".toList, "XLSX to CSV converter".toList⟩,
   ⟨"csv".toList, "json".toList, "lib/converters/data_convert".toList,
     "CSV to JSON converter".toList⟩,
   ⟨"json".toList, "csv".toList, "lib/converters/data_convert".toList,
     "JSON to CSV converter".toList⟩,
   ⟨"json".toList, "yaml".toList, "lib/converters/data_convert".toList,
     "JSON to YAML converter".toList⟩,
   ⟨"yaml".toList, "json".toList, "lib/converters/data_convert".toList,
     "YAML to JSON converter".toList⟩,
   ⟨"csv".toList, "yaml".toList, "lib/converters/data_convert".toList,
     "CSV to YAML converter".toList⟩,
   ⟨"yaml".toList, "csv".toList, "lib/converters/data_convert".toList,
     "YAML to CSV converter".toList⟩,
   ⟨"csv".toList, "sql".toList, "modules/csv_to_sql.sh".toList, "CSV to SQL converter".toList⟩,
   ⟨"sql".toList, "csv".toList, "modules/sql_to_csv.sh".toList, "SQL to CSV converter".toList⟩,
   ⟨"txt".toList, "tokens".toList, "modules/txt_to_tokens.sh".toList,
     "Text to tokens converter".toList⟩,
   ⟨"csv".toList, "postgresql".toList, "modules/csv_to_postgresql.sh".toList,
     "CSV to PostgreSQL importer".toList⟩,
   ⟨"postgresql".toList, "csv".toList, "modules/postgresql_to_csv.sh".toList,
     "PostgreSQL to CSV exporter".toList⟩]

/-- Source `is_storage_format`. -/
def is_storage_format (format : Str) : Bool := format = "postgresql".toList

/-- In `Node`, `prev` and `prev_converter` are `none` for the value -1. -/
structure Node where
  name : Str
  prev : Option Nat
  prev_converter : Option Nat
  seen : Bool
deriving DecidableEq, Repr

/-- An element of the zeroed array `Node nodes[64] = {0}`; it stands for `nodes[i]` where
`i` is no index of a node. -/
def Node.zero : Node := ⟨[], some 0, some 0, false⟩

/-- Source `format_index` over `nodes[0..n)`: `none` is -1. -/
def format_index : List Node → Str → Option Nat
  | [], _ => none
  | nd :: rest, name => if nd.name = name then some 0 else (format_index rest name).map (· + 1)

/-- One statement `if (format_index(nodes, n, a) < 0 && n < max_nodes) nodes[n++] = ...` of
`build_nodes`. -/
def add_node (max_nodes : Nat) (nodes : List Node) (a : Str) : List Node :=
  if format_index nodes a = none ∧ nodes.length < max_nodes then nodes ++ [⟨a, none, none, false⟩]
  else nodes

/-- The loop of `build_nodes` over the registry entries still to come. -/
def build_nodes_loop (max_nodes : Nat) : List Converter → List Node → List Node
  | [], nodes => nodes
  | c :: cs, nodes =>
    build_nodes_loop max_nodes cs
      (add_node max_nodes (add_node max_nodes nodes c.from_format) c.to_format)

/-- Source `build_nodes`: the nodes `nodes[0..n)`. -/
def build_nodes (reg : List Converter) (max_nodes : Nat) : List Node :=
  build_nodes_loop max_nodes reg []

/-- In `Search`, the variables of the loop of `find_path`: the nodes, the queue `q[0..qt)` and
its head `qh`. -/
structure Search where
  nodes : List Node
  q : List Nat
  qh : Nat
deriving DecidableEq, Repr

/-- The assignments `nodes[v].seen = true; nodes[v].prev = u; nodes[v].prev_converter = cid`. -/
def mark (nodes : List Node) (v u cid : Nat) : List Node :=
  nodes.set v ⟨(nodes.getD v Node.zero).name, some u, some cid, true⟩

/-- The loop `for (int cid = 0; ...)` of `find_path` from the entry `cid` on, for the node
`u`. It ends early when the queue is full. -/
def edges_loop (to_format : Str) (u : Nat) : Nat → List Converter → Search → Search
  | _, [], s => s
  | cid, c :: cs, s =>
    if c.from_format ≠ (s.nodes.getD u Node.zero).name then
      edges_loop to_format u (cid + 1) cs s
    else if is_storage_format c.to_format = true ∧ to_format ≠ "postgresql".toList then
      edges_loop to_format u (cid + 1) cs s
    else
      match format_index s.nodes c.to_format with
      | none => edges_loop to_format u (cid + 1) cs s
      | some v =>
        if (s.nodes.getD v Node.zero).seen = true then edges_loop to_format u (cid + 1) cs s
        else if 64 ≤ s.q.length + 1 then ⟨mark s.nodes v u cid, s.q ++ [v], s.qh⟩
        else edges_loop to_format u (cid + 1) cs ⟨mark s.nodes v u cid, s.q ++ [v], s.qh⟩

/-- The loop `while (qh < qt)` of `find_path`, one node per unit of fuel. The queue holds
every node at most once, so that it is empty after 64 rounds. -/
def search_loop (reg : List Converter) (to_format : Str) (goal : Nat) : Nat → Search → Search
  | 0, s => s
  | n + 1, s =>
    if s.qh < s.q.length then
      if s.q.getD s.qh 0 = goal then ⟨s.nodes, s.q, s.qh + 1⟩
      else
        search_loop reg to_format goal n
          (edges_loop to_format (s.q.getD s.qh 0) 0 reg ⟨s.nodes, s.q, s.qh + 1⟩)
    else s

/-- The loop `for (int cur = goal; cur != start; cur = nodes[cur].prev)` of `find_path`: the
entries `tmp[0..steps)`. The fuel is the bound `steps >= 64`; `none` stands for the step to
`nodes[-1]`. -/
def back_loop (nodes : List Node) (start : Nat) : Nat → Nat → Option (List Nat)
  | 0, _ => some []
  | n + 1, cur =>
    if cur = start then some []
    else
      match (nodes.getD cur Node.zero).prev_converter, (nodes.getD cur Node.zero).prev with
      | some cid, some p => (back_loop nodes start n p).map (fun l => cid :: l)
      | _, _ => none

/-- Source `find_path`: the entries `out_converters[0..steps)`, which are indices into the
registry; `none` is the return value -1. -/
def find_path (reg : List Converter) (from_format to_format : Str) (max_steps : Nat) :
    Option (List Nat) :=
  match format_index (build_nodes reg 64) from_format,
      format_index (build_nodes reg 64) to_format with
  | some start, some goal =>
    let nodes := build_nodes reg 64
    let s := search_loop reg to_format goal 64
      ⟨nodes.set start ⟨(nodes.getD start Node.zero).name, (nodes.getD start Node.zero).prev,
        (nodes.getD start Node.zero).prev_converter, true⟩, [start], 0⟩
    if (s.nodes.getD goal Node.zero).seen = true then
      match back_loop s.nodes start 64 goal with
      | none => none
      | some tmp => if tmp.length = 0 ∨ max_steps < tmp.length then none else some tmp.reverse
    else none
  | _, _ => none

end Conversion

namespace Conversion

open DataConvert (Str)

/-! ## The executor: `src/conversion.c`

A pointer to a string is an `Option Str`, `none` being NULL. The file system is the list of
the paths that exist. What the code does to the world outside is kept in a log of its calls
of `find_path`, `make_temp_with_ext`, `unlink` and `execute_converter` and of the messages
it prints. The system calls whose outcome the code cannot know are the fields of `Sys`;
each of them may depend on the whole world at the call, so that two calls need not end
alike. -/

/-- Return code `SUCCESS` of `include/dtconvert.h`. -/
abbrev SUCCESS : Nat := 0

/-- Return code `ERR_INVALID_ARGS`. -/
abbrev ERR_INVALID_ARGS : Nat := 1

/-- Return code `ERR_FILE_NOT_FOUND`. -/
abbrev ERR_FILE_NOT_FOUND : Nat := 2

/-- Return code `ERR_CONVERSION_FAILED`. -/
abbrev ERR_CONVERSION_FAILED : Nat := 4

/-- Return code `ERR_NO_CONVERTER`. -/
abbrev ERR_NO_CONVERTER : Nat := 5

/-- In `Document`, the record of `include/dtconvert.h`; `file_exists` is its field
`exists`. -/
structure Document where
  path : Option Str
  filename : Option Str
  extension : Option Str
  full_path : Option Str
  file_exists : Bool
  size : Nat
deriving DecidableEq, Repr

/-- In `ConversionRequest`, the record of `include/dtconvert.h`. -/
structure ConversionRequest where
  input : Option Document
  input_format : Option Str
  output_format : Option Str
  output_path : Option Str
  overwrite : Bool
  verbose : Bool
deriving DecidableEq, Repr

/-- The messages of `execute_pipeline` and `convert_document`, named by what they say, with
the values they are formatted with. -/
inductive Message where
  /-- The text `Error: No converter found for %s -> %s`. -/
  | no_converter (from_format to_format : Str)
  /-- The text `Error: Cannot pipeline through storage target '%s'`. -/
  | storage_target (to_fmt : Str)
  /-- The text `Error: Failed to create temp file`. -/
  | temp_failed
  /-- The text `Error: Converter failed with code %d`. -/
  | converter_failed (rc : Int)
  /-- The text that the output argument is missing. -/
  | missing_output
  /-- The text `Error: Config file not found or not readable: %s`. -/
  | config_not_readable (output_path : Str)
  /-- The text `Error: Output file '%s' already exists. Use -f to overwrite.` -/
  | output_exists (output_path : Str)
  /-- The text `Converter executed: %s`. -/
  | converter_executed (description : Str)
  /-- The text `No direct converter for %s -> %s; attempting pipeline...` -/
  | no_direct (from_format : Option Str) (to_format : Str)
deriving DecidableEq, Repr

/-- The second argument of `access`. -/
inductive AccessMode where
  | R_OK
  | F_OK
deriving DecidableEq, Repr

/-- A call that the executor makes, with what it returned. -/
inductive Event where
  /-- A call of `find_path` with its result. -/
  | find_path (from_format to_format : Str) (steps : Option (List Nat))
  /-- A call of `make_temp_with_ext`, with the name that `mkstemp` gave and the result. -/
  | make_temp_with_ext (ext tmpl out : Option Str)
  /-- A call of `unlink`. -/
  | unlink (path : Str)
  /-- A call of `execute_converter` with its exit code. -/
  | execute_converter (converter_path input_path output_path : Option Str) (rc : Int)
  /-- A message on `stderr` or `stdout`. -/
  | print (m : Message)
deriving DecidableEq, Repr

/-- The world outside: the paths that exist and the calls made so far. -/
structure World where
  files : List Str
  log : List Event
deriving DecidableEq, Repr

/-- The world with one more call in its log. -/
def World.emit (w : World) (e : Event) : World := ⟨w.files, w.log ++ [e]⟩

/-- What the code cannot know: the name `mkstemp` creates (`none` when it fails), whether
`malloc` and `rename` succeed, whether `access` returns 0, and `execute_converter`, which
runs a program: its exit code and the paths that exist behind it. -/
structure Sys where
  mkstemp : World → Option Str
  malloc : World → Bool
  rename : Str → Str → World → Bool
  access : Str → AccessMode → World → Bool
  execute_converter : Option Str → Option Str → Option Str → World → Int × List Str

/-- The call `unlink(path)`: the path is gone. -/
def unlink (path : Str) (w : World) : World :=
  ⟨w.files.filter (fun p => p ≠ path), w.log ++ [.unlink path]⟩

/-- Source `execute_converter`, as the black box `Sys.execute_converter`. -/
def execute_converter (sys : Sys) (converter_path input_path output_path : Option Str)
    (w : World) : Int × World :=
  ((sys.execute_converter converter_path input_path output_path w).1,
    ⟨(sys.execute_converter converter_path input_path output_path w).2,
      w.log ++ [.execute_converter converter_path input_path output_path
        (sys.execute_converter converter_path input_path output_path w).1]⟩)

/-- The name `out` of `make_temp_with_ext`: `tmpl.ext`, or `tmpl` when there is no
extension. -/
def temp_name (tmpl : Str) : Option Str → Str
  | some (e :: es) => tmpl ++ '.' :: e :: es
  | _ => tmpl

/-- Source `make_temp_with_ext`: `none` is NULL. -/
def make_temp_with_ext (sys : Sys) (ext : Option Str) (w : World) : Option Str × World :=
  match sys.mkstemp w with
  | none => (none, w.emit (.make_temp_with_ext ext none none))
  | some tmpl =>
    if sys.malloc ⟨tmpl :: w.files, w.log⟩ = false then
      (none, (unlink tmpl ⟨tmpl :: w.files, w.log⟩).emit (.make_temp_with_ext ext (some tmpl) none))
    else if sys.rename tmpl (temp_name tmpl ext) ⟨tmpl :: w.files, w.log⟩ = false then
      (none, (unlink tmpl ⟨tmpl :: w.files, w.log⟩).emit (.make_temp_with_ext ext (some tmpl) none))
    else
      (some (temp_name tmpl ext),
        World.emit ⟨temp_name tmpl ext :: (tmpl :: w.files).filter (fun p => p ≠ tmpl), w.log⟩
          (.make_temp_with_ext ext (some tmpl) (some (temp_name tmpl ext))))

/-- The loop `for (int k = 0; k < temp_count; k++) unlink(temp_paths[k])`. -/
def cleanup : List Str → World → World
  | [], w => w
  | p :: ps, w => cleanup ps (unlink p w)

/-- The entry `converters[cid]`; for a `cid` that is no index of the registry, which
`find_path` does not return, it is the empty entry. -/
def converter_at (reg : List Converter) (cid : Nat) : Converter := reg.getD cid ⟨[], [], [], []⟩

/-- The loop `for (int s = 0; s < steps; s++)` of `execute_pipeline` over the steps still to
come, with `current_input` and `temp_paths[0..temp_count)`: the return code and the world
behind it. -/
def pipeline_loop (sys : Sys) (reg : List Converter) (output_path : Option Str) :
    List Nat → Option Str → List Str → World → Nat × World
  | [], _, temp_paths, w => (SUCCESS, cleanup temp_paths w)
  | cid :: rest, current_input, temp_paths, w =>
    if rest = [] then
      if (execute_converter sys (some (converter_at reg cid).converter_path) current_input
          output_path w).1 ≠ 0 then
        (ERR_CONVERSION_FAILED, cleanup temp_paths
          ((execute_converter sys (some (converter_at reg cid).converter_path) current_input
            output_path w).2.emit
            (.print (.converter_failed
              (execute_converter sys (some (converter_at reg cid).converter_path) current_input
                output_path w).1))))
      else
        pipeline_loop sys reg output_path rest output_path temp_paths
          (execute_converter sys (some (converter_at reg cid).converter_path) current_input
            output_path w).2
    else if is_storage_format (converter_at reg cid).to_format = true then
      (ERR_CONVERSION_FAILED,
        cleanup temp_paths (w.emit (.print (.storage_target (converter_at reg cid).to_format))))
    else
      match make_temp_with_ext sys (some (converter_at reg cid).to_format) w with
      | (none, w1) => (ERR_CONVERSION_FAILED, cleanup temp_paths (w1.emit (.print .temp_failed)))
      | (some tmp, w1) =>
        if (execute_converter sys (some (converter_at reg cid).converter_path) current_input
            (some tmp) w1).1 ≠ 0 then
          (ERR_CONVERSION_FAILED, cleanup (temp_paths ++ [tmp])
            ((execute_converter sys (some (converter_at reg cid).converter_path) current_input
              (some tmp) w1).2.emit
              (.print (.converter_failed
                (execute_converter sys (some (converter_at reg cid).converter_path)
                  current_input (some tmp) w1).1))))
        else
          pipeline_loop sys reg output_path rest (some tmp) (temp_paths ++ [tmp])
            (execute_converter sys (some (converter_at reg cid).converter_path) current_input
              (some tmp) w1).2

/-- Source `execute_pipeline`: the return code and the world behind the call. The result is
`none` where the code reads through a NULL pointer: `from_format` or
`request->output_format` in `find_path`, and `request->input` when a path is found. -/
def execute_pipeline (sys : Sys) (reg : List Converter) (request : ConversionRequest)
    (from_format : Option Str) (w : World) : Option (Nat × World) :=
  match from_format, request.output_format with
  | some from_format, some output_format =>
    match find_path reg from_format output_format 64 with
    | none =>
      some (ERR_NO_CONVERTER,
        (w.emit (.find_path from_format output_format none)).emit
          (.print (.no_converter from_format output_format)))
    | some steps_ids =>
      match request.input with
      | none => none
      | some input =>
        some (pipeline_loop sys reg request.output_path steps_ids input.full_path []
          (w.emit (.find_path from_format output_format (some steps_ids))))
  | _, _ => none

/-- The loop of `find_converter` from the entry `i` on. -/
def find_converter_loop (from_format to_format : Str) : Nat → List Converter → Option Nat
  | _, [] => none
  | i, c :: cs =>
    if c.from_format = from_format ∧ c.to_format = to_format then some i
    else find_converter_loop from_format to_format (i + 1) cs

/-- Source `find_converter`: `none` is -1. -/
def find_converter (reg : List Converter) (from_format to_format : Option Str) : Option Nat :=
  match from_format, to_format with
  | some f, some t => find_converter_loop f t 0 reg
  | _, _ => none

/-- The value `from_format` of `convert_document`: the format of the request when it has
one that is not empty, the extension of the input otherwise. -/
def request_from_format (request : ConversionRequest) (input : Document) : Option Str :=
  match request.input_format with
  | some (c :: cs) => some (c :: cs)
  | _ => input.extension

/-- Source `convert_document`: the return code and the world behind the call; `none` where
`execute_pipeline` gives `none`. -/
def convert_document (sys : Sys) (reg : List Converter) (request : Option ConversionRequest)
    (w : World) : Option (Nat × World) :=
  match request with
  | none => some (ERR_INVALID_ARGS, w)
  | some request =>
    match request.input, request.output_format with
    | some input, some output_format =>
      match request.output_path with
      | none => some (ERR_INVALID_ARGS, w.emit (.print .missing_output))
      | some output_path =>
        if is_storage_format output_format = true
            ∧ sys.access output_path .R_OK w = false then
          some (ERR_FILE_NOT_FOUND, w.emit (.print (.config_not_readable output_path)))
        else if is_storage_format output_format = false ∧ request.overwrite = false
            ∧ sys.access output_path .F_OK w = true then
          some (ERR_CONVERSION_FAILED, w.emit (.print (.output_exists output_path)))
        else
          match find_converter reg (request_from_format request input) (some output_format) with
          | some converter_id =>
            if (execute_converter sys (some (converter_at reg converter_id).converter_path)
                input.full_path (some output_path) w).1 ≠ 0 then
              some (ERR_CONVERSION_FAILED,
                (execute_converter sys (some (converter_at reg converter_id).converter_path)
                  input.full_path (some output_path) w).2.emit
                  (.print (.converter_failed
                    (execute_converter sys (some (converter_at reg converter_id).converter_path)
                      input.full_path (some output_path) w).1)))
            else if request.verbose = true then
              some (SUCCESS,
                (execute_converter sys (some (converter_at reg converter_id).converter_path)
                  input.full_path (some output_path) w).2.emit
                  (.print (.converter_executed (converter_at reg converter_id).description)))
            else
              some (SUCCESS,
                (execute_converter sys (some (converter_at reg converter_id).converter_path)
                  input.full_path (some output_path) w).2)
          | none =>
            execute_pipeline sys reg request (request_from_format request input)
              (if request.verbose = true then
                w.emit (.print (.no_direct (request_from_format request input) output_format))
              else w)
    | _, _ => some (ERR_INVALID_ARGS, w)

end Conversion

namespace PgStore

open DataConvert (Str isspace)
open SqlConvert (isalpha isalnum)

/-! ## Column identifiers for the storage adapter: `lib/converters/pg_store.c`

The buffers of the source hold `MAX_IDENT` = 128 bytes, so that `snprintf` into one of them
keeps at most 127 characters. -/

/-- Source `is_ident` (pg_store.c). -/
def is_ident : Str → Bool
  | [] => false
  | c :: r => (isalpha c || c = '_') && r.all (fun x => isalnum x || x = '_')

/-- The second loop of `sanitize_identifier`: an underscore behind an underscore that was
kept is left out; `last` is the character `tmp2[k - 1]`, if there is one. -/
def collapse_loop : Option Char → List Char → List Char
  | _, [] => []
  | last, c :: r =>
    if c = '_' ∧ last = some '_' then collapse_loop last r else c :: collapse_loop (some c) r

/-- Source `sanitize_identifier`: the text left in `out`. -/
def sanitize_identifier (raw : Option Str) (fallback : Str) : Str :=
  if (raw.getD []).dropWhile isspace = [] then fallback.take 127
  else
    let tmp := (((raw.getD []).dropWhile isspace).take 127).map
      (fun ch => if isalnum ch || ch = '_' then ch else '_')
    let tmp2 := (collapse_loop none tmp).take 127
    let out :=
      if !(isalpha (tmp2.headD '\x00') || tmp2.headD '\x00' = '_') then
        (fallback.take 63 ++ '_' :: tmp2.take 63).take 127
      else tmp2.take 127
    if !is_ident out then fallback.take 127 else out

/-- The digits of a number, the last one first, for a number below the bound `fuel`. -/
def dec_digits : Nat → Nat → List Nat
  | 0, _ => []
  | fuel + 1, n => if n < 10 then [n] else n % 10 :: dec_digits fuel (n / 10)

/-- What `%d` prints for a number that is not negative. -/
def fmt_d (n : Nat) : List Char :=
  ((dec_digits (n + 1) n).map (fun d => Char.ofNat (48 + d))).reverse

/-- The text `candidate` of `make_unique_idents`, printed by `"%.*s_%d"` with at most
`BASE_MAX` = 116 characters of `base`. -/
def candidate (base : Str) (k : Nat) : Str := (base.take 116 ++ '_' :: fmt_d k).take 127

/-- The loop `while (true)` of `make_unique_idents` from the number `k` on, one candidate
per unit of fuel: the first candidate that is none of the names `prev` before the column.
The result is `none` when the fuel is used up, and when `k++` leaves the range of `int`. -/
def unique_loop (prev : List Str) (base : Str) : Nat → Nat → Option Str
  | 0, _ => none
  | fuel + 1, k =>
    if candidate base k ∈ prev then
      if k < 2147483647 then unique_loop prev base fuel (k + 1) else none
    else some (candidate base k)

/-- The loop `for (size_t j = 0; j < i; j++)` of `make_unique_idents` over the names still
to compare with: `cur` is `cols->items[i]`, `prev` are the names before it. The candidates
from 2 on are one more than the names in `prev`, so that one of them is free. -/
def uniquify_loop (prev : List Str) : List Str → Str → Option Str
  | [], cur => some cur
  | x :: js, cur =>
    if cur = x then
      match unique_loop prev (cur.take 127) (prev.length + 1) 2 with
      | none => none
      | some c => uniquify_loop prev js c
    else uniquify_loop prev js cur

/-- The loop `for (size_t i = 0; i < cols->len; i++)` of `make_unique_idents`: `done` are
the names before the column `i`, as they are now, and the list the raw names from the
column `i` on. -/
def make_unique_idents_loop : List Str → List (Option Str) → Option (List Str)
  | done, [] => some done
  | done, raw :: rest =>
    match uniquify_loop done done (sanitize_identifier raw "col".toList) with
    | none => none
    | some cur =>
      make_unique_idents_loop (done ++ [if !is_ident cur then "col".toList else cur]) rest

/-- Source `make_unique_idents`: the names left in `cols`; `none` when a loop
`while (true)` of it does not end or counts beyond the range of `int`. -/
def make_unique_idents (cols : List (Option Str)) : Option (List Str) :=
  make_unique_idents_loop [] cols

end PgStore

/-! # Specification-side definitions -/

namespace DataConvert

/-- Spec: the distinct names of a list in order of first occurrence. -/
def first_occurrences : List Str → List Str
  | [] => []
  | k :: l => k :: (first_occurrences l).filter (fun x => x ≠ k)

/-- Spec: the value of key `k` in an object given as `key, value` pairs, the empty string
when the object has no such key; of several pairs with the key the last one counts. -/
def lookup_last (k : Str) (o : List (Str × Str)) : Str :=
  match o.reverse.find? (fun p => p.1 = k) with
  | some p => p.2
  | none => []

/-- Spec: the table of an array of flat objects: one row per object, the columns being
the distinct keys of the whole document in order of first occurrence. -/
def json_spec_table (doc : List (List (Str × Str))) : Table :=
  { headers := first_occurrences (doc.flatten.map Prod.fst),
    rows := doc.map (fun o =>
      (first_occurrences (doc.flatten.map Prod.fst)).map (fun k => lookup_last k o)) }

/-- The table after a reader has stored one more record given as `key, value` pairs: a new
row, then one `table_set` per pair, in order. -/
def store_record (t : Table) (o : List (Str × Str)) : Table :=
  o.foldl (fun t1 kv => table_set t1 (table_add_row t).2 kv.1 kv.2) (table_add_row t).1

/-- Spec: a well-formed table has pairwise distinct column names and every row holds exactly
one cell per column. -/
def Table.WellFormed (t : Table) : Prop :=
  t.headers.Nodup ∧ ∀ r ∈ t.rows, r.length = t.headers.length

instance (t : Table) : Decidable t.WellFormed :=
  inferInstanceAs (Decidable (t.headers.Nodup ∧ ∀ r ∈ t.rows, r.length = t.headers.length))

/-- Spec: the objects `json_write_table` writes for a table, one per row: every column name
paired with the cell of the row. -/
def table_objects (t : Table) : List (List (Str × Str)) := t.rows.map (fun r => t.headers.zip r)

/-- Spec: the lossless subset of the JSON codec: text without NUL and without a control
byte that the writer renders as a `\u00XX` sequence. -/
def json_lossless (s : Str) : Prop :=
  ∀ c ∈ s, c ≠ '\x00' ∧
    (c.toNat < 0x20 → c = '\x08' ∨ c = '\t' ∨ c = '\n' ∨ c = '\x0c' ∨ c = '\r')

instance (s : Str) : Decidable (json_lossless s) :=
  inferInstanceAs (Decidable (∀ c ∈ s, c ≠ '\x00' ∧
    (c.toNat < 0x20 → c = '\x08' ∨ c = '\t' ∨ c = '\n' ∨ c = '\x0c' ∨ c = '\r')))

/-- Spec: the column names the YAML codec can carry: NUL-free text without a colon or a
line feed, without blanks at either end, and not starting with `#` or with `- `. -/
def yaml_plain_name (k : Str) : Prop :=
  '\x00' ∉ k ∧ ':' ∉ k ∧ '\n' ∉ k ∧ lskip k = k ∧ rstrip k = k ∧ k.head? ≠ some '#'
    ∧ k.take 2 ≠ ['-', ' ']

instance (k : Str) : Decidable (yaml_plain_name k) :=
  inferInstanceAs (Decidable ('\x00' ∉ k ∧ ':' ∉ k ∧ '\n' ∉ k ∧ lskip k = k ∧ rstrip k = k
    ∧ k.head? ≠ some '#' ∧ k.take 2 ≠ ['-', ' ']))

/-- A character at which an unquoted CSV field ends. -/
def csv_stop (c : Char) : Prop := c = ',' ∨ c = '\n' ∨ c = '\r'

instance (c : Char) : Decidable (csv_stop c) :=
  inferInstanceAs (Decidable (c = ',' ∨ c = '\n' ∨ c = '\r'))

/-- A cursor on a line that is not blank: behind its leading blanks stands no line break. -/
def csv_on_record (c : List Char) : Prop :=
  (csv_consume_newline (c.dropWhile csv_blank)).1 = false

/-- Spec: a cell the CSV codec carries unchanged: NUL-free text without a double quote and
without whitespace at its end (the reader trims the end of every field). -/
def csv_plain_cell (c : Str) : Prop := '\x00' ∉ c ∧ '"' ∉ c ∧ rstrip c = c

instance (c : Str) : Decidable (csv_plain_cell c) :=
  inferInstanceAs (Decidable ('\x00' ∉ c ∧ '"' ∉ c ∧ rstrip c = c))

/-- Spec: a column name the CSV codec carries unchanged: a plain cell without whitespace at
its start either (the reader trims header fields at both ends). -/
def csv_plain_name (k : Str) : Prop := csv_plain_cell k ∧ lskip k = k

instance (k : Str) : Decidable (csv_plain_name k) :=
  inferInstanceAs (Decidable (csv_plain_cell k ∧ lskip k = k))

/-- Spec: no empty field directly behind a non-empty one. -/
def csv_no_gap : List Str → Bool
  | a :: b :: l => (a.isEmpty || !b.isEmpty) && csv_no_gap (b :: l)
  | _ => true

/-- Spec: the fields of a line the CSV codec carries unchanged: at least one field, not the
single empty field (that line is blank), plain cells, and no empty field directly behind a
non-empty one. -/
def csv_plain_line (cs : List Str) : Prop :=
  cs ≠ [] ∧ cs ≠ [[]] ∧ csv_no_gap cs = true ∧ ∀ c ∈ cs, csv_plain_cell c

instance (cs : List Str) : Decidable (csv_plain_line cs) :=
  inferInstanceAs
    (Decidable (cs ≠ [] ∧ cs ≠ [[]] ∧ csv_no_gap cs = true ∧ ∀ c ∈ cs, csv_plain_cell c))

/-- Spec: the first `n` fields of a record, filled up with empty cells to `n` cells. -/
def pad_row (n : Nat) (cs : List Str) : List Str :=
  cs.take n ++ List.replicate (n - cs.length) []

/-- One record of the row loop of `csv_read_table`, from the cursor behind the blank lines:
the table and the cursor behind the record. -/
def csv_record_step (t : Table) (c1 : List Char) : Table × List Char :=
  ((csv_row_loop (table_add_row t).1.headers (table_add_row t).2 (table_add_row t).1 c1).1,
    if (csv_row_loop (table_add_row t).1.headers (table_add_row t).2 (table_add_row t).1 c1).2.2
    then (csv_row_loop (table_add_row t).1.headers (table_add_row t).2 (table_add_row t).1 c1).2.1
    else csv_skip_line
      (csv_row_loop (table_add_row t).1.headers (table_add_row t).2 (table_add_row t).1 c1).2.1)

/-- Spec: no double quote stands where a field starts, that is at the start (when `start`
is set) or directly behind a comma; such text holds no quoted field. -/
def csv_no_quoted : Bool → List Char → Bool
  | _, [] => true
  | start, c :: r => !(start && c == '"') && csv_no_quoted (c == ',') r

/-- Spec: the text of a line without a quoted field: no line break and no double quote at
the start of a field. -/
def csv_unquoted_line (l : List Char) : Prop :=
  csv_no_quoted true l = true ∧ ∀ c ∈ l, c ≠ '\n' ∧ c ≠ '\r'

instance (l : List Char) : Decidable (csv_unquoted_line l) :=
  inferInstanceAs (Decidable (csv_no_quoted true l = true ∧ ∀ c ∈ l, c ≠ '\n' ∧ c ≠ '\r'))

/-- Spec: the three line terminators. -/
def csv_is_break (b : List Char) : Prop := b = ['\n'] ∨ b = ['\r', '\n'] ∨ b = ['\r']

instance (b : List Char) : Decidable (csv_is_break b) :=
  inferInstanceAs (Decidable (b = ['\n'] ∨ b = ['\r', '\n'] ∨ b = ['\r']))

/-- Spec: a text that consists of blank lines only: spaces and tabs, then a line break,
line by line. -/
def csv_blank_lines : List (List Char × List Char) → Prop
  | [] => True
  | (bl, br) :: ls => (∀ c ∈ bl, csv_blank c = true) ∧ csv_is_break br ∧ csv_blank_lines ls

instance csv_blank_lines_dec : (ls : List (List Char × List Char)) → Decidable (csv_blank_lines ls)
  | [] => isTrue trivial
  | (_, _) :: ls =>
    @instDecidableAnd _ _ _ (@instDecidableAnd _ _ _ (csv_blank_lines_dec ls))

/-- Spec: the text of lines given with their terminators. -/
def csv_lines_text (ls : List (List Char × List Char)) : List Char :=
  (ls.map (fun l => l.1 ++ l.2)).flatten

/-- Spec: lines joined by the separator `sep`, with a last `sep` when `final` is set. -/
def csv_join_lines (sep : List Char) (final : Bool) : List (List Char) → List Char
  | [] => []
  | [l] => l ++ (if final then sep else [])
  | l :: l2 :: ls => l ++ sep ++ csv_join_lines sep final (l2 :: ls)

/-- Two cursors of the CSV reader that carry the same records: behind the blank lines
either the same text, or the same line without a quoted field, a line break each, and again
two such cursors. -/
inductive CsvSim : List Char → List Char → Prop
  | same (x y : List Char) : csv_skip_empty_lines x = csv_skip_empty_lines y → CsvSim x y
  | line (p x1 y1 x y : List Char) : csv_unquoted_line p →
      csv_skip_empty_lines x = p ++ x1 → csv_skip_empty_lines y = p ++ y1 →
      (csv_consume_newline x1).1 = true → (csv_consume_newline y1).1 = true →
      CsvSim (csv_consume_newline x1).2 (csv_consume_newline y1).2 → CsvSim x y

/-- The end of one record of the row loop: the table behind the field loop and the cursor
behind the line (the rest of the line is discarded when the field loop did not end it). -/
def csv_row_end (hs : List Str) (row : Nat) (t : Table) (c : List Char) : Table × List Char :=
  ((csv_row_loop hs row t c).1,
    if (csv_row_loop hs row t c).2.2 then (csv_row_loop hs row t c).2.1
    else csv_skip_line (csv_row_loop hs row t c).2.1)

/-- The cursors at which the row loop of `csv_read_table` starts a round. -/
def csv_rows_cursors : Nat → Table → List Char → List (List Char)
  | 0, _, _ => []
  | n + 1, t, c =>
    c :: (if csv_skip_empty_lines c = [] then []
      else csv_rows_cursors n (csv_record_step t (csv_skip_empty_lines c)).1
        (csv_record_step t (csv_skip_empty_lines c)).2)

/-- Spec: the places between two records of a text, as the unread text at each of them:
the cursors at which the row loop of `csv_read_table`, run on the text, starts a round
(the first one stands behind the header line). -/
def csv_record_starts (buf : List Char) : List (List Char) :=
  csv_rows_cursors
    ((csv_header_loop (csv_skip_empty_lines buf).length Table.empty (csv_skip_empty_lines buf)).2.length + 1)
    (csv_header_loop (csv_skip_empty_lines buf).length Table.empty (csv_skip_empty_lines buf)).1
    (csv_header_loop (csv_skip_empty_lines buf).length Table.empty (csv_skip_empty_lines buf)).2

/-- Two cursors of two runs of the reader on texts that differ behind a common part: the
same unread part `u` in front of the texts `z1` and `z2`, or, at the end of the common part,
`z1` itself and a cursor that skips to where `z2` skips to. -/
def CsvBehind (z1 z2 c1 c2 : List Char) : Prop :=
  ∃ u, c1 = u ++ z1 ∧
    ((u ≠ [] ∧ c2 = u ++ z2) ∨ (u = [] ∧ csv_skip_empty_lines c2 = csv_skip_empty_lines z2))

/-- Spec: blanks between JSON tokens. -/
def IsWs (w : List Char) : Prop := ∀ c ∈ w, isspace c = true

/-- Spec: the single-character escapes of a JSON string and the bytes they stand for. -/
def json_escape_value (e : Char) : Option Char :=
  if e = '"' then some '"'
  else if e = '\\' then some '\\'
  else if e = '/' then some '/'
  else if e = 'b' then some '\x08'
  else if e = 'f' then some '\x0c'
  else if e = 'n' then some '\n'
  else if e = 'r' then some '\r'
  else if e = 't' then some '\t'
  else none

/-- Spec: `JStrBody s b` says that `b`, the text between the quotes of a JSON string
literal, denotes the text `s`: plain characters stand for themselves, an escape for its
byte and a `\uXXXX` sequence for one `?`. -/
inductive JStrBody : Str → List Char → Prop
  | done : JStrBody [] []
  | raw (c : Char) (s : Str) (b : List Char) :
      c ≠ '"' → c ≠ '\\' → c ≠ '\x00' → JStrBody s b → JStrBody (c :: s) (c :: b)
  | esc (e ch : Char) (s : Str) (b : List Char) :
      json_escape_value e = some ch → JStrBody s b → JStrBody (ch :: s) ('\\' :: e :: b)
  | uni (x1 x2 x3 x4 : Char) (s : Str) (b : List Char) :
      JStrBody s b → JStrBody ('?' :: s) ('\\' :: 'u' :: x1 :: x2 :: x3 :: x4 :: b)

/-- Spec: `JValText v l` says that the literal `l` is a value with text `v`: a quoted
string, or an unquoted token (number, `true`, `false`, `null`) standing for itself. -/
inductive JValText : Str → List Char → Prop
  | str (s : Str) (b : List Char) : JStrBody s b → JValText s ('"' :: b ++ ['"'])
  | tok (s : Str) : s ≠ [] → (∀ c ∈ s, jdelim c = false ∧ c ≠ '\x00') → s.head? ≠ some '"' →
      JValText s s

/-- Spec: the text of the pairs of a non-empty object up to and including its closing
brace. -/
inductive JPairsText : List (Str × Str) → List Char → Prop
  | last (k v : Str) (kb vl w1 w2 w3 w4 : List Char) :
      IsWs w1 → IsWs w2 → IsWs w3 → IsWs w4 → JStrBody k kb → JValText v vl →
      JPairsText [(k, v)] (w1 ++ '"' :: kb ++ '"' :: w2 ++ ':' :: w3 ++ vl ++ w4 ++ ['}'])
  | more (k v : Str) (kb vl w1 w2 w3 w4 : List Char) (ps : List (Str × Str)) (txt : List Char) :
      IsWs w1 → IsWs w2 → IsWs w3 → IsWs w4 → JStrBody k kb → JValText v vl →
      JPairsText ps txt →
      JPairsText ((k, v) :: ps)
        (w1 ++ '"' :: kb ++ '"' :: w2 ++ ':' :: w3 ++ vl ++ w4 ++ ',' :: txt)

/-- Spec: the text of one flat object. -/
inductive JObjText : List (Str × Str) → List Char → Prop
  | none (w1 w2 : List Char) : IsWs w1 → IsWs w2 → JObjText [] (w1 ++ '{' :: w2 ++ ['}'])
  | some (w1 : List Char) (ps : List (Str × Str)) (txt : List Char) :
      IsWs w1 → JPairsText ps txt → JObjText ps (w1 ++ '{' :: txt)

/-- Spec: the text of the objects of a non-empty array up to and including its closing
bracket. -/
inductive JObjsText : List (List (Str × Str)) → List Char → Prop
  | last (o : List (Str × Str)) (ot w : List Char) :
      JObjText o ot → IsWs w → JObjsText [o] (ot ++ w ++ [']'])
  | more (o : List (Str × Str)) (ot w : List Char) (os : List (List (Str × Str)))
      (txt : List Char) :
      JObjText o ot → IsWs w → JObjsText os txt → JObjsText (o :: os) (ot ++ w ++ ',' :: txt)

/-- Spec: a well-formed array of flat objects, followed by anything. -/
inductive JDocText : List (List (Str × Str)) → List Char → Prop
  | none (w1 w2 trail : List Char) : IsWs w1 → IsWs w2 → JDocText [] (w1 ++ '[' :: w2 ++ ']' :: trail)
  | some (w1 : List Char) (os : List (List (Str × Str))) (txt trail : List Char) :
      IsWs w1 → JObjsText os txt → JDocText os (w1 ++ '[' :: txt ++ trail)

end DataConvert

namespace DataConvert

/-- Spec: the pieces a JSON string literal is made of between its quotes: a byte that
stands for itself, a backslash with one character, and `\u` with the four characters that
follow it. -/
inductive JPiece where
  | raw (c : Char)
  | esc (e : Char)
  | uni (x1 x2 x3 x4 : Char)
deriving DecidableEq, Repr

/-- Spec: the text of a piece. -/
def JPiece.text : JPiece → List Char
  | .raw c => [c]
  | .esc e => ['\\', e]
  | .uni x1 x2 x3 x4 => ['\\', 'u', x1, x2, x3, x4]

/-- Spec: a piece is read as written: a raw byte is neither the quote nor the backslash,
and `\u` is not taken as a one-character escape. -/
def JPiece.ok : JPiece → Bool
  | .raw c => c != '"' && c != '\\'
  | .esc e => e != 'u'
  | .uni _ _ _ _ => true

/-- Spec: the byte a piece contributes: the byte itself, the byte of the escape table
(`\"` 0x22, `\\` 0x5C, `\/` 0x2F, `\b` 0x08, `\f` 0x0C, `\n` 0x0A, `\r` 0x0D, `\t` 0x09), or
`?` for `\uXXXX`; `none` for any other character behind a backslash. -/
def JPiece.value : JPiece → Option Char
  | .raw c => some c
  | .esc e => json_escape_value e
  | .uni _ _ _ _ => some '?'

/-- Spec: the text of a list of pieces. -/
def json_pieces_text : List JPiece → List Char
  | [] => []
  | p :: ps => p.text ++ json_pieces_text ps

/-- Spec: the bytes of a list of pieces; `none` when one of them is no escape. -/
def json_pieces_value : List JPiece → Option (List Char)
  | [] => some []
  | p :: ps =>
    match p.value with
    | none => none
    | some c => (json_pieces_value ps).map (fun v => c :: v)

/-- Spec: the sixteen digits of lower-case hexadecimal. -/
def json_hex_digit (n : Nat) : Char := "0123456789abcdef".toList.getD n '0'

/-- Spec: the two-character escapes of the JSON writer: the byte, and the character that
stands for it behind the backslash. -/
def json_escape_table : List (Char × Char) :=
  [('"', '"'), ('\\', '\\'), ('\x08', 'b'), ('\x0c', 'f'), ('\n', 'n'), ('\r', 'r'), ('\t', 't')]

/-- Spec: what the JSON writer emits for one byte: a two-character escape for the quote,
the backslash and the five named control bytes, `\u00XX` for every other byte below 0x20,
the byte itself from 0x20 upward. -/
def json_escape_spec (c : Char) : List Char :=
  match json_escape_table.lookup c with
  | some e => ['\\', e]
  | none =>
    if c.toNat < 0x20 then
      "\\u00".toList ++ [json_hex_digit (c.toNat / 16), json_hex_digit (c.toNat % 16)]
    else [c]

/-- Spec: no quote of the text stands outside an escape: scanning from the left, a backslash
takes the next character with it (`escaped` says that the last character was such a
backslash), and no quote is met otherwise. -/
def json_no_bare_quote : Bool → List Char → Bool
  | _, [] => true
  | true, _ :: r => json_no_bare_quote false r
  | false, c :: r =>
    if c = '\\' then json_no_bare_quote true r
    else if c = '"' then false
    else json_no_bare_quote false r

/-- Spec: a line of a YAML file as the reader looks at it: the C string without the blanks
at either end. -/
def yaml_trim (line : List Char) : Str := lskip (rstrip (cstr line))

/-- Spec: a line the YAML reader ignores: blank, or a `#` comment. -/
def yaml_ignored (line : List Char) : Prop := yaml_trim line = [] ∨ cur_peek (yaml_trim line) = '#'

instance (line : List Char) : Decidable (yaml_ignored line) :=
  inferInstanceAs (Decidable (yaml_trim line = [] ∨ cur_peek (yaml_trim line) = '#'))

/-- Spec: a line that starts a YAML record. -/
def yaml_record_start (line : List Char) : Prop := (yaml_trim line).take 2 = ['-', ' ']

instance (line : List Char) : Decidable (yaml_record_start line) :=
  inferInstanceAs (Decidable ((yaml_trim line).take 2 = ['-', ' ']))

end DataConvert

namespace DataConvert

/-- Spec: the first character of `x` behind its blanks is one of `allowed`; `false` also at
the end of the input. -/
def jnext_in (allowed : List Char) (x : List Char) : Bool :=
  match jskip x with
  | [] => false
  | c :: _ => allowed.contains c

/-- Spec: `JStrOpen b` says that `b`, the input behind the opening quote of a string literal,
runs to the end of the input without a closing quote: bytes other than the quote, a
backslash with the character behind it, `\u` with the four characters behind it (or with
the fewer that are left), and possibly a last backslash. -/
inductive JStrOpen : List Char → Prop
  | eof : JStrOpen []
  | slash : JStrOpen ['\\']
  | raw (c : Char) (b : List Char) : c ≠ '"' → c ≠ '\\' → JStrOpen b → JStrOpen (c :: b)
  | esc (e : Char) (b : List Char) : e ≠ 'u' → JStrOpen b → JStrOpen ('\\' :: e :: b)
  | uni (x1 x2 x3 x4 : Char) (b : List Char) :
      JStrOpen b → JStrOpen ('\\' :: 'u' :: x1 :: x2 :: x3 :: x4 :: b)
  | ushort (b : List Char) : b.length < 4 → JStrOpen b → JStrOpen ('\\' :: 'u' :: b)

/-- Spec: `JBadPair y` says that `y`, the input where a key of an object is due, is
malformed: no string literal starts there, the key or a string value has no closing quote,
no colon follows the key, or neither `}` nor `,` follows the value; or a well-formed pair
and a comma are followed by such input. -/
inductive JBadPair : List Char → Prop
  | key (y : List Char) : jnext_in ['"'] y = false → JBadPair y
  | openkey (w1 b : List Char) : IsWs w1 → JStrOpen b → JBadPair (w1 ++ '"' :: b)
  | colon (k : Str) (kb w1 x : List Char) : IsWs w1 → JStrBody k kb →
      jnext_in [':'] x = false → JBadPair (w1 ++ '"' :: kb ++ '"' :: x)
  | openval (k : Str) (kb w1 w2 w3 b : List Char) : IsWs w1 → IsWs w2 → IsWs w3 →
      JStrBody k kb → JStrOpen b →
      JBadPair (w1 ++ '"' :: kb ++ '"' :: w2 ++ ':' :: w3 ++ '"' :: b)
  | afterstr (k v : Str) (kb vb w1 w2 w3 x : List Char) : IsWs w1 → IsWs w2 → IsWs w3 →
      JStrBody k kb → JStrBody v vb → jnext_in ['}', ','] x = false →
      JBadPair (w1 ++ '"' :: kb ++ '"' :: w2 ++ ':' :: w3 ++ '"' :: vb ++ '"' :: x)
  | aftertok (k : Str) (kb tok w1 w2 w3 x : List Char) : IsWs w1 → IsWs w2 → IsWs w3 →
      JStrBody k kb → (∀ c ∈ tok, jdelim c = false) → tok.head? ≠ some '"' →
      (∀ c ∈ x.head?, jdelim c = true) → (tok = [] → ∀ c ∈ x.head?, isspace c = false) →
      jnext_in ['}', ','] x = false →
      JBadPair (w1 ++ '"' :: kb ++ '"' :: w2 ++ ':' :: w3 ++ tok ++ x)
  | next (k v : Str) (kb vl w1 w2 w3 w4 y : List Char) :
      IsWs w1 → IsWs w2 → IsWs w3 → IsWs w4 → JStrBody k kb → JValText v vl → JBadPair y →
      JBadPair (w1 ++ '"' :: kb ++ '"' :: w2 ++ ':' :: w3 ++ vl ++ w4 ++ ',' :: y)

/-- Spec: `JBadObj y` says that `y`, the input where an object of the array is due, is
malformed: no `{` starts it, its pairs are malformed, or neither `]` nor `,` follows the
object; or a well-formed object and a comma are followed by such input. -/
inductive JBadObj : List Char → Prop
  | brace (y : List Char) : jnext_in ['{'] y = false → JBadObj y
  | pairs (w y : List Char) : IsWs w → jnext_in ['}'] y = false → JBadPair y →
      JBadObj (w ++ '{' :: y)
  | close (o : List (Str × Str)) (ot x : List Char) : JObjText o ot →
      jnext_in [']', ','] x = false → JBadObj (ot ++ x)
  | next (o : List (Str × Str)) (ot w y : List Char) : JObjText o ot → IsWs w → JBadObj y →
      JBadObj (ot ++ w ++ ',' :: y)

/-- Spec: a malformed array of flat objects: no `[` starts it, or behind the `[` stands
neither `]` nor well-formed input. -/
inductive JBadDoc : List Char → Prop
  | start (x : List Char) : jnext_in ['['] x = false → JBadDoc x
  | objs (w y : List Char) : IsWs w → jnext_in [']'] y = false → JBadObj y →
      JBadDoc (w ++ '[' :: y)

end DataConvert

namespace SqlConvert

open DataConvert (Str isspace cstr getlines)

/-- Spec: a letter `A-Z` or `a-z`. -/
def sql_letter (c : Char) : Prop := ('a' ≤ c ∧ c ≤ 'z') ∨ ('A' ≤ c ∧ c ≤ 'Z')

/-- Spec: a digit `0-9`. -/
def sql_digit (c : Char) : Prop := '0' ≤ c ∧ c ≤ '9'

/-- Spec: the strings that match `[A-Za-z_][A-Za-z0-9_]*`. -/
def sql_ident_pattern : Str → Prop
  | [] => False
  | c :: r => (sql_letter c ∨ c = '_') ∧ ∀ x ∈ r, sql_letter x ∨ sql_digit x ∨ x = '_'

/-- Spec: the header names after normalisation: leading whitespace removed, an empty name
replaced by `col` and its position, counted from 1. -/
def sql_normalized_names (header : List Str) : List Str :=
  header.enum.map (fun p => sql_column_name p.1 p.2)

/-- Spec: the `INSERT` statements that `sql_to_csv` parses in a file, line by line: the
column list and the values of each. -/
def sql_statements (sql : List Char) : List (List Str × List Str) :=
  (getlines sql).filterMap sql_parse_line

/-- Spec: the row of a statement with `n` columns: the first `n` values, then empty strings
for the values that are missing. -/
def sql_spec_row (n : Nat) (vals : List Str) : List Str :=
  vals.take n ++ List.replicate (n - vals.length) []

end SqlConvert

namespace SqlConvert

open DataConvert (Str isspace cstr getlines)

/-- Spec: a row whose line in a CSV file is blank: one cell of spaces and tabs only, or
empty. -/
def sql_row_blank (row : List Str) : Prop := ∃ c, row = [c] ∧ ∀ x ∈ c, x = ' ' ∨ x = '\t'

end SqlConvert

namespace Conversion

open DataConvert (Str)

/-- Spec: a walk over registry edges, given by their indices, from the tag `a` to the tag
`b`, that enters the sink format `postgresql` only with its last edge. -/
def walk_ok (reg : List Converter) : Str → Str → List Nat → Prop
  | a, b, [] => a = b
  | a, b, cid :: rest =>
    ∃ c, reg.get? cid = some c ∧ c.from_format = a
      ∧ (rest ≠ [] → c.to_format ≠ "postgresql".toList) ∧ walk_ok reg c.to_format b rest

/-- Spec: the format tags of a registry. -/
def registry_tags (reg : List Converter) : List Str :=
  reg.flatMap (fun c => [c.from_format, c.to_format])

end Conversion

namespace Conversion

open DataConvert (Str)

/-- Spec: the edge `c` is one that the search may take on the way to `to_format`: it does
not lead into the storage format, unless that is the target. -/
def edge_allowed (to_format : Str) (c : Converter) : Prop :=
  ¬ (is_storage_format c.to_format = true ∧ to_format ≠ "postgresql".toList)

/-- The invariant of the search of `find_path`, with the number of hops `d` of the nodes in
the queue: the queue holds the nodes seen, each once, in the order of their hops; every
node in it but the start has the edge it was reached by and the node before it, which is
one hop nearer; that edge is the first of the registry from the one node to the other. -/
structure SearchInv (reg : List Converter) (to_format : Str) (names : List Str) (start : Nat)
    (nodes : List Node) (q : List Nat) (d : Nat → Nat) : Prop where
  names_eq : nodes.map Node.name = names
  nodup : q.Nodup
  lt : ∀ v ∈ q, v < names.length
  seen_iff : ∀ v, v < names.length → ((nodes.getD v Node.zero).seen = true ↔ v ∈ q)
  start_mem : start ∈ q
  d_start : d start = 0
  sorted : q.Pairwise (fun a b => d a ≤ d b)
  d_lt : ∀ v ∈ q, d v < q.length
  tree : ∀ v ∈ q, v ≠ start → ∃ u cid c, (nodes.getD v Node.zero).prev = some u
    ∧ (nodes.getD v Node.zero).prev_converter = some cid ∧ u ∈ q ∧ reg.get? cid = some c
    ∧ c.from_format = names.getD u [] ∧ c.to_format = names.getD v []
    ∧ edge_allowed to_format c ∧ d v = d u + 1
  first : ∀ v ∈ q, v ≠ start → ∀ u cid, (nodes.getD v Node.zero).prev = some u →
    (nodes.getD v Node.zero).prev_converter = some cid →
    ∀ cid2 c2, cid2 < cid → reg.get? cid2 = some c2 → c2.from_format = names.getD u [] →
      c2.to_format ≠ names.getD v []

/-- The edges `cs` out of the node `x` are done with: those that the search may take lead to
nodes in the queue, at most one hop further than `x`. -/
def EdgesClosed (to_format : Str) (names : List Str) (q : List Nat) (d : Nat → Nat) (x : Nat)
    (cs : List Converter) : Prop :=
  ∀ c ∈ cs, c.from_format = names.getD x [] → edge_allowed to_format c →
    ∀ w, w < names.length → names.getD w [] = c.to_format → w ∈ q ∧ d w ≤ d x + 1

end Conversion

namespace Conversion

open DataConvert (Str)

/-- Spec: a registry of `n` edges `a0 -> b0`, `a1 -> b1`, ... between `2 * n` tags. -/
def registry_pairs (n : Nat) : List Converter :=
  (List.range n).map (fun i => ⟨'a' :: (Nat.repr i).toList, 'b' :: (Nat.repr i).toList, [], []⟩)

end Conversion

namespace DataConvert

/-- Spec: a call of one of the operations on a table. -/
inductive TableOp where
  | ensure (key : Str)
  | add_row
  | set (row : Nat) (key value : Str)
deriving DecidableEq, Repr

/-- Spec: the table after a call. -/
def table_apply (t : Table) : TableOp → Table
  | .ensure key => ensure_col t key
  | .add_row => (table_add_row t).1
  | .set row key value => table_set t row key value

/-- Spec: the table after a sequence of calls. -/
def table_run : Table → List TableOp → Table
  | t, [] => t
  | t, op :: ops => table_run (table_apply t op) ops

/-- Spec: every `table_set` of the sequence is given the index of a row that exists when it
is called. -/
def table_ops_valid : Table → List TableOp → Prop
  | _, [] => True
  | t, .set row key value :: ops =>
    row < t.rows.length ∧ table_ops_valid (table_set t row key value) ops
  | t, op :: ops => table_ops_valid (table_apply t op) ops

/-- Spec: the cell of the row `r` in the column of index `c`; `none` when there is no such
row or no such cell in it. -/
def table_get (t : Table) (r c : Nat) : Option Str := (t.rows.get? r).bind (fun row => row.get? c)

end DataConvert

namespace Conversion

open DataConvert (Str)

/-- Spec: the calls of `execute_converter` in a log, in order: the converter and the exit
code of each. -/
def invocations (log : List Event) : List (Option Str × Int) :=
  log.filterMap (fun e =>
    match e with
    | .execute_converter converter_path _ _ rc => some (converter_path, rc)
    | _ => none)

/-- Spec: what a call of `make_temp_with_ext` made is gone from the files: the temporary
file it returned, and, when it returned none, the file that `mkstemp` had created. -/
def temp_gone (files : List Str) : Event → Prop
  | .make_temp_with_ext _ tmpl out =>
    (∀ p, out = some p → p ∉ files) ∧ (out = none → ∀ t, tmpl = some t → t ∉ files)
  | _ => True

end Conversion

namespace Conversion

open DataConvert (Str)

/-- An example of `Sys`: `mkstemp` gives one name when the log has at most one entry and
another name later, `malloc`, `rename` and `access` succeed, and a converter creates its
output file; the converter `modules/csv_to_txt.sh` exits with code 1, every other with
code 0. -/
def sys_csv_to_txt_fails : Sys where
  mkstemp := fun w =>
    if w.log.length ≤ 1 then some "/tmp/dtconvertAAAAAA".toList
    else some "/tmp/dtconvertBBBBBB".toList
  malloc := fun _ => true
  rename := fun _ _ _ => true
  access := fun _ _ _ => true
  execute_converter := fun converter_path _ output_path w =>
    (if converter_path = some "modules/csv_to_txt.sh".toList then 1 else 0,
      match output_path with
      | some p => w.files.insert p
      | none => w.files)

/-- An example of a request: the configuration `/data/db.conf` of a database, to be
converted from `postgresql` to the given format into the given file. -/
def request_from_postgresql (output_format output_path : Str) : ConversionRequest where
  input := some ⟨some "/data/db.conf".toList, some "db.conf".toList, some "conf".toList,
    some "/data/db.conf".toList, true, 64⟩
  input_format := some "postgresql".toList
  output_format := some output_format
  output_path := some output_path
  overwrite := false
  verbose := false

end Conversion

namespace DataConvert

/-- One round of the header loop of `csv_read_table` at a cursor that is not at the end:
the table, the cursor behind the round, and whether the loop goes on. -/
def csv_header_step (t : Table) (c : List Char) : Table × List Char × Bool :=
  (ensure_col t (lskip (rstrip (csv_parse_field c).1)),
    if cur_peek (csv_parse_field c).2 = ',' then ((csv_parse_field c).2.tail, true)
    else if (csv_consume_newline (csv_parse_field c).2).1 = true then
      ((csv_consume_newline (csv_parse_field c).2).2, false)
    else if (csv_consume_newline (csv_parse_field c).2).2 = [] then
      ((csv_consume_newline (csv_parse_field c).2).2, false)
    else ((csv_consume_newline (csv_parse_field c).2).2, true))

/-- The reader `csv_read_table` with a bound on the rounds of each of its three loops. -/
def csv_read_table_fuel (n1 n2 n3 : Nat) (buf : List Char) : Option Table :=
  if (csv_header_loop n2 Table.empty (csv_skip_empty_lines_fuel n1 buf)).1.headers.length = 0
  then none
  else some (csv_rows_loop n3
    (csv_header_loop n2 Table.empty (csv_skip_empty_lines_fuel n1 buf)).1
    (csv_header_loop n2 Table.empty (csv_skip_empty_lines_fuel n1 buf)).2)

end DataConvert

namespace Conversion

open DataConvert (Str)

/-- Spec: the format tags that a path visits from the tag `a` on: `a`, then the destination
of each edge. -/
def walk_tags (reg : List Converter) (a : Str) (path : List Nat) : List Str :=
  a :: path.map (fun cid => (converter_at reg cid).to_format)

/-- The loop over the edges of `find_path` with the write `q[qt++] = v` checked against the
64 entries of `q`: `none` when `qt` is not below 64 at the write. -/
def edges_loop_checked (to_format : Str) (u : Nat) :
    Nat → List Converter → Search → Option Search
  | _, [], s => some s
  | cid, c :: cs, s =>
    if c.from_format ≠ (s.nodes.getD u Node.zero).name then
      edges_loop_checked to_format u (cid + 1) cs s
    else if is_storage_format c.to_format = true ∧ to_format ≠ "postgresql".toList then
      edges_loop_checked to_format u (cid + 1) cs s
    else
      match format_index s.nodes c.to_format with
      | none => edges_loop_checked to_format u (cid + 1) cs s
      | some v =>
        if (s.nodes.getD v Node.zero).seen = true then
          edges_loop_checked to_format u (cid + 1) cs s
        else if 64 ≤ s.q.length then none
        else if 64 ≤ s.q.length + 1 then some ⟨mark s.nodes v u cid, s.q ++ [v], s.qh⟩
        else edges_loop_checked to_format u (cid + 1) cs ⟨mark s.nodes v u cid, s.q ++ [v], s.qh⟩

/-- The search loop of `find_path` with the writes to `q` checked and the rounds counted:
`none` when a write is outside `q`, and when the rounds allowed are used up while the loop
still has a node to take from the queue. -/
def search_loop_checked (reg : List Converter) (to_format : Str) (goal : Nat) :
    Nat → Search → Option Search
  | 0, s => if s.qh < s.q.length then none else some s
  | n + 1, s =>
    if s.qh < s.q.length then
      if s.q.getD s.qh 0 = goal then some ⟨s.nodes, s.q, s.qh + 1⟩
      else
        match edges_loop_checked to_format (s.q.getD s.qh 0) 0 reg ⟨s.nodes, s.q, s.qh + 1⟩ with
        | none => none
        | some s1 => search_loop_checked reg to_format goal n s1
    else some s

/-- The loop back over `prev` of `find_path` that has to arrive: `none` when it follows a
`prev` of -1, and when the steps allowed are used up before the start node is reached. -/
def back_loop_checked (nodes : List Node) (start : Nat) : Nat → Nat → Option (List Nat)
  | 0, cur => if cur = start then some [] else none
  | n + 1, cur =>
    if cur = start then some []
    else
      match (nodes.getD cur Node.zero).prev_converter, (nodes.getD cur Node.zero).prev with
      | some cid, some p => (back_loop_checked nodes start n p).map (fun l => cid :: l)
      | _, _ => none

end Conversion

namespace Conversion

open DataConvert (Str)

/-- The state in which the search loop of `find_path` starts: the nodes of `build_nodes`
with the start node seen, and the queue that holds the start node. -/
def search_init (reg : List Converter) (start : Nat) : Search :=
  ⟨(build_nodes reg 64).set start
    ⟨((build_nodes reg 64).getD start Node.zero).name,
      ((build_nodes reg 64).getD start Node.zero).prev,
      ((build_nodes reg 64).getD start Node.zero).prev_converter, true⟩, [start], 0⟩

end Conversion

namespace Conversion

open DataConvert (Str)

end Conversion

namespace Conversion

open DataConvert (Str)

end Conversion

namespace PgStore

open DataConvert (Str isspace)
open SqlConvert (isalpha isalnum)

/-- Spec: the number that digits stand for, the last digit first. -/
def dec_value : List Nat → Nat
  | [] => 0
  | d :: ds => d + 10 * dec_value ds

/-- Spec: the digit that a digit character stands for. -/
def digit_value (c : Char) : Nat := c.toNat - 48

/-- Spec: a character of an identifier behind its first. -/
def ident_char (x : Char) : Prop := (isalnum x || x = '_') = true

end PgStore

namespace Conversion

open DataConvert (Str)

/-- Spec: temporaries can be made: in every world `mkstemp` gives a name, and `malloc` and
`rename` succeed. -/
def temps_can_be_made (sys : Sys) : Prop :=
  (∀ w, sys.mkstemp w ≠ none) ∧ (∀ w, sys.malloc w = true) ∧ ∀ a b w, sys.rename a b w = true

/-- Spec: the converter of the registry entry `cid` returns the exit code 0 whenever it is
run, whatever its input, its output and the world. -/
def hop_succeeds (sys : Sys) (reg : List Converter) (cid : Nat) : Prop :=
  ∀ inp out w,
    (sys.execute_converter (some (converter_at reg cid).converter_path) inp out w).1 = 0

/-- Spec: the converter of the registry entry `cid` returns an exit code other than 0
whenever it is run. -/
def hop_fails (sys : Sys) (reg : List Converter) (cid : Nat) : Prop :=
  ∀ inp out w,
    (sys.execute_converter (some (converter_at reg cid).converter_path) inp out w).1 ≠ 0

end Conversion

namespace DataConvert

/-- Spec: a record stored as the claim says: the field at position `p` goes into the column
named by the header field at position `p`, so that of two fields of the same column the
later overwrites the earlier. -/
def csv_spec_record (t : Table) (names fields : List Str) : Table :=
  (names.zip fields).foldl (fun acc kv => table_set acc t.rows.length kv.1 kv.2)
    (table_add_row t).1

/-- Spec: the table of a header of trimmed names and of records, as the claim says: one
column for each distinct name, and every record stored by the names of its fields. -/
def csv_spec_table (names : List Str) (records : List (List Str)) : Table :=
  records.foldl (fun t fields => csv_spec_record t names fields)
    (names.foldl ensure_col Table.empty)

end DataConvert

/-! # Theorems -/

namespace DataConvert

theorem csv_need_quote_iff (s : Str) :
    csv_need_quote s = true ↔ ∃ c ∈ s, c = ',' ∨ c = '"' ∨ c = '\n' ∨ c = '\r' := by
  induction s with
  | nil => simp [csv_need_quote]
  | cons a s ih =>
    by_cases h : csv_special a = true
    · have h2 : a = ',' ∨ a = '"' ∨ a = '\n' ∨ a = '\r' := by
        simpa [csv_special, or_assoc] using h
      simp [csv_need_quote, h, h2]
    · have h2 : ¬ (a = ',' ∨ a = '"' ∨ a = '\n' ∨ a = '\r') := by
        simpa [csv_special, and_assoc] using h
      simp [csv_need_quote, h, h2, ih]

theorem csv_double_quotes_eq (s : Str) :
    csv_double_quotes s = s.flatMap (fun c => if c = '"' then ['"', '"'] else [c]) := by
  induction s with
  | nil => rfl
  | cons a s ih =>
    by_cases h : a = '"'
    · subst h; simp [csv_double_quotes, ih]
    · simp [csv_double_quotes, ih, h]

end DataConvert

namespace SqlConvert

theorem sql_csv_need_quote_eq (s : List Char) :
    csv_need_quote s = DataConvert.csv_need_quote s := by
  induction s with
  | nil => rfl
  | cons a s ih => simp [csv_need_quote, DataConvert.csv_need_quote, DataConvert.csv_special, ih]

theorem sql_csv_double_quotes_eq (s : List Char) :
    csv_double_quotes s = DataConvert.csv_double_quotes s := by
  induction s with
  | nil => rfl
  | cons a s ih => simp [csv_double_quotes, DataConvert.csv_double_quotes, ih]

end SqlConvert

/-- C5: both copies of `csv_write_escaped` wrap a field in double quotes, doubling every
embedded quote, exactly when it contains a comma, a double quote, a line feed or a carriage
return; every other field, the empty one included, is written unchanged. -/
theorem c5_csv_write_escaped_quotes_iff (s : DataConvert.Str) :
    DataConvert.csv_write_escaped s =
        (if ∃ c ∈ s, c = ',' ∨ c = '"' ∨ c = '\n' ∨ c = '\r'
         then '"' :: s.flatMap (fun c => if c = '"' then ['"', '"'] else [c]) ++ ['"']
         else s)
      ∧ SqlConvert.csv_write_escaped s = DataConvert.csv_write_escaped s := by
  constructor
  · by_cases h : ∃ c ∈ s, c = ',' ∨ c = '"' ∨ c = '\n' ∨ c = '\r'
    · rw [if_pos h]
      simp [DataConvert.csv_write_escaped, (DataConvert.csv_need_quote_iff s).2 h,
        DataConvert.csv_double_quotes_eq]
    · rw [if_neg h]
      have h2 : DataConvert.csv_need_quote s = false := by
        cases hq : DataConvert.csv_need_quote s
        · rfl
        · exact absurd ((DataConvert.csv_need_quote_iff s).1 hq) h
      simp [DataConvert.csv_write_escaped, h2]
  · simp [SqlConvert.csv_write_escaped, DataConvert.csv_write_escaped,
      SqlConvert.sql_csv_need_quote_eq, SqlConvert.sql_csv_double_quotes_eq]

/-- C4 (defect): the cell `a,"b"` is written as `"a,""b"""`, and `csv_parse_field` reads
that text back as `a,b"`: behind a doubled quote the reader appends the character that
follows the pair instead of the quote. -/
theorem c4_csv_field_round_trip_fails :
    DataConvert.csv_write_escaped "a,\"b\"".toList = "\"a,\"\"b\"\"\"".toList
      ∧ DataConvert.csv_parse_field (DataConvert.csv_write_escaped "a,\"b\"".toList)
          = ("a,b\"".toList, [])
      ∧ (DataConvert.csv_parse_field (DataConvert.csv_write_escaped "a,\"b\"".toList)).1
          ≠ "a,\"b\"".toList := by
  decide

/-- C6 (defect): under the header `a,b,c` the record `1,,3` is read as the row
`1`, `3`, empty: the empty second field is lost, because the comma behind a non-empty
field is consumed twice. -/
theorem c6_csv_empty_field_lost :
    DataConvert.csv_read_table "a,b,c\n1,,3\n".toList
      = some ⟨["a".toList, "b".toList, "c".toList], [["1".toList, "3".toList, []]]⟩ := by
  decide

namespace DataConvert

/-! ## The table model -/

theorem find_header_from_none {hs : List Str} {k : Str} (h : k ∉ hs) (i : Nat) :
    find_header_from hs k i = none := by
  induction hs generalizing i with
  | nil => rfl
  | cons a hs ih =>
    have h1 : a ≠ k := fun e => h (e ▸ List.mem_cons_self _ _)
    have h2 : k ∉ hs := fun e => h (List.mem_cons_of_mem _ e)
    simp [find_header_from, h1, ih h2]

theorem find_header_from_some {hs : List Str} {k : Str} (h : k ∈ hs) (i : Nat) :
    ∃ j, find_header_from hs k i = some j := by
  induction hs generalizing i with
  | nil => cases h
  | cons a hs ih =>
    by_cases h1 : a = k
    · exact ⟨i, by simp [find_header_from, h1]⟩
    · have h2 : k ∈ hs := by
        rcases List.mem_cons.1 h with e | e
        · exact absurd e.symm h1
        · exact e
      obtain ⟨j, hj⟩ := ih h2 (i + 1)
      exact ⟨j, by simp [find_header_from, h1, hj]⟩

theorem find_header_from_snoc {hs : List Str} {k : Str} (h : k ∉ hs) (i : Nat) :
    find_header_from (hs ++ [k]) k i = some (i + hs.length) := by
  induction hs generalizing i with
  | nil => simp [find_header_from]
  | cons a hs ih =>
    have h1 : a ≠ k := fun e => h (e ▸ List.mem_cons_self _ _)
    have h2 : k ∉ hs := fun e => h (List.mem_cons_of_mem _ e)
    simp [find_header_from, h1, ih h2]
    omega

/-- Storing at the index found for `k` changes exactly the entry of `k`. -/
theorem set_at_found {hs : List Str} {k : Str} (f : Str → Str) (v : Str) (hnd : hs.Nodup) :
    ∀ i j, find_header_from hs k i = some j →
      i ≤ j ∧ (hs.map f).set (j - i) v = hs.map (fun c => if c = k then v else f c) := by
  induction hs with
  | nil => intro i j h; cases h
  | cons a hs ih =>
    intro i j h
    have hnd' := List.nodup_cons.1 hnd
    by_cases h1 : a = k
    · subst h1
      simp [find_header_from] at h
      subst h
      refine ⟨le_refl _, ?_⟩
      simp only [Nat.sub_self, List.map_cons, List.set_cons_zero, if_true]
      congr 1
      apply List.map_congr_left
      intro c hc
      have : c ≠ a := fun e => hnd'.1 (e ▸ hc)
      simp [this]
    · simp [find_header_from, h1] at h
      obtain ⟨h2, h3⟩ := ih hnd'.2 (i + 1) j h
      refine ⟨by omega, ?_⟩
      have e : j - i = (j - (i + 1)) + 1 := by omega
      rw [e]
      simp only [List.map_cons, List.set_cons_succ, h1, if_false]
      rw [h3]

theorem set_length_snoc {α : Type} (A : List α) (x y : α) : (A ++ [x]).set A.length y = A ++ [y] := by
  induction A with
  | nil => rfl
  | cons a A ih => simp [List.set, ih]

theorem getD_length_snoc {α : Type} (A : List α) (x d : α) : (A ++ [x]).getD A.length d = x := by
  induction A with
  | nil => rfl
  | cons a A ih => simp

/-! ## First occurrences and lookup -/

theorem mem_first_occurrences {l : List Str} {k : Str} : k ∈ first_occurrences l ↔ k ∈ l := by
  induction l with
  | nil => simp [first_occurrences]
  | cons a l ih =>
    simp only [first_occurrences, List.mem_cons, List.mem_filter, ih]
    by_cases h : k = a
    · simp [h]
    · simp [h]

theorem nodup_first_occurrences (l : List Str) : (first_occurrences l).Nodup := by
  induction l with
  | nil => simp [first_occurrences]
  | cons a l ih =>
    simp only [first_occurrences, List.nodup_cons, List.mem_filter]
    exact ⟨by simp, ih.filter _⟩

theorem first_occurrences_snoc (l : List Str) (k : Str) :
    first_occurrences (l ++ [k])
      = if k ∈ l then first_occurrences l else first_occurrences l ++ [k] := by
  induction l with
  | nil => simp [first_occurrences]
  | cons a l ih =>
    simp only [List.cons_append, first_occurrences, List.mem_cons, List.append_eq]
    rw [ih]
    by_cases h1 : k = a
    · subst h1
      by_cases h2 : k ∈ l
      · simp [h2]
      · simp [h2, List.filter_append]
    · by_cases h2 : k ∈ l
      · simp [h1, h2]
      · simp [h1, h2, List.filter_append]

theorem first_occurrences_of_nodup {l : List Str} (h : l.Nodup) : first_occurrences l = l := by
  induction l with
  | nil => rfl
  | cons a l ih =>
    have h' := List.nodup_cons.1 h
    simp only [first_occurrences, ih h'.2]
    congr 1
    rw [List.filter_eq_self]
    intro c hc
    have : c ≠ a := fun e => h'.1 (e ▸ hc)
    simp [this]

theorem lookup_last_snoc (c k v : Str) (p : List (Str × Str)) :
    lookup_last c (p ++ [(k, v)]) = if k = c then v else lookup_last c p := by
  unfold lookup_last
  by_cases h : k = c
  · simp [h]
  · simp [h]

theorem lookup_last_absent {c : Str} {o : List (Str × Str)} (h : c ∉ o.map Prod.fst) :
    lookup_last c o = [] := by
  unfold lookup_last
  have : o.reverse.find? (fun p => p.1 = c) = none := by
    rw [List.find?_eq_none]
    intro x hx hx2
    apply h
    simp only [decide_eq_true_eq] at hx2
    exact List.mem_map.2 ⟨x, List.mem_reverse.1 hx, hx2⟩
  rw [this]

/-! ## Scanning lemmas -/

theorem dropWhile_append_all {p : Char → Bool} (w r : List Char) (h : ∀ c ∈ w, p c = true) :
    (w ++ r).dropWhile p = r.dropWhile p := by
  induction w with
  | nil => rfl
  | cons a w ih =>
    have ha : p a = true := h a (List.mem_cons_self _ _)
    simp only [List.cons_append, List.dropWhile_cons, ha, if_true]
    exact ih (fun c hc => h c (List.mem_cons_of_mem _ hc))

theorem takeWhile_append_stop {p : Char → Bool} (s r : List Char) (h : ∀ c ∈ s, p c = true)
    (hr : ∀ c ∈ r.head?, p c = false) : (s ++ r).takeWhile p = s := by
  induction s with
  | nil =>
    cases r with
    | nil => rfl
    | cons a r => simp [List.takeWhile_cons, hr a (by simp)]
  | cons a s ih =>
    have ha : p a = true := h a (List.mem_cons_self _ _)
    simp only [List.cons_append, List.takeWhile_cons, ha, if_true]
    rw [ih (fun c hc => h c (List.mem_cons_of_mem _ hc))]

theorem dropWhile_append_stop {p : Char → Bool} (s r : List Char) (h : ∀ c ∈ s, p c = true)
    (hr : ∀ c ∈ r.head?, p c = false) : (s ++ r).dropWhile p = r := by
  rw [dropWhile_append_all s r h]
  cases r with
  | nil => rfl
  | cons a r => simp [List.dropWhile_cons, hr a (by simp)]

theorem jskip_ws (w r : List Char) (h : IsWs w) : jskip (w ++ r) = jskip r :=
  dropWhile_append_all w r h

theorem jskip_cons (c : Char) (r : List Char) (h : isspace c = false) : jskip (c :: r) = c :: r := by
  simp [jskip, List.dropWhile_cons, h]

theorem jskip_ws_cons (w : List Char) (c : Char) (r : List Char) (h : IsWs w)
    (hc : isspace c = false) : jskip (w ++ c :: r) = c :: r := by
  rw [jskip_ws w _ h, jskip_cons c r hc]

theorem jmatch_hit (w : List Char) (c : Char) (r : List Char) (h : IsWs w)
    (hc : isspace c = false) : jmatch (w ++ c :: r) c = (true, r) := by
  simp [jmatch, jskip_ws_cons w c r h hc]

theorem jmatch_miss (w : List Char) (c d : Char) (r : List Char) (h : IsWs w)
    (hd : isspace d = false) (hne : d ≠ c) : jmatch (w ++ d :: r) c = (false, d :: r) := by
  simp [jmatch, jskip_ws_cons w d r h hd, hne]

theorem jexpect_hit (w : List Char) (c : Char) (r : List Char) (h : IsWs w)
    (hc : isspace c = false) : jexpect (w ++ c :: r) c = some r := by
  simp [jexpect, jmatch_hit w c r h hc]

theorem isWs_nil : IsWs [] := fun _ h => by cases h

theorem cstr_of_no_nul (s : List Char) (h : '\x00' ∉ s) : cstr s = s := by
  unfold cstr
  rw [List.takeWhile_eq_self_iff]
  intro c hc
  simp only [bne_iff_ne, ne_eq]
  rintro rfl
  exact h hc

theorem json_escape_value_ne_nul {e ch : Char} (h : json_escape_value e = some ch) :
    ch ≠ '\x00' := by
  unfold json_escape_value at h
  split_ifs at h <;> (injection h with h; subst h; decide)

theorem json_escape_value_ne_u {e ch : Char} (h : json_escape_value e = some ch) : e ≠ 'u' := by
  intro hu
  have h0 : json_escape_value 'u' = none := by decide
  rw [hu, h0] at h
  cases h

theorem jstrBody_no_nul {s : Str} {b : List Char} (h : JStrBody s b) : '\x00' ∉ s := by
  induction h with
  | done => simp
  | raw c s b h1 h2 h3 _ ih => simp [ih, Ne.symm h3]
  | esc e ch s b he _ ih => simp [ih, Ne.symm (json_escape_value_ne_nul he)]
  | uni x1 x2 x3 x4 s b _ ih =>
    simp only [List.mem_cons, not_or]
    exact ⟨by decide, ih⟩

theorem jstring_loop_quote (r : List Char) : jstring_loop ('"' :: r) 0 = some ([], r) := by
  cases r <;> simp [jstring_loop]

theorem jstring_loop_raw (c : Char) (r : List Char) (h1 : c ≠ '"') (h2 : c ≠ '\\') :
    jstring_loop (c :: r) 0 = push_out c (jstring_loop r 0) := by
  cases r <;> simp [jstring_loop, h1, h2]

theorem jstring_loop_esc (e ch : Char) (r : List Char) (h : json_escape_value e = some ch) :
    jstring_loop ('\\' :: e :: r) 0 = push_out ch (jstring_loop r 0) := by
  have h2 : jescape e = some ch := h
  simp [jstring_loop, h2, json_escape_value_ne_u h]

theorem jstring_loop_uni (x1 x2 x3 x4 : Char) (r : List Char) :
    jstring_loop ('\\' :: 'u' :: x1 :: x2 :: x3 :: x4 :: r) 0 = push_out '?' (jstring_loop r 0) := by
  simp [jstring_loop]

theorem jstring_loop_body {s : Str} {b : List Char} (h : JStrBody s b) (rest : List Char) :
    jstring_loop (b ++ '"' :: rest) 0 = some (s, rest) := by
  induction h with
  | done => exact jstring_loop_quote rest
  | raw c s b h1 h2 h3 _ ih =>
    rw [List.cons_append, jstring_loop_raw c _ h1 h2, ih]; rfl
  | esc e ch s b he _ ih =>
    rw [List.cons_append, List.cons_append, jstring_loop_esc e ch _ he, ih]; rfl
  | uni x1 x2 x3 x4 s b _ ih =>
    simp only [List.cons_append]
    rw [jstring_loop_uni, ih]; rfl

theorem jparse_string_lit {s : Str} {b : List Char} (h : JStrBody s b) (w rest : List Char)
    (hw : IsWs w) : jparse_string (w ++ '"' :: (b ++ '"' :: rest)) = some (s, rest) := by
  simp [jparse_string, jskip_ws_cons w '"' _ hw (by decide), jstring_loop_body h,
    cstr_of_no_nul s (jstrBody_no_nul h)]

theorem jdelim_false_isspace {c : Char} (h : jdelim c = false) : isspace c = false := by
  unfold jdelim at h
  simp only [Bool.or_eq_false_iff] at h
  exact h.2

/-- A value literal followed by a delimiter is read back as its text. -/
theorem jparse_primitive_val {v : Str} {vl : List Char} (h : JValText v vl) (w tail : List Char)
    (hw : IsWs w) (ht : ∀ c ∈ tail.head?, jdelim c = true) :
    jparse_primitive_as_string (w ++ (vl ++ tail)) = some (v, tail) := by
  cases h with
  | str b hb =>
    have e0 : w ++ ('"' :: b ++ ['"'] ++ tail) = w ++ '"' :: (b ++ '"' :: tail) := by simp
    have e1 : jskip (w ++ '"' :: (b ++ '"' :: tail)) = '"' :: (b ++ '"' :: tail) :=
      jskip_ws_cons w '"' _ hw (by decide)
    have e2 := jparse_string_lit hb [] tail isWs_nil
    simp only [List.nil_append] at e2
    rw [e0]
    unfold jparse_primitive_as_string
    rw [e1, e2]
    simp [cur_peek]
  | tok hne hs hq =>
    obtain ⟨a, s', rfl⟩ := List.exists_cons_of_ne_nil hne
    have ha := hs a (List.mem_cons_self _ _)
    have e1 : jskip (w ++ (a :: s' ++ tail)) = a :: s' ++ tail := by
      rw [jskip_ws _ _ hw]
      exact jskip_cons a _ (jdelim_false_isspace ha.1)
    have hq' : a ≠ '"' := by simpa using hq
    have hp : ∀ c ∈ a :: s', (fun ch => !jdelim ch) c = true := by
      intro c hc; simp [(hs c hc).1]
    have hr : ∀ c ∈ tail.head?, (fun ch => !jdelim ch) c = false := by
      intro c hc; simp [ht c hc]
    have hn : '\x00' ∉ a :: s' := fun hm => (hs _ hm).2 rfl
    unfold jparse_primitive_as_string
    rw [e1, takeWhile_append_stop _ _ hp hr, dropWhile_append_stop _ _ hp hr, cstr_of_no_nul _ hn]
    simp [cur_peek, hq']

theorem jpairsText_length {ps : List (Str × Str)} {txt : List Char} (h : JPairsText ps txt) :
    ps.length ≤ txt.length := by
  induction h with
  | last => simp; omega
  | more k v kb vl w1 w2 w3 w4 ps txt _ _ _ _ _ _ _ ih => simp; omega

/-- The inner loop on the text of the pairs of an object stores the pairs in order. -/
theorem json_pairs_loop_text {ps : List (Str × Str)} {txt : List Char} (h : JPairsText ps txt) :
    ∀ (n row : Nat) (t : Table) (rest : List Char), ps.length ≤ n →
      json_pairs_loop n row t (txt ++ rest)
        = some (ps.foldl (fun t kv => table_set t row kv.1 kv.2) t, rest) := by
  induction h with
  | last k v kb vl w1 w2 w3 w4 h1 h2 h3 h4 hk hv =>
    intro n row t rest hn
    obtain ⟨m, rfl⟩ : ∃ m, n = m + 1 := ⟨n - 1, by simp at hn; omega⟩
    have e0 : w1 ++ '"' :: kb ++ '"' :: w2 ++ ':' :: w3 ++ vl ++ w4 ++ ['}'] ++ rest
        = w1 ++ '"' :: (kb ++ '"' :: (w2 ++ ':' :: (w3 ++ (vl ++ (w4 ++ '}' :: rest))))) := by
      simp
    have hd : ∀ c ∈ (w4 ++ '}' :: rest).head?, jdelim c = true := by
      intro c hc
      cases w4 with
      | nil => simp at hc; subst hc; decide
      | cons a w4 =>
        have ha := h4 a (List.mem_cons_self _ _)
        simp at hc; subst hc; simp [jdelim, ha]
    rw [e0, json_pairs_loop]
    simp only [jparse_string_lit hk w1 _ h1, jexpect_hit w2 ':' _ h2 (by decide),
      jparse_primitive_val hv w3 _ h3 hd]
    simp [jskip_ws_cons w4 '}' rest h4 (by decide), jmatch, jskip_cons '}' rest (by decide)]
  | more k v kb vl w1 w2 w3 w4 ps txt h1 h2 h3 h4 hk hv _ ih =>
    intro n row t rest hn
    obtain ⟨m, rfl⟩ : ∃ m, n = m + 1 := ⟨n - 1, by simp at hn; omega⟩
    have e0 : w1 ++ '"' :: kb ++ '"' :: w2 ++ ':' :: w3 ++ vl ++ w4 ++ ',' :: txt ++ rest
        = w1 ++ '"' :: (kb ++ '"' :: (w2 ++ ':' :: (w3 ++ (vl ++ (w4 ++ ',' :: (txt ++ rest)))))) := by
      simp
    have hd : ∀ c ∈ (w4 ++ ',' :: (txt ++ rest)).head?, jdelim c = true := by
      intro c hc
      cases w4 with
      | nil => simp at hc; subst hc; decide
      | cons a w4 =>
        have ha := h4 a (List.mem_cons_self _ _)
        simp at hc; subst hc; simp [jdelim, ha]
    rw [e0, json_pairs_loop]
    simp only [jparse_string_lit hk w1 _ h1, jexpect_hit w2 ':' _ h2 (by decide),
      jparse_primitive_val hv w3 _ h3 hd]
    have hm : ps.length ≤ m := by simp at hn; omega
    simp [jskip_ws_cons w4 ',' _ h4 (by decide), jmatch, jskip_cons ',' _ (by decide), jexpect,
      ih m row _ rest hm]

/-- Behind its leading blanks the text of the pairs of an object starts with a quote. -/
theorem jpairsText_skip {ps : List (Str × Str)} {txt : List Char} (h : JPairsText ps txt) :
    ∃ r, JPairsText ps ('"' :: r) ∧ ∀ rest, jskip (txt ++ rest) = '"' :: r ++ rest := by
  cases h with
  | last k v kb vl w1 w2 w3 w4 h1 h2 h3 h4 hk hv =>
    refine ⟨kb ++ '"' :: w2 ++ ':' :: w3 ++ vl ++ w4 ++ ['}'], ?_, ?_⟩
    · exact JPairsText.last k v kb vl [] w2 w3 w4 isWs_nil h2 h3 h4 hk hv
    · intro rest
      have e0 : w1 ++ '"' :: kb ++ '"' :: w2 ++ ':' :: w3 ++ vl ++ w4 ++ ['}'] ++ rest
          = w1 ++ '"' :: (kb ++ '"' :: w2 ++ ':' :: w3 ++ vl ++ w4 ++ ['}'] ++ rest) := by simp
      rw [e0, jskip_ws_cons w1 '"' _ h1 (by decide)]
      simp
  | more k v kb vl w1 w2 w3 w4 ps txt h1 h2 h3 h4 hk hv hps =>
    refine ⟨kb ++ '"' :: w2 ++ ':' :: w3 ++ vl ++ w4 ++ ',' :: txt, ?_, ?_⟩
    · exact JPairsText.more k v kb vl [] w2 w3 w4 ps txt isWs_nil h2 h3 h4 hk hv hps
    · intro rest
      have e0 : w1 ++ '"' :: kb ++ '"' :: w2 ++ ':' :: w3 ++ vl ++ w4 ++ ',' :: txt ++ rest
          = w1 ++ '"' :: (kb ++ '"' :: w2 ++ ':' :: w3 ++ vl ++ w4 ++ ',' :: txt ++ rest) := by
        simp
      rw [e0, jskip_ws_cons w1 '"' _ h1 (by decide)]
      simp

/-- The reader on the text of one object: a new row, then the pairs in order. -/
theorem json_object_text {o : List (Str × Str)} {ot : List Char} (h : JObjText o ot)
    (t : Table) (rest : List Char) :
    ∃ j1, jexpect (ot ++ rest) '{' = some j1 ∧
      (if (jmatch (jskip j1) '}').1 then some ((table_add_row t).1, (jmatch (jskip j1) '}').2)
       else json_pairs_loop (jmatch (jskip j1) '}').2.length (table_add_row t).2
          (table_add_row t).1 (jmatch (jskip j1) '}').2)
        = some (store_record t o, rest) := by
  match h with
  | .none w1 w2 h1 h2 =>
    refine ⟨w2 ++ '}' :: rest, ?_, ?_⟩
    · have e0 : w1 ++ '{' :: w2 ++ ['}'] ++ rest = w1 ++ '{' :: (w2 ++ '}' :: rest) := by simp
      rw [e0, jexpect_hit w1 '{' _ h1 (by decide)]
    · rw [jskip_ws_cons w2 '}' rest h2 (by decide)]
      have e1 : jmatch ('}' :: rest) '}' = (true, rest) := jmatch_hit [] '}' rest isWs_nil (by decide)
      simp [e1, store_record]
  | .some w1 _ txt h1 hps =>
    refine ⟨txt ++ rest, ?_, ?_⟩
    · have e0 : w1 ++ '{' :: txt ++ rest = w1 ++ '{' :: (txt ++ rest) := by simp
      rw [e0, jexpect_hit w1 '{' _ h1 (by decide)]
    · obtain ⟨r, hr, hskip⟩ := jpairsText_skip hps
      rw [hskip rest]
      have e1 : jmatch ('"' :: r ++ rest) '}' = (false, '"' :: r ++ rest) :=
        jmatch_miss [] '}' '"' (r ++ rest) isWs_nil (by decide) (by decide)
      rw [e1]
      have hl : o.length ≤ ('"' :: r ++ rest).length := by
        have := jpairsText_length hr
        simp only [List.length_append] at *
        omega
      simp only [Bool.false_eq_true, if_false]
      rw [json_pairs_loop_text hr _ _ _ rest hl, store_record]

theorem jobjsText_length {os : List (List (Str × Str))} {txt : List Char} (h : JObjsText os txt) :
    os.length ≤ txt.length := by
  induction h with
  | last => simp; omega
  | more o ot w os txt _ _ _ ih => simp; omega

/-- The outer loop on the text of the objects of an array stores the objects in order. -/
theorem json_objects_loop_text {os : List (List (Str × Str))} {txt : List Char}
    (h : JObjsText os txt) :
    ∀ (n : Nat) (t : Table) (trail : List Char), os.length ≤ n →
      json_objects_loop n t (txt ++ trail) = some (os.foldl store_record t) := by
  induction h with
  | last o ot w ho hw =>
    intro n t trail hn
    obtain ⟨m, rfl⟩ : ∃ m, n = m + 1 := ⟨n - 1, by simp at hn; omega⟩
    have e0 : ot ++ w ++ [']'] ++ trail = ot ++ (w ++ ']' :: trail) := by simp
    obtain ⟨j1, hj1, hobj⟩ := json_object_text ho t (w ++ ']' :: trail)
    rw [e0, json_objects_loop, hj1]
    simp only [hobj]
    simp [jskip_ws_cons w ']' trail hw (by decide), jmatch, jskip_cons ']' trail (by decide)]
  | more o ot w os txt ho hw _ ih =>
    intro n t trail hn
    obtain ⟨m, rfl⟩ : ∃ m, n = m + 1 := ⟨n - 1, by simp at hn; omega⟩
    have e0 : ot ++ w ++ ',' :: txt ++ trail = ot ++ (w ++ ',' :: (txt ++ trail)) := by simp
    obtain ⟨j1, hj1, hobj⟩ := json_object_text ho t (w ++ ',' :: (txt ++ trail))
    rw [e0, json_objects_loop, hj1]
    simp only [hobj]
    have hm : os.length ≤ m := by simp at hn; omega
    simp [jskip_ws_cons w ',' _ hw (by decide), jmatch, jskip_cons ',' _ (by decide), jexpect,
      ih m _ trail hm]

/-- Behind its leading blanks the text of the objects of an array starts with a brace. -/
theorem jobjsText_skip {os : List (List (Str × Str))} {txt : List Char} (h : JObjsText os txt) :
    ∃ r, JObjsText os ('{' :: r) ∧ ∀ rest, jskip (txt ++ rest) = '{' :: r ++ rest := by
  have hobj : ∀ {o : List (Str × Str)} {ot : List Char}, JObjText o ot →
      ∃ r, JObjText o ('{' :: r) ∧ ∀ rest, jskip (ot ++ rest) = '{' :: r ++ rest := by
    intro o ot ho
    match ho with
    | .none w1 w2 h1 h2 =>
      refine ⟨w2 ++ ['}'], JObjText.none [] w2 isWs_nil h2, ?_⟩
      intro rest
      have e0 : w1 ++ '{' :: w2 ++ ['}'] ++ rest = w1 ++ '{' :: (w2 ++ ['}'] ++ rest) := by simp
      rw [e0, jskip_ws_cons w1 '{' _ h1 (by decide)]
      simp
    | .some w1 _ txt h1 hps =>
      refine ⟨txt, JObjText.some [] o txt isWs_nil hps, ?_⟩
      intro rest
      have e0 : w1 ++ '{' :: txt ++ rest = w1 ++ '{' :: (txt ++ rest) := by simp
      rw [e0, jskip_ws_cons w1 '{' _ h1 (by decide)]
      simp
  cases h with
  | last o ot w ho hw =>
    obtain ⟨r, hr, hs⟩ := hobj ho
    refine ⟨r ++ w ++ [']'], ?_, ?_⟩
    · have := JObjsText.last o ('{' :: r) w hr hw
      simpa using this
    · intro rest
      have e0 : ot ++ w ++ [']'] ++ rest = ot ++ (w ++ [']'] ++ rest) := by simp
      rw [e0, hs]
      simp
  | more o ot w os txt ho hw hos =>
    obtain ⟨r, hr, hs⟩ := hobj ho
    refine ⟨r ++ w ++ ',' :: txt, ?_, ?_⟩
    · have := JObjsText.more o ('{' :: r) w os txt hr hw hos
      simpa using this
    · intro rest
      have e0 : ot ++ w ++ ',' :: txt ++ rest = ot ++ (w ++ ',' :: txt ++ rest) := by simp
      rw [e0, hs]
      simp

/-- The reader on a well-formed document stores its objects in order. -/
theorem json_read_table_text {doc : List (List (Str × Str))} {text : List Char}
    (h : JDocText doc text) :
    json_read_table text = some (doc.foldl store_record Table.empty) := by
  match h with
  | .none w1 w2 trail h1 h2 =>
    have e0 : w1 ++ '[' :: w2 ++ ']' :: trail = w1 ++ '[' :: (w2 ++ ']' :: trail) := by simp
    rw [e0, json_read_table, jexpect_hit w1 '[' _ h1 (by decide)]
    simp [jskip_ws_cons w2 ']' trail h2 (by decide), jmatch, jskip_cons ']' trail (by decide)]
  | .some w1 _ txt trail h1 hos =>
    have e0 : w1 ++ '[' :: txt ++ trail = w1 ++ '[' :: (txt ++ trail) := by simp
    rw [e0, json_read_table, jexpect_hit w1 '[' _ h1 (by decide)]
    obtain ⟨r, hr, hs⟩ := jobjsText_skip hos
    have e1 : jmatch ('{' :: r ++ trail) ']' = (false, '{' :: r ++ trail) :=
      jmatch_miss [] ']' '{' (r ++ trail) isWs_nil (by decide) (by decide)
    simp only [hs trail, e1, Bool.false_eq_true, if_false]
    have hl : doc.length ≤ ('{' :: r ++ trail).length := by
      have := jobjsText_length hr
      simp only [List.length_append] at *
      omega
    exact json_objects_loop_text hr _ _ trail hl

theorem keys_snoc_obj (os : List (List (Str × Str))) (p : List (Str × Str)) (k v : Str) :
    ((os ++ [p ++ [(k, v)]]).flatten.map Prod.fst)
      = ((os ++ [p]).flatten.map Prod.fst) ++ [k] := by
  simp [List.flatten_append]

theorem json_spec_add_row (os : List (List (Str × Str))) :
    table_add_row (json_spec_table os) = (json_spec_table (os ++ [[]]), os.length) := by
  simp [table_add_row, json_spec_table, List.flatten_append, lookup_last, List.map_const']

/-- Storing one more pair of the object being read keeps the table equal to the
specified table of the objects read so far. -/
theorem json_spec_table_set (os : List (List (Str × Str))) (p : List (Str × Str)) (k v : Str) :
    table_set (json_spec_table (os ++ [p])) os.length k v
      = json_spec_table (os ++ [p ++ [(k, v)]]) := by
  have hK := keys_snoc_obj os p k v
  set K := (os ++ [p]).flatten.map Prod.fst with hKdef
  have hrows : ∀ cols : List Str, (os ++ [p]).map (fun o => cols.map (fun c => lookup_last c o))
      = os.map (fun o => cols.map (fun c => lookup_last c o)) ++ [cols.map (fun c => lookup_last c p)] := by
    intro cols; simp
  have hrows' : ∀ cols : List Str,
      (os ++ [p ++ [(k, v)]]).map (fun o => cols.map (fun c => lookup_last c o))
      = os.map (fun o => cols.map (fun c => lookup_last c o))
          ++ [cols.map (fun c => lookup_last c (p ++ [(k, v)]))] := by
    intro cols; simp
  have hlen : (os.map (fun o => (first_occurrences K).map (fun c => lookup_last c o))).length
      = os.length := by simp
  by_cases hk : k ∈ K
  · -- the column exists
    have hk' : k ∈ first_occurrences K := mem_first_occurrences.2 hk
    obtain ⟨j, hj⟩ := find_header_from_some hk' 0
    have hset := (set_at_found (fun c => lookup_last c p) v (nodup_first_occurrences K) 0 j hj).2
    simp only [Nat.sub_zero] at hset
    have hcols : first_occurrences (K ++ [k]) = first_occurrences K := by
      rw [first_occurrences_snoc, if_pos hk]
    unfold table_set ensure_col find_header
    simp only [json_spec_table, ← hKdef, hK, hcols, hj, hrows, hrows']
    congr 1
    have e1 := getD_length_snoc (os.map (fun o => (first_occurrences K).map (fun c => lookup_last c o)))
      ((first_occurrences K).map (fun c => lookup_last c p)) []
    have e2 := set_length_snoc (os.map (fun o => (first_occurrences K).map (fun c => lookup_last c o)))
      ((first_occurrences K).map (fun c => lookup_last c p))
      (((first_occurrences K).map (fun c => lookup_last c p)).set j v)
    rw [hlen] at e1 e2
    rw [e1, e2, hset]
    congr 2
    apply List.map_congr_left
    intro c _
    rw [lookup_last_snoc]
    by_cases hc : c = k
    · simp [hc]
    · simp [hc, Ne.symm hc]
  · -- a new column
    have hk' : k ∉ first_occurrences K := fun h => hk (mem_first_occurrences.1 h)
    have hcols : first_occurrences (K ++ [k]) = first_occurrences K ++ [k] := by
      rw [first_occurrences_snoc, if_neg hk]
    have hf1 : find_header_from (first_occurrences K) k 0 = none := find_header_from_none hk' 0
    have hf2 := find_header_from_snoc hk' 0
    simp only [Nat.zero_add] at hf2
    unfold table_set ensure_col find_header
    simp only [json_spec_table, ← hKdef, hK, hcols, hf1, hf2, hrows, hrows']
    congr 1
    simp only [List.map_append, List.map_map, List.map_cons, List.map_nil]
    have hold : (os.map ((fun r => r ++ [[]]) ∘ fun o => (first_occurrences K).map (fun c => lookup_last c o)))
        = os.map (fun o => (first_occurrences K).map (fun c => lookup_last c o) ++ [lookup_last k o]) := by
      apply List.map_congr_left
      intro o ho
      have : k ∉ o.map Prod.fst := by
        intro hm
        apply hk
        rw [hKdef]
        simp only [List.map_flatten, List.mem_flatten, List.mem_map, List.map_append]
        exact ⟨o.map Prod.fst, by simp; exact Or.inl ⟨o, ho, rfl⟩, hm⟩
      simp [lookup_last_absent this]
    rw [hold]
    have e1 := getD_length_snoc
      (os.map (fun o => (first_occurrences K).map (fun c => lookup_last c o) ++ [lookup_last k o]))
      ((first_occurrences K).map (fun c => lookup_last c p) ++ [[]]) []
    have e2 := set_length_snoc
      (os.map (fun o => (first_occurrences K).map (fun c => lookup_last c o) ++ [lookup_last k o]))
      ((first_occurrences K).map (fun c => lookup_last c p) ++ [[]])
      (((first_occurrences K).map (fun c => lookup_last c p) ++ [[]]).set (first_occurrences K).length v)
    simp only [List.length_map] at e1 e2
    rw [e1, e2]
    have e3 := set_length_snoc ((first_occurrences K).map (fun c => lookup_last c p)) [] v
    simp only [List.length_map] at e3
    rw [e3]
    congr 2
    have ea : (first_occurrences K).map (fun c => lookup_last c (p ++ [(k, v)]))
        = (first_occurrences K).map (fun c => lookup_last c p) := by
      apply List.map_congr_left
      intro c hc
      rw [lookup_last_snoc]
      have : k ≠ c := fun e => hk' (e ▸ hc)
      simp [this]
    have eb : lookup_last k (p ++ [(k, v)]) = v := by rw [lookup_last_snoc]; simp
    rw [ea, eb]

theorem store_record_spec (os : List (List (Str × Str))) (o : List (Str × Str)) :
    store_record (json_spec_table os) o = json_spec_table (os ++ [o]) := by
  unfold store_record
  rw [json_spec_add_row]
  simp only
  have key : ∀ (q p : List (Str × Str)),
      q.foldl (fun t1 kv => table_set t1 os.length kv.1 kv.2) (json_spec_table (os ++ [p]))
        = json_spec_table (os ++ [p ++ q]) := by
    intro q
    induction q with
    | nil => intro p; simp
    | cons kv q ih =>
      intro p
      rw [List.foldl_cons, json_spec_table_set, ih]
      simp
  simpa using key o []

/-- The objects stored one after the other give the specified table. -/
theorem store_records_spec (doc : List (List (Str × Str))) :
    doc.foldl store_record Table.empty = json_spec_table doc := by
  have key : ∀ (rest os : List (List (Str × Str))),
      rest.foldl store_record (json_spec_table os) = json_spec_table (os ++ rest) := by
    intro rest
    induction rest with
    | nil => intro os; simp
    | cons o rest ih =>
      intro os
      rw [List.foldl_cons, store_record_spec, ih]
      simp
  have h0 : json_spec_table [] = Table.empty := rfl
  rw [← h0, key doc []]
  simp

end DataConvert

namespace DataConvert

theorem jstr_a : JStrBody ['a'] ['a'] :=
  JStrBody.raw 'a' [] [] (by decide) (by decide) (by decide) JStrBody.done

theorem jstr_b : JStrBody ['b'] ['b'] :=
  JStrBody.raw 'b' [] [] (by decide) (by decide) (by decide) JStrBody.done

theorem jtok_1 : JValText ['1'] ['1'] := JValText.tok ['1'] (by decide) (by decide) (by decide)

theorem jtok_2 : JValText ['2'] ['2'] := JValText.tok ['2'] (by decide) (by decide) (by decide)

/-- The text `[{"a":1},{"a":1,"b":2}]` is a well-formed array of two flat objects. -/
theorem jdoc_example :
    JDocText [[("a".toList, "1".toList)], [("a".toList, "1".toList), ("b".toList, "2".toList)]]
      "[\x7b\"a\":1\x7d,\x7b\"a\":1,\"b\":2\x7d]".toList :=
  JDocText.some [] _ _ [] isWs_nil
    (JObjsText.more _ _ [] _ _
      (JObjText.some [] _ _ isWs_nil
        (JPairsText.last _ _ _ _ [] [] [] [] isWs_nil isWs_nil isWs_nil isWs_nil jstr_a jtok_1))
      isWs_nil
      (JObjsText.last _ _ []
        (JObjText.some [] _ _ isWs_nil
          (JPairsText.more _ _ _ _ [] [] [] [] _ _ isWs_nil isWs_nil isWs_nil isWs_nil
            jstr_a jtok_1
            (JPairsText.last _ _ _ _ [] [] [] [] isWs_nil isWs_nil isWs_nil isWs_nil
              jstr_b jtok_2)))
        isWs_nil))

/-- The text `[]` is a well-formed empty array. -/
theorem jdoc_empty : JDocText [] "[]".toList := JDocText.none [] [] [] isWs_nil isWs_nil

end DataConvert

/-- C10: on every well-formed array of flat objects `json_read_table` succeeds with one
row per object in array order, the columns being the distinct keys in order of first
occurrence over the whole document, and cell `(r, k)` the text of the value of key `k` in
object `r` (of its last pair with that key), the empty string when the object has no such
key. -/
theorem c10_json_read_table_semantics (doc : List (List (DataConvert.Str × DataConvert.Str)))
    (text : List Char) (h : DataConvert.JDocText doc text) :
    DataConvert.json_read_table text = some (DataConvert.json_spec_table doc) := by
  rw [DataConvert.json_read_table_text h, DataConvert.store_records_spec]

/-- C10 at the two documents of the specification: `[]` gives no column and no row, and
`[{"a":1},{"a":1,"b":2}]` gives the columns `a`, `b` with the rows `1`, empty and `1`, `2`. -/
theorem c10_json_read_table_semantics_witness :
    DataConvert.JDocText [] "[]".toList
      ∧ DataConvert.json_read_table "[]".toList = some ⟨[], []⟩
      ∧ DataConvert.JDocText
          [[("a".toList, "1".toList)], [("a".toList, "1".toList), ("b".toList, "2".toList)]]
          "[\x7b\"a\":1\x7d,\x7b\"a\":1,\"b\":2\x7d]".toList
      ∧ DataConvert.json_read_table "[\x7b\"a\":1\x7d,\x7b\"a\":1,\"b\":2\x7d]".toList
          = some ⟨["a".toList, "b".toList], [["1".toList, []], ["1".toList, "2".toList]]⟩ :=
  ⟨DataConvert.jdoc_empty,
    c10_json_read_table_semantics _ _ DataConvert.jdoc_empty,
    DataConvert.jdoc_example,
    c10_json_read_table_semantics _ _ DataConvert.jdoc_example⟩

namespace DataConvert

theorem jstrBody_escape {s : Str} (h : json_lossless s) : JStrBody s (json_escape_body s) := by
  induction s with
  | nil => exact JStrBody.done
  | cons c s ih =>
    have hc := h c (List.mem_cons_self _ _)
    have hs : json_lossless s := fun d hd => h d (List.mem_cons_of_mem _ hd)
    have ih' := ih hs
    unfold json_escape_body json_escape_char
    split_ifs with h1 h2 h3 h4 h5 h6 h7 h8
    · subst h1; exact JStrBody.esc '"' '"' _ _ (by decide) ih'
    · subst h2; exact JStrBody.esc '\\' '\\' _ _ (by decide) ih'
    · subst h3; exact JStrBody.esc 'b' '\x08' _ _ (by decide) ih'
    · subst h4; exact JStrBody.esc 'f' '\x0c' _ _ (by decide) ih'
    · subst h5; exact JStrBody.esc 'n' '\n' _ _ (by decide) ih'
    · subst h6; exact JStrBody.esc 'r' '\r' _ _ (by decide) ih'
    · subst h7; exact JStrBody.esc 't' '\t' _ _ (by decide) ih'
    · rcases hc.2 h8 with e | e | e | e | e <;> contradiction
    · exact JStrBody.raw c _ _ h1 h2 hc.1 ih'

theorem json_write_pairs_false (k v : Str) (ps : List (Str × Str)) :
    json_write_pairs false ((k, v) :: ps) = ',' :: ' ' :: json_write_pairs true ((k, v) :: ps) := by
  simp [json_write_pairs]

/-- The pairs written for a row, with the closing brace, have the shape the reader expects. -/
theorem jpairsText_write (ps : List (Str × Str)) (hne : ps ≠ [])
    (hl : ∀ kv ∈ ps, json_lossless kv.1 ∧ json_lossless kv.2) :
    ∀ w1, IsWs w1 → JPairsText ps (w1 ++ json_write_pairs true ps ++ ['}']) := by
  induction ps with
  | nil => exact absurd rfl hne
  | cons kv ps ih =>
    obtain ⟨k, v⟩ := kv
    intro w1 hw1
    have hkv := hl (k, v) (List.mem_cons_self _ _)
    have hsp : IsWs [' '] := by intro c hc; simp at hc; subst hc; decide
    cases ps with
    | nil =>
      have := JPairsText.last k v (json_escape_body k) (json_write_escaped v) w1 [] [' '] []
        hw1 isWs_nil hsp isWs_nil (jstrBody_escape hkv.1) (JValText.str v _ (jstrBody_escape hkv.2))
      simpa [json_write_pairs, json_write_escaped] using this
    | cons kv2 ps =>
      obtain ⟨k2, v2⟩ := kv2
      have ih' := ih (by simp) (fun x hx => hl x (List.mem_cons_of_mem _ hx)) [' '] hsp
      have := JPairsText.more k v (json_escape_body k) (json_write_escaped v) w1 [] [' '] []
        _ _ hw1 isWs_nil hsp isWs_nil (jstrBody_escape hkv.1)
        (JValText.str v _ (jstrBody_escape hkv.2)) ih'
      rw [json_write_pairs, json_write_pairs_false]
      simpa [json_write_escaped] using this

theorem jobjText_write (ps : List (Str × Str))
    (hl : ∀ kv ∈ ps, json_lossless kv.1 ∧ json_lossless kv.2) :
    JObjText ps ('\n' :: ' ' :: ' ' :: '{' :: json_write_pairs true ps ++ ['}']) := by
  have hw : IsWs ['\n', ' ', ' '] := by
    intro c hc; simp at hc; rcases hc with e | e <;> subst e <;> decide
  cases ps with
  | nil =>
    have := JObjText.none ['\n', ' ', ' '] [] hw isWs_nil
    simpa [json_write_pairs] using this
  | cons kv ps =>
    have h1 := jpairsText_write (kv :: ps) (by simp) hl [] isWs_nil
    have := JObjText.some ['\n', ' ', ' '] _ _ hw h1
    simpa using this

/-- The rows written for a table, with the closing bracket, have the shape the reader
expects. -/
theorem jobjsText_write (t : Table) (rs : List (List Str)) (hne : rs ≠ [])
    (hl : ∀ r ∈ rs, ∀ kv ∈ t.headers.zip (row_cells t r), json_lossless kv.1 ∧ json_lossless kv.2) :
    JObjsText (rs.map (fun r => t.headers.zip (row_cells t r)))
      ('\n' :: json_write_rows t rs ++ [']']) := by
  induction rs with
  | nil => exact absurd rfl hne
  | cons r rs ih =>
    have hr := jobjText_write _ (hl r (List.mem_cons_self _ _))
    have hnl : IsWs ['\n'] := by intro c hc; simp at hc; subst hc; decide
    cases rs with
    | nil =>
      have := JObjsText.last _ _ ['\n'] hr hnl
      simpa [json_write_rows] using this
    | cons r2 rs =>
      have ih' := ih (by simp) (fun x hx => hl x (List.mem_cons_of_mem _ hx))
      have := JObjsText.more _ _ [] _ _ hr isWs_nil ih'
      simpa [json_write_rows] using this

theorem range_map_getD (r : List Str) : (List.range r.length).map (fun c => r.getD c []) = r := by
  apply List.ext_getElem
  · simp
  · intro i h1 h2
    simp [List.getD_eq_getElem?_getD, h2]

theorem row_cells_eq {t : Table} {r : List Str} (h : r.length = t.headers.length) :
    row_cells t r = r := by
  unfold row_cells
  rw [← h]
  exact range_map_getD r

theorem first_occurrences_append_mem (l m : List Str) (h : ∀ x ∈ m, x ∈ l) :
    first_occurrences (l ++ m) = first_occurrences l := by
  induction m using List.reverseRecOn with
  | nil => simp
  | append_singleton m x ih =>
    rw [← List.append_assoc, first_occurrences_snoc]
    have hx : x ∈ l ++ m := List.mem_append_left _ (h x (by simp))
    rw [if_pos hx]
    exact ih (fun y hy => h y (by simp [hy]))

theorem zip_map_fst {H : List Str} {r : List Str} (h : r.length = H.length) :
    (H.zip r).map Prod.fst = H := by
  rw [List.map_fst_zip]
  omega

/-- Looking up every name of a duplicate-free header in the pairs of a row gives the row. -/
theorem lookup_zip (H : List Str) (hnd : H.Nodup) :
    ∀ r : List Str, r.length = H.length → H.map (fun k => lookup_last k (H.zip r)) = r := by
  induction H using List.reverseRecOn with
  | nil => intro r hr; simp at hr; simp [hr]
  | append_singleton H k ih =>
    intro r hr
    have hr' : r ≠ [] := by
      intro e; subst e; simp at hr
    obtain ⟨r', v, rfl⟩ : ∃ r' v, r = r' ++ [v] :=
      ⟨r.dropLast, r.getLast hr', (List.dropLast_append_getLast hr').symm⟩
    have hlen : r'.length = H.length := by simpa using hr
    have hnd' : H.Nodup ∧ k ∉ H := by
      rw [List.nodup_append] at hnd
      refine ⟨hnd.1, ?_⟩
      intro hk
      exact hnd.2.2 hk (by simp)
    have hz : (H ++ [k]).zip (r' ++ [v]) = H.zip r' ++ [(k, v)] := by
      rw [List.zip_append hlen.symm]
      rfl
    rw [hz, List.map_append]
    congr 1
    · rw [← ih hnd'.1 r' hlen]
      apply List.map_congr_left
      intro c hc
      rw [lookup_last_snoc, ih hnd'.1 r' hlen]
      have : k ≠ c := fun e => hnd'.2 (e ▸ hc)
      simp [this]
    · simp [lookup_last_snoc]

theorem keys_table_objects (t : Table) (hw : t.WellFormed) (r : List Str) (rs : List (List Str))
    (hrows : t.rows = r :: rs) :
    ∃ m, (table_objects t).flatten.map Prod.fst = t.headers ++ m ∧ ∀ x ∈ m, x ∈ t.headers := by
  unfold table_objects
  rw [hrows]
  refine ⟨((rs.map (fun r => t.headers.zip r)).flatten.map Prod.fst), ?_, ?_⟩
  · have hr : r.length = t.headers.length := hw.2 r (by simp [hrows])
    simp [zip_map_fst hr]
  · intro x hx
    simp only [List.map_flatten, List.mem_flatten, List.mem_map, List.map_map] at hx
    obtain ⟨l, ⟨r2, hr2, rfl⟩, hx2⟩ := hx
    have hr : r2.length = t.headers.length := hw.2 r2 (by simp [hrows, hr2])
    simp only [Function.comp] at hx2
    rw [zip_map_fst hr] at hx2
    exact hx2

/-- The specified table of the objects written for a well-formed table is the table, unless
the table has columns but no row. -/
theorem json_spec_table_objects (t : Table) (hw : t.WellFormed)
    (hne : t.rows ≠ [] ∨ t.headers = []) : json_spec_table (table_objects t) = t := by
  have hcols : first_occurrences ((table_objects t).flatten.map Prod.fst) = t.headers := by
    cases hrows : t.rows with
    | nil =>
      have hh : t.headers = [] := by
        rcases hne with h | h
        · exact absurd hrows h
        · exact h
      simp [table_objects, hrows, hh, first_occurrences]
    | cons r rs =>
      obtain ⟨m, hm, hmem⟩ := keys_table_objects t hw r rs hrows
      rw [hm, first_occurrences_append_mem _ _ hmem, first_occurrences_of_nodup hw.1]
  unfold json_spec_table
  rw [hcols]
  obtain ⟨H, R⟩ := t
  simp only [Table.mk.injEq, true_and]
  unfold table_objects
  simp only [List.map_map]
  have : ∀ r ∈ R, ((fun o => H.map (fun k => lookup_last k o)) ∘ fun r => H.zip r) r = id r := by
    intro r hr
    simp only [Function.comp, id]
    exact lookup_zip H hw.1 r (hw.2 r hr)
  rw [List.map_congr_left this]
  simp

theorem table_objects_row_cells (t : Table) (hw : t.WellFormed) :
    t.rows.map (fun r => t.headers.zip (row_cells t r)) = table_objects t := by
  unfold table_objects
  apply List.map_congr_left
  intro r hr
  rw [row_cells_eq (hw.2 r hr)]

/-- The text written for a well-formed table of lossless names and cells is a well-formed
array of the objects of its rows. -/
theorem jdocText_write (t : Table) (hw : t.WellFormed)
    (hn : ∀ k ∈ t.headers, json_lossless k) (hc : ∀ r ∈ t.rows, ∀ v ∈ r, json_lossless v) :
    JDocText (table_objects t) (json_write_table t) := by
  cases hrows : t.rows with
  | nil =>
    have := JDocText.none [] ['\n'] ['\n'] isWs_nil (by intro c hc; simp at hc; subst hc; decide)
    simpa [table_objects, json_write_table, hrows, json_write_rows] using this
  | cons r rs =>
    have hl : ∀ r ∈ t.rows, ∀ kv ∈ t.headers.zip (row_cells t r),
        json_lossless kv.1 ∧ json_lossless kv.2 := by
      intro r hr kv hkv
      rw [row_cells_eq (hw.2 r hr)] at hkv
      obtain ⟨k, v⟩ := kv
      have := List.of_mem_zip hkv
      exact ⟨hn k this.1, hc r hr v this.2⟩
    have h1 := jobjsText_write t t.rows (by simp [hrows]) hl
    rw [table_objects_row_cells t hw] at h1
    have := JDocText.some [] _ _ ['\n'] isWs_nil h1
    simpa [json_write_table] using this

end DataConvert

/-- C2 as stated fails: the well-formed table with the one column `a` and no row is
written as an empty array and read back without any column. -/
theorem c2_json_round_trip_counterexample :
    (⟨["a".toList], []⟩ : DataConvert.Table).WellFormed
      ∧ (∀ k ∈ (⟨["a".toList], []⟩ : DataConvert.Table).headers, DataConvert.json_lossless k)
      ∧ DataConvert.json_read_table (DataConvert.json_write_table ⟨["a".toList], []⟩)
          = some ⟨[], []⟩
      ∧ DataConvert.json_read_table (DataConvert.json_write_table ⟨["a".toList], []⟩)
          ≠ some ⟨["a".toList], []⟩ := by
  decide

/-- C2 (amended): for every well-formed table that has a row or has no column, and whose
names and cells are NUL-free and hold no control byte that the writer renders as `\u00XX`,
`json_read_table` on the output of `json_write_table` succeeds and returns the table. -/
theorem c2_json_round_trip (t : DataConvert.Table) (hw : t.WellFormed)
    (hn : ∀ k ∈ t.headers, DataConvert.json_lossless k)
    (hc : ∀ r ∈ t.rows, ∀ v ∈ r, DataConvert.json_lossless v)
    (hne : t.rows ≠ [] ∨ t.headers = []) :
    DataConvert.json_read_table (DataConvert.json_write_table t) = some t := by
  rw [DataConvert.json_read_table_text (DataConvert.jdocText_write t hw hn hc),
    DataConvert.store_records_spec, DataConvert.json_spec_table_objects t hw hne]

/-- C2 (amended) at a table of two columns and two rows with quotes, backslashes, line
breaks and an empty cell. -/
theorem c2_json_round_trip_witness :
    DataConvert.json_read_table (DataConvert.json_write_table
        ⟨["a".toList, "b c".toList], [["x\"y\n".toList, []], ["1".toList, "\\/\t".toList]]⟩)
      = some ⟨["a".toList, "b c".toList], [["x\"y\n".toList, []], ["1".toList, "\\/\t".toList]]⟩ :=
  c2_json_round_trip _ (by decide) (by decide) (by decide) (by decide)

namespace DataConvert

theorem getlines_line (l rest : List Char) (h : '\n' ∉ l) :
    getlines (l ++ '\n' :: rest) = (l ++ ['\n']) :: getlines rest := by
  induction l with
  | nil => simp [getlines]
  | cons a l ih =>
    have ha : a ≠ '\n' := fun e => h (e ▸ List.mem_cons_self _ _)
    have hl : '\n' ∉ l := fun e => h (List.mem_cons_of_mem _ e)
    simp [getlines, ha, ih hl]

theorem yaml_value_loop_quote (r : List Char) : yaml_value_loop ('"' :: r) = some [] := by
  cases r <;> simp [yaml_value_loop]

theorem yaml_value_loop_raw (c : Char) (r : List Char) (h1 : c ≠ '"') (h2 : c ≠ '\\') :
    yaml_value_loop (c :: r) = (yaml_value_loop r).map (fun o => c :: o) := by
  cases r <;> simp [yaml_value_loop, h1, h2]

theorem yaml_value_loop_esc (e : Char) (r : List Char) :
    yaml_value_loop ('\\' :: e :: r) = (yaml_value_loop r).map (fun o => yaml_unescape e :: o) := by
  simp [yaml_value_loop]

theorem yaml_value_loop_escape (v : Str) (rest : List Char) :
    yaml_value_loop (yaml_escape_body v ++ '"' :: rest) = some v := by
  induction v with
  | nil => exact yaml_value_loop_quote rest
  | cons c v ih =>
    unfold yaml_escape_body yaml_escape_char
    split_ifs with h1 h2 h3 h4 h5
    · subst h1; simp only [List.cons_append, List.nil_append]; rw [yaml_value_loop_esc, ih]; rfl
    · subst h2; simp only [List.cons_append, List.nil_append]; rw [yaml_value_loop_esc, ih]; rfl
    · subst h3; simp only [List.cons_append, List.nil_append]; rw [yaml_value_loop_esc, ih]; rfl
    · subst h4; simp only [List.cons_append, List.nil_append]; rw [yaml_value_loop_esc, ih]; rfl
    · subst h5; simp only [List.cons_append, List.nil_append]; rw [yaml_value_loop_esc, ih]; rfl
    · simp only [List.cons_append, List.nil_append]
      rw [yaml_value_loop_raw c _ h1 h2, ih]; rfl

theorem yaml_escape_body_no_nl (v : Str) : '\n' ∉ yaml_escape_body v := by
  induction v with
  | nil => simp [yaml_escape_body]
  | cons c v ih =>
    unfold yaml_escape_body yaml_escape_char
    split_ifs with h1 h2 h3 h4 h5 <;> simp [ih]
    exact fun e => h3 e.symm

theorem yaml_escape_body_no_nul (v : Str) (h : '\x00' ∉ v) : '\x00' ∉ yaml_escape_body v := by
  induction v with
  | nil => simp [yaml_escape_body]
  | cons c v ih =>
    have hc : c ≠ '\x00' := fun e => h (e ▸ List.mem_cons_self _ _)
    have hv : '\x00' ∉ v := fun e => h (List.mem_cons_of_mem _ e)
    unfold yaml_escape_body yaml_escape_char
    split_ifs with h1 h2 h3 h4 h5 <;> simp [ih hv]
    exact fun e => hc e.symm

theorem lskip_of_head {s : Str} (h : ∀ c ∈ s.head?, isspace c = false) : lskip s = s := by
  cases s with
  | nil => rfl
  | cons a s => simp [lskip, List.dropWhile_cons, h a (by simp)]

theorem head_of_lskip {s : Str} (h : lskip s = s) : ∀ c ∈ s.head?, isspace c = false := by
  cases s with
  | nil => simp
  | cons a s =>
    intro c hc
    simp only [List.head?_cons, Option.mem_def, Option.some.injEq] at hc
    subst hc
    by_contra hsp
    have hsp' : isspace a = true := by simpa using hsp
    have h1 : lskip (a :: s) = lskip s := by simp [lskip, List.dropWhile_cons, hsp']
    have h2 : (lskip s).length ≤ s.length := by
      unfold lskip
      exact (List.dropWhile_suffix _).length_le
    rw [h] at h1
    rw [← h1] at h2
    simp at h2

theorem rstrip_snoc (s : Str) (c : Char) (h : isspace c = false) : rstrip (s ++ [c]) = s ++ [c] := by
  unfold rstrip
  rw [List.rdropWhile_concat_neg]
  simp [h]

theorem rstrip_snoc_space (s : Str) (c : Char) (h : isspace c = true) :
    rstrip (s ++ [c]) = rstrip s := by
  unfold rstrip
  rw [List.rdropWhile_concat_pos _ _ _ h]

theorem yaml_parse_value_written (v : Str) :
    yaml_parse_value (' ' :: yaml_write_escaped v) = some v := by
  have e1 : lskip (' ' :: yaml_write_escaped v) = yaml_write_escaped v := by
    simp [lskip, List.dropWhile_cons, yaml_write_escaped, isspace]
  have e2 : rstrip (yaml_write_escaped v) = yaml_write_escaped v := by
    have : yaml_write_escaped v = ('"' :: yaml_escape_body v) ++ ['"'] := rfl
    rw [this]
    exact rstrip_snoc _ _ (by decide)
  unfold yaml_parse_value
  rw [e1, e2]
  simp [yaml_write_escaped, cur_peek, yaml_value_loop_escape]

/-- The text behind the dash or the indent of a written line, for the column `k`. -/
theorem yaml_pair_shape (k : Str) (hk : yaml_plain_name k) (x : List Char) :
    lskip (k ++ ':' :: x) = k ++ ':' :: x ∧ k ++ ':' :: x ≠ []
      ∧ cur_peek (k ++ ':' :: x) ≠ '#' ∧ ((k ++ ':' :: ' ' :: x).take 2 ≠ ['-', ' '])
      ∧ (k ++ ':' :: x).takeWhile (fun c => c != ':') = k
      ∧ (k ++ ':' :: x).dropWhile (fun c => c != ':') = ':' :: x := by
  obtain ⟨_, hcolon, _, hl, _, hhash, hdash⟩ := hk
  have hp : ∀ c ∈ k, (fun c => c != ':') c = true := by
    intro c hc
    have : c ≠ ':' := fun e => hcolon (e ▸ hc)
    simp [this]
  have hr : ∀ c ∈ (':' :: x).head?, (fun c => c != ':') c = false := by
    intro c hc; simp at hc; subst hc; simp
  refine ⟨?_, by simp, ?_, ?_, takeWhile_append_stop k _ hp hr, dropWhile_append_stop k _ hp hr⟩
  · apply lskip_of_head
    cases k with
    | nil => intro c hc; simp at hc; subst hc; decide
    | cons a k =>
      intro c hc
      simp only [List.cons_append, List.head?_cons, Option.mem_def, Option.some.injEq] at hc
      subst hc
      exact head_of_lskip hl _ (by simp)
  · cases k with
    | nil => simp [cur_peek]
    | cons a k => simpa [cur_peek] using hhash
  · match k, hdash with
    | [], _ => simp
    | [a], _ =>
      simp only [List.cons_append, List.nil_append, List.take_succ_cons, List.take_zero]
      intro h
      injection h with h1 h2
      injection h2 with h3 h4
      exact absurd h3 (by decide)
    | a :: b :: k, hdash => simpa using hdash

theorem yaml_key_value_written (t : Table) (row : Nat) (k v : Str) (hk : yaml_plain_name k) :
    yaml_key_value t (some row) (k ++ ':' :: ' ' :: yaml_write_escaped v)
      = some (table_set t row k v, some row) := by
  obtain ⟨h1, _, _, _, h5, h6⟩ := yaml_pair_shape k hk (' ' :: yaml_write_escaped v)
  unfold yaml_key_value
  simp only [h1, h5, h6, List.tail_cons, yaml_parse_value_written, hk.2.2.2.2.1]
  simp

theorem yaml_written_line (k v : Str) (hk : yaml_plain_name k) (hv : '\x00' ∉ v)
    (pre : List Char) (hpre : '\x00' ∉ pre) :
    rstrip (cstr (pre ++ (k ++ ':' :: ' ' :: yaml_write_escaped v) ++ ['\n']))
      = pre ++ (k ++ ':' :: ' ' :: yaml_write_escaped v) := by
  have hn : '\x00' ∉ pre ++ (k ++ ':' :: ' ' :: yaml_write_escaped v) ++ ['\n'] := by
    have := yaml_escape_body_no_nul v hv
    have := hk.1
    simp only [List.mem_append, List.mem_cons, yaml_write_escaped, not_or]
    simp [*]
  rw [cstr_of_no_nul _ hn, rstrip_snoc_space _ _ (by decide)]
  have : pre ++ (k ++ ':' :: ' ' :: yaml_write_escaped v)
      = (pre ++ (k ++ ':' :: ' ' :: '"' :: yaml_escape_body v)) ++ ['"'] := by
    simp [yaml_write_escaped]
  rw [this]
  exact rstrip_snoc _ _ (by decide)

/-- The reader on a written line of a further column stores the cell in the current row. -/
theorem yaml_line_more (t : Table) (row : Nat) (k v : Str) (hk : yaml_plain_name k)
    (hv : '\x00' ∉ v) :
    yaml_line t (some row) ([' ', ' '] ++ (k ++ ':' :: ' ' :: yaml_write_escaped v) ++ ['\n'])
      = some (table_set t row k v, some row) := by
  obtain ⟨h1, h2, h3, h4, _, _⟩ := yaml_pair_shape k hk (' ' :: yaml_write_escaped v)
  have e1 := yaml_written_line k v hk hv [' ', ' '] (by decide)
  have e2 : lskip ([' ', ' '] ++ (k ++ ':' :: ' ' :: yaml_write_escaped v))
      = k ++ ':' :: ' ' :: yaml_write_escaped v := by
    have hs : isspace ' ' = true := by decide
    have : lskip ([' ', ' '] ++ (k ++ ':' :: ' ' :: yaml_write_escaped v))
        = lskip (k ++ ':' :: ' ' :: yaml_write_escaped v) := by
      simp only [lskip, List.cons_append, List.nil_append, List.dropWhile_cons, hs, if_true]
    rw [this, h1]
  have h4' : (k ++ ':' :: ' ' :: yaml_write_escaped v).take 2 ≠ ['-', ' '] := by
    have := (yaml_pair_shape k hk (yaml_write_escaped v)).2.2.2.1
    exact this
  unfold yaml_line
  simp only [e1, e2, h2, h3, h4', if_false]
  exact yaml_key_value_written t row k v hk

/-- The reader on the written first line of a record adds a row and stores the cell. -/
theorem yaml_line_first (t : Table) (cur : Option Nat) (k v : Str) (hk : yaml_plain_name k)
    (hv : '\x00' ∉ v) :
    yaml_line t cur (['-', ' '] ++ (k ++ ':' :: ' ' :: yaml_write_escaped v) ++ ['\n'])
      = some (table_set (table_add_row t).1 (table_add_row t).2 k v, some (table_add_row t).2) := by
  obtain ⟨h1, h2, h3, h4, _, _⟩ := yaml_pair_shape k hk (' ' :: yaml_write_escaped v)
  have e1 := yaml_written_line k v hk hv ['-', ' '] (by decide)
  have e2 : lskip (['-', ' '] ++ (k ++ ':' :: ' ' :: yaml_write_escaped v))
      = ['-', ' '] ++ (k ++ ':' :: ' ' :: yaml_write_escaped v) := by
    have hs : isspace '-' = false := by decide
    simp [lskip, List.dropWhile_cons, hs]
  unfold yaml_line
  simp only [e1, e2]
  simp only [List.cons_append, List.nil_append, List.take_succ_cons, List.take_zero,
    List.drop_succ_cons, List.drop_zero, h1, h2, cur_peek, List.headD_cons, if_true, if_false,
    reduceCtorEq]
  rw [if_neg (by decide)]
  exact yaml_key_value_written _ _ k v hk

theorem yaml_line_empty_record (t : Table) (cur : Option Nat) :
    yaml_line t cur ['-', ' ', '{', '}', '\n']
      = some ((table_add_row t).1, some (table_add_row t).2) := by
  have e1 : lskip (rstrip (cstr ['-', ' ', '{', '}', '\n'])) = ['-', ' ', '{', '}'] := by decide
  unfold yaml_line
  rw [e1]
  have e2 : lskip (List.drop 2 ['-', ' ', '{', '}']) = ['{', '}'] := by decide
  simp only [e2]
  simp [cur_peek, yaml_key_value, lskip, List.dropWhile_cons, isspace]

theorem yaml_pair_no_nl (k v : Str) (hk : yaml_plain_name k) (pre : List Char)
    (hpre : '\n' ∉ pre) : '\n' ∉ pre ++ (k ++ ':' :: ' ' :: yaml_write_escaped v) := by
  have h1 := yaml_escape_body_no_nl v
  have h2 := hk.2.2.1
  simp only [List.mem_append, List.mem_cons, yaml_write_escaped, not_or]
  simp [*]

theorem yaml_lines_loop_more (ps : List (Str × Str))
    (hps : ∀ kv ∈ ps, yaml_plain_name kv.1 ∧ '\x00' ∉ kv.2) :
    ∀ (t : Table) (row : Nat) (rest : List Char),
      yaml_lines_loop t (some row) (getlines (yaml_write_more ps ++ rest))
        = yaml_lines_loop (ps.foldl (fun t1 kv => table_set t1 row kv.1 kv.2) t) (some row)
            (getlines rest) := by
  induction ps with
  | nil => intro t row rest; simp [yaml_write_more]
  | cons kv ps ih =>
    obtain ⟨k, v⟩ := kv
    intro t row rest
    have hkv := hps (k, v) (List.mem_cons_self _ _)
    have e0 : yaml_write_more ((k, v) :: ps) ++ rest
        = ([' ', ' '] ++ (k ++ ':' :: ' ' :: yaml_write_escaped v))
            ++ '\n' :: (yaml_write_more ps ++ rest) := by
      simp [yaml_write_more]
    rw [e0, getlines_line _ _ (yaml_pair_no_nl k v hkv.1 _ (by decide)), yaml_lines_loop,
      yaml_line_more t row k v hkv.1 hkv.2]
    simp only [List.foldl_cons]
    exact ih (fun x hx => hps x (List.mem_cons_of_mem _ hx)) _ row rest

/-- The reader on the written lines of one record adds a row and stores its cells. -/
theorem yaml_lines_loop_row (t0 : Table) (r : List Str)
    (hps : ∀ kv ∈ t0.headers.zip (row_cells t0 r), yaml_plain_name kv.1 ∧ '\x00' ∉ kv.2)
    (t : Table) (cur : Option Nat) (rest : List Char) :
    yaml_lines_loop t cur (getlines (yaml_write_row t0 r ++ rest))
      = yaml_lines_loop (store_record t (t0.headers.zip (row_cells t0 r)))
          (some (table_add_row t).2) (getlines rest) := by
  unfold yaml_write_row
  cases hz : t0.headers.zip (row_cells t0 r) with
  | nil =>
    have e0 : ['-', ' ', '{', '}', '\n'] ++ rest = ['-', ' ', '{', '}'] ++ '\n' :: rest := by simp
    simp only
    rw [e0, getlines_line _ _ (by decide), yaml_lines_loop]
    have := yaml_line_empty_record t cur
    simp only [List.cons_append, List.nil_append] at this ⊢
    rw [this]
    simp [store_record]
  | cons kv ps =>
    obtain ⟨k, v⟩ := kv
    rw [hz] at hps
    have hkv := hps (k, v) (List.mem_cons_self _ _)
    have e0 : ['-', ' '] ++ k ++ [':', ' '] ++ yaml_write_escaped v ++ ['\n'] ++ yaml_write_more ps
          ++ rest
        = (['-', ' '] ++ (k ++ ':' :: ' ' :: yaml_write_escaped v))
            ++ '\n' :: (yaml_write_more ps ++ rest) := by
      simp
    simp only
    rw [e0, getlines_line _ _ (yaml_pair_no_nl k v hkv.1 _ (by decide)), yaml_lines_loop,
      yaml_line_first t cur k v hkv.1 hkv.2]
    simp only
    rw [yaml_lines_loop_more ps (fun x hx => hps x (List.mem_cons_of_mem _ hx))]
    simp [store_record]

/-- The reader on the written records stores them one after the other. -/
theorem yaml_lines_loop_rows (t0 : Table) (rs : List (List Str))
    (hps : ∀ r ∈ rs, ∀ kv ∈ t0.headers.zip (row_cells t0 r), yaml_plain_name kv.1 ∧ '\x00' ∉ kv.2) :
    ∀ (t : Table) (cur : Option Nat),
      yaml_lines_loop t cur (getlines ((rs.map (yaml_write_row t0)).flatten))
        = some ((rs.map (fun r => t0.headers.zip (row_cells t0 r))).foldl store_record t) := by
  induction rs with
  | nil => intro t cur; simp [getlines, yaml_lines_loop]
  | cons r rs ih =>
    intro t cur
    simp only [List.map_cons, List.flatten_cons, List.foldl_cons]
    rw [yaml_lines_loop_row t0 r (hps r (List.mem_cons_self _ _))]
    exact ih (fun x hx => hps x (List.mem_cons_of_mem _ hx)) _ _

end DataConvert

/-- C3 as stated fails: the well-formed table with the one column `a:b` and the one cell
`v` is written as `- a:b: "v"` and read back as a column `a` holding `b: "v"`. -/
theorem c3_yaml_round_trip_counterexample :
    (⟨["a:b".toList], [["v".toList]]⟩ : DataConvert.Table).WellFormed
      ∧ DataConvert.yaml_read_table (DataConvert.yaml_write_table ⟨["a:b".toList], [["v".toList]]⟩)
          = some ⟨["a".toList], [["b: \"v\"".toList]]⟩
      ∧ DataConvert.yaml_read_table (DataConvert.yaml_write_table ⟨["a:b".toList], [["v".toList]]⟩)
          ≠ some ⟨["a:b".toList], [["v".toList]]⟩ := by
  decide

/-- C3 (amended): for every well-formed table that has a row or has no column, whose column
names are NUL-free, hold no colon and no line feed, have no blank at either end and do not
start with `#` or with `- `, and whose cells are arbitrary NUL-free text, `yaml_read_table`
on the output of `yaml_write_table` succeeds and returns the table. -/
theorem c3_yaml_round_trip (t : DataConvert.Table) (hw : t.WellFormed)
    (hn : ∀ k ∈ t.headers, DataConvert.yaml_plain_name k)
    (hc : ∀ r ∈ t.rows, ∀ v ∈ r, '\x00' ∉ v)
    (hne : t.rows ≠ [] ∨ t.headers = []) :
    DataConvert.yaml_read_table (DataConvert.yaml_write_table t) = some t := by
  have hps : ∀ r ∈ t.rows, ∀ kv ∈ t.headers.zip (DataConvert.row_cells t r),
      DataConvert.yaml_plain_name kv.1 ∧ '\x00' ∉ kv.2 := by
    intro r hr kv hkv
    rw [DataConvert.row_cells_eq (hw.2 r hr)] at hkv
    obtain ⟨k, v⟩ := kv
    have := List.of_mem_zip hkv
    exact ⟨hn k this.1, hc r hr v this.2⟩
  unfold DataConvert.yaml_read_table DataConvert.yaml_write_table
  rw [DataConvert.yaml_lines_loop_rows t t.rows hps, DataConvert.table_objects_row_cells t hw,
    DataConvert.store_records_spec, DataConvert.json_spec_table_objects t hw hne]

/-- C3 (amended) at a table of two columns and two rows whose cells hold quotes, a
backslash, line breaks, a colon, a `#`, blanks at the ends and the empty text. -/
theorem c3_yaml_round_trip_witness :
    DataConvert.yaml_read_table (DataConvert.yaml_write_table
        ⟨["a".toList, "b c".toList],
          [[" x\"y\n".toList, []], ["# 1: 2 ".toList, "\\\r\t".toList]]⟩)
      = some ⟨["a".toList, "b c".toList],
          [[" x\"y\n".toList, []], ["# 1: 2 ".toList, "\\\r\t".toList]]⟩ :=
  c3_yaml_round_trip _ (by decide) (by decide) (by decide) (by decide)

namespace DataConvert

/-! ## CSV: the field scanner -/

theorem csv_field_loop_nil (q : Bool) : csv_field_loop q [] = ⟨q, [], []⟩ := by
  cases q <;> simp [csv_field_loop]

theorem csv_field_loop_unquoted (ch : Char) (r : List Char) :
    csv_field_loop false (ch :: r)
      = if ch = ',' ∨ ch = '\n' ∨ ch = '\r' then ⟨false, ch :: r, []⟩
        else (csv_field_loop false r).push ch := by
  simp [csv_field_loop]

theorem csv_field_loop_quoted_char (ch : Char) (r : List Char) (h : ch ≠ '"') :
    csv_field_loop true (ch :: r) = (csv_field_loop true r).push ch := by
  match r with
  | [] => simp [csv_field_loop, h]
  | [_] => simp [csv_field_loop, h]
  | _ :: _ :: _ => simp [csv_field_loop, h]

theorem csv_field_loop_quoted_end (d : Char) (r : List Char) (h : d ≠ '"') :
    csv_field_loop true ('"' :: d :: r) = ⟨false, (d :: r).dropWhile csv_blank, []⟩ := by
  cases r <;> simp [csv_field_loop, h]

theorem csv_field_loop_quoted_eof : csv_field_loop true ['"'] = ⟨false, [], []⟩ := by
  simp [csv_field_loop]

/-- The unquoted scan copies the text up to the next comma or line break. -/
theorem csv_field_loop_plain (s z : List Char) (hs : ∀ c ∈ s, ¬ csv_stop c)
    (hz : ∀ c ∈ z.head?, csv_stop c) : csv_field_loop false (s ++ z) = ⟨false, z, s⟩ := by
  induction s with
  | nil =>
    cases z with
    | nil => exact csv_field_loop_nil false
    | cons a z =>
      have : a = ',' ∨ a = '\n' ∨ a = '\r' := hz a (by simp)
      simp [csv_field_loop_unquoted, this]
  | cons a s ih =>
    have ha : ¬ (a = ',' ∨ a = '\n' ∨ a = '\r') := hs a (List.mem_cons_self _ _)
    rw [List.cons_append, csv_field_loop_unquoted, if_neg ha,
      ih (fun c hc => hs c (List.mem_cons_of_mem _ hc))]
    rfl

/-- The quoted scan copies a text without quotes up to the closing quote. -/
theorem csv_field_loop_quoted (s : List Char) (d : Char) (z : List Char) (hs : '"' ∉ s)
    (hd : d ≠ '"') :
    csv_field_loop true (s ++ '"' :: d :: z) = ⟨false, (d :: z).dropWhile csv_blank, s⟩ := by
  induction s with
  | nil => exact csv_field_loop_quoted_end d z hd
  | cons a s ih =>
    have ha : a ≠ '"' := fun e => hs (e ▸ List.mem_cons_self _ _)
    rw [List.cons_append, csv_field_loop_quoted_char a _ ha,
      ih (fun e => hs (List.mem_cons_of_mem _ e))]
    rfl

theorem csv_need_quote_false {s : Str} (h : csv_need_quote s = false) :
    ∀ c ∈ s, ¬ csv_stop c ∧ c ≠ '"' := by
  intro c hc
  have h1 : ¬ ∃ c ∈ s, c = ',' ∨ c = '"' ∨ c = '\n' ∨ c = '\r' := by
    intro hex
    have := (csv_need_quote_iff s).2 hex
    rw [h] at this
    cases this
  constructor
  · intro hst
    apply h1
    rcases hst with e | e | e
    · exact ⟨c, hc, Or.inl e⟩
    · exact ⟨c, hc, Or.inr (Or.inr (Or.inl e))⟩
    · exact ⟨c, hc, Or.inr (Or.inr (Or.inr e))⟩
  · intro e
    exact h1 ⟨c, hc, Or.inr (Or.inl e)⟩

theorem csv_double_quotes_id {s : Str} (h : '"' ∉ s) : csv_double_quotes s = s := by
  induction s with
  | nil => rfl
  | cons a s ih =>
    have ha : a ≠ '"' := fun e => h (e ▸ List.mem_cons_self _ _)
    simp [csv_double_quotes, ha, ih (fun e => h (List.mem_cons_of_mem _ e))]

/-- The reader on an empty field in front of a comma or a line break. -/
theorem csv_parse_field_empty (z : List Char) (hz : ∀ c ∈ z.head?, csv_stop c) :
    csv_parse_field z = ([], z) := by
  have h1 : cur_peek z ≠ '"' := by
    cases z with
    | nil => simp [cur_peek]
    | cons a z =>
      have : csv_stop a := hz a (by simp)
      simp only [cur_peek, List.headD_cons]
      rcases this with e | e | e <;> subst e <;> decide
  have h2 := csv_field_loop_plain [] z (by simp) hz
  simp only [List.nil_append] at h2
  simp [csv_parse_field, csv_field_result, h1, h2]

/-- The reader on a written non-empty cell without quotes, in front of a comma or a line
break: the cell, and the comma consumed. -/
theorem csv_parse_field_written (c : Str) (d : Char) (z : List Char) (hne : c ≠ [])
    (hnul : '\x00' ∉ c) (hq : '"' ∉ c) (hd : csv_stop d) :
    csv_parse_field (csv_write_escaped c ++ d :: z) = (c, if d = ',' then z else d :: z) := by
  have hdq : d ≠ '"' := by rcases hd with e | e | e <;> subst e <;> decide
  have hdb : csv_blank d = false := by rcases hd with e | e | e <;> subst e <;> decide
  obtain ⟨a, c', rfl⟩ := List.exists_cons_of_ne_nil hne
  unfold csv_write_escaped
  cases hn : csv_need_quote (a :: c') with
  | false =>
    have hp := csv_need_quote_false hn
    have h1 : cur_peek (a :: c' ++ d :: z) ≠ '"' := by
      simpa [cur_peek] using (hp a (List.mem_cons_self _ _)).2
    have h2 := csv_field_loop_plain (a :: c') (d :: z) (fun x hx => (hp x hx).1)
      (by intro x hx; simp at hx; subst hx; exact hd)
    simp only [Bool.false_eq_true, if_false]
    unfold csv_parse_field
    simp only [h1, if_false, h2]
    simp only [csv_field_result, reduceCtorEq, if_false, cstr_of_no_nul _ hnul, Bool.not_false,
      Bool.true_and, cur_peek, List.headD_cons, List.tail_cons, decide_eq_true_eq]
  | true =>
    have h2 := csv_field_loop_quoted (a :: c') d z hq hdq
    have h3 : (d :: z).dropWhile csv_blank = d :: z := by
      simp [List.dropWhile_cons, hdb]
    rw [h3] at h2
    simp only [if_true, csv_double_quotes_id hq]
    unfold csv_parse_field
    have e0 : '"' :: (a :: c') ++ ['"'] ++ d :: z = '"' :: ((a :: c') ++ '"' :: d :: z) := by simp
    rw [e0]
    simp only [cur_peek, List.headD_cons, if_true, List.tail_cons, h2]
    simp only [csv_field_result, reduceCtorEq, if_false, cstr_of_no_nul _ hnul, Bool.not_false,
      Bool.true_and, cur_peek, List.headD_cons, List.tail_cons, decide_eq_true_eq]

/-- A written non-empty cell starts with a character that is neither a comma nor a line
break. -/
theorem csv_write_escaped_head (c : Str) (hne : c ≠ []) (z : List Char) :
    ∃ a r, csv_write_escaped c ++ z = a :: r ∧ ¬ csv_stop a := by
  unfold csv_write_escaped
  cases hn : csv_need_quote c with
  | true => exact ⟨'"', csv_double_quotes c ++ '"' :: z, by simp, by decide⟩
  | false =>
    obtain ⟨a, c', rfl⟩ := List.exists_cons_of_ne_nil hne
    exact ⟨a, c' ++ z, by simp, (csv_need_quote_false hn a (List.mem_cons_self _ _)).1⟩

/-! ## CSV: line breaks and blank lines -/

theorem csv_consume_newline_other (a : Char) (r : List Char) (h1 : a ≠ '\n') (h2 : a ≠ '\r') :
    csv_consume_newline (a :: r) = (false, a :: r) := by
  simp [csv_consume_newline, h1, h2]

theorem csv_skip_empty_lines_fuel_on_record (n : Nat) (c : List Char) (h : csv_on_record c) :
    csv_skip_empty_lines_fuel n c = c := by
  cases n with
  | zero => rfl
  | succ n =>
    unfold csv_on_record at h
    rw [csv_skip_empty_lines_fuel]
    split
    · next c1 heq => rw [heq] at h; cases h
    · rfl

theorem csv_skip_empty_lines_on_record (c : List Char) (h : csv_on_record c) :
    csv_skip_empty_lines c = c := csv_skip_empty_lines_fuel_on_record _ c h

theorem csv_on_record_of_head (a : Char) (r : List Char) (h1 : csv_blank a = false)
    (h2 : a ≠ '\n') (h3 : a ≠ '\r') : csv_on_record (a :: r) := by
  unfold csv_on_record
  simp [List.dropWhile_cons, h1, csv_consume_newline_other a r h2 h3]

/-! ## Storing a record under a duplicate-free header -/

theorem find_header_from_mid (done : List Str) (h : Str) (x : List Str) (hd : h ∉ done) (i : Nat) :
    find_header_from (done ++ h :: x) h i = some (i + done.length) := by
  induction done generalizing i with
  | nil => simp [find_header_from]
  | cons a done ih =>
    have h1 : a ≠ h := fun e => hd (e ▸ List.mem_cons_self _ _)
    have h2 : h ∉ done := fun e => hd (List.mem_cons_of_mem _ e)
    simp [find_header_from, h1, ih h2]
    omega

theorem set_append_cons {α : Type} (pre : List α) (a v : α) (r : List α) :
    (pre ++ a :: r).set pre.length v = pre ++ v :: r := by
  induction pre with
  | nil => rfl
  | cons b pre ih => simp [List.set, ih]

theorem pad_row_cons (n : Nat) (v : Str) (vs : List Str) :
    pad_row (n + 1) (v :: vs) = v :: pad_row n vs := by
  simp [pad_row]

theorem pad_row_nil (n : Nat) : pad_row n [] = List.replicate n [] := by
  simp [pad_row]

theorem pad_row_zero (vs : List Str) : pad_row 0 vs = [] := by
  simp [pad_row]

theorem pad_row_self (vs : List Str) : pad_row vs.length vs = vs := by
  simp [pad_row]

/-- Storing the cell of an existing column of a duplicate-free header in the last row. -/
theorem table_set_last (done hs : List Str) (h v : Str) (R : List (List Str))
    (pre rep : List Str) (hnd : (done ++ h :: hs).Nodup) (hpre : pre.length = done.length) :
    table_set ⟨done ++ h :: hs, R ++ [pre ++ [] :: rep]⟩ R.length h v
      = ⟨done ++ h :: hs, R ++ [pre ++ v :: rep]⟩ := by
  have hd : h ∉ done := by
    rw [List.nodup_append] at hnd
    intro hm
    exact hnd.2.2 hm (List.mem_cons_self _ _)
  have hf := find_header_from_mid done h hs hd 0
  simp only [Nat.zero_add] at hf
  unfold table_set ensure_col find_header
  simp only [hf]
  rw [getD_length_snoc, set_length_snoc, ← hpre, set_append_cons]

/-- Storing the fields of a record by position fills the new row with the first fields and
leaves the columns without a field empty. -/
theorem store_zip_from (hs : List Str) :
    ∀ (done : List Str) (vs : List Str) (R : List (List Str)) (pre : List Str),
      (done ++ hs).Nodup → pre.length = done.length →
      (hs.zip vs).foldl (fun t kv => table_set t R.length kv.1 kv.2)
          ⟨done ++ hs, R ++ [pre ++ List.replicate hs.length []]⟩
        = ⟨done ++ hs, R ++ [pre ++ pad_row hs.length vs]⟩ := by
  induction hs with
  | nil => intro done vs R pre _ _; simp [pad_row_zero]
  | cons h hs ih =>
    intro done vs R pre hnd hpre
    cases vs with
    | nil => simp [pad_row_nil]
    | cons v vs =>
      simp only [List.zip_cons_cons, List.foldl_cons, List.length_cons, List.replicate_succ]
      rw [table_set_last done hs h v R pre _ hnd hpre]
      have e1 : done ++ h :: hs = (done ++ [h]) ++ hs := by simp
      have e2 : pre ++ v :: List.replicate hs.length ([] : Str)
          = (pre ++ [v]) ++ List.replicate hs.length [] := by simp
      rw [e1, e2, ih (done ++ [h]) vs R (pre ++ [v]) (by rw [← e1]; exact hnd) (by simp [hpre])]
      simp [pad_row_cons]

theorem store_record_zip (H : List Str) (hnd : H.Nodup) (R : List (List Str)) (vs : List Str) :
    store_record ⟨H, R⟩ (H.zip vs) = ⟨H, R ++ [pad_row H.length vs]⟩ := by
  have := store_zip_from H [] vs R [] (by simpa using hnd) rfl
  simpa [store_record, table_add_row] using this

theorem ensure_col_fold (names : List Str) :
    ∀ done : List Str, names.foldl ensure_col ⟨first_occurrences done, []⟩
      = ⟨first_occurrences (done ++ names), []⟩ := by
  induction names with
  | nil => intro done; simp
  | cons k names ih =>
    intro done
    have step : ensure_col ⟨first_occurrences done, []⟩ k = ⟨first_occurrences (done ++ [k]), []⟩ := by
      rw [first_occurrences_snoc]
      unfold ensure_col find_header
      by_cases hk : k ∈ done
      · obtain ⟨j, hj⟩ := find_header_from_some (mem_first_occurrences.2 hk) 0
        simp [hj, hk]
      · have := find_header_from_none (fun h => hk (mem_first_occurrences.1 h)) 0
        simp [this, hk]
    rw [List.foldl_cons, step, ih]
    simp

/-! ## CSV: written lines -/

theorem csv_write_line_cons2 (c c2 : Str) (cs : List Str) :
    csv_write_line (c :: c2 :: cs) = csv_write_escaped c ++ ',' :: csv_write_line (c2 :: cs) := by
  simp [csv_write_line]

theorem csv_write_line_one (c : Str) : csv_write_line [c] = csv_write_escaped c ++ ['\n'] := by
  simp [csv_write_line]

theorem csv_write_escaped_nil : csv_write_escaped [] = [] := by
  simp [csv_write_escaped, csv_need_quote]

theorem csv_blank_isspace {a : Char} (h : csv_blank a = true) : isspace a = true := by
  unfold csv_blank at h
  unfold isspace
  simp only [Bool.or_eq_true, decide_eq_true_eq] at h ⊢
  rcases h with e | e
  · exact Or.inl (Or.inl (Or.inl (Or.inl (Or.inl e))))
  · exact Or.inl (Or.inl (Or.inl (Or.inl (Or.inr e))))

theorem rstrip_last_not_space {c : Str} (h : rstrip c = c) (hne : c ≠ []) :
    isspace (c.getLast hne) = false := by
  by_contra hsp
  have hsp' : isspace (c.getLast hne) = true := by simpa using hsp
  have e := List.dropLast_append_getLast hne
  have h2 : rstrip c = rstrip c.dropLast := by
    conv_lhs => rw [← e]
    exact rstrip_snoc_space _ _ hsp'
  have h3 : (rstrip c.dropLast).length ≤ c.dropLast.length := by
    unfold rstrip
    exact (List.rdropWhile_prefix _ _).length_le
  rw [← h2, h] at h3
  simp at h3
  have : c.length ≠ 0 := by simpa using hne
  omega

theorem csv_on_record_append (c z : List Char) (hc : ∀ x ∈ c, x ≠ '\n' ∧ x ≠ '\r')
    (ha : ∃ a ∈ c, csv_blank a = false) : csv_on_record (c ++ z) := by
  induction c with
  | nil => obtain ⟨a, ha, _⟩ := ha; cases ha
  | cons x c ih =>
    by_cases hx : csv_blank x = true
    · have : csv_on_record (x :: c ++ z) ↔ csv_on_record (c ++ z) := by
        unfold csv_on_record
        simp [List.dropWhile_cons, hx]
      rw [List.cons_append]
      apply this.2
      apply ih (fun y hy => hc y (List.mem_cons_of_mem _ hy))
      obtain ⟨a, ha1, ha2⟩ := ha
      rcases List.mem_cons.1 ha1 with e | e
      · subst e; rw [hx] at ha2; cases ha2
      · exact ⟨a, e, ha2⟩
    · have hx' : csv_blank x = false := by simpa using hx
      have := hc x (List.mem_cons_self _ _)
      exact csv_on_record_of_head x _ hx' this.1 this.2

/-- A written line of plain fields is not blank. -/
theorem csv_on_record_written (cs : List Str) (hl : csv_plain_line cs) (rest : List Char) :
    csv_on_record (csv_write_line cs ++ rest) := by
  obtain ⟨hne, hne1, _, hcells⟩ := hl
  obtain ⟨c, cs', rfl⟩ := List.exists_cons_of_ne_nil hne
  have hc := hcells c (List.mem_cons_self _ _)
  by_cases hce : c = []
  · subst hce
    cases cs' with
    | nil => exact absurd rfl hne1
    | cons c2 cs' =>
      rw [csv_write_line_cons2, csv_write_escaped_nil]
      exact csv_on_record_of_head ',' _ (by decide) (by decide) (by decide)
  · have key : ∀ z, csv_on_record (csv_write_escaped c ++ z) := by
      intro z
      unfold csv_write_escaped
      cases hn : csv_need_quote c with
      | true =>
        simp only [if_true]
        exact csv_on_record_of_head '"' _ (by decide) (by decide) (by decide)
      | false =>
        simp only [Bool.false_eq_true, if_false]
        have hp := csv_need_quote_false hn
        apply csv_on_record_append
        · intro x hx
          have := (hp x hx).1
          exact ⟨fun e => this (Or.inr (Or.inl e)), fun e => this (Or.inr (Or.inr e))⟩
        · refine ⟨c.getLast hce, List.getLast_mem hce, ?_⟩
          have := rstrip_last_not_space hc.2.2 hce
          by_contra hb
          have hb' : csv_blank (c.getLast hce) = true := by simpa using hb
          rw [csv_blank_isspace hb'] at this
          cases this
    cases cs' with
    | nil => rw [csv_write_line_one, List.append_assoc]; exact key _
    | cons c2 cs' =>
      rw [csv_write_line_cons2, List.append_assoc]; exact key _

theorem csv_write_escaped_no_break (c : Str) (h : '\n' ∉ c ∧ '\r' ∉ c) :
    ∀ x ∈ csv_write_escaped c, x ≠ '\n' ∧ x ≠ '\r' := by
  have hdq : ∀ s : Str, ('\n' ∉ s ∧ '\r' ∉ s) → ∀ x ∈ csv_double_quotes s, x ≠ '\n' ∧ x ≠ '\r' := by
    intro s
    induction s with
    | nil => intro _ x hx; simp [csv_double_quotes] at hx
    | cons a s ih =>
      intro hs x hx
      have ha : a ≠ '\n' ∧ a ≠ '\r' :=
        ⟨fun e => hs.1 (e ▸ List.mem_cons_self _ _), fun e => hs.2 (e ▸ List.mem_cons_self _ _)⟩
      have hs' : '\n' ∉ s ∧ '\r' ∉ s :=
        ⟨fun e => hs.1 (List.mem_cons_of_mem _ e), fun e => hs.2 (List.mem_cons_of_mem _ e)⟩
      unfold csv_double_quotes at hx
      split_ifs at hx with hq
      · simp only [List.mem_cons] at hx
        rcases hx with e | e | e
        · subst e; exact ⟨by decide, by decide⟩
        · subst e; exact ha
        · exact ih hs' x e
      · simp only [List.mem_cons] at hx
        rcases hx with e | e
        · subst e; exact ha
        · exact ih hs' x e
  intro x hx
  unfold csv_write_escaped at hx
  split_ifs at hx
  · simp only [List.mem_cons, List.mem_append, List.mem_singleton, List.not_mem_nil,
      or_false] at hx
    rcases hx with (e | e) | e
    · subst e; exact ⟨by decide, by decide⟩
    · exact hdq c h x e
    · subst e; exact ⟨by decide, by decide⟩
  · exact ⟨fun e => h.1 (e ▸ hx), fun e => h.2 (e ▸ hx)⟩

/-- Skipping to the end of the line passes a written line whose fields hold no line break. -/
theorem csv_skip_line_written (cs : List Str) (hne : cs ≠ [])
    (hc : ∀ c ∈ cs, '\n' ∉ c ∧ '\r' ∉ c) (rest : List Char) :
    csv_skip_line (csv_write_line cs ++ rest) = rest := by
  have key : ∀ cs : List Str, cs ≠ [] → (∀ c ∈ cs, '\n' ∉ c ∧ '\r' ∉ c) →
      ∃ body, csv_write_line cs = body ++ ['\n'] ∧ ∀ x ∈ body, x ≠ '\n' ∧ x ≠ '\r' := by
    intro cs
    induction cs with
    | nil => intro h; exact absurd rfl h
    | cons c cs ih =>
      intro _ hc
      have h1 := csv_write_escaped_no_break c (hc c (List.mem_cons_self _ _))
      cases cs with
      | nil => exact ⟨csv_write_escaped c, csv_write_line_one c, h1⟩
      | cons c2 cs =>
        obtain ⟨body, hb, hbody⟩ := ih (by simp) (fun x hx => hc x (List.mem_cons_of_mem _ hx))
        refine ⟨csv_write_escaped c ++ ',' :: body, ?_, ?_⟩
        · rw [csv_write_line_cons2, hb]; simp
        · intro x hx
          simp only [List.mem_append, List.mem_cons] at hx
          rcases hx with e | e | e
          · exact h1 x e
          · subst e; exact ⟨by decide, by decide⟩
          · exact hbody x e
  obtain ⟨body, hb, hbody⟩ := key cs hne hc
  unfold csv_skip_line
  rw [hb, List.append_assoc]
  have hp : ∀ x ∈ body, (fun ch => ch != '\n' && ch != '\r') x = true := by
    intro x hx; simp [(hbody x hx).1, (hbody x hx).2]
  rw [dropWhile_append_stop body _ hp (by intro x hx; simp at hx; subst hx; simp)]
  simp [csv_consume_newline]

/-! ## CSV: the loops of the reader, one step at a time -/

theorem csv_row_loop_comma (h : Str) (hs : List Str) (row : Nat) (t : Table) (c : List Char)
    (f : Str) (x : List Char) (hp : csv_parse_field c = (f, ',' :: x)) :
    csv_row_loop (h :: hs) row t c = csv_row_loop hs row (table_set t row h (rstrip f)) x := by
  simp [csv_row_loop, hp, cur_peek]

theorem csv_row_loop_break (h : Str) (hs : List Str) (row : Nat) (t : Table) (c : List Char)
    (f : Str) (x : List Char) (hp : csv_parse_field c = (f, '\n' :: x)) :
    csv_row_loop (h :: hs) row t c = (table_set t row h (rstrip f), x, true) := by
  simp [csv_row_loop, hp, cur_peek, csv_consume_newline]

theorem csv_row_loop_go (h : Str) (hs : List Str) (row : Nat) (t : Table) (c : List Char)
    (f : Str) (a : Char) (x : List Char) (hp : csv_parse_field c = (f, a :: x))
    (ha : ¬ csv_stop a) :
    csv_row_loop (h :: hs) row t c = csv_row_loop hs row (table_set t row h (rstrip f)) (a :: x) := by
  have h1 : a ≠ ',' := fun e => ha (Or.inl e)
  have h2 : a ≠ '\n' := fun e => ha (Or.inr (Or.inl e))
  have h3 : a ≠ '\r' := fun e => ha (Or.inr (Or.inr e))
  simp [csv_row_loop, hp, cur_peek, h1, h2, h3]

theorem csv_header_loop_comma (n : Nat) (t : Table) (c : List Char) (hc : c ≠ [])
    (f : Str) (x : List Char) (hp : csv_parse_field c = (f, ',' :: x)) :
    csv_header_loop (n + 1) t c = csv_header_loop n (ensure_col t (lskip (rstrip f))) x := by
  simp [csv_header_loop, hc, hp, cur_peek]

theorem csv_header_loop_break (n : Nat) (t : Table) (c : List Char) (hc : c ≠ [])
    (f : Str) (x : List Char) (hp : csv_parse_field c = (f, '\n' :: x)) :
    csv_header_loop (n + 1) t c = (ensure_col t (lskip (rstrip f)), x) := by
  simp [csv_header_loop, hc, hp, cur_peek, csv_consume_newline]

theorem csv_header_loop_go (n : Nat) (t : Table) (c : List Char) (hc : c ≠ [])
    (f : Str) (a : Char) (x : List Char) (hp : csv_parse_field c = (f, a :: x))
    (ha : ¬ csv_stop a) :
    csv_header_loop (n + 1) t c = csv_header_loop n (ensure_col t (lskip (rstrip f))) (a :: x) := by
  have h1 : a ≠ ',' := fun e => ha (Or.inl e)
  have h2 : a ≠ '\n' := fun e => ha (Or.inr (Or.inl e))
  have h3 : a ≠ '\r' := fun e => ha (Or.inr (Or.inr e))
  simp [csv_header_loop, hc, hp, cur_peek, csv_consume_newline, h1, h2, h3]

/-- The reader on the first field of a written line. -/
theorem csv_parse_field_line (c : Str) (cs : List Str) (rest : List Char)
    (hc : csv_plain_cell c) :
    csv_parse_field (csv_write_line (c :: cs) ++ rest)
      = (c, match cs with
            | [] => '\n' :: rest
            | c2 :: cs2 =>
              if c = [] then ',' :: (csv_write_line (c2 :: cs2) ++ rest)
              else csv_write_line (c2 :: cs2) ++ rest) := by
  by_cases hce : c = []
  · subst hce
    cases cs with
    | nil =>
      rw [csv_write_line_one, csv_write_escaped_nil]
      exact csv_parse_field_empty _ (by intro x hx; simp at hx; subst hx; exact Or.inr (Or.inl rfl))
    | cons c2 cs2 =>
      rw [csv_write_line_cons2, csv_write_escaped_nil]
      simp only [List.nil_append, List.cons_append, if_true]
      exact csv_parse_field_empty _ (by intro x hx; simp at hx; subst hx; exact Or.inl rfl)
  · cases cs with
    | nil =>
      rw [csv_write_line_one, List.append_assoc]
      have := csv_parse_field_written c '\n' rest hce hc.1 hc.2.1 (Or.inr (Or.inl rfl))
      simpa using this
    | cons c2 cs2 =>
      rw [csv_write_line_cons2, List.append_assoc]
      have := csv_parse_field_written c ',' (csv_write_line (c2 :: cs2) ++ rest) hce hc.1 hc.2.1
        (Or.inl rfl)
      simpa [hce] using this

theorem csv_write_line_head (c : Str) (cs : List Str) (rest : List Char) (hne : c ≠ []) :
    ∃ a r, csv_write_line (c :: cs) ++ rest = a :: r ∧ ¬ csv_stop a := by
  cases cs with
  | nil =>
    rw [csv_write_line_one, List.append_assoc]
    exact csv_write_escaped_head c hne _
  | cons c2 cs2 =>
    rw [csv_write_line_cons2, List.append_assoc]
    exact csv_write_escaped_head c hne _

theorem csv_write_line_ne_nil (cs : List Str) (rest : List Char) : csv_write_line cs ++ rest ≠ [] := by
  match cs with
  | [] => simp [csv_write_line]
  | [c] => simp [csv_write_line]
  | c :: c2 :: cs => simp [csv_write_line]

theorem csv_no_gap_cons {a b : Str} {l : List Str} (h : csv_no_gap (a :: b :: l) = true) :
    (a ≠ [] → b ≠ []) ∧ csv_no_gap (b :: l) = true := by
  simp only [csv_no_gap, Bool.and_eq_true, Bool.or_eq_true, List.isEmpty_iff,
    Bool.not_eq_true', List.isEmpty_eq_false_iff_exists_mem] at h
  refine ⟨?_, by simpa [csv_no_gap] using h.2⟩
  intro ha hb
  rcases h.1 with e | e
  · exact ha e
  · obtain ⟨x, hx⟩ := e
    rw [hb] at hx
    cases hx

/-- The field loop of the reader on a written line of plain fields stores the fields by
position and leaves the cursor, once the rest of the line is discarded, behind the line. -/
theorem csv_row_loop_written (hs : List Str) :
    ∀ (cs : List Str) (row : Nat) (t : Table) (rest : List Char),
      cs ≠ [] → csv_no_gap cs = true → (∀ c ∈ cs, csv_plain_cell c) →
      (∀ c ∈ cs.drop hs.length, '\n' ∉ c ∧ '\r' ∉ c) →
      (csv_row_loop hs row t (csv_write_line cs ++ rest)).1
          = (hs.zip cs).foldl (fun t kv => table_set t row kv.1 kv.2) t
        ∧ (if (csv_row_loop hs row t (csv_write_line cs ++ rest)).2.2
            then (csv_row_loop hs row t (csv_write_line cs ++ rest)).2.1
            else csv_skip_line (csv_row_loop hs row t (csv_write_line cs ++ rest)).2.1) = rest := by
  induction hs with
  | nil =>
    intro cs row t rest hne _ _ hbr
    simp only [csv_row_loop, List.zip_nil_left, List.foldl_nil, Bool.false_eq_true, if_false,
      true_and]
    exact csv_skip_line_written cs hne (by simpa using hbr) rest
  | cons h hs ih =>
    intro cs row t rest hne hgap hcells hbr
    obtain ⟨c, cs', rfl⟩ := List.exists_cons_of_ne_nil hne
    have hc := hcells c (List.mem_cons_self _ _)
    have hp := csv_parse_field_line c cs' rest hc
    cases cs' with
    | nil =>
      simp only at hp
      rw [csv_row_loop_break h hs row t _ c rest hp]
      simp [hc.2.2]
    | cons c2 cs2 =>
      have hgap' : csv_no_gap (c2 :: cs2) = true := (csv_no_gap_cons hgap).2
      have hcells' : ∀ x ∈ c2 :: cs2, csv_plain_cell x :=
        fun x hx => hcells x (List.mem_cons_of_mem _ hx)
      have hbr' : ∀ x ∈ (c2 :: cs2).drop hs.length, '\n' ∉ x ∧ '\r' ∉ x := by
        simpa using hbr
      have ih' := ih (c2 :: cs2) row (table_set t row h c) rest (by simp) hgap' hcells' hbr'
      simp only at hp
      by_cases hce : c = []
      · rw [if_pos hce] at hp
        rw [csv_row_loop_comma h hs row t _ c _ hp, hc.2.2]
        simpa using ih'
      · rw [if_neg hce] at hp
        have hc2 : c2 ≠ [] := (csv_no_gap_cons hgap).1 hce
        obtain ⟨a, r, har, hst⟩ := csv_write_line_head c2 cs2 rest hc2
        rw [har] at hp
        rw [csv_row_loop_go h hs row t _ c a r hp hst, hc.2.2, ← har]
        simpa using ih'

/-- The header loop of the reader on a written line of plain names adds the names in order. -/
theorem csv_header_loop_written (names : List Str) :
    ∀ (n : Nat) (t : Table) (rest : List Char),
      names ≠ [] → csv_no_gap names = true → (∀ k ∈ names, csv_plain_name k) →
      names.length ≤ n →
      csv_header_loop n t (csv_write_line names ++ rest) = (names.foldl ensure_col t, rest) := by
  induction names with
  | nil => intro n t rest h; exact absurd rfl h
  | cons k names ih =>
    intro n t rest _ hgap hnames hn
    obtain ⟨m, rfl⟩ : ∃ m, n = m + 1 := ⟨n - 1, by simp at hn; omega⟩
    have hk := hnames k (List.mem_cons_self _ _)
    have hp := csv_parse_field_line k names rest hk.1
    have hne := csv_write_line_ne_nil (k :: names) rest
    have htrim : lskip (rstrip k) = k := by rw [hk.1.2.2, hk.2]
    cases names with
    | nil =>
      simp only at hp
      rw [csv_header_loop_break m t _ hne k rest hp, htrim]
      rfl
    | cons k2 ks =>
      have hgap' : csv_no_gap (k2 :: ks) = true := (csv_no_gap_cons hgap).2
      have hnames' : ∀ x ∈ k2 :: ks, csv_plain_name x :=
        fun x hx => hnames x (List.mem_cons_of_mem _ hx)
      have hm : (k2 :: ks).length ≤ m := by simp at hn ⊢; omega
      have ih' := ih m (ensure_col t k) rest (by simp) hgap' hnames' hm
      simp only at hp
      by_cases hke : k = []
      · rw [if_pos hke] at hp
        rw [csv_header_loop_comma m t _ hne k _ hp, htrim, ih']
        rfl
      · rw [if_neg hke] at hp
        have hk2 : k2 ≠ [] := (csv_no_gap_cons hgap).1 hke
        obtain ⟨a, r, har, hst⟩ := csv_write_line_head k2 ks rest hk2
        rw [har] at hp
        rw [csv_header_loop_go m t _ hne k a r hp hst, htrim, ← har, ih']
        rfl

theorem csv_write_line_length (cs : List Str) : cs.length ≤ (csv_write_line cs).length := by
  induction cs with
  | nil => simp
  | cons c cs ih =>
    cases cs with
    | nil => simp [csv_write_line]
    | cons c2 cs =>
      rw [csv_write_line_cons2]
      simp only [List.length_append, List.length_cons] at ih ⊢
      omega

theorem csv_write_lines_length (rs : List (List Str)) :
    rs.length ≤ ((rs.map csv_write_line).flatten).length := by
  induction rs with
  | nil => simp
  | cons cs rs ih =>
    have : 1 ≤ (csv_write_line cs).length := by
      have := csv_write_line_ne_nil cs []
      simp only [List.append_nil] at this
      exact List.length_pos.2 this
    simp only [List.map_cons, List.flatten_cons, List.length_append, List.length_cons]
    omega

theorem csv_rows_loop_nil (n : Nat) (t : Table) : csv_rows_loop n t [] = t := by
  cases n <;> simp [csv_rows_loop]

/-- The row loop of the reader on written lines of plain fields adds one row per line. -/
theorem csv_rows_loop_written (H : List Str) (hnd : H.Nodup) :
    ∀ (rs : List (List Str)) (n : Nat) (R : List (List Str)),
      (∀ cs ∈ rs, csv_plain_line cs ∧ ∀ c ∈ cs.drop H.length, '\n' ∉ c ∧ '\r' ∉ c) →
      rs.length ≤ n →
      csv_rows_loop n ⟨H, R⟩ ((rs.map csv_write_line).flatten)
        = ⟨H, R ++ rs.map (pad_row H.length)⟩ := by
  intro rs
  induction rs with
  | nil => intro n R _ _; simp [csv_rows_loop_nil]
  | cons cs rs ih =>
    intro n R hrs hn
    obtain ⟨m, rfl⟩ : ∃ m, n = m + 1 := ⟨n - 1, by simp at hn; omega⟩
    have hcs := hrs cs (List.mem_cons_self _ _)
    have hne := csv_write_line_ne_nil cs ((rs.map csv_write_line).flatten)
    have hskip := csv_skip_empty_lines_on_record _
      (csv_on_record_written cs hcs.1 ((rs.map csv_write_line).flatten))
    have hrow := csv_row_loop_written H cs R.length ⟨H, R ++ [List.replicate H.length []]⟩
      ((rs.map csv_write_line).flatten) hcs.1.1 hcs.1.2.2.1 hcs.1.2.2.2 hcs.2
    have hstore := store_record_zip H hnd R cs
    simp only [store_record, table_add_row] at hstore
    rw [hstore] at hrow
    simp only [List.map_cons, List.flatten_cons]
    rw [csv_rows_loop]
    simp only [hne, if_false, hskip, table_add_row, hrow.1, hrow.2]
    rw [ih m _ (fun x hx => hrs x (List.mem_cons_of_mem _ hx)) (by simp at hn; omega)]
    simp

/-- The reader on a written header line and written records: the columns are the distinct
names in order of first occurrence, and every record fills them by position. -/
theorem csv_read_written (names : List Str) (rs : List (List Str))
    (hn : csv_plain_line names) (hnames : ∀ k ∈ names, lskip k = k)
    (hrs : ∀ cs ∈ rs, csv_plain_line cs
      ∧ ∀ c ∈ cs.drop (first_occurrences names).length, '\n' ∉ c ∧ '\r' ∉ c) :
    csv_read_table (csv_write_line names ++ (rs.map csv_write_line).flatten)
      = some ⟨first_occurrences names,
          rs.map (pad_row (first_occurrences names).length)⟩ := by
  have hskip := csv_skip_empty_lines_on_record _
    (csv_on_record_written names hn ((rs.map csv_write_line).flatten))
  have hlen : names.length ≤ (csv_write_line names ++ (rs.map csv_write_line).flatten).length := by
    have := csv_write_line_length names
    simp only [List.length_append]
    omega
  have hhead := csv_header_loop_written names _ Table.empty ((rs.map csv_write_line).flatten)
    hn.1 hn.2.2.1 (fun k hk => ⟨hn.2.2.2 k hk, hnames k hk⟩) hlen
  have hfold : names.foldl ensure_col Table.empty = ⟨first_occurrences names, []⟩ := by
    have := ensure_col_fold names []
    simpa [first_occurrences, Table.empty] using this
  rw [hfold] at hhead
  have hcols : (first_occurrences names).length ≠ 0 := by
    obtain ⟨k, ks, hk⟩ := List.exists_cons_of_ne_nil hn.1
    have : k ∈ first_occurrences names := mem_first_occurrences.2 (by rw [hk]; simp)
    intro h0
    rw [List.length_eq_zero] at h0
    rw [h0] at this
    cases this
  unfold csv_read_table
  simp only [hskip, hhead, hcols, if_false]
  rw [csv_rows_loop_written _ (nodup_first_occurrences names) rs _ [] hrs
    (csv_write_lines_length rs)]
  simp

end DataConvert

/-- C1 as stated fails: the one-column table with the cell `x` followed by a space is
written as that text and read back with the cell `x`, because the reader trims the end of
every field. -/
theorem c1_csv_round_trip_counterexample :
    (⟨["a".toList], [["x ".toList]]⟩ : DataConvert.Table).WellFormed
      ∧ DataConvert.csv_read_table (DataConvert.csv_write_table ⟨["a".toList], [["x ".toList]]⟩)
          = some ⟨["a".toList], [["x".toList]]⟩
      ∧ DataConvert.csv_read_table (DataConvert.csv_write_table ⟨["a".toList], [["x ".toList]]⟩)
          ≠ some ⟨["a".toList], [["x ".toList]]⟩ := by
  decide

/-- C1 (amended): for every well-formed table with at least one column whose names and
cells are NUL-free, hold no double quote and end in no whitespace, whose names start with no
whitespace, in which no empty name or cell stands directly behind a non-empty one of the same
line, and whose header and rows are not a single empty field, `csv_read_table` on the output
of `csv_write_table` succeeds and returns the table. Cells with commas and line breaks are
covered. -/
theorem c1_csv_round_trip (t : DataConvert.Table) (hw : t.WellFormed)
    (hh : DataConvert.csv_plain_line t.headers)
    (hn : ∀ k ∈ t.headers, DataConvert.lskip k = k)
    (hr : ∀ r ∈ t.rows, DataConvert.csv_plain_line r) :
    DataConvert.csv_read_table (DataConvert.csv_write_table t) = some t := by
  have hcols := DataConvert.first_occurrences_of_nodup hw.1
  have hrs : ∀ cs ∈ t.rows, DataConvert.csv_plain_line cs
      ∧ ∀ c ∈ cs.drop (DataConvert.first_occurrences t.headers).length,
          '\n' ∉ c ∧ '\r' ∉ c := by
    intro cs hcs
    refine ⟨hr cs hcs, ?_⟩
    rw [hcols, ← hw.2 cs hcs]
    simp
  have hwrite : DataConvert.csv_write_table t
      = DataConvert.csv_write_line t.headers
          ++ (t.rows.map DataConvert.csv_write_line).flatten := by
    unfold DataConvert.csv_write_table
    congr 2
    apply List.map_congr_left
    intro r hr'
    rw [DataConvert.row_cells_eq (hw.2 r hr')]
  rw [hwrite, DataConvert.csv_read_written t.headers t.rows hh hn hrs, hcols]
  have hpad : t.rows.map (DataConvert.pad_row t.headers.length) = t.rows := by
    conv_rhs => rw [← List.map_id t.rows]
    apply List.map_congr_left
    intro r hr'
    rw [← hw.2 r hr', DataConvert.pad_row_self]
    rfl
  rw [hpad]

/-- C1 (amended) at a table of three columns and two rows with cells that hold commas and
line breaks, a cell starting with a blank and an empty first cell. -/
theorem c1_csv_round_trip_witness :
    DataConvert.csv_read_table (DataConvert.csv_write_table
        ⟨["a".toList, "b,c".toList, "d e".toList],
          [["1,2".toList, " x\ny".toList, "z".toList], [[], "\r\n3".toList, "4".toList]]⟩)
      = some ⟨["a".toList, "b,c".toList, "d e".toList],
          [["1,2".toList, " x\ny".toList, "z".toList], [[], "\r\n3".toList, "4".toList]]⟩ :=
  c1_csv_round_trip _ (by decide) (by decide) (by decide) (by decide)

namespace DataConvert

/-! ## CSV: line breaks and blank lines on arbitrary input -/

theorem csv_consume_newline_length (c : List Char) :
    (csv_consume_newline c).2.length ≤ c.length
      ∧ ((csv_consume_newline c).1 = true → (csv_consume_newline c).2.length < c.length) := by
  cases c with
  | nil => simp [csv_consume_newline]
  | cons a r =>
    simp only [csv_consume_newline]
    split_ifs with h1 h2 h3
    · simp
    · cases r with
      | nil => simp [cur_peek] at h3
      | cons b r => simp; omega
    · simp
    · simp

theorem dropWhile_length_le (p : Char → Bool) (c : List Char) : (c.dropWhile p).length ≤ c.length :=
  (List.dropWhile_suffix p).length_le

theorem csv_skip_fuel_step (n : Nat) (c c1 : List Char)
    (h : csv_consume_newline (c.dropWhile csv_blank) = (true, c1)) :
    csv_skip_empty_lines_fuel (n + 1) c = csv_skip_empty_lines_fuel n c1 := by
  rw [csv_skip_empty_lines_fuel, h]

theorem csv_blank_line_shorter (c c1 : List Char)
    (h : csv_consume_newline (c.dropWhile csv_blank) = (true, c1)) : c1.length < c.length := by
  have h1 := (csv_consume_newline_length (c.dropWhile csv_blank)).2 (by rw [h])
  rw [h] at h1
  have h2 := dropWhile_length_le csv_blank c
  simp only at h1
  omega

theorem csv_on_record_iff (c : List Char) :
    csv_on_record c ∨ ∃ c1, csv_consume_newline (c.dropWhile csv_blank) = (true, c1) := by
  unfold csv_on_record
  cases h : csv_consume_newline (c.dropWhile csv_blank) with
  | mk b c1 =>
    cases b with
    | false => exact Or.inl rfl
    | true => exact Or.inr ⟨c1, rfl⟩

/-- The number of iterations of `csv_skip_empty_lines` is bounded by the length of the
input: more fuel changes nothing. -/
theorem csv_skip_fuel_indep : ∀ (n m : Nat) (c : List Char), c.length ≤ n → c.length ≤ m →
    csv_skip_empty_lines_fuel n c = csv_skip_empty_lines_fuel m c := by
  intro n
  induction n with
  | zero =>
    intro m c hc _
    have : c = [] := List.length_eq_zero.1 (by omega)
    subst this
    rw [csv_skip_empty_lines_fuel_on_record m [] rfl]
    rfl
  | succ n ih =>
    intro m c hn hm
    rcases csv_on_record_iff c with hrec | ⟨c1, hc1⟩
    · rw [csv_skip_empty_lines_fuel_on_record _ c hrec, csv_skip_empty_lines_fuel_on_record _ c hrec]
    · have hlt := csv_blank_line_shorter c c1 hc1
      obtain ⟨m', rfl⟩ : ∃ m', m = m' + 1 := ⟨m - 1, by omega⟩
      rw [csv_skip_fuel_step n c c1 hc1, csv_skip_fuel_step m' c c1 hc1]
      exact ih m' c1 (by omega) (by omega)

theorem csv_skip_fuel_enough (n : Nat) (c : List Char) (h : c.length ≤ n) :
    csv_skip_empty_lines_fuel n c = csv_skip_empty_lines c :=
  csv_skip_fuel_indep n c.length c h (le_refl _)

/-- One blank line less: skipping starts again behind the line break. -/
theorem csv_skip_blank_line (c c1 : List Char)
    (h : csv_consume_newline (c.dropWhile csv_blank) = (true, c1)) :
    csv_skip_empty_lines c = csv_skip_empty_lines c1 := by
  have hlt := csv_blank_line_shorter c c1 h
  obtain ⟨m, hm⟩ : ∃ m, c.length = m + 1 := ⟨c.length - 1, by omega⟩
  unfold csv_skip_empty_lines
  rw [hm, csv_skip_fuel_step m c c1 h]
  exact csv_skip_fuel_enough m c1 (by omega)

/-- What `csv_skip_empty_lines` returns is a shorter cursor that stands on a record. -/
theorem csv_skip_spec : ∀ (n : Nat) (c : List Char), c.length ≤ n →
    csv_on_record (csv_skip_empty_lines c) ∧ (csv_skip_empty_lines c).length ≤ c.length := by
  intro n
  induction n with
  | zero =>
    intro c hc
    have : c = [] := List.length_eq_zero.1 (by omega)
    subst this
    exact ⟨rfl, le_refl _⟩
  | succ n ih =>
    intro c hc
    rcases csv_on_record_iff c with hrec | ⟨c1, hc1⟩
    · rw [csv_skip_empty_lines_on_record c hrec]
      exact ⟨hrec, le_refl _⟩
    · have hlt := csv_blank_line_shorter c c1 hc1
      rw [csv_skip_blank_line c c1 hc1]
      have := ih c1 (by omega)
      exact ⟨this.1, by omega⟩

theorem csv_skip_on_record (c : List Char) : csv_on_record (csv_skip_empty_lines c) :=
  (csv_skip_spec c.length c (le_refl _)).1

theorem csv_skip_length (c : List Char) : (csv_skip_empty_lines c).length ≤ c.length :=
  (csv_skip_spec c.length c (le_refl _)).2

theorem csv_skip_blank_lf (bl r : List Char) (hb : ∀ c ∈ bl, csv_blank c = true) :
    csv_skip_empty_lines (bl ++ '\n' :: r) = csv_skip_empty_lines r := by
  apply csv_skip_blank_line
  rw [dropWhile_append_stop bl _ hb (by intro c hc; simp at hc; subst hc; decide)]
  simp [csv_consume_newline]

theorem csv_skip_blank_cr (bl r : List Char) (hb : ∀ c ∈ bl, csv_blank c = true) :
    csv_skip_empty_lines (bl ++ '\r' :: r) = csv_skip_empty_lines r := by
  have h1 : (bl ++ '\r' :: r).dropWhile csv_blank = '\r' :: r :=
    dropWhile_append_stop bl _ hb (by intro c hc; simp at hc; subst hc; decide)
  cases r with
  | nil =>
    apply csv_skip_blank_line
    rw [h1]
    simp [csv_consume_newline, cur_peek]
  | cons a r =>
    by_cases ha : a = '\n'
    · subst ha
      have h2 := csv_skip_blank_lf [] r (by simp)
      simp only [List.nil_append] at h2
      rw [h2]
      apply csv_skip_blank_line
      rw [h1]
      simp [csv_consume_newline, cur_peek]
    · apply csv_skip_blank_line
      rw [h1]
      simp [csv_consume_newline, cur_peek, ha]

/-- Behind a consumed line break the blank lines that follow are skipped all the same. -/
theorem csv_skip_consume_newline (u : List Char) :
    csv_skip_empty_lines (csv_consume_newline u).2 = csv_skip_empty_lines u := by
  cases u with
  | nil => rfl
  | cons a r =>
    by_cases h1 : a = '\n'
    · subst h1
      have := csv_skip_blank_lf [] r (by simp)
      simp only [List.nil_append] at this
      rw [this]
      simp [csv_consume_newline]
    · by_cases h2 : a = '\r'
      · subst h2
        have h3 := csv_skip_blank_cr [] r (by simp)
        simp only [List.nil_append] at h3
        rw [h3]
        cases r with
        | nil => simp [csv_consume_newline, cur_peek]
        | cons b r =>
          by_cases hb : b = '\n'
          · subst hb
            have h4 := csv_skip_blank_lf [] r (by simp)
            simp only [List.nil_append] at h4
            simp [csv_consume_newline, cur_peek, h4]
          · simp [csv_consume_newline, cur_peek, hb]
      · simp [csv_consume_newline, h1, h2]

/-! ## CSV: every loop of the reader consumes input -/

theorem csv_field_loop_doubled (e : Char) (r : List Char) :
    csv_field_loop true ('"' :: '"' :: e :: r) = (csv_field_loop true r).push e := by
  simp [csv_field_loop]

theorem csv_field_loop_doubled_eof :
    csv_field_loop true ['"', '"'] = ⟨true, [], ['\x00']⟩ := by
  simp [csv_field_loop]

/-- Every character the field scanner appends was consumed. -/
theorem csv_field_loop_length : ∀ (n : Nat) (q : Bool) (c : List Char), c.length ≤ n →
    (csv_field_loop q c).rest.length + (csv_field_loop q c).out.length ≤ c.length := by
  intro n
  induction n with
  | zero =>
    intro q c hc
    have : c = [] := List.length_eq_zero.1 (by omega)
    subst this
    simp [csv_field_loop_nil]
  | succ n ih =>
    intro q c hc
    cases c with
    | nil => simp [csv_field_loop_nil]
    | cons a r =>
      cases q with
      | false =>
        rw [csv_field_loop_unquoted]
        split_ifs with h
        · simp
        · have := ih false r (by simpa using hc)
          simp only [FieldScan.push, List.length_cons]
          omega
      | true =>
        by_cases ha : a = '"'
        · subst ha
          cases r with
          | nil => simp [csv_field_loop_quoted_eof]
          | cons d r2 =>
            by_cases hd : d = '"'
            · subst hd
              cases r2 with
              | nil => simp [csv_field_loop_doubled_eof]
              | cons e r3 =>
                rw [csv_field_loop_doubled]
                have := ih true r3 (by simp at hc; omega)
                simp only [FieldScan.push, List.length_cons]
                omega
            · rw [csv_field_loop_quoted_end d r2 hd]
              have := dropWhile_length_le csv_blank (d :: r2)
              simp only [List.length_cons, List.length_nil] at this ⊢
              omega
        · rw [csv_field_loop_quoted_char a r ha]
          have := ih true r (by simpa using hc)
          simp only [FieldScan.push, List.length_cons]
          omega

theorem csv_field_result_length (x : FieldScan) :
    (csv_field_result x).2.length ≤ x.rest.length := by
  unfold csv_field_result
  split_ifs <;> simp

theorem csv_parse_field_length (c : List Char) : (csv_parse_field c).2.length ≤ c.length := by
  unfold csv_parse_field
  have h1 := csv_field_loop_length c.tail.length true c.tail (le_refl _)
  have h2 := csv_field_loop_length c.length false c (le_refl _)
  have h3 : c.tail.length ≤ c.length := by simp
  split_ifs with hq
  · have := csv_field_result_length (csv_field_loop true c.tail)
    omega
  · have := csv_field_result_length (csv_field_loop false c)
    omega

theorem csv_parse_field_progress (a : Char) (r : List Char) (ha : ¬ csv_stop a) :
    (csv_parse_field (a :: r)).2.length < (a :: r).length := by
  unfold csv_parse_field
  by_cases hq : cur_peek (a :: r) = '"'
  · have h1 := csv_field_loop_length r.length true r (le_refl _)
    have := csv_field_result_length (csv_field_loop true r)
    simp only [hq, if_true, List.tail_cons, List.length_cons]
    omega
  · have h2 := csv_field_loop_length r.length false r (le_refl _)
    have hu : csv_field_loop false (a :: r) = (csv_field_loop false r).push a := by
      rw [csv_field_loop_unquoted,
        if_neg (show ¬ (a = ',' ∨ a = '\n' ∨ a = '\r') from ha)]
    have := csv_field_result_length ((csv_field_loop false r).push a)
    simp only [hq, if_false, hu, List.length_cons]
    simp only [FieldScan.push] at this ⊢
    omega

theorem csv_skip_line_length (c : List Char) : (csv_skip_line c).length ≤ c.length := by
  unfold csv_skip_line
  have h1 := (csv_consume_newline_length (c.dropWhile (fun ch => ch != '\n' && ch != '\r'))).1
  have h2 := dropWhile_length_le (fun ch => ch != '\n' && ch != '\r') c
  omega

theorem csv_skip_line_progress (a : Char) (r : List Char) (h1 : a ≠ '\n') (h2 : a ≠ '\r') :
    (csv_skip_line (a :: r)).length < (a :: r).length := by
  unfold csv_skip_line
  have e : (a :: r).dropWhile (fun ch => ch != '\n' && ch != '\r')
      = r.dropWhile (fun ch => ch != '\n' && ch != '\r') := by
    simp [List.dropWhile_cons, h1, h2]
  rw [e]
  have h3 := (csv_consume_newline_length (r.dropWhile (fun ch => ch != '\n' && ch != '\r'))).1
  have h4 := dropWhile_length_le (fun ch => ch != '\n' && ch != '\r') r
  simp only [List.length_cons]
  omega

/-- The field loop over one record never moves the cursor back, and moves it forward when
it ends at a line break. -/
theorem csv_row_loop_length (hs : List Str) : ∀ (row : Nat) (t : Table) (c : List Char),
    (csv_row_loop hs row t c).2.1.length ≤ c.length
      ∧ ((csv_row_loop hs row t c).2.2 = true → (csv_row_loop hs row t c).2.1.length < c.length) := by
  induction hs with
  | nil => intro row t c; simp [csv_row_loop]
  | cons h hs ih =>
    intro row t c
    have hp := csv_parse_field_length c
    simp only [csv_row_loop]
    split_ifs with h1 h2 h3
    · have := ih row (table_set t row h (rstrip (csv_parse_field c).1)) (csv_parse_field c).2.tail
      have ht : (csv_parse_field c).2.tail.length < (csv_parse_field c).2.length := by
        cases hc : (csv_parse_field c).2 with
        | nil => rw [hc] at h1; simp [cur_peek] at h1
        | cons b r => simp
      constructor
      · omega
      · intro hld; have := this.2 hld; omega
    · have hcn := csv_consume_newline_length (csv_parse_field c).2
      have htrue : (csv_consume_newline (csv_parse_field c).2).1 = true := by
        cases hc : (csv_parse_field c).2 with
        | nil => rw [hc] at h2; simp [cur_peek] at h2
        | cons b r =>
          rw [hc] at h2
          simp only [cur_peek, List.headD_cons] at h2
          rcases h2 with e | e <;> subst e <;> simp [csv_consume_newline]
      have := hcn.2 htrue
      simp only
      constructor
      · omega
      · intro _; omega
    · simp only [h3, List.length_nil]
      constructor
      · omega
      · intro hf; cases hf
    · have := ih row (table_set t row h (rstrip (csv_parse_field c).1)) (csv_parse_field c).2
      constructor
      · omega
      · intro hld; have := this.2 hld; omega

/-- With at least one column the field loop over one record moves the cursor forward. -/
theorem csv_row_loop_progress (h : Str) (hs : List Str) (row : Nat) (t : Table) (a : Char)
    (r : List Char) (h1 : a ≠ '\n') (h2 : a ≠ '\r') :
    (csv_row_loop (h :: hs) row t (a :: r)).2.1.length < (a :: r).length := by
  by_cases hcomma : a = ','
  · subst hcomma
    have hp : csv_parse_field (',' :: r) = ([], ',' :: r) :=
      csv_parse_field_empty _ (by intro x hx; simp at hx; subst hx; exact Or.inl rfl)
    rw [csv_row_loop_comma h hs row t _ [] r hp]
    have := (csv_row_loop_length hs row (table_set t row h (rstrip [])) r).1
    simp only [List.length_cons]
    omega
  · have hst : ¬ csv_stop a := by
      intro hs'
      rcases hs' with e | e | e
      · exact hcomma e
      · exact h1 e
      · exact h2 e
    have hp := csv_parse_field_progress a r hst
    have hl := csv_row_loop_length hs row (table_set t row h (rstrip (csv_parse_field (a :: r)).1))
    simp only [csv_row_loop]
    split_ifs with g1 g2 g3
    · have := (hl (csv_parse_field (a :: r)).2.tail).1
      simp only [List.length_tail] at this
      omega
    · have := (csv_consume_newline_length (csv_parse_field (a :: r)).2).1
      simp only
      omega
    · simp only [g3, List.length_nil, List.length_cons]
      omega
    · have := (hl (csv_parse_field (a :: r)).2).1
      omega

theorem csv_on_record_head {a : Char} {r : List Char} (h : csv_on_record (a :: r)) :
    a ≠ '\n' ∧ a ≠ '\r' := by
  unfold csv_on_record at h
  by_cases hb : csv_blank a = true
  · constructor <;> (rintro rfl; revert hb; decide)
  · have hb' : csv_blank a = false := by simpa using hb
    simp only [List.dropWhile_cons, hb', Bool.false_eq_true, if_false, csv_consume_newline] at h
    constructor
    · rintro rfl; simp at h
    · rintro rfl; simp at h

theorem csv_rows_loop_succ (n : Nat) (t : Table) (c : List Char) :
    csv_rows_loop (n + 1) t c
      = if c = [] then t
        else if csv_skip_empty_lines c = [] then t
        else csv_rows_loop n (csv_record_step t (csv_skip_empty_lines c)).1
          (csv_record_step t (csv_skip_empty_lines c)).2 := by
  simp only [csv_rows_loop, csv_record_step]

theorem csv_record_step_progress (t : Table) (c1 : List Char) (hne : c1 ≠ [])
    (hrec : csv_on_record c1) : (csv_record_step t c1).2.length < c1.length := by
  obtain ⟨a, r, rfl⟩ := List.exists_cons_of_ne_nil hne
  have ha := csv_on_record_head hrec
  unfold csv_record_step
  simp only
  cases hh : (table_add_row t).1.headers with
  | nil =>
    simp only [csv_row_loop, Bool.false_eq_true, if_false]
    exact csv_skip_line_progress a r ha.1 ha.2
  | cons h hs =>
    have h1 := csv_row_loop_progress h hs (table_add_row t).2 (table_add_row t).1 a r ha.1 ha.2
    split_ifs
    · exact h1
    · have := csv_skip_line_length
        (csv_row_loop (h :: hs) (table_add_row t).2 (table_add_row t).1 (a :: r)).2.1
      omega

/-- The number of iterations of the row loop is bounded by the length of the input: more
fuel changes nothing. -/
theorem csv_rows_loop_fuel_indep : ∀ (n m : Nat) (t : Table) (c : List Char),
    c.length ≤ n → c.length ≤ m → csv_rows_loop n t c = csv_rows_loop m t c := by
  intro n
  induction n with
  | zero =>
    intro m t c hc _
    have : c = [] := List.length_eq_zero.1 (by omega)
    subst this
    rw [csv_rows_loop_nil, csv_rows_loop_nil]
  | succ n ih =>
    intro m t c hn hm
    by_cases hc : c = []
    · subst hc; rw [csv_rows_loop_nil, csv_rows_loop_nil]
    · obtain ⟨m', rfl⟩ : ∃ m', m = m' + 1 :=
        ⟨m - 1, by have := List.length_pos.2 hc; omega⟩
      rw [csv_rows_loop_succ, csv_rows_loop_succ]
      simp only [hc, if_false]
      by_cases h1 : csv_skip_empty_lines c = []
      · simp [h1]
      · simp only [h1, if_false]
        have hp := csv_record_step_progress t _ h1 (csv_skip_on_record c)
        have hl := csv_skip_length c
        exact ih m' _ _ (by omega) (by omega)

/-! ## CSV: a line without quoted fields is read the same whatever follows its line break -/

theorem csv_no_quoted_cons (s : Bool) (c : Char) (r : List Char) :
    csv_no_quoted s (c :: r) = (!(s && c == '"') && csv_no_quoted (c == ',') r) := rfl

theorem csv_newline_start {z : List Char} (h : (csv_consume_newline z).1 = true) :
    ∃ b r, z = b :: r ∧ (b = '\n' ∨ b = '\r') := by
  cases z with
  | nil => simp [csv_consume_newline] at h
  | cons b r =>
    refine ⟨b, r, rfl, ?_⟩
    by_contra hne
    simp only [not_or] at hne
    simp [csv_consume_newline, hne.1, hne.2] at h

/-- The unquoted scan of a line without line breaks stops at its first comma or at its
end, whatever follows the line. -/
theorem csv_field_loop_line (p z : List Char) (hnl : ∀ c ∈ p, c ≠ '\n' ∧ c ≠ '\r')
    (hz : z = [] ∨ (csv_consume_newline z).1 = true) :
    csv_field_loop false (p ++ z)
      = ⟨false, p.dropWhile (fun c => c != ',') ++ z, p.takeWhile (fun c => c != ',')⟩ := by
  induction p with
  | nil =>
    simp only [List.nil_append, List.dropWhile_nil, List.takeWhile_nil]
    rcases hz with rfl | hz
    · exact csv_field_loop_nil false
    · obtain ⟨b, r, rfl, hb⟩ := csv_newline_start hz
      rw [csv_field_loop_unquoted, if_pos (Or.inr hb)]
  | cons a p ih =>
    have ha := hnl a (List.mem_cons_self _ _)
    rw [List.cons_append, csv_field_loop_unquoted]
    by_cases hc : a = ','
    · subst hc
      simp
    · have : ¬ (a = ',' ∨ a = '\n' ∨ a = '\r') := by
        rintro (e | e | e)
        · exact hc e
        · exact ha.1 e
        · exact ha.2 e
      rw [if_neg this, ih (fun c h => hnl c (List.mem_cons_of_mem _ h))]
      simp [FieldScan.push, List.dropWhile_cons, List.takeWhile_cons, hc]

theorem csv_head_not_quote {p : List Char} (h : csv_no_quoted true p = true) (z : List Char)
    (hz : z = [] ∨ (csv_consume_newline z).1 = true) : cur_peek (p ++ z) ≠ '"' := by
  cases p with
  | nil =>
    rcases hz with rfl | hz
    · simp [cur_peek]
    · obtain ⟨b, r, rfl, hb⟩ := csv_newline_start hz
      simp only [List.nil_append, cur_peek, List.headD_cons]
      rcases hb with e | e <;> subst e <;> decide
  | cons a p =>
    rw [csv_no_quoted_cons] at h
    simp only [Bool.true_and, Bool.and_eq_true, Bool.not_eq_true', beq_eq_false_iff_ne, ne_eq] at h
    simpa [cur_peek] using h.1

/-- The reader on the first field of a line without quoted fields: the same field and the
same rest of the line, whatever follows the line break. -/
theorem csv_parse_field_local (p z : List Char) (hp : csv_unquoted_line p)
    (hz : (csv_consume_newline z).1 = true) :
    csv_parse_field (p ++ z) = ((csv_parse_field p).1, (csv_parse_field p).2 ++ z) := by
  have h1 := csv_head_not_quote hp.1 z (Or.inr hz)
  have h2 := csv_head_not_quote hp.1 [] (Or.inl rfl)
  have l1 := csv_field_loop_line p z hp.2 (Or.inr hz)
  have l2 := csv_field_loop_line p [] hp.2 (Or.inl rfl)
  simp only [List.append_nil] at h2 l2
  unfold csv_parse_field
  simp only [h1, h2, if_false, l1, l2, csv_field_result]
  obtain ⟨b, r, rfl, hb⟩ := csv_newline_start hz
  have hbc : b ≠ ',' := by rcases hb with e | e <;> subst e <;> decide
  by_cases ht : p.takeWhile (fun c => c != ',') = []
  · simp [ht]
  · simp only [ht, if_false, Bool.not_false, Bool.true_and, decide_eq_true_eq]
    cases hd : p.dropWhile (fun c => c != ',') with
    | nil => simp [cur_peek, hbc]
    | cons a q =>
      by_cases hac : a = ','
      · simp [cur_peek, hac]
      · simp [cur_peek, hac]

theorem csv_no_quoted_drop (s : Bool) (p : List Char) (h : csv_no_quoted s p = true) :
    p.dropWhile (fun c => c != ',') = []
      ∨ ∃ q, p.dropWhile (fun c => c != ',') = ',' :: q ∧ csv_no_quoted true q = true := by
  induction p generalizing s with
  | nil => exact Or.inl rfl
  | cons a p ih =>
    rw [csv_no_quoted_cons] at h
    simp only [Bool.and_eq_true] at h
    by_cases hc : a = ','
    · subst hc
      right
      exact ⟨p, by simp, by simpa using h.2⟩
    · have := ih (a == ',') h.2
      simpa [List.dropWhile_cons, hc] using this

/-- What the reader leaves of a line without quoted fields behind its first field is again
such a line: empty, or starting with a comma (behind an empty field), or the text behind the
comma. -/
theorem csv_parse_field_rest (p : List Char) (hp : csv_unquoted_line p) :
    csv_unquoted_line (csv_parse_field p).2
      ∧ (csv_parse_field p).2.length ≤ p.length
      ∧ (∀ a q, (csv_parse_field p).2 = a :: q → a = ',' →
          csv_unquoted_line q ∧ q.length < p.length)
      ∧ (∀ a q, (csv_parse_field p).2 = a :: q → a ≠ ',' →
          (csv_parse_field p).2.length < p.length) := by
  have h2 := csv_head_not_quote hp.1 [] (Or.inl rfl)
  have l2 := csv_field_loop_line p [] hp.2 (Or.inl rfl)
  simp only [List.append_nil] at h2 l2
  have hsuf : ∀ c ∈ p.dropWhile (fun c => c != ','), c ≠ '\n' ∧ c ≠ '\r' :=
    fun c hc => hp.2 c ((List.dropWhile_suffix _).subset hc)
  have hlen := dropWhile_length_le (fun c => c != ',') p
  have hsplit := List.takeWhile_append_dropWhile (fun c => c != ',') p
  have hres : csv_parse_field p
      = csv_field_result ⟨false, p.dropWhile (fun c => c != ','), p.takeWhile (fun c => c != ',')⟩ := by
    unfold csv_parse_field
    simp only [h2, if_false, l2]
  rw [hres]
  unfold csv_field_result
  rcases csv_no_quoted_drop true p hp.1 with hd | ⟨q, hd, hq⟩
  · -- no comma in the line
    rw [hd]
    have hemp : csv_unquoted_line [] := ⟨rfl, by simp⟩
    split_ifs <;> simp [hemp, cur_peek]
  · rw [hd]
    rw [hd] at hsuf hlen
    have hq' : csv_unquoted_line q := ⟨hq, fun c hc => hsuf c (List.mem_cons_of_mem _ hc)⟩
    have hcq : csv_unquoted_line (',' :: q) := by
      refine ⟨?_, hsuf⟩
      rw [csv_no_quoted_cons]
      simpa using hq
    simp only [List.length_cons] at hlen
    by_cases ht : p.takeWhile (fun c => c != ',') = []
    · simp only [ht, if_true]
      refine ⟨hcq, by simp; omega, ?_, ?_⟩
      · intro a q2 h _
        injection h with h1 h2
        subst h2
        exact ⟨hq', by omega⟩
      · intro a q2 h hne
        injection h with h1 h2
        exact absurd h1.symm hne
    · have hpos : 0 < (p.takeWhile (fun c => c != ',')).length := List.length_pos.2 ht
      have hplen : p.length = (p.takeWhile (fun c => c != ',')).length + (q.length + 1) := by
        conv_lhs => rw [← hsplit, hd]
        simp
      simp only [ht, if_false, Bool.not_false, Bool.true_and, cur_peek, List.headD_cons,
        decide_True, if_true, List.tail_cons]
      refine ⟨hq', by omega, ?_, ?_⟩
      · intro a q2 h _
        subst h
        refine ⟨⟨?_, fun c hc => hq'.2 c (List.mem_cons_of_mem _ hc)⟩,
          by simp only [List.length_cons] at hplen; omega⟩
        have := hq'.1
        rw [csv_no_quoted_cons] at this
        simp only [Bool.and_eq_true] at this
        subst_vars
        simpa using this.2
      · intro a q2 _ _
        omega

theorem csv_row_loop_newline (h : Str) (hs : List Str) (row : Nat) (t : Table) (c : List Char)
    (f : Str) (x : List Char) (hp : csv_parse_field c = (f, x))
    (hx : (csv_consume_newline x).1 = true) :
    csv_row_loop (h :: hs) row t c
      = (table_set t row h (rstrip f), (csv_consume_newline x).2, true) := by
  obtain ⟨b, r, rfl, hb⟩ := csv_newline_start hx
  have hbc : b ≠ ',' := by rcases hb with e | e <;> subst e <;> decide
  simp [csv_row_loop, hp, cur_peek, hbc, hb]

theorem csv_header_loop_newline (n : Nat) (t : Table) (c : List Char) (hc : c ≠ [])
    (f : Str) (x : List Char) (hp : csv_parse_field c = (f, x))
    (hx : (csv_consume_newline x).1 = true) :
    csv_header_loop (n + 1) t c
      = (ensure_col t (lskip (rstrip f)), (csv_consume_newline x).2) := by
  obtain ⟨b, r, rfl, hb⟩ := csv_newline_start hx
  have hbc : b ≠ ',' := by rcases hb with e | e <;> subst e <;> decide
  simp [csv_header_loop, hc, hp, cur_peek, hbc, hx]

theorem csv_skip_line_local (p z : List Char) (hp : ∀ c ∈ p, c ≠ '\n' ∧ c ≠ '\r')
    (hz : (csv_consume_newline z).1 = true) :
    csv_skip_line (p ++ z) = (csv_consume_newline z).2 := by
  obtain ⟨b, r, rfl, hb⟩ := csv_newline_start hz
  unfold csv_skip_line
  have h1 : ∀ c ∈ p, (fun ch => ch != '\n' && ch != '\r') c = true := by
    intro c hc; simp [(hp c hc).1, (hp c hc).2]
  rw [dropWhile_append_stop p _ h1
    (by intro c hc; simp at hc; subst hc; rcases hb with e | e <;> subst e <;> decide)]

theorem csv_unquoted_not_stop {a : Char} {q : List Char} (h : csv_unquoted_line (a :: q))
    (ha : a ≠ ',') : ¬ csv_stop a := by
  have := h.2 a (List.mem_cons_self _ _)
  rintro (e | e | e)
  · exact ha e
  · exact this.1 e
  · exact this.2 e

/-- The field loop over a line without quoted fields gives the same table and ends behind
the line break, whatever follows the line break. -/
theorem csv_row_loop_local (hs : List Str) : ∀ (row : Nat) (t : Table) (p : List Char),
    csv_unquoted_line p →
    ∃ t1, ∀ z, (csv_consume_newline z).1 = true →
      (csv_row_loop hs row t (p ++ z)).1 = t1
        ∧ (if (csv_row_loop hs row t (p ++ z)).2.2 then (csv_row_loop hs row t (p ++ z)).2.1
            else csv_skip_line (csv_row_loop hs row t (p ++ z)).2.1)
          = (csv_consume_newline z).2 := by
  induction hs with
  | nil =>
    intro row t p hp
    refine ⟨t, fun z hz => ?_⟩
    simp only [csv_row_loop, Bool.false_eq_true, if_false, true_and]
    exact csv_skip_line_local p z hp.2 hz
  | cons h hs ih =>
    intro row t p hp
    obtain ⟨hq, _, hcomma, _⟩ := csv_parse_field_rest p hp
    cases hrest : (csv_parse_field p).2 with
    | nil =>
      refine ⟨table_set t row h (rstrip (csv_parse_field p).1), fun z hz => ?_⟩
      have hpz := csv_parse_field_local p z hp hz
      rw [hrest, List.nil_append] at hpz
      rw [csv_row_loop_newline h hs row t _ _ z hpz hz]
      simp
    | cons a q =>
      by_cases ha : a = ','
      · subst ha
        obtain ⟨t1, ht1⟩ := ih row (table_set t row h (rstrip (csv_parse_field p).1)) q
          (hcomma ',' q hrest rfl).1
        refine ⟨t1, fun z hz => ?_⟩
        have hpz := csv_parse_field_local p z hp hz
        rw [hrest, List.cons_append] at hpz
        rw [csv_row_loop_comma h hs row t _ _ (q ++ z) hpz]
        exact ht1 z hz
      · rw [hrest] at hq
        obtain ⟨t1, ht1⟩ := ih row (table_set t row h (rstrip (csv_parse_field p).1)) (a :: q) hq
        refine ⟨t1, fun z hz => ?_⟩
        have hpz := csv_parse_field_local p z hp hz
        rw [hrest, List.cons_append] at hpz
        rw [csv_row_loop_go h hs row t _ _ a (q ++ z) hpz (csv_unquoted_not_stop hq ha)]
        exact ht1 z hz

/-- The header loop over a line without quoted fields gives the same columns and ends
behind the line break, whatever follows the line break. -/
theorem csv_header_loop_local : ∀ (k : Nat) (p : List Char), p.length ≤ k →
    csv_unquoted_line p → ∀ t : Table,
    ∃ t1, ∀ z, (csv_consume_newline z).1 = true → ∀ n, p.length + 1 ≤ n →
      csv_header_loop n t (p ++ z) = (t1, (csv_consume_newline z).2) := by
  intro k
  induction k with
  | zero =>
    intro p hk hp t
    have : p = [] := List.length_eq_zero.1 (by omega)
    subst this
    refine ⟨ensure_col t (lskip (rstrip [])), fun z hz n hn => ?_⟩
    obtain ⟨m, rfl⟩ : ∃ m, n = m + 1 := ⟨n - 1, by simp at hn; omega⟩
    obtain ⟨b, r, rfl, hb⟩ := csv_newline_start hz
    have hpz : csv_parse_field (b :: r) = ([], b :: r) :=
      csv_parse_field_empty _ (by intro x hx; simp at hx; subst hx; exact Or.inr hb)
    rw [List.nil_append, csv_header_loop_newline m t _ (by simp) _ _ hpz hz]
  | succ k ih =>
    intro p hk hp t
    obtain ⟨hq, hlen, hcomma, hother⟩ := csv_parse_field_rest p hp
    have hne : ∀ z, (csv_consume_newline z).1 = true → p ++ z ≠ [] := by
      intro z hz
      obtain ⟨b, r, rfl, _⟩ := csv_newline_start hz
      simp
    cases hrest : (csv_parse_field p).2 with
    | nil =>
      refine ⟨ensure_col t (lskip (rstrip (csv_parse_field p).1)), fun z hz n hn => ?_⟩
      obtain ⟨m, rfl⟩ : ∃ m, n = m + 1 := ⟨n - 1, by omega⟩
      have hpz := csv_parse_field_local p z hp hz
      rw [hrest, List.nil_append] at hpz
      rw [csv_header_loop_newline m t _ (hne z hz) _ _ hpz hz]
    | cons a q =>
      by_cases ha : a = ','
      · subst ha
        have hq2 := hcomma ',' q hrest rfl
        obtain ⟨t1, ht1⟩ := ih q (by omega) hq2.1
          (ensure_col t (lskip (rstrip (csv_parse_field p).1)))
        refine ⟨t1, fun z hz n hn => ?_⟩
        obtain ⟨m, rfl⟩ : ∃ m, n = m + 1 := ⟨n - 1, by omega⟩
        have hpz := csv_parse_field_local p z hp hz
        rw [hrest, List.cons_append] at hpz
        rw [csv_header_loop_comma m t _ (hne z hz) _ (q ++ z) hpz]
        exact ht1 z hz m (by omega)
      · have hlt := hother a q hrest ha
        rw [hrest] at hq hlt
        obtain ⟨t1, ht1⟩ := ih (a :: q) (by omega) hq
          (ensure_col t (lskip (rstrip (csv_parse_field p).1)))
        refine ⟨t1, fun z hz n hn => ?_⟩
        obtain ⟨m, rfl⟩ : ∃ m, n = m + 1 := ⟨n - 1, by omega⟩
        have hpz := csv_parse_field_local p z hp hz
        rw [hrest, List.cons_append] at hpz
        rw [csv_header_loop_go m t _ (hne z hz) _ a (q ++ z) hpz (csv_unquoted_not_stop hq ha)]
        exact ht1 z hz m (by omega)

/-- The row loop, unfolded once, with exactly the fuel its next round needs. -/
theorem csv_rows_loop_unfold (n : Nat) (t : Table) (c : List Char) (hn : c.length ≤ n) :
    csv_rows_loop n t c
      = if csv_skip_empty_lines c = [] then t
        else csv_rows_loop (csv_record_step t (csv_skip_empty_lines c)).2.length
          (csv_record_step t (csv_skip_empty_lines c)).1
          (csv_record_step t (csv_skip_empty_lines c)).2 := by
  by_cases hc : c = []
  · subst hc
    rw [csv_rows_loop_nil]
    rfl
  · obtain ⟨m, rfl⟩ : ∃ m, n = m + 1 := ⟨n - 1, by have := List.length_pos.2 hc; omega⟩
    rw [csv_rows_loop_succ]
    simp only [hc, if_false]
    by_cases h1 : csv_skip_empty_lines c = []
    · simp [h1]
    · simp only [h1, if_false]
      have hp := csv_record_step_progress t _ h1 (csv_skip_on_record c)
      have hl := csv_skip_length c
      exact csv_rows_loop_fuel_indep _ _ _ _ (by omega) (le_refl _)

/-- Two cursors that carry the same records give the same rows. -/
theorem csv_rows_loop_sim {x y : List Char} (h : CsvSim x y) :
    ∀ (t : Table) (n m : Nat), x.length ≤ n → y.length ≤ m →
      csv_rows_loop n t x = csv_rows_loop m t y := by
  induction h with
  | same x y hxy =>
    intro t n m hn hm
    rw [csv_rows_loop_unfold n t x hn, csv_rows_loop_unfold m t y hm, hxy]
  | line p x1 y1 x y hp hx hy hx1 hy1 _ ih =>
    intro t n m hn hm
    rw [csv_rows_loop_unfold n t x hn, csv_rows_loop_unfold m t y hm, hx, hy]
    obtain ⟨t1, ht1⟩ := csv_row_loop_local (table_add_row t).1.headers (table_add_row t).2
      (table_add_row t).1 p hp
    have ex : csv_record_step t (p ++ x1) = (t1, (csv_consume_newline x1).2) := by
      unfold csv_record_step
      rw [(ht1 x1 hx1).1, (ht1 x1 hx1).2]
    have ey : csv_record_step t (p ++ y1) = (t1, (csv_consume_newline y1).2) := by
      unfold csv_record_step
      rw [(ht1 y1 hy1).1, (ht1 y1 hy1).2]
    have nx : p ++ x1 ≠ [] := by
      obtain ⟨b, r, rfl, _⟩ := csv_newline_start hx1
      simp
    have ny : p ++ y1 ≠ [] := by
      obtain ⟨b, r, rfl, _⟩ := csv_newline_start hy1
      simp
    simp only [nx, ny, if_false, ex, ey]
    exact ih t1 _ _ (le_refl _) (le_refl _)

/-- Two texts that carry the same records are read as the same table. -/
theorem csv_read_table_sim {x y : List Char} (h : CsvSim x y) :
    csv_read_table x = csv_read_table y := by
  match h with
  | .same _ _ hxy =>
    unfold csv_read_table
    rw [hxy]
  | .line p x1 y1 _ _ hp hx hy hx1 hy1 hrest =>
    obtain ⟨t1, ht1⟩ := csv_header_loop_local p.length p (le_refl _) hp Table.empty
    have lx : p.length + 1 ≤ (p ++ x1).length := by
      obtain ⟨b, r, rfl, _⟩ := csv_newline_start hx1
      simp
    have ly : p.length + 1 ≤ (p ++ y1).length := by
      obtain ⟨b, r, rfl, _⟩ := csv_newline_start hy1
      simp
    unfold csv_read_table
    simp only [hx, hy, ht1 x1 hx1 _ lx, ht1 y1 hy1 _ ly]
    split_ifs
    · rfl
    · rw [csv_rows_loop_sim hrest t1 _ _ (le_refl _) (le_refl _)]

theorem csvSim_of_skip {x y x0 y0 : List Char} (hx : csv_skip_empty_lines x = csv_skip_empty_lines x0)
    (hy : csv_skip_empty_lines y = csv_skip_empty_lines y0) (h : CsvSim x0 y0) : CsvSim x y := by
  match h with
  | .same _ _ h0 => exact CsvSim.same x y (by rw [hx, hy, h0])
  | .line p x1 y1 _ _ hp h1 h2 h3 h4 h5 =>
    exact CsvSim.line p x1 y1 x y hp (by rw [hx, h1]) (by rw [hy, h2]) h3 h4 h5

theorem csv_break_consumed (b r : List Char) (hb : csv_is_break b) :
    (csv_consume_newline (b ++ r)).1 = true := by
  rcases hb with rfl | rfl | rfl <;> simp [csv_consume_newline]

/-- A blank line in front of a text is skipped. -/
theorem csv_skip_break (bl b r : List Char) (hbl : ∀ c ∈ bl, csv_blank c = true)
    (hb : csv_is_break b) :
    csv_skip_empty_lines (bl ++ b ++ r) = csv_skip_empty_lines r := by
  rcases hb with rfl | rfl | rfl
  · rw [List.append_assoc]; exact csv_skip_blank_lf bl r hbl
  · rw [List.append_assoc]
    have h1 := csv_skip_blank_cr bl ('\n' :: r) hbl
    have h2 := csv_skip_blank_lf [] r (by simp)
    simp only [List.nil_append] at h2
    simpa [h2] using h1
  · rw [List.append_assoc]; exact csv_skip_blank_cr bl r hbl

theorem csv_skip_blank_lines (blank : List (List Char × List Char)) (h : csv_blank_lines blank)
    (post : List Char) :
    csv_skip_empty_lines (csv_lines_text blank ++ post) = csv_skip_empty_lines post := by
  induction blank with
  | nil => rfl
  | cons l ls ih =>
    obtain ⟨bl, br⟩ := l
    have h' : (∀ c ∈ bl, csv_blank c = true) ∧ csv_is_break br ∧ csv_blank_lines ls := h
    have e : csv_lines_text ((bl, br) :: ls) ++ post = bl ++ br ++ (csv_lines_text ls ++ post) := by
      simp [csv_lines_text]
    rw [e, csv_skip_break bl br _ h'.1 h'.2.1]
    exact ih h'.2.2

/-- The same line in front of two cursors that carry the same records, with any line
break each. -/
theorem csvSim_line (l b1 b2 r1 r2 : List Char) (hl : csv_unquoted_line l)
    (hb1 : csv_is_break b1) (hb2 : csv_is_break b2) (h : CsvSim r1 r2) :
    CsvSim (l ++ b1 ++ r1) (l ++ b2 ++ r2) := by
  by_cases hbl : ∀ c ∈ l, csv_blank c = true
  · exact csvSim_of_skip (csv_skip_break l b1 r1 hbl hb1) (csv_skip_break l b2 r2 hbl hb2) h
  · have hex : ∃ a ∈ l, csv_blank a = false := by
      by_contra hcon
      apply hbl
      intro c hc
      by_contra hcb
      exact hcon ⟨c, hc, by simpa using hcb⟩
    have o1 : csv_on_record (l ++ (b1 ++ r1)) := csv_on_record_append l _ hl.2 hex
    have o2 : csv_on_record (l ++ (b2 ++ r2)) := csv_on_record_append l _ hl.2 hex
    have k1 : csv_skip_empty_lines (csv_consume_newline (b1 ++ r1)).2 = csv_skip_empty_lines r1 := by
      rw [csv_skip_consume_newline]
      have := csv_skip_break [] b1 r1 (by simp) hb1
      simpa using this
    have k2 : csv_skip_empty_lines (csv_consume_newline (b2 ++ r2)).2 = csv_skip_empty_lines r2 := by
      rw [csv_skip_consume_newline]
      have := csv_skip_break [] b2 r2 (by simp) hb2
      simpa using this
    refine CsvSim.line l (b1 ++ r1) (b2 ++ r2) _ _ hl ?_ ?_ (csv_break_consumed b1 r1 hb1)
      (csv_break_consumed b2 r2 hb2) (csvSim_of_skip k1 k2 h)
    · rw [List.append_assoc]; exact csv_skip_empty_lines_on_record _ o1
    · rw [List.append_assoc]; exact csv_skip_empty_lines_on_record _ o2

theorem csvSim_join (s1 s2 : List Char) (h1 : csv_is_break s1) (h2 : csv_is_break s2)
    (final : Bool) (lines : List (List Char)) (hl : ∀ l ∈ lines, csv_unquoted_line l) :
    CsvSim (csv_join_lines s1 final lines) (csv_join_lines s2 final lines) := by
  induction lines with
  | nil => exact CsvSim.same _ _ rfl
  | cons l ls ih =>
    have hl1 := hl l (List.mem_cons_self _ _)
    cases ls with
    | nil =>
      cases final with
      | false => exact CsvSim.same _ _ rfl
      | true =>
        have := csvSim_line l s1 s2 [] [] hl1 h1 h2 (CsvSim.same _ _ rfl)
        simpa [csv_join_lines] using this
    | cons l2 ls =>
      have ih' := ih (fun x hx => hl x (List.mem_cons_of_mem _ hx))
      exact csvSim_line l s1 s2 _ _ hl1 h1 h2 ih'

theorem csv_write_line_intercalate (cs : List Str) :
    csv_write_line cs = List.intercalate [','] (cs.map csv_write_escaped) ++ ['\n'] := by
  induction cs with
  | nil => rfl
  | cons c cs ih =>
    cases cs with
    | nil => simp [csv_write_line, List.intercalate]
    | cons c2 cs =>
      rw [csv_write_line_cons2, ih]
      simp [List.intercalate]

/-! ## CSV: the reader is local -/

theorem dropWhile_behind (p : Char → Bool) (z1 z2 : List Char) : ∀ (u : List Char),
    z1.length < ((u ++ z1).dropWhile p).length →
    ∃ v, v ≠ [] ∧ (u ++ z1).dropWhile p = v ++ z1 ∧ (u ++ z2).dropWhile p = v ++ z2 := by
  intro u
  induction u with
  | nil =>
    intro h
    have := dropWhile_length_le p z1
    simp only [List.nil_append] at h
    omega
  | cons a u ih =>
    intro h
    by_cases hp : p a = true
    · simp only [List.cons_append, List.dropWhile_cons, hp, if_true] at h ⊢
      exact ih h
    · refine ⟨a :: u, by simp, ?_, ?_⟩ <;> simp [List.dropWhile_cons, hp]

theorem csv_field_loop_behind (z1 z2 : List Char) : ∀ (n : Nat) (q : Bool) (u : List Char),
    u.length ≤ n → z1.length < (csv_field_loop q (u ++ z1)).rest.length →
    ∃ v, v ≠ [] ∧ ∃ b o, csv_field_loop q (u ++ z1) = ⟨b, v ++ z1, o⟩
      ∧ csv_field_loop q (u ++ z2) = ⟨b, v ++ z2, o⟩ := by
  intro n
  induction n with
  | zero =>
    intro q u hu h
    have : u = [] := List.length_eq_zero.1 (by omega)
    subst this
    have := csv_field_loop_length z1.length q z1 (le_refl _)
    simp only [List.nil_append] at h
    omega
  | succ n ih =>
    intro q u hu h
    cases u with
    | nil =>
      have := csv_field_loop_length z1.length q z1 (le_refl _)
      simp only [List.nil_append] at h
      omega
    | cons a r =>
      have hr : r.length ≤ n := by simpa using hu
      cases q with
      | false =>
        simp only [List.cons_append] at h ⊢
        rw [csv_field_loop_unquoted] at h ⊢
        rw [csv_field_loop_unquoted]
        by_cases hs : a = ',' ∨ a = '\n' ∨ a = '\r'
        · simp only [hs, if_true]
          exact ⟨a :: r, by simp, false, [], by simp, by simp⟩
        · simp only [hs, if_false] at h ⊢
          obtain ⟨v, hv, b, o, e1, e2⟩ := ih false r hr (by simpa [FieldScan.push] using h)
          exact ⟨v, hv, b, a :: o, by rw [e1]; rfl, by rw [e2]; rfl⟩
      | true =>
        by_cases ha : a = '"'
        · subst ha
          cases r with
          | nil =>
            exfalso
            simp only [List.cons_append, List.nil_append] at h
            cases z1 with
            | nil => simp [csv_field_loop_quoted_eof] at h
            | cons d z =>
              by_cases hd : d = '"'
              · subst hd
                cases z with
                | nil => simp [csv_field_loop_doubled_eof] at h
                | cons e z3 =>
                  rw [csv_field_loop_doubled] at h
                  have := csv_field_loop_length z3.length true z3 (le_refl _)
                  simp only [FieldScan.push, List.length_cons] at h
                  omega
              · rw [csv_field_loop_quoted_end d z hd] at h
                have := dropWhile_length_le csv_blank (d :: z)
                simp only [List.length_cons] at h this
                omega
          | cons d r2 =>
            by_cases hd : d = '"'
            · subst hd
              cases r2 with
              | nil =>
                exfalso
                simp only [List.cons_append, List.nil_append] at h
                cases z1 with
                | nil => simp [csv_field_loop_doubled_eof] at h
                | cons e z3 =>
                  rw [csv_field_loop_doubled] at h
                  have := csv_field_loop_length z3.length true z3 (le_refl _)
                  simp only [FieldScan.push, List.length_cons] at h
                  omega
              | cons e r3 =>
                simp only [List.cons_append] at h ⊢
                rw [csv_field_loop_doubled] at h ⊢
                rw [csv_field_loop_doubled]
                obtain ⟨v, hv, b, o, e1, e2⟩ := ih true r3 (by simp at hr; omega)
                  (by simpa [FieldScan.push] using h)
                exact ⟨v, hv, b, e :: o, by rw [e1]; rfl, by rw [e2]; rfl⟩
            · simp only [List.cons_append] at h ⊢
              rw [csv_field_loop_quoted_end d _ hd] at h ⊢
              rw [csv_field_loop_quoted_end d _ hd]
              simp only at h
              have h' : z1.length < (((d :: r2) ++ z1).dropWhile csv_blank).length := by
                simpa using h
              obtain ⟨v, hv, e1, e2⟩ := dropWhile_behind csv_blank z1 z2 (d :: r2) h'
              simp only [List.cons_append] at e1 e2
              exact ⟨v, hv, false, [], by rw [e1], by rw [e2]⟩
        · simp only [List.cons_append] at h ⊢
          rw [csv_field_loop_quoted_char a _ ha] at h ⊢
          rw [csv_field_loop_quoted_char a _ ha]
          obtain ⟨v, hv, b, o, e1, e2⟩ := ih true r hr (by simpa [FieldScan.push] using h)
          exact ⟨v, hv, b, a :: o, by rw [e1]; rfl, by rw [e2]; rfl⟩

/-- A field that ends inside the common part is read the same in both texts. -/
theorem csv_parse_field_behind (z1 z2 u : List Char)
    (h : z1.length < (csv_parse_field (u ++ z1)).2.length) :
    ∃ v, v ≠ [] ∧ ∃ f, csv_parse_field (u ++ z1) = (f, v ++ z1)
      ∧ csv_parse_field (u ++ z2) = (f, v ++ z2) := by
  cases u with
  | nil =>
    have := csv_parse_field_length z1
    simp only [List.nil_append] at h
    omega
  | cons a r =>
    have key : ∀ (x1 x2 : FieldScan), z1.length < (csv_field_result x1).2.length →
        (∃ v, v ≠ [] ∧ ∃ b o, x1 = ⟨b, v ++ z1, o⟩ ∧ x2 = ⟨b, v ++ z2, o⟩) →
        ∃ v, v ≠ [] ∧ ∃ f, csv_field_result x1 = (f, v ++ z1)
          ∧ csv_field_result x2 = (f, v ++ z2) := by
      rintro x1 x2 hl ⟨v, hv, b, o, rfl, rfl⟩
      obtain ⟨x, v', rfl⟩ := List.exists_cons_of_ne_nil hv
      unfold csv_field_result at hl ⊢
      by_cases ho : o = []
      · subst ho
        exact ⟨x :: v', by simp, [], by simp, by simp⟩
      · simp only [ho, if_false, List.cons_append, cur_peek, List.headD_cons, List.tail_cons] at hl ⊢
        by_cases hc : (!b && decide (x = ',')) = true
        · simp only [hc, if_true] at hl ⊢
          have hv' : v' ≠ [] := by
            rintro rfl
            simp at hl
          exact ⟨v', hv', cstr o, rfl, rfl⟩
        · simp only [hc, if_false] at hl ⊢
          exact ⟨x :: v', by simp, cstr o, rfl, rfl⟩
    unfold csv_parse_field at h ⊢
    simp only [List.cons_append, cur_peek, List.headD_cons, List.tail_cons] at h ⊢
    by_cases hq : a = '"'
    · simp only [hq, if_true] at h ⊢
      apply key _ _ h
      have h1 := csv_field_result_length (csv_field_loop true (r ++ z1))
      exact csv_field_loop_behind z1 z2 r.length true r (le_refl _) (by omega)
    · simp only [hq, if_false] at h ⊢
      apply key _ _ h
      have h1 := csv_field_result_length (csv_field_loop false (a :: (r ++ z1)))
      have := csv_field_loop_behind z1 z2 (a :: r).length false (a :: r) (le_refl _)
        (by simp only [List.cons_append]; omega)
      simpa using this

theorem csv_field_loop_pass (s z : List Char) (hs : ∀ c ∈ s, ¬ csv_stop c) :
    (csv_field_loop false (s ++ z)).rest = (csv_field_loop false z).rest := by
  induction s with
  | nil => rfl
  | cons a s ih =>
    have ha : ¬ (a = ',' ∨ a = '\n' ∨ a = '\r') := hs a (List.mem_cons_self _ _)
    rw [List.cons_append, csv_field_loop_unquoted, if_neg ha]
    exact ih (fun c hc => hs c (List.mem_cons_of_mem _ hc))

/-- A field that starts on blanks in front of `z1` ends in `z1`. -/
theorem csv_parse_field_blank (z1 : List Char) : ∀ (u : List Char),
    (∀ x ∈ u, csv_blank x = true) → (csv_parse_field (u ++ z1)).2.length ≤ z1.length := by
  intro u hu
  cases u with
  | nil => exact csv_parse_field_length z1
  | cons a r =>
    have hns : ∀ x ∈ a :: r, ¬ csv_stop x := by
      intro x hx hs
      have := hu x hx
      rcases hs with e | e | e <;> subst e <;> revert this <;> decide
    have haq : a ≠ '"' := by
      rintro rfl
      have := hu '"' (List.mem_cons_self _ _)
      revert this
      decide
    have hl := csv_field_loop_pass (a :: r) z1 hns
    unfold csv_parse_field
    simp only [List.cons_append, cur_peek, List.headD_cons, haq, if_false]
    have h1 := csv_field_result_length (csv_field_loop false (a :: (r ++ z1)))
    have h2 := csv_field_loop_length z1.length false z1 (le_refl _)
    simp only [List.cons_append] at hl
    rw [hl] at h1
    omega

theorem csvBehind_of_append (z1 z2 u : List Char) : CsvBehind z1 z2 (u ++ z1) (u ++ z2) := by
  by_cases hu : u = []
  · subst hu
    exact ⟨[], rfl, Or.inr ⟨rfl, rfl⟩⟩
  · exact ⟨u, rfl, Or.inl ⟨hu, rfl⟩⟩

/-- A line break that ends inside the common part is consumed the same in both texts. -/
theorem csv_consume_newline_behind (z1 z2 v : List Char) (hv : v ≠ [])
    (h1 : (csv_consume_newline (v ++ z1)).1 = true)
    (hl : z1.length ≤ (csv_consume_newline (v ++ z1)).2.length) :
    (csv_consume_newline (v ++ z2)).1 = true
      ∧ CsvBehind z1 z2 (csv_consume_newline (v ++ z1)).2 (csv_consume_newline (v ++ z2)).2 := by
  obtain ⟨a, v', rfl⟩ := List.exists_cons_of_ne_nil hv
  by_cases ha : a = '\n'
  · subst ha
    simp only [List.cons_append, csv_consume_newline, if_true]
    exact ⟨trivial, csvBehind_of_append z1 z2 v'⟩
  · by_cases hr : a = '\r'
    · subst hr
      cases v' with
      | cons b v'' =>
        by_cases hb : b = '\n'
        · subst hb
          simp only [List.cons_append, csv_consume_newline, cur_peek, List.headD_cons,
            List.tail_cons, if_true]
          simp only [show ('\r' = '\n') = False from by decide, if_false]
          exact ⟨trivial, csvBehind_of_append z1 z2 v''⟩
        · simp only [List.cons_append, csv_consume_newline, cur_peek, List.headD_cons,
            List.tail_cons, hb, if_false, if_true]
          simp only [show ('\r' = '\n') = False from by decide, if_false]
          exact ⟨trivial, csvBehind_of_append z1 z2 (b :: v'')⟩
      | nil =>
        simp only [List.cons_append, List.nil_append, csv_consume_newline] at hl ⊢
        simp only [show ('\r' = '\n') = False from by decide, if_false, if_true] at hl ⊢
        refine ⟨trivial, ?_⟩
        have hz1 : cur_peek z1 ≠ '\n' := by
          intro hp
          rw [if_pos hp] at hl
          cases z1 with
          | nil => simp [cur_peek] at hp
          | cons x z => simp at hl
        rw [if_neg hz1]
        refine ⟨[], rfl, Or.inr ⟨rfl, ?_⟩⟩
        by_cases hz2 : cur_peek z2 = '\n'
        · rw [if_pos hz2]
          cases z2 with
          | nil => simp [cur_peek] at hz2
          | cons x z =>
            simp only [cur_peek, List.headD_cons] at hz2
            subst hz2
            have := csv_skip_blank_lf [] z (by simp)
            simpa using this.symm
        · rw [if_neg hz2]
    · exfalso
      simp [csv_consume_newline, ha, hr] at h1

theorem csv_skip_line_lt (c : List Char) (hc : c ≠ []) : (csv_skip_line c).length < c.length := by
  obtain ⟨a, r, rfl⟩ := List.exists_cons_of_ne_nil hc
  by_cases h : a ≠ '\n' ∧ a ≠ '\r'
  · exact csv_skip_line_progress a r h.1 h.2
  · have h' : a = '\n' ∨ a = '\r' := by
      by_contra hcon
      exact h ⟨fun e => hcon (Or.inl e), fun e => hcon (Or.inr e)⟩
    unfold csv_skip_line
    have e : (a :: r).dropWhile (fun ch => ch != '\n' && ch != '\r') = a :: r := by
      rcases h' with e | e <;> subst e <;> simp [List.dropWhile_cons]
    rw [e]
    have h3 := (csv_consume_newline_length (a :: r)).2
    apply h3
    rcases h' with e | e <;> subst e <;> simp [csv_consume_newline]

/-- The line break that the discard of a line consumes, inside the common part. -/
theorem csv_skip_line_behind (z1 z2 u : List Char) (hz : z1 ≠ [])
    (hl : z1.length ≤ (csv_skip_line (u ++ z1)).length) :
    CsvBehind z1 z2 (csv_skip_line (u ++ z1)) (csv_skip_line (u ++ z2)) := by
  unfold csv_skip_line at hl ⊢
  have hz0 : 0 < z1.length := List.length_pos.2 hz
  by_cases hd : z1.length < ((u ++ z1).dropWhile (fun ch => ch != '\n' && ch != '\r')).length
  · obtain ⟨v, hv, e1, e2⟩ := dropWhile_behind _ z1 z2 u hd
    rw [e1] at hl ⊢
    rw [e2]
    have hhead : (csv_consume_newline (v ++ z1)).1 = true := by
      obtain ⟨a, v', rfl⟩ := List.exists_cons_of_ne_nil hv
      have hmem : (a :: v') ++ z1 = (u ++ z1).dropWhile (fun ch => ch != '\n' && ch != '\r') :=
        e1.symm
      have hnot := List.head_dropWhile_not (fun ch => ch != '\n' && ch != '\r') (u ++ z1)
        (by rw [← hmem]; simp)
      simp only [← hmem, List.cons_append, List.head_cons] at hnot
      have h' : a = '\n' ∨ a = '\r' := by
        by_contra hcon
        have h1 : a ≠ '\n' := fun e => hcon (Or.inl e)
        have h2 : a ≠ '\r' := fun e => hcon (Or.inr e)
        simp [h1, h2] at hnot
      rcases h' with e | e <;> subst e <;> simp [csv_consume_newline]
    exact (csv_consume_newline_behind z1 z2 v hv hhead hl).2
  · exfalso
    cases hc : (u ++ z1).dropWhile (fun ch => ch != '\n' && ch != '\r') with
    | nil =>
      rw [hc] at hl
      have h0 : (csv_consume_newline ([] : List Char)).2.length = 0 := rfl
      omega
    | cons a r =>
      have hnot := List.head_dropWhile_not (fun ch => ch != '\n' && ch != '\r') (u ++ z1)
        (by rw [hc]; simp)
      simp only [hc, List.head_cons] at hnot
      have h' : a = '\n' ∨ a = '\r' := by
        by_contra hcon
        have h1 : a ≠ '\n' := fun e => hcon (Or.inl e)
        have h2 : a ≠ '\r' := fun e => hcon (Or.inr e)
        simp [h1, h2] at hnot
      have h3 := (csv_consume_newline_length (a :: r)).2
        (by rcases h' with e | e <;> subst e <;> simp [csv_consume_newline])
      rw [hc] at hl hd
      omega

theorem csv_row_end_nil (row : Nat) (t : Table) (c : List Char) :
    csv_row_end [] row t c = (t, csv_skip_line c) := by
  simp [csv_row_end, csv_row_loop]

theorem csv_row_end_cons (h : Str) (hs : List Str) (row : Nat) (t : Table) (c : List Char) :
    csv_row_end (h :: hs) row t c
      = if cur_peek (csv_parse_field c).2 = ',' then
          csv_row_end hs row (table_set t row h (rstrip (csv_parse_field c).1))
            (csv_parse_field c).2.tail
        else if cur_peek (csv_parse_field c).2 = '\n' ∨ cur_peek (csv_parse_field c).2 = '\r' then
          (table_set t row h (rstrip (csv_parse_field c).1),
            (csv_consume_newline (csv_parse_field c).2).2)
        else if (csv_parse_field c).2 = [] then
          (table_set t row h (rstrip (csv_parse_field c).1), [])
        else csv_row_end hs row (table_set t row h (rstrip (csv_parse_field c).1))
          (csv_parse_field c).2 := by
  unfold csv_row_end
  by_cases h1 : cur_peek (csv_parse_field c).2 = ','
  · simp only [csv_row_loop, h1, if_true]
  · by_cases h2 : cur_peek (csv_parse_field c).2 = '\n' ∨ cur_peek (csv_parse_field c).2 = '\r'
    · simp only [csv_row_loop, h1, h2, if_true, if_false]
    · by_cases h3 : (csv_parse_field c).2 = []
      · simp [csv_row_loop, h3, cur_peek, csv_skip_line, csv_consume_newline]
      · simp only [csv_row_loop, h1, h2, h3, if_false]

theorem csv_record_step_eq (t : Table) (c : List Char) :
    csv_record_step t c
      = csv_row_end (table_add_row t).1.headers (table_add_row t).2 (table_add_row t).1 c := rfl

theorem csv_row_end_length (hs : List Str) (row : Nat) (t : Table) (c : List Char) :
    (csv_row_end hs row t c).2.length ≤ c.length := by
  unfold csv_row_end
  have h1 := (csv_row_loop_length hs row t c).1
  have h2 := csv_skip_line_length (csv_row_loop hs row t c).2.1
  simp only
  split_ifs <;> omega

theorem csv_tail_lt {c : List Char} (h : cur_peek c = ',') : c.tail.length < c.length := by
  cases c with
  | nil => simp [cur_peek] at h
  | cons a r => simp

theorem csv_newline_lt {c : List Char} (h : cur_peek c = '\n' ∨ cur_peek c = '\r') :
    (csv_consume_newline c).1 = true ∧ (csv_consume_newline c).2.length < c.length := by
  cases c with
  | nil => simp [cur_peek] at h
  | cons a r =>
    simp only [cur_peek, List.headD_cons] at h
    have h1 : (csv_consume_newline (a :: r)).1 = true := by
      rcases h with e | e <;> subst e <;> simp [csv_consume_newline]
    exact ⟨h1, (csv_consume_newline_length (a :: r)).2 h1⟩

theorem csv_parse_field_moves (c : List Char) (hne : (csv_parse_field c).2 ≠ [])
    (h1 : cur_peek (csv_parse_field c).2 ≠ ',')
    (h2 : ¬ (cur_peek (csv_parse_field c).2 = '\n' ∨ cur_peek (csv_parse_field c).2 = '\r')) :
    (csv_parse_field c).2.length < c.length := by
  cases c with
  | nil =>
    exfalso
    apply hne
    have := csv_parse_field_length []
    exact List.length_eq_zero.1 (by simpa using this)
  | cons a r =>
    by_cases hs : csv_stop a
    · exfalso
      have hp : csv_parse_field (a :: r) = ([], a :: r) :=
        csv_parse_field_empty _ (by intro x hx; simp at hx; subst hx; exact hs)
      rw [hp] at h1 h2
      simp only [cur_peek, List.headD_cons] at h1 h2
      rcases hs with e | e | e
      · exact h1 e
      · exact h2 (Or.inl e)
      · exact h2 (Or.inr e)
    · exact csv_parse_field_progress a r hs

/-- One record of the row loop consumes input. -/
theorem csv_row_end_progress (hs : List Str) (row : Nat) (t : Table) (c : List Char)
    (hc : c ≠ []) : (csv_row_end hs row t c).2.length < c.length := by
  cases hs with
  | nil =>
    rw [csv_row_end_nil]
    exact csv_skip_line_lt c hc
  | cons h hs =>
    have hp := csv_parse_field_length c
    have hc0 : 0 < c.length := List.length_pos.2 hc
    rw [csv_row_end_cons]
    split_ifs with h1 h2 h3
    · have := csv_row_end_length hs row (table_set t row h (rstrip (csv_parse_field c).1))
        (csv_parse_field c).2.tail
      have := csv_tail_lt h1
      omega
    · have := (csv_newline_lt h2).2
      simp only
      omega
    · simpa using hc0
    · have := csv_row_end_length hs row (table_set t row h (rstrip (csv_parse_field c).1))
        (csv_parse_field c).2
      have := csv_parse_field_moves c h3 h1 h2
      omega

/-- A record whose first field ends behind the common part ends behind it. -/
theorem csv_row_end_small (h : Str) (hs : List Str) (row : Nat) (t : Table) (c : List Char)
    (k : Nat) (hk : 0 < k) (hf : (csv_parse_field c).2.length ≤ k) :
    (csv_row_end (h :: hs) row t c).2.length < k := by
  rw [csv_row_end_cons]
  split_ifs with h1 h2 h3
  · have := csv_row_end_length hs row (table_set t row h (rstrip (csv_parse_field c).1))
      (csv_parse_field c).2.tail
    have := csv_tail_lt h1
    omega
  · have := (csv_newline_lt h2).2
    simp only
    omega
  · simpa using hk
  · have := csv_row_end_progress hs row (table_set t row h (rstrip (csv_parse_field c).1))
      (csv_parse_field c).2 h3
    omega

/-- A record that ends inside the common part is read the same in both texts. -/
theorem csv_row_end_behind (z1 z2 : List Char) (hz : z1 ≠ []) (hs : List Str) :
    ∀ (row : Nat) (t : Table) (u : List Char),
      z1.length ≤ (csv_row_end hs row t (u ++ z1)).2.length →
      (csv_row_end hs row t (u ++ z2)).1 = (csv_row_end hs row t (u ++ z1)).1
        ∧ CsvBehind z1 z2 (csv_row_end hs row t (u ++ z1)).2 (csv_row_end hs row t (u ++ z2)).2 := by
  have hz0 : 0 < z1.length := List.length_pos.2 hz
  induction hs with
  | nil =>
    intro row t u hl
    rw [csv_row_end_nil] at hl ⊢
    rw [csv_row_end_nil]
    exact ⟨rfl, csv_skip_line_behind z1 z2 u hz hl⟩
  | cons h hs ih =>
    intro row t u hl
    by_cases hlen : z1.length < (csv_parse_field (u ++ z1)).2.length
    · obtain ⟨v, hv, f, e1, e2⟩ := csv_parse_field_behind z1 z2 u hlen
      obtain ⟨x, v', rfl⟩ := List.exists_cons_of_ne_nil hv
      rw [csv_row_end_cons] at hl ⊢
      rw [csv_row_end_cons]
      rw [e1] at hl ⊢
      rw [e2]
      simp only [List.cons_append, cur_peek, List.headD_cons, List.tail_cons] at hl ⊢
      by_cases hc : x = ','
      · simp only [hc, if_true] at hl ⊢
        exact ih row _ v' hl
      · simp only [hc, if_false] at hl ⊢
        by_cases hn : x = '\n' ∨ x = '\r'
        · simp only [hn, if_true] at hl ⊢
          have hb := csv_consume_newline_behind z1 z2 (x :: v') (by simp)
            (by rcases hn with e | e <;> subst e <;> simp [csv_consume_newline]) hl
          exact ⟨trivial, hb.2⟩
        · simp only [hn, if_false, reduceCtorEq] at hl ⊢
          exact ih row _ (x :: v') hl
    · exfalso
      have := csv_row_end_small h hs row t (u ++ z1) z1.length hz0 (by omega)
      omega

/-- A record that starts on blanks in front of `z1` ends in `z1`. -/
theorem csv_row_end_blank (z1 : List Char) (hz : z1 ≠ []) (hs : List Str) (row : Nat) (t : Table)
    (u : List Char) (hu : ∀ x ∈ u, csv_blank x = true) :
    (csv_row_end hs row t (u ++ z1)).2.length < z1.length := by
  have hz0 : 0 < z1.length := List.length_pos.2 hz
  cases hs with
  | nil =>
    rw [csv_row_end_nil]
    have e : csv_skip_line (u ++ z1) = csv_skip_line z1 := by
      unfold csv_skip_line
      congr 2
      induction u with
      | nil => rfl
      | cons a r ih =>
        have ha := hu a (List.mem_cons_self _ _)
        have h1 : a ≠ '\n' := by rintro rfl; revert ha; decide
        have h2 : a ≠ '\r' := by rintro rfl; revert ha; decide
        have hp : (a != '\n' && a != '\r') = true := by simp [h1, h2]
        simp only [List.cons_append, List.dropWhile_cons]
        rw [if_pos hp]
        exact ih (fun x hx => hu x (List.mem_cons_of_mem _ hx))
    rw [e]
    exact csv_skip_line_lt z1 hz
  | cons h hs =>
    exact csv_row_end_small h hs row t (u ++ z1) z1.length hz0 (csv_parse_field_blank z1 u hu)

theorem dropWhile_stop_in (p : Char → Bool) : ∀ (u : List Char), (∃ x ∈ u, p x = false) →
    ∃ a w, p a = false ∧ ∀ z : List Char, (u ++ z).dropWhile p = a :: (w ++ z) := by
  intro u
  induction u with
  | nil => rintro ⟨x, hx, _⟩; cases hx
  | cons b u ih =>
    rintro ⟨x, hx, hpx⟩
    by_cases hb : p b = true
    · have hxu : x ∈ u := by
        rcases List.mem_cons.1 hx with e | e
        · subst e; rw [hb] at hpx; cases hpx
        · exact e
      obtain ⟨a, w, ha, hw⟩ := ih ⟨x, hxu, hpx⟩
      refine ⟨a, w, ha, fun z => ?_⟩
      simp only [List.cons_append, List.dropWhile_cons, hb, if_true]
      exact hw z
    · refine ⟨b, u, by simpa using hb, fun z => ?_⟩
      simp [List.dropWhile_cons, hb]

theorem csv_consume_newline_fst (a : Char) (r1 r2 : List Char) :
    (csv_consume_newline (a :: r1)).1 = (csv_consume_newline (a :: r2)).1 := by
  simp only [csv_consume_newline]
  split_ifs <;> rfl

theorem csv_consume_newline_false {c : List Char} (h : (csv_consume_newline c).1 = false) :
    (csv_consume_newline c).2 = c ∧ ¬ (cur_peek c = '\n' ∨ cur_peek c = '\r') := by
  cases c with
  | nil => exact ⟨rfl, by simp [cur_peek]⟩
  | cons a r =>
    simp only [csv_consume_newline] at h ⊢
    split_ifs at h ⊢ with h1 h2
    exact ⟨rfl, by simp [cur_peek, h1, h2]⟩

/-- Blank lines that end inside the common part are skipped the same in both texts, when
the cursor they leave does not stand on blanks only. -/
theorem csv_skip_behind (z1 z2 : List Char) : ∀ (n : Nat) (u : List Char), u.length ≤ n →
    z1.length < (csv_skip_empty_lines (u ++ z1)).length →
    ∃ v, v ≠ [] ∧ csv_skip_empty_lines (u ++ z1) = v ++ z1
      ∧ ((∃ x ∈ v, csv_blank x = false) → csv_skip_empty_lines (u ++ z2) = v ++ z2) := by
  intro n
  induction n with
  | zero =>
    intro u hu h
    have : u = [] := List.length_eq_zero.1 (by omega)
    subst this
    have := csv_skip_length z1
    simp only [List.nil_append] at h
    omega
  | succ n ih =>
    intro u hu h
    rcases csv_on_record_iff (u ++ z1) with hrec | ⟨c1, hc1⟩
    · rw [csv_skip_empty_lines_on_record _ hrec] at h ⊢
      have hune : u ≠ [] := by
        rintro rfl
        simp at h
      refine ⟨u, hune, rfl, fun hex => ?_⟩
      obtain ⟨a, w, _, hw⟩ := dropWhile_stop_in csv_blank u hex
      apply csv_skip_empty_lines_on_record
      unfold csv_on_record at hrec ⊢
      rw [hw z1] at hrec
      rw [hw z2, ← hrec]
      exact csv_consume_newline_fst a _ _
    · have hsk := csv_skip_blank_line _ _ hc1
      rw [hsk] at h ⊢
      have hl1 := csv_skip_length c1
      have hcn := (csv_consume_newline_length ((u ++ z1).dropWhile csv_blank)).2 (by rw [hc1])
      rw [hc1] at hcn
      simp only at hcn
      obtain ⟨w, hw, e1, e2⟩ := dropWhile_behind csv_blank z1 z2 u (by omega)
      have hb := csv_consume_newline_behind z1 z2 w hw (by rw [← e1, hc1])
        (by rw [← e1, hc1]; simp only; omega)
      rw [← e1, hc1] at hb
      obtain ⟨hb1, u', hu1, hu2⟩ := hb
      simp only at hu1
      subst hu1
      have hu'ne : u' ≠ [] := by
        rintro rfl
        simp only [List.nil_append] at hl1 h
        omega
      rcases hu2 with ⟨_, hu2⟩ | ⟨hu2, _⟩
      · have hc2 : csv_consume_newline ((u ++ z2).dropWhile csv_blank) = (true, u' ++ z2) := by
          rw [e2]
          exact Prod.ext hb1 hu2
        rw [csv_skip_blank_line _ _ hc2]
        have hlt := csv_blank_line_shorter _ _ hc1
        exact ih u' (by simp only [List.length_append] at hlt; omega) h
      · exact absurd hu2 hu'ne

theorem csv_header_loop_succ (n : Nat) (t : Table) (c : List Char) (hc : c ≠ []) :
    csv_header_loop (n + 1) t c
      = if cur_peek (csv_parse_field c).2 = ',' then
          csv_header_loop n (ensure_col t (lskip (rstrip (csv_parse_field c).1)))
            (csv_parse_field c).2.tail
        else if (csv_consume_newline (csv_parse_field c).2).1 = true then
          (ensure_col t (lskip (rstrip (csv_parse_field c).1)),
            (csv_consume_newline (csv_parse_field c).2).2)
        else if (csv_consume_newline (csv_parse_field c).2).2 = [] then
          (ensure_col t (lskip (rstrip (csv_parse_field c).1)),
            (csv_consume_newline (csv_parse_field c).2).2)
        else csv_header_loop n (ensure_col t (lskip (rstrip (csv_parse_field c).1)))
          (csv_consume_newline (csv_parse_field c).2).2 := by
  simp only [csv_header_loop, hc, if_false]

theorem csv_header_loop_length : ∀ (n : Nat) (t : Table) (c : List Char),
    (csv_header_loop n t c).2.length ≤ c.length := by
  intro n
  induction n with
  | zero => intro t c; simp [csv_header_loop]
  | succ n ih =>
    intro t c
    by_cases hc : c = []
    · subst hc; simp [csv_header_loop]
    · rw [csv_header_loop_succ n t c hc]
      have hp := csv_parse_field_length c
      have hn := (csv_consume_newline_length (csv_parse_field c).2).1
      split_ifs with h1 h2 h3
      · have := ih (ensure_col t (lskip (rstrip (csv_parse_field c).1))) (csv_parse_field c).2.tail
        have := csv_tail_lt h1
        omega
      · simp only; omega
      · simp only; omega
      · have := ih (ensure_col t (lskip (rstrip (csv_parse_field c).1)))
          (csv_consume_newline (csv_parse_field c).2).2
        omega

/-- The header loop consumes input. -/
theorem csv_header_loop_progress (n : Nat) (t : Table) (c : List Char) (hc : c ≠ []) :
    (csv_header_loop (n + 1) t c).2.length < c.length := by
  have hc0 : 0 < c.length := List.length_pos.2 hc
  rw [csv_header_loop_succ n t c hc]
  have hp := csv_parse_field_length c
  have hn := csv_consume_newline_length (csv_parse_field c).2
  split_ifs with h1 h2 h3
  · have := csv_header_loop_length n (ensure_col t (lskip (rstrip (csv_parse_field c).1)))
      (csv_parse_field c).2.tail
    have := csv_tail_lt h1
    omega
  · have := hn.2 h2
    simp only; omega
  · simp only [h3, List.length_nil]; omega
  · have hf := csv_consume_newline_false (by simpa using h2)
    have := csv_header_loop_length n (ensure_col t (lskip (rstrip (csv_parse_field c).1)))
      (csv_consume_newline (csv_parse_field c).2).2
    rw [hf.1] at h3 this
    have := csv_parse_field_moves c h3 h1 hf.2
    rw [hf.1]
    omega

/-- A header whose first field ends behind the common part ends behind it. -/
theorem csv_header_loop_small (n : Nat) (t : Table) (c : List Char) (hc : c ≠ [])
    (hn : c.length ≤ n + 1) (k : Nat) (hk : 0 < k) (hf : (csv_parse_field c).2.length ≤ k) :
    (csv_header_loop (n + 1) t c).2.length < k := by
  rw [csv_header_loop_succ n t c hc]
  have hcn := csv_consume_newline_length (csv_parse_field c).2
  split_ifs with h1 h2 h3
  · have := csv_header_loop_length n (ensure_col t (lskip (rstrip (csv_parse_field c).1)))
      (csv_parse_field c).2.tail
    have := csv_tail_lt h1
    omega
  · have := hcn.2 h2
    simp only; omega
  · simp only [h3, List.length_nil]; omega
  · have hf2 := csv_consume_newline_false (by simpa using h2)
    rw [hf2.1] at h3 ⊢
    have hm := csv_parse_field_moves c h3 h1 hf2.2
    have h30 : 0 < (csv_parse_field c).2.length := List.length_pos.2 h3
    obtain ⟨m, rfl⟩ : ∃ m, n = m + 1 := ⟨n - 1, by omega⟩
    have := csv_header_loop_progress m (ensure_col t (lskip (rstrip (csv_parse_field c).1)))
      (csv_parse_field c).2 h3
    omega

/-- A header line that ends inside the common part is read the same in both texts. -/
theorem csv_header_loop_behind (z1 z2 : List Char) (hz : z1 ≠ []) :
    ∀ (n m : Nat) (t : Table) (u : List Char), (u ++ z1).length ≤ n → (u ++ z2).length ≤ m →
      z1.length ≤ (csv_header_loop n t (u ++ z1)).2.length →
      (csv_header_loop m t (u ++ z2)).1 = (csv_header_loop n t (u ++ z1)).1
        ∧ CsvBehind z1 z2 (csv_header_loop n t (u ++ z1)).2 (csv_header_loop m t (u ++ z2)).2 := by
  have hz0 : 0 < z1.length := List.length_pos.2 hz
  intro n
  induction n with
  | zero =>
    intro m t u hn _ _
    simp only [List.length_append] at hn
    omega
  | succ n ih =>
    intro m t u hn hm hl
    have hc1 : u ++ z1 ≠ [] := by simp [hz]
    by_cases hlen : z1.length < (csv_parse_field (u ++ z1)).2.length
    · obtain ⟨v, hv, f, e1, e2⟩ := csv_parse_field_behind z1 z2 u hlen
      have hune : u ≠ [] := by
        rintro rfl
        have := csv_parse_field_length z1
        simp only [List.nil_append] at hlen
        omega
      have hc2 : u ++ z2 ≠ [] := by simp [hune]
      obtain ⟨m, rfl⟩ : ∃ m', m = m' + 1 :=
        ⟨m - 1, by have := List.length_pos.2 hc2; omega⟩
      have hvl : v.length ≤ u.length := by
        have := csv_parse_field_length (u ++ z1)
        rw [e1] at this
        simp only [List.length_append] at this
        omega
      obtain ⟨x, v', rfl⟩ := List.exists_cons_of_ne_nil hv
      rw [csv_header_loop_succ n t _ hc1] at hl ⊢
      rw [csv_header_loop_succ m t _ hc2]
      rw [e1] at hl ⊢
      rw [e2]
      simp only [List.length_append, List.length_cons] at hn hm hvl
      simp only [List.cons_append, cur_peek, List.headD_cons, List.tail_cons] at hl ⊢
      by_cases hc : x = ','
      · simp only [hc, if_true] at hl ⊢
        exact ih m _ v' (by simp only [List.length_append]; omega)
          (by simp only [List.length_append]; omega) hl
      · simp only [hc, if_false] at hl ⊢
        by_cases hnl : (csv_consume_newline (x :: (v' ++ z1))).1 = true
        · have hnl2 : (csv_consume_newline (x :: (v' ++ z2))).1 = true := by
            rw [← hnl]
            exact csv_consume_newline_fst x _ _
          simp only [hnl, hnl2, if_true] at hl ⊢
          have hb := csv_consume_newline_behind z1 z2 (x :: v') (by simp) hnl hl
          exact ⟨trivial, hb.2⟩
        · have hnl1 : (csv_consume_newline (x :: (v' ++ z1))).1 = false := by simpa using hnl
          have hnl2 : (csv_consume_newline (x :: (v' ++ z2))).1 = false := by
            rw [← hnl1]
            exact csv_consume_newline_fst x _ _
          have hf1 := csv_consume_newline_false hnl1
          have hf2 := csv_consume_newline_false hnl2
          simp only [hnl1, hnl2, hf1.1, hf2.1, Bool.false_eq_true, if_false, reduceCtorEq] at hl ⊢
          have hmv : (csv_parse_field (u ++ z1)).2.length < (u ++ z1).length := by
            apply csv_parse_field_moves
            · rw [e1]; simp
            · rw [e1]; simpa [cur_peek] using hc
            · rw [e1]; exact hf1.2
          rw [e1] at hmv
          simp only [List.length_append, List.length_cons] at hmv
          have := ih m (ensure_col t (lskip (rstrip f))) (x :: v')
            (by simp only [List.length_append, List.length_cons]; omega)
            (by simp only [List.length_append, List.length_cons]; omega) hl
          exact this
    · exfalso
      have := csv_header_loop_small n t (u ++ z1) hc1 hn z1.length hz0 (by omega)
      omega

/-- A header line that starts on blanks in front of `z1` ends in `z1`. -/
theorem csv_header_loop_blank (z1 : List Char) (hz : z1 ≠ []) (n : Nat) (t : Table)
    (u : List Char) (hu : ∀ x ∈ u, csv_blank x = true) (hn : (u ++ z1).length ≤ n) :
    (csv_header_loop n t (u ++ z1)).2.length < z1.length := by
  have hz0 : 0 < z1.length := List.length_pos.2 hz
  have hc1 : u ++ z1 ≠ [] := by simp [hz]
  obtain ⟨m, rfl⟩ : ∃ m', n = m' + 1 :=
    ⟨n - 1, by have := List.length_pos.2 hc1; omega⟩
  exact csv_header_loop_small m t (u ++ z1) hc1 hn z1.length hz0 (csv_parse_field_blank z1 u hu)

theorem csv_rows_cursors_succ (n : Nat) (t : Table) (c : List Char) :
    csv_rows_cursors (n + 1) t c
      = c :: (if csv_skip_empty_lines c = [] then []
          else csv_rows_cursors n (csv_record_step t (csv_skip_empty_lines c)).1
            (csv_record_step t (csv_skip_empty_lines c)).2) := rfl

/-- The row loop never moves its cursor back. -/
theorem csv_rows_cursors_length : ∀ (n : Nat) (t : Table) (c x : List Char),
    x ∈ csv_rows_cursors n t c → x.length ≤ c.length := by
  intro n
  induction n with
  | zero => intro t c x hx; simp [csv_rows_cursors] at hx
  | succ n ih =>
    intro t c x hx
    rw [csv_rows_cursors_succ] at hx
    rcases List.mem_cons.1 hx with e | hx
    · rw [e]
    · by_cases h1 : csv_skip_empty_lines c = []
      · simp [h1] at hx
      · simp only [h1, if_false] at hx
        have := ih _ _ _ hx
        have hp := csv_record_step_progress t _ h1 (csv_skip_on_record c)
        have hl := csv_skip_length c
        omega

/-- The row loop gives the same rows on two texts that differ behind a common part, when
it stands between two records at the end of the common part and both texts skip to the
same place there. -/
theorem csv_rows_loop_behind (z1 z2 : List Char) (hz : z1 ≠ [])
    (hsk : csv_skip_empty_lines z2 = csv_skip_empty_lines z1) :
    ∀ (n : Nat) (t : Table) (c1 c2 : List Char), CsvBehind z1 z2 c1 c2 →
      z1 ∈ csv_rows_cursors n t c1 →
      csv_rows_loop c1.length t c1 = csv_rows_loop c2.length t c2 := by
  intro n
  induction n with
  | zero => intro t c1 c2 _ hx; simp [csv_rows_cursors] at hx
  | succ n ih =>
    intro t c1 c2 hb hx
    obtain ⟨u, rfl, hu⟩ := hb
    rcases hu with ⟨hune, rfl⟩ | ⟨rfl, hc2⟩
    · rw [csv_rows_cursors_succ] at hx
      rcases List.mem_cons.1 hx with e | hx
      · exfalso
        have := congrArg List.length e
        simp only [List.length_append] at this
        have := List.length_pos.2 hune
        omega
      · by_cases h1 : csv_skip_empty_lines (u ++ z1) = []
        · simp [h1] at hx
        · simp only [h1, if_false] at hx
          have hlen := csv_rows_cursors_length _ _ _ _ hx
          have hp := csv_record_step_progress t _ h1 (csv_skip_on_record (u ++ z1))
          obtain ⟨v, hv, e1, e2⟩ := csv_skip_behind z1 z2 u.length u (le_refl _) (by omega)
          rw [e1] at hx hlen h1
          by_cases hbl : ∀ x ∈ v, csv_blank x = true
          · exfalso
            have := csv_row_end_blank z1 hz (table_add_row t).1.headers (table_add_row t).2
              (table_add_row t).1 v hbl
            rw [csv_record_step_eq] at hlen
            omega
          · have hex : ∃ x ∈ v, csv_blank x = false := by
              by_contra hcon
              apply hbl
              intro x hx'
              by_contra hxb
              exact hcon ⟨x, hx', by simpa using hxb⟩
            have e2' := e2 hex
            have hre := csv_row_end_behind z1 z2 hz (table_add_row t).1.headers
              (table_add_row t).2 (table_add_row t).1 v (by rw [csv_record_step_eq] at hlen; exact hlen)
            rw [csv_rows_loop_unfold _ t (u ++ z1) (le_refl _),
              csv_rows_loop_unfold _ t (u ++ z2) (le_refl _), e1, e2']
            have h2 : v ++ z2 ≠ [] := by simp [hv]
            simp only [h1, h2, if_false]
            rw [csv_record_step_eq] at hx ⊢
            rw [csv_record_step_eq, hre.1]
            exact ih _ _ _ hre.2 hx
    · simp only [List.nil_append]
      exact csv_rows_loop_sim (CsvSim.same _ _ (by rw [hc2, hsk])) t _ _ (le_refl _) (le_refl _)

/-- Two texts that differ behind a common part are read as the same table, when the reader
stands between two records at the end of the common part and both texts skip to the same
place there. -/
theorem csv_read_table_behind (pre z1 z2 : List Char) (hz : z1 ≠ [])
    (hsk : csv_skip_empty_lines z2 = csv_skip_empty_lines z1)
    (hmem : z1 ∈ csv_record_starts (pre ++ z1)) :
    csv_read_table (pre ++ z2) = csv_read_table (pre ++ z1) := by
  have hz0 : 0 < z1.length := List.length_pos.2 hz
  unfold csv_record_starts at hmem
  have hlen := csv_rows_cursors_length _ _ _ _ hmem
  have hhl := csv_header_loop_length (csv_skip_empty_lines (pre ++ z1)).length Table.empty
    (csv_skip_empty_lines (pre ++ z1))
  have hs1 : csv_skip_empty_lines (pre ++ z1) ≠ [] := by
    intro h0
    rw [h0] at hhl hlen
    have h00 : ([] : List Char).length = 0 := rfl
    omega
  obtain ⟨k, hk⟩ : ∃ k, (csv_skip_empty_lines (pre ++ z1)).length = k + 1 :=
    ⟨(csv_skip_empty_lines (pre ++ z1)).length - 1, by have := List.length_pos.2 hs1; omega⟩
  have hpr := csv_header_loop_progress k Table.empty _ hs1
  rw [← hk] at hpr
  obtain ⟨v, hv, e1, e2⟩ := csv_skip_behind z1 z2 pre.length pre (le_refl _) (by omega)
  rw [e1] at hmem hlen
  by_cases hbl : ∀ x ∈ v, csv_blank x = true
  · exfalso
    have := csv_header_loop_blank z1 hz (v ++ z1).length Table.empty v hbl (le_refl _)
    omega
  · have hex : ∃ x ∈ v, csv_blank x = false := by
      by_contra hcon
      apply hbl
      intro x hx'
      by_contra hxb
      exact hcon ⟨x, hx', by simpa using hxb⟩
    have e2' := e2 hex
    have hh := csv_header_loop_behind z1 z2 hz (v ++ z1).length (v ++ z2).length Table.empty v
      (le_refl _) (le_refl _) hlen
    unfold csv_read_table
    simp only [e1, e2', hh.1]
    split_ifs
    · rfl
    · rw [csv_rows_loop_behind z1 z2 hz hsk _ _ _ _ hh.2 hmem]

end DataConvert

/-- C8: a CSV text without quoted fields is read as the same table whether its lines are
separated (or, with `final`, also ended) by `\n`, by `\r\n` or by a bare `\r`; and
`csv_write_table` writes the header and every row as the escaped fields joined by commas
and ended by exactly one `\n`, so it never writes `\r` as a terminator. -/
theorem c8_csv_line_terminators (lines : List (List Char)) (final : Bool)
    (t : DataConvert.Table) (h : ∀ l ∈ lines, DataConvert.csv_unquoted_line l) :
    DataConvert.csv_read_table (DataConvert.csv_join_lines ['\r', '\n'] final lines)
        = DataConvert.csv_read_table (DataConvert.csv_join_lines ['\n'] final lines)
      ∧ DataConvert.csv_read_table (DataConvert.csv_join_lines ['\r'] final lines)
        = DataConvert.csv_read_table (DataConvert.csv_join_lines ['\n'] final lines)
      ∧ DataConvert.csv_write_table t
        = ((t.headers :: t.rows.map (DataConvert.row_cells t)).map (fun cs =>
            List.intercalate [','] (cs.map DataConvert.csv_write_escaped) ++ ['\n'])).flatten := by
  refine ⟨?_, ?_, ?_⟩
  · exact DataConvert.csv_read_table_sim
      (DataConvert.csvSim_join _ _ (by decide) (by decide) final lines h)
  · exact DataConvert.csv_read_table_sim
      (DataConvert.csvSim_join _ _ (by decide) (by decide) final lines h)
  · unfold DataConvert.csv_write_table
    simp only [List.map_cons, List.flatten_cons, List.map_map]
    rw [DataConvert.csv_write_line_intercalate]
    congr 2
    apply List.map_congr_left
    intro r _
    simp only [Function.comp]
    rw [DataConvert.csv_write_line_intercalate]

/-- C8 at the lines `a, b`, `1,2`, a blank line and `3,,4`, not ended by a terminator. -/
theorem c8_csv_line_terminators_witness :
    (∀ l ∈ ["a, b".toList, "1,2".toList, " ".toList, "3,,4".toList],
        DataConvert.csv_unquoted_line l)
      ∧ DataConvert.csv_read_table "a, b\r\n1,2\r\n \r\n3,,4".toList
        = DataConvert.csv_read_table "a, b\n1,2\n \n3,,4".toList
      ∧ DataConvert.csv_read_table "a, b\r1,2\r \r3,,4".toList
        = DataConvert.csv_read_table "a, b\n1,2\n \n3,,4".toList :=
  ⟨by decide,
    (c8_csv_line_terminators ["a, b".toList, "1,2".toList, " ".toList, "3,,4".toList] false
      ⟨[], []⟩ (by decide)).1,
    (c8_csv_line_terminators ["a, b".toList, "1,2".toList, " ".toList, "3,,4".toList] false
      ⟨[], []⟩ (by decide)).2.1⟩

/-- C9: blank lines (spaces and tabs, then a line break each) put in front of a text, or
between two records of a text, do not change the table that `csv_read_table` returns. The
places between two records are those where the row loop of the reader, run on the text,
starts a round with text left to read: behind the line break that ends the header or a
record, whatever the fields hold. -/
theorem c9_csv_blank_lines (text pre post : List Char)
    (blank : List (List Char × List Char)) (hblank : DataConvert.csv_blank_lines blank)
    (hne : post ≠ []) (hpost : post ∈ DataConvert.csv_record_starts (pre ++ post)) :
    DataConvert.csv_read_table (DataConvert.csv_lines_text blank ++ text)
        = DataConvert.csv_read_table text
      ∧ DataConvert.csv_read_table (pre ++ (DataConvert.csv_lines_text blank ++ post))
        = DataConvert.csv_read_table (pre ++ post) :=
  ⟨DataConvert.csv_read_table_sim
      (DataConvert.CsvSim.same _ _ (DataConvert.csv_skip_blank_lines blank hblank text)),
    DataConvert.csv_read_table_behind pre post _ hne
      (DataConvert.csv_skip_blank_lines blank hblank post) hpost⟩

/-- C9 with two blank lines put in front of the header of a text, and put between the
second and the third line of a text whose fields hold quoted line breaks. -/
theorem c9_csv_blank_lines_witness :
    DataConvert.csv_blank_lines [("  ".toList, "\n".toList), ("\t".toList, "\r".toList)]
      ∧ "3,\"x\ny\"\n".toList
        ∈ DataConvert.csv_record_starts "a,\"b\nc\"\n\"1\n\",2\r\n3,\"x\ny\"\n".toList
      ∧ DataConvert.csv_read_table "  \n\t\ra,b\n1,\"x\ny\"\n".toList
        = DataConvert.csv_read_table "a,b\n1,\"x\ny\"\n".toList
      ∧ DataConvert.csv_read_table "a,\"b\nc\"\n\"1\n\",2\r\n  \n\t\r3,\"x\ny\"\n".toList
        = DataConvert.csv_read_table "a,\"b\nc\"\n\"1\n\",2\r\n3,\"x\ny\"\n".toList :=
  ⟨by decide, by decide,
    c9_csv_blank_lines "a,b\n1,\"x\ny\"\n".toList "a,\"b\nc\"\n\"1\n\",2\r\n".toList
      "3,\"x\ny\"\n".toList [("  ".toList, "\n".toList), ("\t".toList, "\r".toList)]
      (by decide) (by decide) (by decide)⟩

namespace DataConvert

/-! ## JSON: string literals piece by piece -/

theorem jstring_loop_bad_escape (e : Char) (r : List Char) (h : json_escape_value e = none)
    (hu : e ≠ 'u') : jstring_loop ('\\' :: e :: r) 0 = none := by
  have h2 : jescape e = none := h
  simp [jstring_loop, h2, hu]

/-- The scanner on the text of pieces that hold a wrong escape fails, whatever follows. -/
theorem jstring_loop_pieces_none : ∀ (ps : List JPiece), (∀ p ∈ ps, p.ok = true) →
    json_pieces_value ps = none → ∀ tail, jstring_loop (json_pieces_text ps ++ tail) 0 = none := by
  intro ps
  induction ps with
  | nil => intro _ h; simp [json_pieces_value] at h
  | cons p ps ih =>
    intro hok hv tail
    have hp := hok p (List.mem_cons_self _ _)
    have hps : ∀ q ∈ ps, q.ok = true := fun q hq => hok q (List.mem_cons_of_mem _ hq)
    cases p with
    | raw c =>
      simp only [JPiece.ok, Bool.and_eq_true, bne_iff_ne, ne_eq] at hp
      have hv' : json_pieces_value ps = none := by
        simp only [json_pieces_value, JPiece.value] at hv
        simpa using hv
      simp only [json_pieces_text, JPiece.text, List.cons_append, List.nil_append]
      rw [jstring_loop_raw c _ hp.1 hp.2, ih hps hv' tail]
      rfl
    | esc e =>
      simp only [JPiece.ok, bne_iff_ne, ne_eq] at hp
      simp only [json_pieces_text, JPiece.text, List.cons_append, List.nil_append]
      cases he : json_escape_value e with
      | none => exact jstring_loop_bad_escape e _ he hp
      | some ch =>
        have hv' : json_pieces_value ps = none := by
          simp only [json_pieces_value, JPiece.value, he] at hv
          simpa using hv
        rw [jstring_loop_esc e ch _ he, ih hps hv' tail]
        rfl
    | uni x1 x2 x3 x4 =>
      have hv' : json_pieces_value ps = none := by
        simp only [json_pieces_value, JPiece.value] at hv
        simpa using hv
      simp only [json_pieces_text, JPiece.text, List.cons_append, List.nil_append]
      rw [jstring_loop_uni, ih hps hv' tail]
      rfl

/-- The scanner on the text of pieces up to the closing quote gives their bytes. -/
theorem jstring_loop_pieces : ∀ (ps : List JPiece) (v : List Char), (∀ p ∈ ps, p.ok = true) →
    json_pieces_value ps = some v →
    ∀ rest, jstring_loop (json_pieces_text ps ++ '"' :: rest) 0 = some (v, rest) := by
  intro ps
  induction ps with
  | nil =>
    intro v _ h rest
    simp only [json_pieces_value, Option.some.injEq] at h
    subst h
    exact jstring_loop_quote rest
  | cons p ps ih =>
    intro v hok hv rest
    have hp := hok p (List.mem_cons_self _ _)
    have hps : ∀ q ∈ ps, q.ok = true := fun q hq => hok q (List.mem_cons_of_mem _ hq)
    cases hpv : p.value with
    | none => simp [json_pieces_value, hpv] at hv
    | some c =>
      cases hrv : json_pieces_value ps with
      | none => simp [json_pieces_value, hpv, hrv] at hv
      | some v' =>
        simp only [json_pieces_value, hpv, hrv, Option.map_some', Option.some.injEq] at hv
        subst hv
        have ih' := ih v' hps hrv rest
        cases p with
        | raw a =>
          simp only [JPiece.ok, Bool.and_eq_true, bne_iff_ne, ne_eq] at hp
          simp only [JPiece.value, Option.some.injEq] at hpv
          subst hpv
          simp only [json_pieces_text, JPiece.text, List.cons_append, List.nil_append]
          rw [jstring_loop_raw a _ hp.1 hp.2, ih']
          rfl
        | esc e =>
          simp only [json_pieces_text, JPiece.text, List.cons_append, List.nil_append]
          rw [jstring_loop_esc e c _ hpv, ih']
          rfl
        | uni x1 x2 x3 x4 =>
          simp only [JPiece.value, Option.some.injEq] at hpv
          subst hpv
          simp only [json_pieces_text, JPiece.text, List.cons_append, List.nil_append]
          rw [jstring_loop_uni, ih']
          rfl

/-! ## JSON: what the writer emits -/

theorem hexdigit_eq (n : Nat) (h : n < 16) : hexdigit n = json_hex_digit n := by
  interval_cases n <;> decide

theorem json_escape_char_eq (c : Char) : json_escape_char c = json_escape_spec c := by
  by_cases h1 : c = '"'
  · subst h1; rfl
  by_cases h2 : c = '\\'
  · subst h2; rfl
  by_cases h3 : c = '\x08'
  · subst h3; rfl
  by_cases h4 : c = '\x0c'
  · subst h4; rfl
  by_cases h5 : c = '\n'
  · subst h5; rfl
  by_cases h6 : c = '\r'
  · subst h6; rfl
  by_cases h7 : c = '\t'
  · subst h7; rfl
  have hl : json_escape_table.lookup c = none := by
    have b1 : (c == '"') = false := beq_eq_false_iff_ne.2 h1
    have b2 : (c == '\\') = false := beq_eq_false_iff_ne.2 h2
    have b3 : (c == '\x08') = false := beq_eq_false_iff_ne.2 h3
    have b4 : (c == '\x0c') = false := beq_eq_false_iff_ne.2 h4
    have b5 : (c == '\n') = false := beq_eq_false_iff_ne.2 h5
    have b6 : (c == '\r') = false := beq_eq_false_iff_ne.2 h6
    have b7 : (c == '\t') = false := beq_eq_false_iff_ne.2 h7
    simp only [json_escape_table, List.lookup, b1, b2, b3, b4, b5, b6, b7]
  unfold json_escape_char json_escape_spec
  rw [if_neg h1, if_neg h2, if_neg h3, if_neg h4, if_neg h5, if_neg h6, if_neg h7, hl]
  by_cases hlt : c.toNat < 0x20
  · simp only [hlt, if_true]
    rw [hexdigit_eq _ (by omega), hexdigit_eq _ (by omega)]
    rfl
  · simp only [hlt, if_false]

theorem json_escape_body_eq (s : Str) : json_escape_body s = s.flatMap json_escape_spec := by
  induction s with
  | nil => rfl
  | cons c s ih => simp [json_escape_body, ih, json_escape_char_eq]

end DataConvert

namespace DataConvert

theorem json_hex_digit_plain (n : Nat) :
    0x20 ≤ (json_hex_digit n).toNat ∧ json_hex_digit n ≠ '"' ∧ json_hex_digit n ≠ '\\' := by
  by_cases h : n < 16
  · interval_cases n <;> decide
  · have h16 : 16 ≤ n := by omega
    have e : json_hex_digit n = '0' := by
      unfold json_hex_digit
      rw [List.getD_eq_default]
      simpa using h16
    rw [e]
    decide

/-- The shapes of what the writer emits for one byte. -/
theorem json_escape_spec_cases (c : Char) :
    (∃ e ch, json_escape_spec c = ['\\', e] ∧ json_escape_value e = some ch ∧ 0x20 ≤ e.toNat)
      ∨ (c.toNat < 0x20 ∧ json_escape_spec c
          = ['\\', 'u', '0', '0', json_hex_digit (c.toNat / 16), json_hex_digit (c.toNat % 16)])
      ∨ (json_escape_spec c = [c] ∧ c ≠ '"' ∧ c ≠ '\\' ∧ 0x20 ≤ c.toNat) := by
  rw [← json_escape_char_eq c]
  unfold json_escape_char
  split_ifs with h1 h2 h3 h4 h5 h6 h7 h8
  · exact Or.inl ⟨'"', '"', rfl, by decide, by decide⟩
  · exact Or.inl ⟨'\\', '\\', rfl, by decide, by decide⟩
  · exact Or.inl ⟨'b', '\x08', rfl, by decide, by decide⟩
  · exact Or.inl ⟨'f', '\x0c', rfl, by decide, by decide⟩
  · exact Or.inl ⟨'n', '\n', rfl, by decide, by decide⟩
  · exact Or.inl ⟨'r', '\r', rfl, by decide, by decide⟩
  · exact Or.inl ⟨'t', '\t', rfl, by decide, by decide⟩
  · exact Or.inr (Or.inl ⟨h8, by rw [hexdigit_eq _ (by omega), hexdigit_eq _ (by omega)]⟩)
  · exact Or.inr (Or.inr ⟨rfl, h1, h2, by omega⟩)

theorem json_escape_spec_no_control (c0 : Char) : ∀ c ∈ json_escape_spec c0, 0x20 ≤ c.toNat := by
  intro c hc
  rcases json_escape_spec_cases c0 with ⟨e, ch, h, _, he⟩ | ⟨_, h⟩ | ⟨h, _, _, h0⟩
  · rw [h] at hc
    simp only [List.mem_cons, List.mem_singleton, List.not_mem_nil, or_false] at hc
    rcases hc with rfl | rfl
    · decide
    · exact he
  · rw [h] at hc
    simp only [List.mem_cons, List.mem_singleton, List.not_mem_nil, or_false] at hc
    rcases hc with rfl | rfl | rfl | rfl | rfl | rfl
    · decide
    · decide
    · decide
    · decide
    · exact (json_hex_digit_plain _).1
    · exact (json_hex_digit_plain _).1
  · rw [h] at hc
    simp only [List.mem_singleton] at hc
    subst hc
    exact h0

theorem json_no_bare_quote_plain (c : Char) (r : List Char) (h1 : c ≠ '"') (h2 : c ≠ '\\') :
    json_no_bare_quote false (c :: r) = json_no_bare_quote false r := by
  simp [json_no_bare_quote, h1, h2]

theorem json_no_bare_quote_escape (e : Char) (r : List Char) :
    json_no_bare_quote false ('\\' :: e :: r) = json_no_bare_quote false r := by
  simp [json_no_bare_quote]

theorem json_no_bare_quote_spec (c : Char) (r : List Char) :
    json_no_bare_quote false (json_escape_spec c ++ r) = json_no_bare_quote false r := by
  rcases json_escape_spec_cases c with ⟨e, ch, h, _, _⟩ | ⟨_, h⟩ | ⟨h, h1, h2, _⟩
  · rw [h]
    exact json_no_bare_quote_escape e r
  · rw [h]
    simp only [List.cons_append, List.nil_append]
    rw [json_no_bare_quote_escape, json_no_bare_quote_plain '0' _ (by decide) (by decide),
      json_no_bare_quote_plain '0' _ (by decide) (by decide),
      json_no_bare_quote_plain _ _ (json_hex_digit_plain _).2.1 (json_hex_digit_plain _).2.2,
      json_no_bare_quote_plain _ _ (json_hex_digit_plain _).2.1 (json_hex_digit_plain _).2.2]
  · rw [h]
    exact json_no_bare_quote_plain c r h1 h2

theorem json_no_bare_quote_body (s : Str) :
    json_no_bare_quote false (s.flatMap json_escape_spec) = true := by
  induction s with
  | nil => rfl
  | cons c s ih =>
    rw [List.flatMap_cons, json_no_bare_quote_spec, ih]

/-- The scanner of `jparse_string` reads what the writer emits for one byte as one byte. -/
theorem jstring_loop_spec (c : Char) (r : List Char) :
    ∃ c1, jstring_loop (json_escape_spec c ++ r) 0 = push_out c1 (jstring_loop r 0) := by
  rcases json_escape_spec_cases c with ⟨e, ch, h, he, _⟩ | ⟨_, h⟩ | ⟨h, h1, h2, _⟩
  · rw [h]
    exact ⟨ch, jstring_loop_esc e ch r he⟩
  · rw [h]
    exact ⟨'?', jstring_loop_uni _ _ _ _ r⟩
  · rw [h]
    exact ⟨c, jstring_loop_raw c r h1 h2⟩

theorem jstring_loop_written (s : Str) (rest : List Char) :
    ∃ v, jstring_loop (s.flatMap json_escape_spec ++ '"' :: rest) 0 = some (v, rest)
      ∧ v.length = s.length := by
  induction s with
  | nil => exact ⟨[], jstring_loop_quote rest, rfl⟩
  | cons c s ih =>
    obtain ⟨v, hv, hl⟩ := ih
    obtain ⟨c1, hc1⟩ := jstring_loop_spec c (s.flatMap json_escape_spec ++ '"' :: rest)
    refine ⟨c1 :: v, ?_, by simp [hl]⟩
    rw [List.flatMap_cons, List.append_assoc, hc1, hv]
    rfl

/-! ## YAML: lines in front of the first record -/

theorem yaml_line_ignored (t : Table) (cur : Option Nat) (l : List Char) (h : yaml_ignored l) :
    yaml_line t cur l = some (t, cur) := by
  unfold yaml_ignored yaml_trim at h
  unfold yaml_line
  rcases h with h | h
  · simp [h]
  · simp only [h, if_true]
    split_ifs <;> rfl

theorem yaml_line_no_record (t : Table) (l : List Char) (h1 : ¬ yaml_ignored l)
    (h2 : ¬ yaml_record_start l) : yaml_line t none l = none := by
  unfold yaml_ignored yaml_trim at h1
  unfold yaml_record_start yaml_trim at h2
  have h1' := not_or.1 h1
  unfold yaml_line
  simp only [h1'.1, h1'.2, h2, if_false]
  rfl

theorem yaml_lines_loop_ignored (t : Table) (cur : Option Nat) :
    ∀ (pre rest : List (List Char)), (∀ x ∈ pre, yaml_ignored x) →
      yaml_lines_loop t cur (pre ++ rest) = yaml_lines_loop t cur rest := by
  intro pre
  induction pre with
  | nil => intro rest _; rfl
  | cons x pre ih =>
    intro rest h
    rw [List.cons_append, yaml_lines_loop, yaml_line_ignored t cur x (h x (List.mem_cons_self _ _))]
    exact ih rest (fun y hy => h y (List.mem_cons_of_mem _ hy))

end DataConvert

/-- C11: `jparse_string` on a double-quoted literal given piece by piece (bytes other than
the quote and the backslash, one-character escapes, `\u` with the four characters behind
it) returns the C string of the bytes of the pieces: the escapes `\"` `\\` `\/` `\b` `\f`
`\n` `\r` `\t` give 0x22 0x5C 0x2F 0x08 0x0C 0x0A 0x0D 0x09, every other byte is copied, every
`\uXXXX` gives one `?`; and it fails when another character follows a backslash, whatever
stands behind that. -/
theorem c11_jparse_string_unescapes (ps : List DataConvert.JPiece) (w rest : List Char)
    (hw : DataConvert.IsWs w) (hok : ∀ p ∈ ps, p.ok = true) :
    DataConvert.jparse_string (w ++ '"' :: (DataConvert.json_pieces_text ps ++ '"' :: rest))
        = (DataConvert.json_pieces_value ps).map (fun v => (DataConvert.cstr v, rest))
      ∧ (DataConvert.json_pieces_value ps = none →
          ∀ tail, DataConvert.jparse_string (w ++ '"' :: (DataConvert.json_pieces_text ps ++ tail))
            = none) := by
  have hskip : ∀ x, DataConvert.jskip (w ++ '"' :: x) = '"' :: x :=
    fun x => DataConvert.jskip_ws_cons w '"' x hw (by decide)
  constructor
  · cases hv : DataConvert.json_pieces_value ps with
    | none =>
      simp [DataConvert.jparse_string, hskip,
        DataConvert.jstring_loop_pieces_none ps hok hv]
    | some v =>
      simp [DataConvert.jparse_string, hskip,
        DataConvert.jstring_loop_pieces ps v hok hv]
  · intro hv tail
    simp [DataConvert.jparse_string, hskip,
      DataConvert.jstring_loop_pieces_none ps hok hv]

/-- C11 at the literal `"a\n\u0041\/b"` behind a blank, followed by `:1`, and at a literal
with the escape `\x`. -/
theorem c11_jparse_string_unescapes_witness :
    DataConvert.jparse_string " \"a\\n\\u0041\\/b\":1".toList
        = some ("a\n?/b".toList, ":1".toList)
      ∧ DataConvert.jparse_string "\"a\\xb\" ".toList = none :=
  ⟨(c11_jparse_string_unescapes
      [.raw 'a', .esc 'n', .uni '0' '0' '4' '1', .esc '/', .raw 'b'] [' '] ":1".toList
      (by intro c hc; simp at hc; subst hc; rfl) (by decide)).1,
    (c11_jparse_string_unescapes [.raw 'a', .esc 'x'] [] [] DataConvert.isWs_nil
      (by decide)).2
      (by decide) "b\" ".toList⟩

/-- C13: `json_write_escaped` emits an opening quote, for each byte of the text `\"` for
0x22, `\\` for 0x5C, `\b` `\f` `\n` `\r` `\t` for 0x08 0x0C 0x0A 0x0D 0x09, `\u00XX` for every
other byte below 0x20 and the byte itself from 0x20 upward, and a closing quote; the
literal holds no byte below 0x20, no quote outside an escape between its two quotes, and the
scanner of `jparse_string` reads it to its closing quote as one byte per byte of the text. -/
theorem c13_json_write_escaped (s : DataConvert.Str) (rest : List Char) :
    DataConvert.json_write_escaped s
        = '"' :: (s.flatMap DataConvert.json_escape_spec ++ ['"'])
      ∧ (∀ c ∈ DataConvert.json_write_escaped s, 0x20 ≤ c.toNat)
      ∧ DataConvert.json_no_bare_quote false (s.flatMap DataConvert.json_escape_spec) = true
      ∧ ∃ v, DataConvert.jstring_loop (s.flatMap DataConvert.json_escape_spec ++ '"' :: rest) 0
            = some (v, rest) ∧ v.length = s.length := by
  have e : DataConvert.json_write_escaped s
      = '"' :: (s.flatMap DataConvert.json_escape_spec ++ ['"']) := by
    unfold DataConvert.json_write_escaped
    rw [DataConvert.json_escape_body_eq]
    rfl
  refine ⟨e, ?_, DataConvert.json_no_bare_quote_body s, DataConvert.jstring_loop_written s rest⟩
  intro c hc
  rw [e] at hc
  simp only [List.mem_cons, List.mem_append, List.mem_flatMap, List.mem_singleton,
    List.not_mem_nil, or_false] at hc
  rcases hc with rfl | ⟨c0, _, h⟩ | rfl
  · decide
  · exact DataConvert.json_escape_spec_no_control c0 c h
  · decide

/-- C14: when the first line of the input that is neither blank nor a `#` comment does not
start a record with `- `, `yaml_read_table` ends in a parse failure, whatever that line
holds (a `key: value` pair or not) and whatever follows it. -/
theorem c14_yaml_key_before_record (buf : List Char) (pre post : List (List Char))
    (l : List Char) (hsplit : DataConvert.getlines buf = pre ++ l :: post)
    (hpre : ∀ x ∈ pre, DataConvert.yaml_ignored x) (hl : ¬ DataConvert.yaml_ignored l)
    (hrec : ¬ DataConvert.yaml_record_start l) :
    DataConvert.yaml_read_table buf = none := by
  unfold DataConvert.yaml_read_table
  rw [hsplit, DataConvert.yaml_lines_loop_ignored _ _ pre _ hpre, DataConvert.yaml_lines_loop,
    DataConvert.yaml_line_no_record _ l hl hrec]

/-- C14 at a file with a comment, a blank line, the line `name: "x"` and a record. -/
theorem c14_yaml_key_before_record_witness :
    DataConvert.yaml_read_table "# people\n  \nname: \"x\"\n- name: \"y\"\n".toList = none :=
  c14_yaml_key_before_record "# people\n  \nname: \"x\"\n- name: \"y\"\n".toList
    ["# people\n".toList, "  \n".toList] ["- name: \"y\"\n".toList] "name: \"x\"\n".toList
    (by decide) (by decide) (by decide) (by decide)

namespace DataConvert

/-! ## JSON: malformed input -/

theorem jskip_idem (x : List Char) : jskip (jskip x) = jskip x := by
  unfold jskip
  induction x with
  | nil => rfl
  | cons a x ih =>
    by_cases h : isspace a = true
    · simp only [List.dropWhile_cons, h, if_true]
      exact ih
    · simp [List.dropWhile_cons, h]

theorem jmatch_jskip (x : List Char) (c : Char) : jmatch (jskip x) c = jmatch x c := by
  unfold jmatch
  rw [jskip_idem]

theorem jexpect_jskip (x : List Char) (c : Char) : jexpect (jskip x) c = jexpect x c := by
  unfold jexpect
  rw [jmatch_jskip]

theorem jparse_string_jskip (x : List Char) : jparse_string (jskip x) = jparse_string x := by
  unfold jparse_string
  rw [jskip_idem]

/-- A failed match leaves the cursor behind the blanks. -/
theorem jmatch_not_in (x : List Char) (c : Char) (l : List Char) (hc : c ∈ l)
    (h : jnext_in l x = false) : jmatch x c = (false, jskip x) := by
  unfold jnext_in at h
  unfold jmatch
  cases hx : jskip x with
  | nil => rfl
  | cons a r =>
    rw [hx] at h
    have hne : a ≠ c := by
      rintro rfl
      simp [hc] at h
    simp [hne]

theorem jexpect_not_in (x : List Char) (c : Char) (l : List Char) (hc : c ∈ l)
    (h : jnext_in l x = false) : jexpect x c = none := by
  unfold jexpect
  rw [jmatch_not_in x c l hc h]
  rfl

theorem jnext_in_jskip (l x : List Char) : jnext_in l (jskip x) = jnext_in l x := by
  unfold jnext_in
  rw [jskip_idem]

theorem jnext_in_nil (l : List Char) : jnext_in l [] = false := rfl

theorem jparse_string_not_quote (x : List Char) (h : jnext_in ['"'] x = false) :
    jparse_string x = none := by
  unfold jnext_in at h
  unfold jparse_string
  cases hx : jskip x with
  | nil => rfl
  | cons a r =>
    rw [hx] at h
    have hne : a ≠ '"' := by
      rintro rfl
      simp at h
    simp [hne]

/-- The scanner on a literal without closing quote fails or runs to the end of the input. -/
theorem jstring_loop_open {b : List Char} (h : JStrOpen b) :
    jstring_loop b 0 = none ∨ ∃ v, jstring_loop b 0 = some (v, []) := by
  induction h with
  | eof => exact Or.inr ⟨[], rfl⟩
  | slash => exact Or.inl (by simp [jstring_loop])
  | raw c b h1 h2 _ ih =>
    rw [jstring_loop_raw c b h1 h2]
    rcases ih with ih | ⟨v, ih⟩
    · exact Or.inl (by rw [ih]; rfl)
    · exact Or.inr ⟨c :: v, by rw [ih]; rfl⟩
  | esc e b he _ ih =>
    cases hv : json_escape_value e with
    | none => exact Or.inl (jstring_loop_bad_escape e b hv he)
    | some ch =>
      rw [jstring_loop_esc e ch b hv]
      rcases ih with ih | ⟨v, ih⟩
      · exact Or.inl (by rw [ih]; rfl)
      · exact Or.inr ⟨ch :: v, by rw [ih]; rfl⟩
  | uni x1 x2 x3 x4 b _ ih =>
    rw [jstring_loop_uni]
    rcases ih with ih | ⟨v, ih⟩
    · exact Or.inl (by rw [ih]; rfl)
    · exact Or.inr ⟨'?' :: v, by rw [ih]; rfl⟩
  | ushort b hlen _ ih =>
    have e : jstring_loop ('\\' :: 'u' :: b) 0 = push_out '?' (jstring_loop b 0) := by
      have : ¬ 4 ≤ b.length := by omega
      simp [jstring_loop, this]
    rw [e]
    rcases ih with ih | ⟨v, ih⟩
    · exact Or.inl (by rw [ih]; rfl)
    · exact Or.inr ⟨'?' :: v, by rw [ih]; rfl⟩

theorem jparse_string_open (w b : List Char) (hw : IsWs w) (h : JStrOpen b) :
    jparse_string (w ++ '"' :: b) = none ∨ ∃ v, jparse_string (w ++ '"' :: b) = some (v, []) := by
  unfold jparse_string
  rw [jskip_ws_cons w '"' b hw (by decide)]
  simp only [if_true]
  rcases jstring_loop_open h with e | ⟨v, e⟩
  · exact Or.inl (by rw [e]; rfl)
  · exact Or.inr ⟨cstr v, by rw [e]; rfl⟩

theorem json_pairs_loop_succ (n row : Nat) (t : Table) (j : List Char) :
    json_pairs_loop (n + 1) row t j
      = match jparse_string j with
        | none => none
        | some (key, j1) =>
          match jexpect j1 ':' with
          | none => none
          | some j2 =>
            match jparse_primitive_as_string j2 with
            | none => none
            | some (val, j3) =>
              if (jmatch (jskip j3) '}').1 then
                some (table_set t row key val, (jmatch (jskip j3) '}').2)
              else
                match jexpect (jmatch (jskip j3) '}').2 ',' with
                | none => none
                | some j4 => json_pairs_loop n row (table_set t row key val) j4 := rfl

/-- Behind a value, input that continues with neither `}` nor `,` ends the inner loop in
failure. -/
theorem json_pairs_loop_after (n row : Nat) (t : Table) (j j1 j2 x : List Char) (key val : Str)
    (h1 : jparse_string j = some (key, j1)) (h2 : jexpect j1 ':' = some j2)
    (h3 : jparse_primitive_as_string j2 = some (val, x))
    (hx : jnext_in ['}', ','] x = false) : json_pairs_loop n row t j = none := by
  cases n with
  | zero => rfl
  | succ n =>
    rw [json_pairs_loop_succ, h1]
    simp only [h2, h3]
    rw [jmatch_jskip, jmatch_not_in x '}' _ (by simp) hx]
    simp only [Bool.false_eq_true, if_false]
    rw [jexpect_jskip, jexpect_not_in x ',' _ (by simp) hx]

theorem jparse_primitive_string (w x : List Char) (hw : IsWs w) :
    jparse_primitive_as_string (w ++ '"' :: x) = jparse_string (w ++ '"' :: x) := by
  unfold jparse_primitive_as_string
  rw [jskip_ws_cons w '"' x hw (by decide)]
  simp only [cur_peek, List.headD_cons, if_true]
  have := jparse_string_jskip (w ++ '"' :: x)
  rw [jskip_ws_cons w '"' x hw (by decide)] at this
  exact this

/-- An unquoted token, possibly empty, in front of a delimiter or of the end of the input. -/
theorem jparse_primitive_tok (w tok x : List Char) (hw : IsWs w)
    (ht : ∀ c ∈ tok, jdelim c = false) (hq : tok.head? ≠ some '"')
    (hx : ∀ c ∈ x.head?, jdelim c = true)
    (he : tok = [] → ∀ c ∈ x.head?, isspace c = false) :
    jparse_primitive_as_string (w ++ (tok ++ x)) = some (cstr tok, x) := by
  have hp : ∀ c ∈ tok, (fun ch => !jdelim ch) c = true := by
    intro c hc; simp [ht c hc]
  have hr : ∀ c ∈ x.head?, (fun ch => !jdelim ch) c = false := by
    intro c hc; simp [hx c hc]
  have e1 : jskip (w ++ (tok ++ x)) = tok ++ x := by
    rw [jskip_ws _ _ hw]
    cases tok with
    | nil =>
      cases x with
      | nil => rfl
      | cons b x' => exact jskip_cons b x' (he rfl b (by simp))
    | cons a tok' =>
      exact jskip_cons a _ (jdelim_false_isspace (ht a (List.mem_cons_self _ _)))
  have hnq : cur_peek (tok ++ x) ≠ '"' := by
    cases tok with
    | nil =>
      cases x with
      | nil => simp [cur_peek]
      | cons b x' =>
        have hb := hx b (by simp)
        simp only [List.nil_append, cur_peek, List.headD_cons]
        rintro rfl
        revert hb
        decide
    | cons a tok' =>
      simp only [List.cons_append, cur_peek, List.headD_cons]
      simpa using hq
  unfold jparse_primitive_as_string
  rw [e1, if_neg hnq, takeWhile_append_stop _ _ hp hr, dropWhile_append_stop _ _ hp hr]

/-- Malformed input where a key is due ends the inner loop in failure, with any fuel. -/
theorem json_pairs_loop_bad {y : List Char} (h : JBadPair y) :
    ∀ (n row : Nat) (t : Table), json_pairs_loop n row t y = none := by
  induction h with
  | key y hy =>
    intro n row t
    cases n with
    | zero => rfl
    | succ n => rw [json_pairs_loop_succ, jparse_string_not_quote y hy]
  | openkey w1 b hw hb =>
    intro n row t
    cases n with
    | zero => rfl
    | succ n =>
      rw [json_pairs_loop_succ]
      rcases jparse_string_open w1 b hw hb with e | ⟨v, e⟩
      · rw [e]
      · rw [e]
        simp only [jexpect_not_in [] ':' [':'] (by simp) (jnext_in_nil _)]
  | colon k kb w1 x hw hk hx =>
    intro n row t
    cases n with
    | zero => rfl
    | succ n =>
      have e0 : w1 ++ '"' :: kb ++ '"' :: x = w1 ++ '"' :: (kb ++ '"' :: x) := by simp
      rw [e0, json_pairs_loop_succ, jparse_string_lit hk w1 x hw]
      simp only [jexpect_not_in x ':' [':'] (by simp) hx]
  | openval k kb w1 w2 w3 b h1 h2 h3 hk hb =>
    intro n row t
    cases n with
    | zero => rfl
    | succ n =>
      have e0 : w1 ++ '"' :: kb ++ '"' :: w2 ++ ':' :: w3 ++ '"' :: b
          = w1 ++ '"' :: (kb ++ '"' :: (w2 ++ ':' :: (w3 ++ '"' :: b))) := by simp
      rw [e0, json_pairs_loop_succ, jparse_string_lit hk w1 _ h1]
      simp only [jexpect_hit w2 ':' _ h2 (by decide), jparse_primitive_string w3 b h3]
      rcases jparse_string_open w3 b h3 hb with e | ⟨v, e⟩
      · rw [e]
      · rw [e]
        simp only
        rw [jmatch_jskip, jmatch_not_in [] '}' ['}'] (by simp) (jnext_in_nil _)]
        simp only [Bool.false_eq_true, if_false]
        rw [jexpect_jskip, jexpect_not_in [] ',' [','] (by simp) (jnext_in_nil _)]
  | afterstr k v kb vb w1 w2 w3 x h1 h2 h3 hk hv hx =>
    intro n row t
    have e0 : w1 ++ '"' :: kb ++ '"' :: w2 ++ ':' :: w3 ++ '"' :: vb ++ '"' :: x
        = w1 ++ '"' :: (kb ++ '"' :: (w2 ++ ':' :: (w3 ++ '"' :: (vb ++ '"' :: x)))) := by simp
    rw [e0]
    exact json_pairs_loop_after n row t _ _ _ x k v (jparse_string_lit hk w1 _ h1)
      (jexpect_hit w2 ':' _ h2 (by decide))
      (by rw [jparse_primitive_string w3 _ h3]; exact jparse_string_lit hv w3 x h3) hx
  | aftertok k kb tok w1 w2 w3 x h1 h2 h3 hk ht hq hd he hx =>
    intro n row t
    have e0 : w1 ++ '"' :: kb ++ '"' :: w2 ++ ':' :: w3 ++ tok ++ x
        = w1 ++ '"' :: (kb ++ '"' :: (w2 ++ ':' :: (w3 ++ (tok ++ x)))) := by simp
    rw [e0]
    exact json_pairs_loop_after n row t _ _ _ x k (cstr tok) (jparse_string_lit hk w1 _ h1)
      (jexpect_hit w2 ':' _ h2 (by decide)) (jparse_primitive_tok w3 tok x h3 ht hq hd he) hx
  | next k v kb vl w1 w2 w3 w4 y h1 h2 h3 h4 hk hv _ ih =>
    intro n row t
    cases n with
    | zero => rfl
    | succ n =>
      have e0 : w1 ++ '"' :: kb ++ '"' :: w2 ++ ':' :: w3 ++ vl ++ w4 ++ ',' :: y
          = w1 ++ '"' :: (kb ++ '"' :: (w2 ++ ':' :: (w3 ++ (vl ++ (w4 ++ ',' :: y))))) := by
        simp
      have hd : ∀ c ∈ (w4 ++ ',' :: y).head?, jdelim c = true := by
        intro c hc
        cases w4 with
        | nil => simp at hc; subst hc; decide
        | cons a w4 =>
          have ha := h4 a (List.mem_cons_self _ _)
          simp at hc; subst hc; simp [jdelim, ha]
      rw [e0, json_pairs_loop_succ, jparse_string_lit hk w1 _ h1]
      simp only [jexpect_hit w2 ':' _ h2 (by decide), jparse_primitive_val hv w3 _ h3 hd]
      simp [jskip_ws_cons w4 ',' _ h4 (by decide), jmatch, jskip_cons ',' _ (by decide), jexpect,
        ih n row]

theorem json_pairs_loop_jskip (n row : Nat) (t : Table) (y : List Char) :
    json_pairs_loop n row t (jskip y) = json_pairs_loop n row t y := by
  cases n with
  | zero => rfl
  | succ n => rw [json_pairs_loop_succ, json_pairs_loop_succ, jparse_string_jskip]

theorem json_objects_loop_succ (n : Nat) (t : Table) (j : List Char) :
    json_objects_loop (n + 1) t j
      = match jexpect j '{' with
        | none => none
        | some j1 =>
          match (if (jmatch (jskip j1) '}').1 then
              some ((table_add_row t).1, (jmatch (jskip j1) '}').2)
            else json_pairs_loop (jmatch (jskip j1) '}').2.length (table_add_row t).2
              (table_add_row t).1 (jmatch (jskip j1) '}').2) with
          | none => none
          | some (t1, j2) =>
            if (jmatch (jskip j2) ']').1 then some t1
            else
              match jexpect (jmatch (jskip j2) ']').2 ',' with
              | none => none
              | some j3 => json_objects_loop n t1 j3 := rfl

theorem json_objects_loop_jskip (n : Nat) (t : Table) (y : List Char) :
    json_objects_loop n t (jskip y) = json_objects_loop n t y := by
  cases n with
  | zero => rfl
  | succ n => rw [json_objects_loop_succ, json_objects_loop_succ, jexpect_jskip]

/-- Malformed input where an object is due ends the outer loop in failure, with any fuel. -/
theorem json_objects_loop_bad {y : List Char} (h : JBadObj y) :
    ∀ (n : Nat) (t : Table), json_objects_loop n t y = none := by
  induction h with
  | brace y hy =>
    intro n t
    cases n with
    | zero => rfl
    | succ n => rw [json_objects_loop_succ, jexpect_not_in y '{' ['{'] (by simp) hy]
  | pairs w y hw hy hp =>
    intro n t
    cases n with
    | zero => rfl
    | succ n =>
      rw [json_objects_loop_succ, jexpect_hit w '{' y hw (by decide)]
      simp only [jmatch_jskip, jmatch_not_in y '}' ['}'] (by simp) hy, Bool.false_eq_true,
        if_false, json_pairs_loop_jskip, json_pairs_loop_bad hp]
  | close o ot x ho hx =>
    intro n t
    cases n with
    | zero => rfl
    | succ n =>
      obtain ⟨j1, hj1, hobj⟩ := json_object_text ho t x
      rw [json_objects_loop_succ, hj1]
      simp only [hobj]
      rw [jmatch_jskip, jmatch_not_in x ']' _ (by simp) hx]
      simp only [Bool.false_eq_true, if_false]
      rw [jexpect_jskip, jexpect_not_in x ',' _ (by simp) hx]
  | next o ot w y ho hw _ ih =>
    intro n t
    cases n with
    | zero => rfl
    | succ n =>
      have e0 : ot ++ w ++ ',' :: y = ot ++ (w ++ ',' :: y) := by simp
      obtain ⟨j1, hj1, hobj⟩ := json_object_text ho t (w ++ ',' :: y)
      rw [e0, json_objects_loop_succ, hj1]
      simp only [hobj]
      simp [jskip_ws_cons w ',' _ hw (by decide), jmatch, jskip_cons ',' _ (by decide), jexpect,
        ih n]

/-- The reader fails on every malformed document. -/
theorem json_read_table_bad {text : List Char} (h : JBadDoc text) :
    json_read_table text = none := by
  cases h with
  | start x hx =>
    unfold json_read_table
    rw [jexpect_not_in text '[' ['['] (by simp) hx]
  | objs w y hw hy hb =>
    unfold json_read_table
    rw [jexpect_hit w '[' y hw (by decide)]
    simp only [jmatch_jskip, jmatch_not_in y ']' [']'] (by simp) hy, Bool.false_eq_true,
      if_false, json_objects_loop_jskip, json_objects_loop_bad hb]

end DataConvert

namespace DataConvert

/-- The text `[{"a":1 "b":2}]`, without the comma between two pairs, is malformed. -/
theorem jbad_no_comma : JBadDoc "[\x7b\"a\":1 \"b\":2\x7d]".toList :=
  JBadDoc.objs [] _ isWs_nil (by decide)
    (JBadObj.pairs [] _ isWs_nil (by decide)
      (JBadPair.aftertok ['a'] ['a'] ['1'] [] [] [] " \"b\":2\x7d]".toList isWs_nil isWs_nil
        isWs_nil jstr_a (by decide) (by decide) (by decide) (by decide) (by decide)))

/-- The text `[{"a":1},{"b":"x`, which ends inside a string literal, is malformed. -/
theorem jbad_open_string : JBadDoc "[\x7b\"a\":1\x7d,\x7b\"b\":\"x".toList :=
  JBadDoc.objs [] _ isWs_nil (by decide)
    (JBadObj.next [(['a'], ['1'])] "\x7b\"a\":1\x7d".toList [] _
      (JObjText.some [] _ _ isWs_nil
        (JPairsText.last _ _ _ _ [] [] [] [] isWs_nil isWs_nil isWs_nil isWs_nil jstr_a jtok_1))
      isWs_nil
      (JBadObj.pairs [] _ isWs_nil (by decide)
        (JBadPair.openval ['b'] ['b'] [] [] [] ['x'] isWs_nil isWs_nil isWs_nil jstr_b
          (JStrOpen.raw 'x' [] (by decide) (by decide) JStrOpen.eof))))

end DataConvert

/-- C12: on every malformed input `json_read_table` ends in a parse failure and returns no
table: when something else than the `[`, `{`, `:`, `}` or `,` that the array-of-objects
grammar requires (another character, or the end of the input) stands behind well-formed
input, when no string literal stands where a key is due, and when a key or a string value
has no closing quote. The failure does not come from the fuel of the model: the loops fail
on such input with any fuel. -/
theorem c12_json_malformed_fatal (text : List Char) (h : DataConvert.JBadDoc text) :
    DataConvert.json_read_table text = none :=
  DataConvert.json_read_table_bad h

/-- C12 at `[{"a":1 "b":2}]` and at `[{"a":1},{"b":"x`. -/
theorem c12_json_malformed_fatal_witness :
    DataConvert.json_read_table "[\x7b\"a\":1 \"b\":2\x7d]".toList = none
      ∧ DataConvert.json_read_table "[\x7b\"a\":1\x7d,\x7b\"b\":\"x".toList = none :=
  ⟨c12_json_malformed_fatal _ DataConvert.jbad_no_comma,
    c12_json_malformed_fatal _ DataConvert.jbad_open_string⟩

namespace SqlConvert

open DataConvert (Str isspace cstr getlines)

/-! ## SQL: identifiers -/

theorem sql_char_le (a c : Char) : a ≤ c ↔ a.toNat ≤ c.toNat := by
  rw [Char.le_def]
  show (a.val ≤ c.val) ↔ _
  rw [UInt32.le_def]
  simp only [Char.toNat, UInt32.toNat]
  exact Iff.rfl

theorem sql_isalpha_iff (c : Char) : isalpha c = true ↔ sql_letter c := by
  unfold isalpha sql_letter
  rw [sql_char_le, sql_char_le, sql_char_le, sql_char_le]
  have e1 : 'a'.toNat = 97 := rfl
  have e2 : 'z'.toNat = 122 := rfl
  have e3 : 'A'.toNat = 65 := rfl
  have e4 : 'Z'.toNat = 90 := rfl
  rw [e1, e2, e3, e4]
  simp only [Bool.or_eq_true, Bool.and_eq_true, decide_eq_true_eq]
  exact Or.comm

theorem sql_isalnum_iff (c : Char) : isalnum c = true ↔ sql_letter c ∨ sql_digit c := by
  unfold isalnum
  rw [Bool.or_eq_true, sql_isalpha_iff]
  unfold sql_digit
  rw [sql_char_le, sql_char_le]
  have e1 : '0'.toNat = 48 := rfl
  have e2 : '9'.toNat = 57 := rfl
  rw [e1, e2]
  simp only [Bool.and_eq_true, decide_eq_true_eq]

theorem sql_is_ident_iff (s : Str) : is_ident s = true ↔ sql_ident_pattern s := by
  cases s with
  | nil => simp [is_ident, sql_ident_pattern]
  | cons c r =>
    simp only [is_ident, sql_ident_pattern, Bool.and_eq_true, Bool.or_eq_true, List.all_eq_true,
      decide_eq_true_eq, sql_isalpha_iff, sql_isalnum_iff, or_assoc]

theorem sql_normalize_enum : ∀ (hs : List Str) (i : Nat),
    sql_normalize i hs
      = if ∀ n ∈ (hs.enumFrom i).map (fun (p : Nat × Str) => sql_column_name p.1 p.2),
            is_ident n = true then
          some ((hs.enumFrom i).map (fun (p : Nat × Str) => sql_column_name p.1 p.2))
        else none := by
  intro hs
  induction hs with
  | nil => intro i; simp [sql_normalize]
  | cons h hs ih =>
    intro i
    simp only [sql_normalize, List.enumFrom_cons, List.map_cons, List.mem_cons, forall_eq_or_imp]
    by_cases h1 : is_ident (sql_column_name i h) = true
    · simp only [h1, if_true, true_and]
      rw [ih (i + 1)]
      split_ifs <;> rfl
    · simp [h1]

theorem sql_normalize_names (header : List Str) :
    sql_normalize 0 header
      = if ∀ n ∈ sql_normalized_names header, is_ident n = true then
          some (sql_normalized_names header)
        else none :=
  sql_normalize_enum header 0

/-! ## SQL: the statements of a file -/

theorem sql_columns_loop_ne_nil : ∀ (n : Nat) (p : List Char) (cols : List Str) (r : List Char),
    sql_columns_loop n p = some (cols, r) → cols ≠ [] := by
  intro n
  induction n with
  | zero => intro p cols r h; simp [sql_columns_loop] at h
  | succ n ih =>
    intro p cols r h
    simp only [sql_columns_loop] at h
    cases hid : (parse_ident p).1 with
    | none => simp [hid] at h
    | some col =>
      simp only [hid] at h
      split_ifs at h with h1 h2
      · injection h with h
        injection h with h _
        rw [← h]
        simp
      · cases hrec : sql_columns_loop n
            (consume_char (consume_char (parse_ident p).2 ')').2 ',').2 with
        | none => simp [hrec] at h
        | some x =>
          simp only [hrec, Option.map_some', Option.some.injEq, Prod.mk.injEq] at h
          rw [← h.1]
          simp

theorem sql_parse_line_ne_nil (l : List Char) (cols vals : List Str)
    (h : sql_parse_line l = some (cols, vals)) : cols ≠ [] := by
  unfold sql_parse_line at h
  simp only at h
  split_ifs at h with h0
  split at h
  · cases h
  · split at h
    · cases h
    · split_ifs at h with h1
      split at h
      · cases h
      · rename_i c p3 hc
        split at h
        · cases h
        · split_ifs at h with h2
          split at h
          · cases h
          · injection h with h
            injection h with h _
            subst h
            exact sql_columns_loop_ne_nil _ _ _ _ hc

/-- The `getline` loop once a column list is adopted: it fails at the first statement with
another column list, and stores one row per statement otherwise. -/
theorem sql_lines_loop_adopted : ∀ (lines : List (List Char)) (columns : List Str)
    (rows : List (List Str)), columns ≠ [] →
    sql_lines_loop columns rows lines
      = if ∀ s ∈ lines.filterMap sql_parse_line, s.1 = columns then
          some (columns, rows ++ (lines.filterMap sql_parse_line).map
            (fun s => sql_store_row columns.length s.2))
        else none := by
  intro lines
  induction lines with
  | nil => intro columns rows _; simp [sql_lines_loop]
  | cons l ls ih =>
    intro columns rows hne
    cases hp : sql_parse_line l with
    | none =>
      simp only [sql_lines_loop, hp, List.filterMap_cons]
      exact ih columns rows hne
    | some s =>
      obtain ⟨c, v⟩ := s
      simp only [sql_lines_loop, hp, List.filterMap_cons, hne, if_false, List.mem_cons,
        forall_eq_or_imp, List.map_cons]
      by_cases hc : c = columns
      · subst hc
        simp only [ne_eq, not_true_eq_false, if_false, true_and]
        rw [ih c _ hne]
        simp
      · have hc' : ¬ columns = c := fun e => hc e.symm
        simp only [hc, false_and, if_false]
        split_ifs <;> rfl

/-- The `getline` loop of `sql_to_csv` from the start of the file. -/
theorem sql_lines_loop_start (lines : List (List Char)) :
    sql_lines_loop [] [] lines
      = match lines.filterMap sql_parse_line with
        | [] => some ([], [])
        | s :: ss =>
          if ∀ x ∈ ss, x.1 = s.1 then
            some (s.1, (s :: ss).map (fun x => sql_store_row s.1.length x.2))
          else none := by
  induction lines with
  | nil => rfl
  | cons l ls ih =>
    cases hp : sql_parse_line l with
    | none =>
      simp only [sql_lines_loop, hp, List.filterMap_cons]
      exact ih
    | some s =>
      obtain ⟨c, v⟩ := s
      have hne := sql_parse_line_ne_nil l c v hp
      simp only [sql_lines_loop, hp, List.filterMap_cons, if_true]
      rw [sql_lines_loop_adopted ls c _ hne]
      simp

theorem sql_store_row_eq (n : Nat) (vals : List Str) :
    sql_store_row n vals = sql_spec_row n vals := by
  unfold sql_store_row sql_spec_row
  rw [List.take_append_eq_append_take]
  congr 1
  rw [List.take_replicate]
  congr 1
  omega

theorem sql_spec_row_length (n : Nat) (vals : List Str) : (sql_spec_row n vals).length = n := by
  unfold sql_spec_row
  simp only [List.length_append, List.length_take, List.length_replicate]
  omega

end SqlConvert

/-- C17: `is_ident` accepts exactly the strings that match `[A-Za-z_][A-Za-z0-9_]*`;
`csv_to_sql` returns failure, which comes before it opens the output file, when the table
identifier or a header name after normalisation is not accepted; and when it writes SQL,
the table identifier and all the column names in it are accepted ones. -/
theorem c17_sql_identifier_validation (s table : DataConvert.Str) (csv : List Char)
    (create_table : Bool) :
    (SqlConvert.is_ident s = true ↔ SqlConvert.sql_ident_pattern s)
      ∧ (SqlConvert.is_ident table = false →
          SqlConvert.csv_to_sql csv table create_table = none)
      ∧ (∀ c, SqlConvert.csv_read_all csv = some c →
          (∃ n ∈ SqlConvert.sql_normalized_names c.header, SqlConvert.is_ident n = false) →
          SqlConvert.csv_to_sql csv table create_table = none)
      ∧ (∀ out, SqlConvert.csv_to_sql csv table create_table = some out →
          SqlConvert.is_ident table = true
            ∧ ∃ c, SqlConvert.csv_read_all csv = some c
              ∧ (∀ n ∈ SqlConvert.sql_normalized_names c.header, SqlConvert.is_ident n = true)
              ∧ out = SqlConvert.sql_text table (SqlConvert.sql_normalized_names c.header)
                  c.rows create_table) := by
  refine ⟨SqlConvert.sql_is_ident_iff s, ?_, ?_, ?_⟩
  · intro h
    simp [SqlConvert.csv_to_sql, h]
  · rintro c hc ⟨n, hn, hbad⟩
    have hno : ¬ ∀ n ∈ SqlConvert.sql_normalized_names c.header, SqlConvert.is_ident n = true := by
      intro hall
      rw [hall n hn] at hbad
      cases hbad
    unfold SqlConvert.csv_to_sql
    simp only [hc]
    rw [SqlConvert.sql_normalize_names, if_neg hno]
    split_ifs <;> rfl
  · intro out h
    unfold SqlConvert.csv_to_sql at h
    by_cases ht : SqlConvert.is_ident table = true
    · rw [if_pos ht] at h
      refine ⟨ht, ?_⟩
      cases hc : SqlConvert.csv_read_all csv with
      | none => rw [hc] at h; cases h
      | some c =>
        rw [hc] at h
        simp only at h
        rw [SqlConvert.sql_normalize_names] at h
        by_cases hall : ∀ n ∈ SqlConvert.sql_normalized_names c.header,
            SqlConvert.is_ident n = true
        · rw [if_pos hall] at h
          simp only [Option.some.injEq] at h
          exact ⟨c, rfl, hall, h.symm⟩
        · rw [if_neg hall] at h
          cases h
    · rw [if_neg ht] at h
      cases h

/-- C17 at a table identifier that starts with a digit, at a header name with a blank
inside, and at a header with an empty name, which becomes `col2`. -/
theorem c17_sql_identifier_validation_witness :
    SqlConvert.csv_to_sql "a,b\n1,2\n".toList "1t".toList false = none
      ∧ SqlConvert.csv_to_sql "a b,c\n1,2\n".toList "t".toList false = none
      ∧ (SqlConvert.is_ident "t".toList = true
          ∧ ∃ c, SqlConvert.csv_read_all " a,,c\n1,2,3\n".toList = some c
            ∧ (∀ n ∈ SqlConvert.sql_normalized_names c.header, SqlConvert.is_ident n = true)
            ∧ "-- Generated by dtconvert (csv -> sql)\nINSERT INTO t (a, col2, c) VALUES ('1', '2', '3');\n\n".toList
              = SqlConvert.sql_text "t".toList (SqlConvert.sql_normalized_names c.header)
                  c.rows false) :=
  ⟨(c17_sql_identifier_validation [] "1t".toList "a,b\n1,2\n".toList false).2.1 (by decide),
    (c17_sql_identifier_validation [] "t".toList "a b,c\n1,2\n".toList false).2.2.1
      ⟨["a b".toList, "c".toList], [["1".toList, "2".toList]]⟩ (by decide)
      ⟨"a b".toList, by decide, by decide⟩,
    (c17_sql_identifier_validation [] "t".toList " a,,c\n1,2,3\n".toList false).2.2.2
      "-- Generated by dtconvert (csv -> sql)\nINSERT INTO t (a, col2, c) VALUES ('1', '2', '3');\n\n".toList
      (by decide)⟩

/-- C18: when two `INSERT` statements that `sql_to_csv` parses in a file differ in their
column lists (in length, or in a name at some position, compared as they stand), it
returns failure, which comes before it opens the output file, whatever rows it has
collected. -/
theorem c18_sql_mixed_columns_fatal (sql : List Char) (p q : List DataConvert.Str × List DataConvert.Str)
    (hp : p ∈ SqlConvert.sql_statements sql) (hq : q ∈ SqlConvert.sql_statements sql)
    (hne : p.1 ≠ q.1) : SqlConvert.sql_to_csv sql = none := by
  unfold SqlConvert.sql_statements at hp hq
  unfold SqlConvert.sql_to_csv
  rw [SqlConvert.sql_lines_loop_start]
  cases hs : (DataConvert.getlines sql).filterMap SqlConvert.sql_parse_line with
  | nil => rw [hs] at hp; cases hp
  | cons s ss =>
    rw [hs] at hp hq
    have hno : ¬ ∀ x ∈ ss, x.1 = s.1 := by
      intro hall
      have h1 : p.1 = s.1 := by
        rcases List.mem_cons.1 hp with e | e
        · rw [e]
        · exact hall p e
      have h2 : q.1 = s.1 := by
        rcases List.mem_cons.1 hq with e | e
        · rw [e]
        · exact hall q e
      exact hne (h1.trans h2.symm)
    simp only [if_neg hno]

/-- C18 at a file of three statements of which the third names the columns `a, B` instead
of `a, b`. -/
theorem c18_sql_mixed_columns_fatal_witness :
    SqlConvert.sql_to_csv
      "INSERT INTO t (a, b) VALUES ('1', '2');\nINSERT INTO t (a, b) VALUES ('3', '4');\nINSERT INTO t (a, B) VALUES ('5', '6');\n".toList
      = none :=
  c18_sql_mixed_columns_fatal _ (["a".toList, "b".toList], ["1".toList, "2".toList])
    (["a".toList, "B".toList], ["5".toList, "6".toList]) (by decide) (by decide) (by decide)

/-- C19: what `sql_to_csv` writes is the CSV of the column list of the statements and of one
row per parsed statement, in order; the row of a statement with `n` columns and `m` values
has exactly `n` cells: the first `min m n` values in order, followed by `n - m` empty
strings when `m < n`. -/
theorem c19_sql_value_count (sql out : List Char)
    (h : SqlConvert.sql_to_csv sql = some out) :
    (∃ columns, (∀ s ∈ SqlConvert.sql_statements sql, s.1 = columns)
        ∧ out = SqlConvert.csv_write columns
            ((SqlConvert.sql_statements sql).map
              (fun s => SqlConvert.sql_spec_row s.1.length s.2)))
      ∧ ∀ (n : Nat) (vals : List DataConvert.Str),
          SqlConvert.sql_store_row n vals = SqlConvert.sql_spec_row n vals
            ∧ (SqlConvert.sql_spec_row n vals).length = n
            ∧ (SqlConvert.sql_spec_row n vals).take (min vals.length n) = vals.take (min vals.length n)
            ∧ (SqlConvert.sql_spec_row n vals).drop (min vals.length n)
                = List.replicate (n - vals.length) [] := by
  constructor
  · unfold SqlConvert.sql_to_csv at h
    rw [SqlConvert.sql_lines_loop_start] at h
    unfold SqlConvert.sql_statements
    cases hs : (DataConvert.getlines sql).filterMap SqlConvert.sql_parse_line with
    | nil => rw [hs] at h; simp at h
    | cons s ss =>
      rw [hs] at h
      simp only at h
      by_cases hall : ∀ x ∈ ss, x.1 = s.1
      · rw [if_pos hall] at h
        simp only at h
        split_ifs at h with h0
        simp only [Option.some.injEq] at h
        refine ⟨s.1, ?_, ?_⟩
        · intro x hx
          rcases List.mem_cons.1 hx with e | e
          · rw [e]
          · exact hall x e
        · rw [← h]
          congr 1
          apply List.map_congr_left
          intro x hx
          have hx1 : x.1 = s.1 := by
            rcases List.mem_cons.1 hx with e | e
            · rw [e]
            · exact hall x e
          rw [SqlConvert.sql_store_row_eq, hx1]
      · rw [if_neg hall] at h
        cases h
  · intro n vals
    refine ⟨SqlConvert.sql_store_row_eq n vals, SqlConvert.sql_spec_row_length n vals, ?_, ?_⟩
    · unfold SqlConvert.sql_spec_row
      rw [List.take_append_eq_append_take]
      simp only [List.take_take, List.length_take]
      have e1 : min (min vals.length n) n = min vals.length n := by omega
      have e2 : min vals.length n - min n vals.length = 0 := by omega
      rw [e1, e2]
      simp
    · unfold SqlConvert.sql_spec_row
      rw [List.drop_append_eq_append_drop]
      simp only [List.length_take]
      have e1 : (vals.take n).drop (min vals.length n) = [] := by
        apply List.drop_eq_nil_of_le
        simp only [List.length_take]
        omega
      have e2 : min vals.length n - min n vals.length = 0 := by omega
      rw [e1, e2]
      simp

/-- C19 at a file with a statement of two columns and one value and a statement of two
columns and three values. -/
theorem c19_sql_value_count_witness :
    SqlConvert.sql_to_csv
        "INSERT INTO t (a, b) VALUES ('1');\nINSERT INTO t (a, b) VALUES ('x', 'y', 'z');\n".toList
        = some "a,b\n1,\nx,y\n".toList
      ∧ ∃ columns, (∀ s ∈ SqlConvert.sql_statements
            "INSERT INTO t (a, b) VALUES ('1');\nINSERT INTO t (a, b) VALUES ('x', 'y', 'z');\n".toList,
            s.1 = columns)
          ∧ "a,b\n1,\nx,y\n".toList = SqlConvert.csv_write columns
              ((SqlConvert.sql_statements
                "INSERT INTO t (a, b) VALUES ('1');\nINSERT INTO t (a, b) VALUES ('x', 'y', 'z');\n".toList).map
                (fun s => SqlConvert.sql_spec_row s.1.length s.2)) :=
  ⟨by decide,
    (c19_sql_value_count
      "INSERT INTO t (a, b) VALUES ('1');\nINSERT INTO t (a, b) VALUES ('x', 'y', 'z');\n".toList
      "a,b\n1,\nx,y\n".toList (by decide)).1⟩

/-- C15 (defect): for the CSV of the header `name,age` and the rows `Alice,30` and `Bob,25`
`csv_to_sql` writes the `INSERT` line of the first row only: behind the line break that
ends a row `csv_read_all` discards the next line as the rest of the row. For the one row
`Alice,30` it writes the line the specification gives. -/
theorem c15_sql_second_row_lost :
    SqlConvert.csv_to_sql "name,age\nAlice,30\nBob,25\n".toList "people".toList false
        = some ("-- Generated by dtconvert (csv -> sql)\n".toList
            ++ "INSERT INTO people (name, age) VALUES ('Alice', '30');\n".toList ++ ['\n'])
      ∧ SqlConvert.csv_read_all "name,age\nAlice,30\nBob,25\n".toList
        = some ⟨["name".toList, "age".toList], [["Alice".toList, "30".toList]]⟩
      ∧ SqlConvert.csv_to_sql "name,age\nAlice,30\n".toList "people".toList true
        = some ("-- Generated by dtconvert (csv -> sql)\n".toList
            ++ "CREATE TABLE IF NOT EXISTS people (name TEXT, age TEXT);\n".toList
            ++ "INSERT INTO people (name, age) VALUES ('Alice', '30');\n".toList ++ ['\n']) := by
  refine ⟨by decide, by decide, by decide⟩

namespace SqlConvert

open DataConvert (Str isspace cstr getlines)

/-! ## SQL: reading back what `csv_to_sql` writes -/

/-- What a character of an identifier is not. -/
theorem sql_ident_char (x : Char) (h : (isalnum x || x = '_') = true) :
    isspace x = false ∧ x ≠ ',' ∧ x ≠ '(' ∧ x ≠ ')' ∧ x ≠ '\n' ∧ x ≠ '\r' ∧ x ≠ '\x00'
      ∧ x ≠ '"' ∧ x ≠ '\'' ∧ x ≠ '-' ∧ x ≠ ' ' ∧ x ≠ '\t' := by
  refine ⟨?_, ?_, ?_, ?_, ?_, ?_, ?_, ?_, ?_, ?_, ?_, ?_⟩
  · cases hs : isspace x with
    | false => rfl
    | true =>
      exfalso
      simp only [isspace, Bool.or_eq_true, decide_eq_true_eq] at hs
      rcases hs with ((((e | e) | e) | e) | e) | e <;> subst e <;> exact absurd h (by decide)
  all_goals
    intro e
    subst e
    exact absurd h (by decide)

theorem sql_ident_head (c : Char) (h : (isalpha c || c = '_') = true) :
    (isalnum c || c = '_') = true := by
  unfold isalnum
  simp only [Bool.or_eq_true, decide_eq_true_eq] at h ⊢
  rcases h with h | h
  · exact Or.inl (Or.inl h)
  · exact Or.inr h

theorem sql_ident_chars (s : Str) (h : is_ident s = true) :
    ∀ x ∈ s, (isalnum x || x = '_') = true := by
  cases s with
  | nil => simp [is_ident] at h
  | cons c r =>
    simp only [is_ident, Bool.and_eq_true, List.all_eq_true] at h
    intro x hx
    rcases List.mem_cons.1 hx with e | e
    · rw [e]
      exact sql_ident_head c h.1
    · exact h.2 x e

theorem sql_ident_ne_nil (s : Str) (h : is_ident s = true) : s ≠ [] := by
  intro e
  rw [e] at h
  simp [is_ident] at h

/-! ### Lists separated by a string -/

theorem sql_intercalate_cons (sep a b : List Char) (l : List (List Char)) :
    List.intercalate sep (a :: b :: l) = a ++ (sep ++ List.intercalate sep (b :: l)) := by
  simp [List.intercalate, List.intersperse]

theorem sql_intercalate_one (sep a : List Char) : List.intercalate sep [a] = a := by
  simp [List.intercalate, List.intersperse]

theorem sql_intercalate_mem (sep : List Char) : ∀ (l : List (List Char)) (x : Char),
    x ∈ List.intercalate sep l → x ∈ sep ∨ ∃ a ∈ l, x ∈ a := by
  intro l
  induction l with
  | nil => intro x h; simp [List.intercalate] at h
  | cons a l ih =>
    intro x h
    cases l with
    | nil =>
      rw [sql_intercalate_one] at h
      exact Or.inr ⟨a, List.mem_cons_self _ _, h⟩
    | cons b l =>
      rw [sql_intercalate_cons] at h
      rcases List.mem_append.1 h with h | h
      · exact Or.inr ⟨a, List.mem_cons_self _ _, h⟩
      · rcases List.mem_append.1 h with h | h
        · exact Or.inl h
        · rcases ih x h with h | ⟨y, hy, hxy⟩
          · exact Or.inl h
          · exact Or.inr ⟨y, List.mem_cons_of_mem _ hy, hxy⟩

theorem sql_intercalate_length (sep : List Char) : ∀ (l : List (List Char)),
    (∀ a ∈ l, a ≠ []) → l.length ≤ (List.intercalate sep l).length := by
  intro l
  induction l with
  | nil => intro _; simp
  | cons a l ih =>
    intro h
    have ha : 0 < a.length := List.length_pos.2 (h a (List.mem_cons_self _ _))
    cases l with
    | nil =>
      rw [sql_intercalate_one]
      simp only [List.length_cons, List.length_nil]
      omega
    | cons b l =>
      rw [sql_intercalate_cons]
      have := ih (fun y hy => h y (List.mem_cons_of_mem _ hy))
      simp only [List.length_append, List.length_cons] at this ⊢
      omega

/-! ### The pieces of a statement -/

theorem sql_match_insert (r : List Char) :
    match_ci ('I' :: 'N' :: 'S' :: 'E' :: 'R' :: 'T' :: r) "insert".toList = some r := by
  cases r <;> rfl

theorem sql_match_into (r : List Char) :
    match_ci ('I' :: 'N' :: 'T' :: 'O' :: r) "into".toList = some r := by
  cases r <;> rfl

theorem sql_match_values (r : List Char) :
    match_ci ('V' :: 'A' :: 'L' :: 'U' :: 'E' :: 'S' :: r) "values".toList = some r := by
  cases r <;> rfl

theorem sql_skip_ws_blank (p : List Char) : skip_ws (' ' :: p) = skip_ws p := by
  simp [skip_ws, List.dropWhile, isspace]

theorem sql_skip_ws_stay (c : Char) (p : List Char) (h : isspace c = false) :
    skip_ws (c :: p) = c :: p := by
  simp [skip_ws, List.dropWhile, h]

theorem sql_parse_ident_blank (p : List Char) : parse_ident (' ' :: p) = parse_ident p := by
  simp only [parse_ident, sql_skip_ws_blank]

theorem sql_consume_char_blank (p : List Char) (ch : Char) :
    consume_char (' ' :: p) ch = consume_char p ch := by
  simp only [consume_char, sql_skip_ws_blank]

theorem sql_consume_char_hit (ch : Char) (p : List Char) (h : isspace ch = false) :
    consume_char (ch :: p) ch = (true, p) := by
  simp [consume_char, sql_skip_ws_stay ch p h]

theorem sql_consume_char_miss (c ch : Char) (p : List Char) (h : isspace c = false)
    (hne : c ≠ ch) : consume_char (c :: p) ch = (false, c :: p) := by
  simp [consume_char, sql_skip_ws_stay c p h, hne]

theorem sql_parse_literal_blank (p : List Char) :
    parse_sql_string_literal (' ' :: p) = parse_sql_string_literal p := by
  simp only [parse_sql_string_literal, sql_skip_ws_blank]

/-- An identifier in front of a character that does not continue it is parsed whole. -/
theorem sql_parse_ident_at (s rest : List Char) (hs : is_ident s = true)
    (hr : ∀ c ∈ rest.head?, (isalnum c || c = '_') = false) :
    parse_ident (s ++ rest) = (some s, rest) := by
  have hall := sql_ident_chars s hs
  cases s with
  | nil => simp [is_ident] at hs
  | cons c r =>
    have hc : (isalpha c || c = '_') = true := by
      simp only [is_ident, Bool.and_eq_true] at hs
      exact hs.1
    have hsp : isspace c = false := (sql_ident_char c (hall c (List.mem_cons_self _ _))).1
    have hrest : rest.takeWhile (fun c => isalnum c || c = '_') = []
        ∧ rest.dropWhile (fun c => isalnum c || c = '_') = rest := by
      cases rest with
      | nil => exact ⟨rfl, rfl⟩
      | cons d rest =>
        have hd := hr d (by simp)
        simp [List.takeWhile, List.dropWhile, hd]
    unfold parse_ident
    rw [List.cons_append, sql_skip_ws_stay c _ hsp]
    have hd : deref (c :: (r ++ rest)) = c := rfl
    rw [hd, if_pos hc, ← List.cons_append,
      List.takeWhile_append_of_pos hall, List.dropWhile_append_of_pos hall, hrest.1, hrest.2]
    simp

theorem sql_scan_literal_plain (x : Char) (r : List Char) (hx : x ≠ '\'') :
    sql_scan_literal (x :: r) = keep x (sql_scan_literal r) := by
  cases r <;> simp [sql_scan_literal, hx]

/-- The scan of a literal gives back the value that `escape_sql_literal` has escaped. -/
theorem sql_scan_literal_escaped : ∀ (c : Str) (d : Char) (rest : List Char), d ≠ '\'' →
    sql_scan_literal (escape_sql_literal c ++ '\'' :: d :: rest) = (c, d :: rest) := by
  intro c
  induction c with
  | nil =>
    intro d rest hd
    simp [escape_sql_literal, sql_scan_literal, hd]
  | cons x c ih =>
    intro d rest hd
    by_cases hx : x = '\''
    · subst hx
      simp [escape_sql_literal, sql_scan_literal, keep, ih d rest hd]
    · simp only [escape_sql_literal, hx, if_false, List.cons_append]
      rw [sql_scan_literal_plain x _ hx, ih d rest hd]
      rfl

theorem sql_parse_literal_at (c : Str) (d : Char) (rest : List Char) (hd : d ≠ '\'') :
    parse_sql_string_literal (('\'' :: escape_sql_literal c ++ ['\'']) ++ d :: rest)
      = (some c, d :: rest) := by
  have e : ('\'' :: escape_sql_literal c ++ ['\'']) ++ d :: rest
      = '\'' :: (escape_sql_literal c ++ '\'' :: d :: rest) := by simp
  rw [e]
  simp [parse_sql_string_literal, sql_skip_ws_stay '\'' _ (by decide),
    sql_scan_literal_escaped c d rest hd]

theorem sql_columns_loop_blank (n : Nat) (p : List Char) :
    sql_columns_loop n (' ' :: p) = sql_columns_loop n p := by
  cases n with
  | zero => rfl
  | succ n => simp only [sql_columns_loop, sql_parse_ident_blank]

theorem sql_values_loop_blank (n : Nat) (p : List Char) :
    sql_values_loop n (' ' :: p) = sql_values_loop n p := by
  cases n with
  | zero => rfl
  | succ n => simp only [sql_values_loop, sql_parse_literal_blank]

/-- The loop `parse columns` on the column list that `csv_to_sql` writes. -/
theorem sql_columns_loop_names : ∀ (names : List Str) (n : Nat) (rest : List Char),
    names ≠ [] → (∀ s ∈ names, is_ident s = true) → names.length ≤ n →
    sql_columns_loop n (List.intercalate ", ".toList names ++ ')' :: rest)
      = some (names, rest) := by
  intro names
  induction names with
  | nil => intro n rest h; exact absurd rfl h
  | cons a l ih =>
    intro n rest _ hid hn
    have ha := hid a (List.mem_cons_self _ _)
    cases n with
    | zero => simp at hn
    | succ n =>
      cases l with
      | nil =>
        rw [sql_intercalate_one]
        have hp := sql_parse_ident_at a (')' :: rest) ha (by simp; decide)
        simp only [sql_columns_loop, hp, sql_consume_char_hit ')' rest (by decide), if_true]
      | cons b l =>
        rw [sql_intercalate_cons]
        have e : a ++ (", ".toList ++ List.intercalate ", ".toList (b :: l)) ++ ')' :: rest
            = a ++ ',' :: ' ' :: (List.intercalate ", ".toList (b :: l) ++ ')' :: rest) := by
          simp
        rw [e]
        have hp := sql_parse_ident_at a
          (',' :: ' ' :: (List.intercalate ", ".toList (b :: l) ++ ')' :: rest)) ha
          (by simp; decide)
        have hrec := ih n rest (by simp) (fun s hs => hid s (List.mem_cons_of_mem _ hs))
          (by simp only [List.length_cons] at hn ⊢; omega)
        simp only [sql_columns_loop, hp,
          sql_consume_char_miss ',' ')' _ (by decide) (by decide),
          sql_consume_char_hit ',' _ (by decide), if_true, sql_columns_loop_blank, hrec]
        simp

/-- The loop `parse values` on the value list that `csv_to_sql` writes. -/
theorem sql_values_loop_cells : ∀ (row : List Str) (n : Nat) (rest : List Char),
    row ≠ [] → row.length ≤ n →
    sql_values_loop n
        (List.intercalate ", ".toList (row.map (fun c => '\'' :: escape_sql_literal c ++ ['\'']))
          ++ ')' :: rest)
      = some (row, rest) := by
  intro row
  induction row with
  | nil => intro n rest h; exact absurd rfl h
  | cons a l ih =>
    intro n rest _ hn
    cases n with
    | zero => simp at hn
    | succ n =>
      cases l with
      | nil =>
        simp only [List.map_cons, List.map_nil]
        rw [sql_intercalate_one]
        have hp := sql_parse_literal_at a ')' rest (by decide)
        simp only [sql_values_loop, hp, sql_consume_char_hit ')' rest (by decide), if_true]
      | cons b l =>
        simp only [List.map_cons]
        rw [sql_intercalate_cons]
        have e : ('\'' :: escape_sql_literal a ++ ['\''])
              ++ (", ".toList ++ List.intercalate ", ".toList
                (('\'' :: escape_sql_literal b ++ ['\''])
                  :: l.map (fun c => '\'' :: escape_sql_literal c ++ ['\'']))) ++ ')' :: rest
            = ('\'' :: escape_sql_literal a ++ ['\''])
              ++ ',' :: ' ' :: (List.intercalate ", ".toList
                ((b :: l).map (fun c => '\'' :: escape_sql_literal c ++ ['\''])) ++ ')' :: rest) := by
          simp
        rw [e]
        have hp := sql_parse_literal_at a ','
          (' ' :: (List.intercalate ", ".toList
            ((b :: l).map (fun c => '\'' :: escape_sql_literal c ++ ['\''])) ++ ')' :: rest))
          (by decide)
        have hrec := ih n rest (by simp) (by simp only [List.length_cons] at hn ⊢; omega)
        simp only [sql_values_loop, hp,
          sql_consume_char_miss ',' ')' _ (by decide) (by decide),
          sql_consume_char_hit ',' _ (by decide), if_true, sql_values_loop_blank, hrec]
        simp

end SqlConvert

namespace SqlConvert

open DataConvert (Str isspace cstr getlines)

/-! ### The lines of the SQL file -/

theorem sql_escape_mem : ∀ (c : Str) (x : Char), x ∈ escape_sql_literal c → x ∈ c := by
  intro c
  induction c with
  | nil => intro x h; simp [escape_sql_literal] at h
  | cons a c ih =>
    intro x h
    by_cases ha : a = '\''
    · subst ha
      simp only [escape_sql_literal, if_true, List.mem_cons] at h
      rcases h with h | h | h
      · exact List.mem_cons.2 (Or.inl h)
      · exact List.mem_cons.2 (Or.inl h)
      · exact List.mem_cons_of_mem _ (ih x h)
    · simp only [escape_sql_literal, ha, if_false, List.mem_cons] at h
      rcases h with h | h
      · exact List.mem_cons.2 (Or.inl h)
      · exact List.mem_cons_of_mem _ (ih x h)

/-- A line that ends in `);` and a line feed, as `sql_to_csv` looks at it. -/
theorem sql_line_strip (x : List Char) (hx : '\x00' ∉ x) :
    rstrip (cstr (x ++ [')', ';', '\n'])) = x ++ [')', ';'] := by
  have hn : '\x00' ∉ x ++ [')', ';', '\n'] := by
    intro h
    rcases List.mem_append.1 h with h | h
    · exact hx h
    · revert h
      decide
  rw [DataConvert.cstr_of_no_nul _ hn]
  have e : x ++ [')', ';', '\n'] = (x ++ [')', ';']) ++ ['\n'] := by simp
  have e2 : x ++ [')', ';'] = (x ++ [')']) ++ [';'] := by simp
  unfold rstrip
  rw [e, List.rdropWhile_concat_pos _ _ _ (by decide), e2,
    List.rdropWhile_concat_neg _ _ _ (by decide)]

/-- The characters of an `INSERT` line in front of `);`. -/
theorem sql_insert_line_split (table : Str) (names row : List Str) :
    ∃ x, sql_insert_line table names row = x ++ [')', ';', '\n']
      ∧ x ++ [')', ';'] = 'I' :: 'N' :: 'S' :: 'E' :: 'R' :: 'T' :: ' ' :: 'I' :: 'N' :: 'T'
          :: 'O' :: ' ' :: (table ++ ' ' :: '(' :: (List.intercalate ", ".toList names
            ++ ')' :: ' ' :: 'V' :: 'A' :: 'L' :: 'U' :: 'E' :: 'S' :: ' ' :: '('
              :: ((List.intercalate ", ".toList
                (row.map (fun c => '\'' :: escape_sql_literal c ++ ['\''])))
                ++ ')' :: [';'])))
      ∧ ∀ ch ∈ x, ch ∈ "INSERT INTO (,)VALUES'".toList ∨ ch ∈ table ∨ (∃ n ∈ names, ch ∈ n)
          ∨ ∃ c ∈ row, ch ∈ c := by
  refine ⟨'I' :: 'N' :: 'S' :: 'E' :: 'R' :: 'T' :: ' ' :: 'I' :: 'N' :: 'T'
          :: 'O' :: ' ' :: (table ++ ' ' :: '(' :: (List.intercalate ", ".toList names
            ++ ')' :: ' ' :: 'V' :: 'A' :: 'L' :: 'U' :: 'E' :: 'S' :: ' ' :: '('
              :: (List.intercalate ", ".toList
                (row.map (fun c => '\'' :: escape_sql_literal c ++ ['\'']))))), ?_, ?_, ?_⟩
  · simp [sql_insert_line]
  · simp
  · intro ch h
    have hlit : ∀ y ∈ "INSERT INTO (,)VALUES'".toList, y ∈ "INSERT INTO (,)VALUES'".toList :=
      fun _ hy => hy
    simp only [List.mem_cons, List.mem_append] at h
    have hN : ch ∈ List.intercalate ", ".toList names →
        ch ∈ "INSERT INTO (,)VALUES'".toList ∨ ch ∈ table ∨ (∃ n ∈ names, ch ∈ n)
          ∨ ∃ c ∈ row, ch ∈ c := by
      intro hm
      rcases sql_intercalate_mem _ _ _ hm with hm | ⟨n, hn, hcn⟩
      · left
        simp only [String.toList, List.mem_cons] at hm ⊢
        rcases hm with e | e | e
        · subst e; decide
        · subst e; decide
        · cases e
      · exact Or.inr (Or.inr (Or.inl ⟨n, hn, hcn⟩))
    have hV : ch ∈ List.intercalate ", ".toList
          (row.map (fun c => '\'' :: escape_sql_literal c ++ ['\''])) →
        ch ∈ "INSERT INTO (,)VALUES'".toList ∨ ch ∈ table ∨ (∃ n ∈ names, ch ∈ n)
          ∨ ∃ c ∈ row, ch ∈ c := by
      intro hm
      rcases sql_intercalate_mem _ _ _ hm with hm | ⟨q, hq, hcq⟩
      · left
        simp only [String.toList, List.mem_cons] at hm ⊢
        rcases hm with e | e | e
        · subst e; decide
        · subst e; decide
        · cases e
      · obtain ⟨c, hc, rfl⟩ := List.mem_map.1 hq
        simp only [List.mem_cons, List.mem_append, List.mem_singleton, List.not_mem_nil,
          or_false] at hcq
        rcases hcq with (e | e) | e
        · left; subst e; decide
        · exact Or.inr (Or.inr (Or.inr ⟨c, hc, sql_escape_mem c ch e⟩))
        · left; subst e; decide
    rcases h with e | e | e | e | e | e | e | e | e | e | e | e | e | e | e | e | e | e | e
      | e | e | e | e | e | e | e | e
    all_goals
      first
      | (left; subst e; decide)
      | exact Or.inr (Or.inl e)
      | exact hN e
      | exact hV e

theorem sql_match_not_insert (c : Char) (r : List Char) (h : tolower c ≠ 'i') :
    match_ci (c :: r) "insert".toList = none := by
  have e : "insert".toList = 'i' :: "nsert".toList := rfl
  have e2 : tolower 'i' = 'i' := by decide
  rw [e]
  simp only [match_ci, e2, if_neg h]

/-- The statement on an `INSERT` line that `csv_to_sql` writes. -/
theorem sql_parse_line_insert (table : Str) (names row : List Str) (ht : is_ident table = true)
    (hn : names ≠ []) (hid : ∀ s ∈ names, is_ident s = true) (hr : row ≠ [])
    (hc : ∀ c ∈ row, '\x00' ∉ c) :
    sql_parse_line (sql_insert_line table names row) = some (names, row) := by
  obtain ⟨x, e1, e2, hx⟩ := sql_insert_line_split table names row
  have hnul : '\x00' ∉ x := by
    intro h
    rcases hx _ h with h | h | ⟨n, hn, h⟩ | ⟨c, hc', h⟩
    · revert h; decide
    · exact (sql_ident_char _ (sql_ident_chars table ht _ h)).2.2.2.2.2.2.1 rfl
    · exact (sql_ident_char _ (sql_ident_chars n (hid n hn) _ h)).2.2.2.2.2.2.1 rfl
    · exact hc c hc' h
  have hfuel1 : ∀ rest : List Char,
      names.length ≤ (List.intercalate ", ".toList names ++ rest).length + 1 := by
    intro rest
    have := sql_intercalate_length ", ".toList names (fun a ha => sql_ident_ne_nil a (hid a ha))
    simp only [List.length_append]
    omega
  have hfuel2 : ∀ rest : List Char,
      row.length ≤ (List.intercalate ", ".toList
        (row.map (fun c => '\'' :: escape_sql_literal c ++ ['\''])) ++ rest).length + 1 := by
    intro rest
    have := sql_intercalate_length ", ".toList
      (row.map (fun c => '\'' :: escape_sql_literal c ++ ['\'']))
      (by
        intro a ha
        obtain ⟨c, _, rfl⟩ := List.mem_map.1 ha
        simp)
    simp only [List.length_append, List.length_map] at this ⊢
    omega
  unfold sql_parse_line
  rw [e1, sql_line_strip x hnul, e2]
  simp only [sql_skip_ws_stay 'I' _ (by decide), sql_match_insert, sql_skip_ws_blank,
    sql_match_into, sql_parse_ident_blank]
  rw [sql_parse_ident_at table _ ht (by simp; decide)]
  simp only [sql_consume_char_blank, sql_consume_char_hit '(' _ (by decide), if_true]
  rw [sql_columns_loop_names names _ _ hn hid (hfuel1 _)]
  simp only [sql_skip_ws_blank, sql_skip_ws_stay 'V' _ (by decide), sql_match_values,
    sql_consume_char_blank, sql_consume_char_hit '(' _ (by decide), if_true]
  rw [sql_values_loop_cells row _ _ hr (hfuel2 _)]
  simp [deref]

/-- The `CREATE TABLE` line holds no statement for `sql_to_csv`. -/
theorem sql_parse_line_create (table : Str) (names : List Str) (ht : is_ident table = true)
    (hid : ∀ s ∈ names, is_ident s = true) :
    sql_parse_line (sql_create_line table names) = none
      ∧ ∃ x, sql_create_line table names = x ++ ['\n'] ∧ '\n' ∉ x := by
  have hx : ∀ ch ∈ "REATE TABLE IF NOT EXISTS ".toList ++ table ++ " (".toList
      ++ List.intercalate ", ".toList (names.map (fun n => n ++ " TEXT".toList)),
      ch ∈ "CREATE TABLE IF NOT EXISTS (,".toList ∨ (isalnum ch || ch = '_') = true := by
    intro ch h
    simp only [List.mem_append] at h
    rcases h with ((h | h) | h) | h
    · exact Or.inl ((by decide : ∀ y ∈ "REATE TABLE IF NOT EXISTS ".toList,
        y ∈ "CREATE TABLE IF NOT EXISTS (,".toList) ch h)
    · exact Or.inr (sql_ident_chars table ht _ h)
    · exact Or.inl ((by decide : ∀ y ∈ " (".toList,
        y ∈ "CREATE TABLE IF NOT EXISTS (,".toList) ch h)
    · rcases sql_intercalate_mem _ _ _ h with h | ⟨q, hq, hcq⟩
      · exact Or.inl ((by decide : ∀ y ∈ ", ".toList,
          y ∈ "CREATE TABLE IF NOT EXISTS (,".toList) ch h)
      · obtain ⟨n, hn, rfl⟩ := List.mem_map.1 hq
        rcases List.mem_append.1 hcq with h | h
        · exact Or.inr (sql_ident_chars n (hid n hn) _ h)
        · exact Or.inl ((by decide : ∀ y ∈ " TEXT".toList,
            y ∈ "CREATE TABLE IF NOT EXISTS (,".toList) ch h)
  have e1 : sql_create_line table names
      = ('C' :: ("REATE TABLE IF NOT EXISTS ".toList ++ table ++ " (".toList
        ++ List.intercalate ", ".toList (names.map (fun n => n ++ " TEXT".toList))))
        ++ [')', ';', '\n'] := by
    simp [sql_create_line]
  have hnul : '\x00' ∉ 'C' :: ("REATE TABLE IF NOT EXISTS ".toList ++ table ++ " (".toList
        ++ List.intercalate ", ".toList (names.map (fun n => n ++ " TEXT".toList))) := by
    intro h
    rcases List.mem_cons.1 h with h | h
    · revert h; decide
    · rcases hx _ h with h | h
      · revert h; decide
      · exact (sql_ident_char _ h).2.2.2.2.2.2.1 rfl
  constructor
  · unfold sql_parse_line
    rw [e1, sql_line_strip _ hnul]
    simp only [List.cons_append, sql_skip_ws_stay 'C' _ (by decide)]
    rw [sql_match_not_insert 'C' _ (by decide)]
    simp [deref]
  · refine ⟨('C' :: ("REATE TABLE IF NOT EXISTS ".toList ++ table ++ " (".toList
        ++ List.intercalate ", ".toList (names.map (fun n => n ++ " TEXT".toList))))
        ++ [')', ';'], ?_, ?_⟩
    · rw [e1]
      simp
    · intro h
      rcases List.mem_append.1 h with h | h
      · rcases List.mem_cons.1 h with h | h
        · revert h; decide
        · rcases hx _ h with h | h
          · revert h; decide
          · exact (sql_ident_char _ h).2.2.2.2.1 rfl
      · revert h; decide

end SqlConvert

namespace SqlConvert

open DataConvert (Str isspace cstr getlines)

theorem sql_getlines_lines : ∀ (ls : List (List Char)) (rest : List Char),
    (∀ l ∈ ls, ∃ x, l = x ++ ['\n'] ∧ '\n' ∉ x) →
    getlines (ls.flatten ++ rest) = ls ++ getlines rest := by
  intro ls
  induction ls with
  | nil => intro rest _; rfl
  | cons l ls ih =>
    intro rest h
    obtain ⟨x, rfl, hx⟩ := h l (List.mem_cons_self _ _)
    have e : ((x ++ ['\n']) :: ls).flatten ++ rest = x ++ '\n' :: (ls.flatten ++ rest) := by
      simp
    rw [e, DataConvert.getlines_line x _ hx, ih rest (fun y hy => h y (List.mem_cons_of_mem _ hy))]
    rfl

theorem sql_filterMap_map {α β γ : Type} (f : β → Option γ) (g : α → β) (h : α → γ) :
    ∀ (l : List α), (∀ a ∈ l, f (g a) = some (h a)) → (l.map g).filterMap f = l.map h := by
  intro l
  induction l with
  | nil => intro _; rfl
  | cons a l ih =>
    intro hl
    simp only [List.map_cons, List.filterMap_cons, hl a (List.mem_cons_self _ _)]
    rw [ih (fun b hb => hl b (List.mem_cons_of_mem _ hb))]

theorem sql_store_row_full (n : Nat) (vals : List Str) (h : vals.length = n) :
    sql_store_row n vals = vals := by
  unfold sql_store_row
  rw [← h]
  simp

/-- The way back from the SQL text of a table: `sql_to_csv` reads every row that
`csv_to_sql` has written, when no cell holds a line feed. -/
theorem sql_to_csv_text (table : Str) (names : List Str) (rows : List (List Str))
    (create_table : Bool) (ht : is_ident table = true) (hn : names ≠ [])
    (hid : ∀ s ∈ names, is_ident s = true) (hrows : rows ≠ [])
    (hlen : ∀ r ∈ rows, r.length = names.length)
    (hcells : ∀ r ∈ rows, ∀ c ∈ r, '\x00' ∉ c ∧ '\n' ∉ c) :
    sql_to_csv (sql_text table names rows create_table) = some (csv_write names rows) := by
  have hrne : ∀ r ∈ rows, r ≠ [] := by
    intro r hr e
    have := hlen r hr
    rw [e] at this
    exact hn (List.length_eq_zero.1 this.symm)
  have hparse : ∀ r ∈ rows, sql_parse_line (sql_insert_line table names r) = some (names, r) :=
    fun r hr => sql_parse_line_insert table names r ht hn hid (hrne r hr)
      (fun c hc => (hcells r hr c hc).1)
  have hline : ∀ l ∈ rows.map (sql_insert_line table names), ∃ x, l = x ++ ['\n'] ∧ '\n' ∉ x := by
    intro l hl
    obtain ⟨r, hr, rfl⟩ := List.mem_map.1 hl
    obtain ⟨x, e1, _, hx⟩ := sql_insert_line_split table names r
    refine ⟨x ++ [')', ';'], by rw [e1]; simp, ?_⟩
    intro h
    rcases List.mem_append.1 h with h | h
    · rcases hx _ h with h | h | ⟨n, hn', h⟩ | ⟨c, hc, h⟩
      · revert h; decide
      · exact (sql_ident_char _ (sql_ident_chars table ht _ h)).2.2.2.2.1 rfl
      · exact (sql_ident_char _ (sql_ident_chars n (hid n hn') _ h)).2.2.2.2.1 rfl
      · exact (hcells r hr c hc).2 h
    · revert h; decide
  obtain ⟨hcp, xc, hce, hcx⟩ := sql_parse_line_create table names ht hid
  have hlines : getlines (sql_text table names rows create_table)
      = ("-- Generated by dtconvert (csv -> sql)\n".toList
          :: (if create_table then [sql_create_line table names] else []))
        ++ rows.map (sql_insert_line table names) ++ [['\n']] := by
    have e : sql_text table names rows create_table
        = (("-- Generated by dtconvert (csv -> sql)\n".toList
          :: (if create_table then [sql_create_line table names] else []))
          ++ rows.map (sql_insert_line table names)).flatten ++ ['\n'] := by
      unfold sql_text
      cases create_table <;> simp
    rw [e, sql_getlines_lines]
    · rfl
    · intro l hl
      rcases List.mem_append.1 hl with hl | hl
      · rcases List.mem_cons.1 hl with hl | hl
        · exact ⟨"-- Generated by dtconvert (csv -> sql)".toList, by rw [hl]; rfl, by decide⟩
        · cases create_table with
          | false => simp at hl
          | true =>
            simp only [if_true, List.mem_singleton] at hl
            exact ⟨xc, by rw [hl, hce], hcx⟩
      · exact hline l hl
  have hstat : (getlines (sql_text table names rows create_table)).filterMap sql_parse_line
      = rows.map (fun r => (names, r)) := by
    rw [hlines, List.filterMap_append, List.filterMap_append,
      sql_filterMap_map sql_parse_line (sql_insert_line table names) (fun r => (names, r)) rows
        hparse]
    have h1 : ("-- Generated by dtconvert (csv -> sql)\n".toList
          :: (if create_table then [sql_create_line table names] else [])).filterMap
          sql_parse_line = [] := by
      have h0 : sql_parse_line "-- Generated by dtconvert (csv -> sql)\n".toList = none := by
        decide
      cases create_table with
      | false =>
        simp only [Bool.false_eq_true, if_false, List.filterMap_cons, h0, List.filterMap_nil]
      | true => simp only [if_true, List.filterMap_cons, h0, hcp, List.filterMap_nil]
    have h2 : [['\n']].filterMap sql_parse_line = [] := by decide
    rw [h1, h2]
    simp
  unfold sql_to_csv
  rw [sql_lines_loop_start, hstat]
  cases rows with
  | nil => exact absurd rfl hrows
  | cons r rs =>
    simp only [List.map_cons]
    have hall : ∀ x ∈ rs.map (fun r => (names, r)), x.1 = (names, r).1 := by
      intro x hx
      obtain ⟨y, _, rfl⟩ := List.mem_map.1 hx
      rfl
    rw [if_pos hall]
    simp only [hn, if_false, Option.some.injEq]
    congr 1
    have e : ∀ (l : List (List Str)), (∀ y ∈ l, y.length = names.length) →
        (l.map (fun r => (names, r))).map (fun x => sql_store_row names.length x.2) = l := by
      intro l
      induction l with
      | nil => intro _; rfl
      | cons y l ih =>
        intro hl
        simp only [List.map_cons]
        rw [sql_store_row_full _ y (hl y (List.mem_cons_self _ _)),
          ih (fun z hz => hl z (List.mem_cons_of_mem _ hz))]
    have := e (r :: rs) hlen
    simpa using this

/-! ### What `csv_read_all` hands over -/

theorem csv_scan_field_sub : ∀ (n : Nat) (q : Bool) (p : List Char), p.length ≤ n →
    (∀ x ∈ (csv_scan_field q p).1, x ∈ p) ∧ (∀ x ∈ (csv_scan_field q p).2, x ∈ p) := by
  intro n
  induction n with
  | zero =>
    intro q p hp
    have e : p = [] := List.length_eq_zero.1 (Nat.le_zero.1 hp)
    subst e
    cases q <;> simp [csv_scan_field]
  | succ n ih =>
    intro q p hp
    cases p with
    | nil => cases q <;> simp [csv_scan_field]
    | cons ch r =>
      have hr : r.length ≤ n := by simp only [List.length_cons] at hp; omega
      cases q with
      | false =>
        simp only [csv_scan_field]
        split_ifs with h
        · exact ⟨by simp, fun x hx => hx⟩
        · have := ih false r hr
          refine ⟨?_, ?_⟩
          · intro x hx
            simp only [keep, List.mem_cons] at hx
            rcases hx with e | e
            · exact List.mem_cons.2 (Or.inl e)
            · exact List.mem_cons_of_mem _ (this.1 x e)
          · intro x hx
            exact List.mem_cons_of_mem _ (this.2 x hx)
      | true =>
        by_cases h : ch = '"'
        · cases r with
          | nil => simp [csv_scan_field, h]
          | cons d r2 =>
            have hr2 : r2.length ≤ n := by simp only [List.length_cons] at hr; omega
            simp only [csv_scan_field, h, if_true]
            split_ifs with hd
            · have := ih true r2 hr2
              refine ⟨?_, ?_⟩
              · intro x hx
                simp only [keep, List.mem_cons] at hx
                rcases hx with e | e
                · exact List.mem_cons.2 (Or.inl e)
                · exact List.mem_cons_of_mem _ (List.mem_cons_of_mem _ (this.1 x e))
              · intro x hx
                exact List.mem_cons_of_mem _ (List.mem_cons_of_mem _ (this.2 x hx))
            · exact ⟨by simp, fun x hx => List.mem_cons_of_mem _ hx⟩
        · have := ih true r hr
          have e : csv_scan_field true (ch :: r) = keep ch (csv_scan_field true r) := by
            cases r <;> simp [csv_scan_field, h]
          rw [e]
          refine ⟨?_, ?_⟩
          · intro x hx
            simp only [keep, List.mem_cons] at hx
            rcases hx with e | e
            · exact List.mem_cons.2 (Or.inl e)
            · exact List.mem_cons_of_mem _ (this.1 x e)
          · intro x hx
            exact List.mem_cons_of_mem _ (this.2 x hx)

theorem csv_parse_field_sub (p : List Char) :
    (∀ x ∈ (csv_parse_field p).1, x ∈ p) ∧ (∀ x ∈ (csv_parse_field p).2, x ∈ p) := by
  unfold csv_parse_field
  split_ifs with h
  · have := csv_scan_field_sub p.tail.length true p.tail (le_refl _)
    exact ⟨fun x hx => List.mem_of_mem_tail (this.1 x hx),
      fun x hx => List.mem_of_mem_tail (this.2 x hx)⟩
  · exact csv_scan_field_sub p.length false p (le_refl _)

theorem csv_consume_delim_sub (p : List Char) : ∀ x ∈ csv_consume_delim p, x ∈ p := by
  intro x hx
  cases p with
  | nil => simp [csv_consume_delim] at hx
  | cons c r =>
    simp only [csv_consume_delim] at hx
    split_ifs at hx
    · exact List.mem_cons_of_mem _ hx
    · exact List.mem_cons_of_mem _ (List.mem_of_mem_tail hx)
    · exact List.mem_cons_of_mem _ hx
    · exact List.mem_cons_of_mem _ hx
    · exact hx

theorem csv_row_fields_sub : ∀ (k : Nat) (p : List Char),
    (∀ c ∈ (csv_row_fields k p).1, ∀ x ∈ c, x ∈ p) ∧ (∀ x ∈ (csv_row_fields k p).2, x ∈ p)
      ∧ (csv_row_fields k p).1.length ≤ k := by
  intro k
  induction k with
  | zero => intro p; simp [csv_row_fields]
  | succ k ih =>
    intro p
    have hf := csv_parse_field_sub p
    simp only [csv_row_fields]
    split_ifs with h1 h2
    · refine ⟨?_, ?_, ?_⟩
      · intro c hc x hx
        simp only [List.mem_singleton] at hc
        subst hc
        exact hf.1 x hx
      · intro x hx
        exact hf.2 x (csv_consume_delim_sub _ x hx)
      · simp
    · have := ih (csv_consume_delim (csv_parse_field p).2)
      refine ⟨?_, ?_, ?_⟩
      · intro c hc x hx
        rcases List.mem_cons.1 hc with e | e
        · subst e
          exact hf.1 x hx
        · exact hf.2 x (csv_consume_delim_sub _ x (this.1 c e x hx))
      · intro x hx
        exact hf.2 x (csv_consume_delim_sub _ x (this.2.1 x hx))
      · simp only [List.length_cons]
        omega
    · have := ih (csv_parse_field p).2
      refine ⟨?_, ?_, ?_⟩
      · intro c hc x hx
        rcases List.mem_cons.1 hc with e | e
        · subst e
          exact hf.1 x hx
        · exact hf.2 x (this.1 c e x hx)
      · intro x hx
        exact hf.2 x (this.2.1 x hx)
      · simp only [List.length_cons]
        omega

theorem csv_header_fields_sub : ∀ (n : Nat) (p : List Char),
    ∀ x ∈ (csv_header_fields n p).2, x ∈ p := by
  intro n
  induction n with
  | zero => intro p x hx; exact hx
  | succ n ih =>
    intro p x hx
    have hf := csv_parse_field_sub p
    simp only [csv_header_fields] at hx
    split_ifs at hx with h0 h1 h2
    · exact hx
    · exact hf.2 x (csv_consume_delim_sub _ x hx)
    · exact hf.2 x (csv_consume_delim_sub _ x (ih _ x hx))
    · exact hf.2 x (ih _ x hx)

theorem csv_skip_leading_sub : ∀ (n : Nat) (p : List Char),
    ∀ x ∈ csv_skip_leading n p, x ∈ p := by
  intro n
  induction n with
  | zero => intro p x hx; exact hx
  | succ n ih =>
    intro p x hx
    simp only [csv_skip_leading] at hx
    split_ifs at hx with h0 h1
    · exact hx
    · exact (List.dropWhile_sublist _).subset (csv_consume_delim_sub _ x (ih _ x hx))
    · exact hx

theorem csv_rows_loop_sub : ∀ (n ncols : Nat) (p : List Char),
    ∀ r ∈ csv_rows_loop n ncols p, r.length = ncols ∧ ∀ c ∈ r, ∀ x ∈ c, x ∈ p := by
  intro n
  induction n with
  | zero => intro ncols p r hr; simp [csv_rows_loop] at hr
  | succ n ih =>
    intro ncols p r hr
    simp only [csv_rows_loop] at hr
    split_ifs at hr with h0 h1
    · cases hr
    · have := ih ncols _ r hr
      exact ⟨this.1, fun c hc x hx =>
        (List.dropWhile_sublist _).subset (csv_consume_delim_sub _ x (this.2 c hc x hx))⟩
    · have hf := csv_row_fields_sub ncols p
      rcases List.mem_cons.1 hr with e | e
      · subst e
        refine ⟨?_, ?_⟩
        · simp only [List.length_append, List.length_replicate]
          have := hf.2.2
          omega
        · intro c hc x hx
          rcases List.mem_append.1 hc with hc | hc
          · exact hf.1 c hc x hx
          · rw [(List.mem_replicate.1 hc).2] at hx
            cases hx
      · have := ih ncols _ r e
        refine ⟨this.1, fun c hc x hx => ?_⟩
        have h2 := this.2 c hc x hx
        unfold csv_rest_of_line at h2
        exact hf.2.1 x ((List.dropWhile_sublist _).subset (csv_consume_delim_sub _ x h2))

/-- The table of `csv_read_all`: a header of at least one name, and rows of as many cells
as the header has names, which are C strings. -/
theorem csv_read_all_shape (buf : List Char) (c : Csv) (h : csv_read_all buf = some c) :
    c.header ≠ [] ∧ ∀ r ∈ c.rows, r.length = c.header.length ∧ ∀ cell ∈ r, '\x00' ∉ cell := by
  unfold csv_read_all at h
  simp only at h
  split_ifs at h with h0
  simp only [Option.some.injEq] at h
  subst h
  refine ⟨h0, ?_⟩
  intro r hr
  have := csv_rows_loop_sub _ _ _ r hr
  refine ⟨this.1, ?_⟩
  intro cell hc hx
  have h1 := this.2 cell hc _ hx
  have h2 := csv_header_fields_sub _ _ _ h1
  have h3 := csv_skip_leading_sub _ _ _ h2
  have h4 := List.mem_takeWhile_imp h3
  simp at h4

theorem sql_normalized_names_length (header : List Str) :
    (sql_normalized_names header).length = header.length := by
  simp [sql_normalized_names]

/-- The SQL file of `csv_to_sql` holds the whole table of `csv_read_all`: `sql_to_csv` gives
back the normalised header and every row, when there is a row and no cell holds a line
feed. -/
theorem sql_read_back (csv : List Char) (table : Str) (create_table : Bool) (c : Csv)
    (sql : List Char) (hc : csv_read_all csv = some c)
    (h : csv_to_sql csv table create_table = some sql) (hrows : c.rows ≠ [])
    (hcells : ∀ r ∈ c.rows, ∀ cell ∈ r, '\n' ∉ cell) :
    sql_to_csv sql = some (csv_write (sql_normalized_names c.header) c.rows) := by
  unfold csv_to_sql at h
  by_cases ht : is_ident table = true
  · rw [if_pos ht, hc] at h
    simp only at h
    rw [sql_normalize_names] at h
    by_cases hall : ∀ n ∈ sql_normalized_names c.header, is_ident n = true
    · rw [if_pos hall] at h
      simp only [Option.some.injEq] at h
      have hs := csv_read_all_shape csv c hc
      rw [← h]
      apply sql_to_csv_text table _ _ _ ht _ hall hrows
      · intro r hr
        rw [sql_normalized_names_length]
        exact (hs.2 r hr).1
      · intro r hr cell hcell
        exact ⟨(hs.2 r hr).2 cell hcell, hcells r hr cell hcell⟩
      · intro e
        have := sql_normalized_names_length c.header
        rw [e] at this
        exact hs.1 (List.length_eq_zero.1 this.symm)
    · rw [if_neg hall] at h
      cases h
  · rw [if_neg ht] at h
    cases h

end SqlConvert

namespace SqlConvert

open DataConvert (Str isspace cstr getlines)

/-! ### What `csv_read_all` reads in a file written by `csv_write` -/

theorem sql_need_quote_iff : ∀ (s : Str),
    csv_need_quote s = true ↔ ∃ x ∈ s, x = ',' ∨ x = '"' ∨ x = '\n' ∨ x = '\r' := by
  intro s
  induction s with
  | nil => simp [csv_need_quote]
  | cons c s ih =>
    by_cases h : c = ',' ∨ c = '"' ∨ c = '\n' ∨ c = '\r'
    · have h' : (decide (c = ',') || decide (c = '"') || decide (c = '\n') || decide (c = '\r'))
          = true := by
        simp only [Bool.or_eq_true, decide_eq_true_eq]
        tauto
      simp only [csv_need_quote, h', if_true, true_iff]
      exact ⟨c, List.mem_cons_self _ _, h⟩
    · have h' : ¬ (decide (c = ',') || decide (c = '"') || decide (c = '\n') || decide (c = '\r'))
          = true := by
        simp only [Bool.or_eq_true, decide_eq_true_eq]
        tauto
      have e : csv_need_quote (c :: s) = csv_need_quote s := by
        simp only [csv_need_quote, if_neg h']
      rw [e, ih]
      constructor
      · rintro ⟨x, hx, hp⟩
        exact ⟨x, List.mem_cons_of_mem _ hx, hp⟩
      · rintro ⟨x, hx, hp⟩
        rcases List.mem_cons.1 hx with e | e
        · rw [e] at hp
          exact absurd hp h
        · exact ⟨x, e, hp⟩

theorem sql_scan_plain_step (x : Char) (r : List Char)
    (hx : ¬ (x = ',' ∨ x = '\n' ∨ x = '\r')) :
    csv_scan_field false (x :: r) = keep x (csv_scan_field false r) := by
  simp only [csv_scan_field, if_neg hx]

theorem sql_scan_plain : ∀ (c : Str) (d : Char) (rest : List Char),
    (∀ x ∈ c, x ≠ ',' ∧ x ≠ '\n' ∧ x ≠ '\r') → (d = ',' ∨ d = '\n' ∨ d = '\r') →
    csv_scan_field false (c ++ d :: rest) = (c, d :: rest) := by
  intro c
  induction c with
  | nil =>
    intro d rest _ hd
    simp [csv_scan_field, hd]
  | cons x c ih =>
    intro d rest hc hd
    have hx := hc x (List.mem_cons_self _ _)
    have hx' : ¬ (x = ',' ∨ x = '\n' ∨ x = '\r') := by
      intro h
      rcases h with h | h | h
      · exact hx.1 h
      · exact hx.2.1 h
      · exact hx.2.2 h
    rw [List.cons_append, sql_scan_plain_step x _ hx',
      ih d rest (fun y hy => hc y (List.mem_cons_of_mem _ hy)) hd]
    rfl

theorem sql_scan_quoted_plain (x : Char) (r : List Char) (hx : x ≠ '"') :
    csv_scan_field true (x :: r) = keep x (csv_scan_field true r) := by
  cases r <;> simp [csv_scan_field, hx]

theorem sql_scan_quoted : ∀ (c : Str) (d : Char) (rest : List Char), d ≠ '"' →
    csv_scan_field true (csv_double_quotes c ++ '"' :: d :: rest) = (c, d :: rest) := by
  intro c
  induction c with
  | nil =>
    intro d rest hd
    simp [csv_double_quotes, csv_scan_field, hd]
  | cons x c ih =>
    intro d rest hd
    by_cases hx : x = '"'
    · subst hx
      simp [csv_double_quotes, csv_scan_field, keep, ih d rest hd]
    · simp only [csv_double_quotes, hx, if_false, List.cons_append]
      rw [sql_scan_quoted_plain x _ hx, ih d rest hd]
      rfl

/-- A field that `csv_write_escaped` has written is read back by `csv_parse_field` in front
of a comma or a line break. -/
theorem sql_parse_field_written (c : Str) (d : Char) (rest : List Char)
    (hd : d = ',' ∨ d = '\n' ∨ d = '\r') :
    csv_parse_field (csv_write_escaped c ++ d :: rest) = (c, d :: rest) := by
  have hdq : d ≠ '"' := by
    rcases hd with h | h | h <;> rw [h] <;> decide
  unfold csv_write_escaped csv_parse_field
  by_cases hq : csv_need_quote c = true
  · rw [if_pos hq]
    have e : ('"' :: csv_double_quotes c ++ ['"']) ++ d :: rest
        = '"' :: (csv_double_quotes c ++ '"' :: d :: rest) := by simp
    rw [e]
    have hd0 : deref ('"' :: (csv_double_quotes c ++ '"' :: d :: rest)) = '"' := rfl
    rw [if_pos hd0]
    exact sql_scan_quoted c d rest hdq
  · rw [if_neg hq]
    have hno : ∀ x ∈ c, ¬ (x = ',' ∨ x = '"' ∨ x = '\n' ∨ x = '\r') := by
      intro x hx h
      exact hq ((sql_need_quote_iff c).2 ⟨x, hx, h⟩)
    have hd0 : deref (c ++ d :: rest) ≠ '"' := by
      cases c with
      | nil => exact hdq
      | cons x c =>
        intro h
        exact hno x (List.mem_cons_self _ _) (Or.inr (Or.inl h))
    rw [if_neg hd0]
    apply sql_scan_plain c d rest _ hd
    intro x hx
    have := hno x hx
    refine ⟨fun h => this (Or.inl h), fun h => this (Or.inr (Or.inr (Or.inl h))),
      fun h => this (Or.inr (Or.inr (Or.inr h)))⟩

theorem sql_write_line_cons (a b : Str) (l : List Str) :
    csv_write_line (a :: b :: l) = csv_write_escaped a ++ ',' :: csv_write_line (b :: l) := by
  unfold csv_write_line
  simp only [List.map_cons]
  rw [sql_intercalate_cons]
  simp

theorem sql_write_line_one (a : Str) : csv_write_line [a] = csv_write_escaped a ++ ['\n'] := by
  unfold csv_write_line
  simp only [List.map_cons, List.map_nil]
  rw [sql_intercalate_one]

theorem sql_write_line_length : ∀ (cells : List Str), cells ≠ [] →
    cells.length ≤ (csv_write_line cells).length := by
  intro cells
  induction cells with
  | nil => intro h; exact absurd rfl h
  | cons a l ih =>
    intro _
    cases l with
    | nil =>
      rw [sql_write_line_one]
      simp
    | cons b l =>
      rw [sql_write_line_cons]
      have := ih (by simp)
      simp only [List.length_append, List.length_cons] at this ⊢
      omega

/-- The field loop of a row on a line that `csv_write` has written. -/
theorem sql_row_fields_written : ∀ (cells : List Str) (k : Nat) (rest : List Char),
    cells ≠ [] → cells.length ≤ k →
    csv_row_fields k (csv_write_line cells ++ rest) = (cells, rest) := by
  intro cells
  induction cells with
  | nil => intro k rest h; exact absurd rfl h
  | cons a l ih =>
    intro k rest _ hk
    cases k with
    | zero => simp at hk
    | succ k =>
      cases l with
      | nil =>
        rw [sql_write_line_one]
        have e : (csv_write_escaped a ++ ['\n']) ++ rest = csv_write_escaped a ++ '\n' :: rest := by
          simp
        rw [e]
        simp only [csv_row_fields, sql_parse_field_written a '\n' rest (Or.inr (Or.inl rfl))]
        simp [csv_at_eol, deref, csv_consume_delim]
      | cons b l =>
        rw [sql_write_line_cons]
        have e : (csv_write_escaped a ++ ',' :: csv_write_line (b :: l)) ++ rest
            = csv_write_escaped a ++ ',' :: (csv_write_line (b :: l) ++ rest) := by simp
        rw [e]
        have hrec := ih k rest (by simp) (by simp only [List.length_cons] at hk ⊢; omega)
        simp only [csv_row_fields, sql_parse_field_written a ',' _ (Or.inl rfl)]
        have h1 : csv_at_eol (',' :: (csv_write_line (b :: l) ++ rest)) = false := by
          simp [csv_at_eol, deref]
        have h2 : deref (',' :: (csv_write_line (b :: l) ++ rest)) = ',' := rfl
        have h3 : csv_consume_delim (',' :: (csv_write_line (b :: l) ++ rest))
            = csv_write_line (b :: l) ++ rest := by
          simp [csv_consume_delim]
        simp only [h1, h2, h3, hrec, if_true, Bool.false_eq_true, if_false]

theorem sql_write_line_ne_nil (cells : List Str) (rest : List Char) :
    csv_write_line cells ++ rest ≠ [] := by
  unfold csv_write_line
  simp

/-- The header loop on a line that `csv_write` has written. -/
theorem sql_header_fields_written : ∀ (cells : List Str) (n : Nat) (rest : List Char),
    cells ≠ [] → cells.length ≤ n →
    csv_header_fields n (csv_write_line cells ++ rest) = (cells, rest) := by
  intro cells
  induction cells with
  | nil => intro k rest h; exact absurd rfl h
  | cons a l ih =>
    intro k rest _ hk
    cases k with
    | zero => simp at hk
    | succ k =>
      have hne := sql_write_line_ne_nil (a :: l) rest
      cases l with
      | nil =>
        rw [sql_write_line_one] at hne ⊢
        have e : (csv_write_escaped a ++ ['\n']) ++ rest = csv_write_escaped a ++ '\n' :: rest := by
          simp
        rw [e] at hne ⊢
        simp only [csv_header_fields, if_neg hne,
          sql_parse_field_written a '\n' rest (Or.inr (Or.inl rfl))]
        simp [csv_at_eol, deref, csv_consume_delim]
      | cons b l =>
        rw [sql_write_line_cons] at hne ⊢
        have e : (csv_write_escaped a ++ ',' :: csv_write_line (b :: l)) ++ rest
            = csv_write_escaped a ++ ',' :: (csv_write_line (b :: l) ++ rest) := by simp
        rw [e] at hne ⊢
        have hrec := ih k rest (by simp) (by simp only [List.length_cons] at hk ⊢; omega)
        simp only [csv_header_fields, if_neg hne, sql_parse_field_written a ',' _ (Or.inl rfl)]
        have h1 : csv_at_eol (',' :: (csv_write_line (b :: l) ++ rest)) = false := by
          simp [csv_at_eol, deref]
        have h2 : deref (',' :: (csv_write_line (b :: l) ++ rest)) = ',' := rfl
        have h3 : csv_consume_delim (',' :: (csv_write_line (b :: l) ++ rest))
            = csv_write_line (b :: l) ++ rest := by
          simp [csv_consume_delim]
        simp only [h1, h2, h3, hrec, if_true, Bool.false_eq_true, if_false]

/-! ### Lines that are not blank -/

theorem sql_blank_test (p : List Char) :
    csv_blank_line p = false
      ↔ deref (p.dropWhile (fun c => c = ' ' || c = '\t')) ≠ '\r'
        ∧ deref (p.dropWhile (fun c => c = ' ' || c = '\t')) ≠ '\n' := by
  unfold csv_blank_line
  simp only [Bool.or_eq_false_iff, decide_eq_false_iff_not, ne_eq]

/-- Behind blanks that are no line break and in front of a visible character the test for
an empty line fails. -/
theorem sql_blank_pass : ∀ (s : List Char) (d : Char) (rest : List Char),
    (∀ x ∈ s, x ≠ '\n' ∧ x ≠ '\r') → d ≠ ' ' → d ≠ '\t' → d ≠ '\n' → d ≠ '\r' →
    csv_blank_line (s ++ d :: rest) = false := by
  intro s
  induction s with
  | nil =>
    intro d rest _ h1 h2 h3 h4
    rw [sql_blank_test]
    simp [List.dropWhile, h1, h2, deref, h3, h4]
  | cons x s ih =>
    intro d rest hs h1 h2 h3 h4
    have hx := hs x (List.mem_cons_self _ _)
    by_cases hb : x = ' ' ∨ x = '\t'
    · have := ih d rest (fun y hy => hs y (List.mem_cons_of_mem _ hy)) h1 h2 h3 h4
      rw [sql_blank_test] at this ⊢
      have e : ((x :: s) ++ d :: rest).dropWhile (fun c => c = ' ' || c = '\t')
          = (s ++ d :: rest).dropWhile (fun c => c = ' ' || c = '\t') := by
        rcases hb with hb | hb <;> subst hb <;> simp [List.dropWhile]
      rw [e]
      exact this
    · rw [sql_blank_test]
      have e : ((x :: s) ++ d :: rest).dropWhile (fun c => c = ' ' || c = '\t')
          = x :: (s ++ d :: rest) := by
        have : (decide (x = ' ') || decide (x = '\t')) = false := by
          simp only [Bool.or_eq_false_iff, decide_eq_false_iff_not]
          exact ⟨fun h => hb (Or.inl h), fun h => hb (Or.inr h)⟩
        simp [List.dropWhile, this]
      rw [e]
      exact ⟨hx.2, hx.1⟩

/-- The line of a row that is not blank does not pass for an empty line. -/
theorem sql_row_line_not_blank (row : List Str) (rest : List Char) (hne : row ≠ [])
    (hnb : ¬ sql_row_blank row) : csv_blank_line (csv_write_line row ++ rest) = false := by
  cases row with
  | nil => exact absurd rfl hne
  | cons a l =>
    by_cases hq : csv_need_quote a = true
    · have e : ∃ y, csv_write_line (a :: l) ++ rest = [] ++ '"' :: y := by
        cases l with
        | nil =>
          rw [sql_write_line_one]
          unfold csv_write_escaped
          rw [if_pos hq]
          exact ⟨_, rfl⟩
        | cons b l =>
          rw [sql_write_line_cons]
          unfold csv_write_escaped
          rw [if_pos hq]
          exact ⟨_, rfl⟩
      obtain ⟨y, e⟩ := e
      rw [e]
      exact sql_blank_pass [] '"' y (by simp) (by decide) (by decide) (by decide) (by decide)
    · have hno : ∀ x ∈ a, ¬ (x = ',' ∨ x = '"' ∨ x = '\n' ∨ x = '\r') := by
        intro x hx h
        exact hq ((sql_need_quote_iff a).2 ⟨x, hx, h⟩)
      have hnl : ∀ x ∈ a, x ≠ '\n' ∧ x ≠ '\r' := fun x hx =>
        ⟨fun h => hno x hx (Or.inr (Or.inr (Or.inl h))),
          fun h => hno x hx (Or.inr (Or.inr (Or.inr h)))⟩
      have hw : csv_write_escaped a = a := by
        unfold csv_write_escaped
        rw [if_neg hq]
      cases l with
      | cons b l =>
        rw [sql_write_line_cons, hw]
        have e : (a ++ ',' :: csv_write_line (b :: l)) ++ rest
            = a ++ ',' :: (csv_write_line (b :: l) ++ rest) := by simp
        rw [e]
        exact sql_blank_pass a ',' _ hnl (by decide) (by decide) (by decide) (by decide)
      | nil =>
        have hex : ∃ x ∈ a, ¬ (x = ' ' ∨ x = '\t') := by
          by_contra hall
          apply hnb
          refine ⟨a, rfl, ?_⟩
          intro x hx
          by_contra hx2
          exact hall ⟨x, hx, hx2⟩
        obtain ⟨x, hx, hxb⟩ := hex
        obtain ⟨s, t, rfl⟩ := List.append_of_mem hx
        rw [sql_write_line_one, hw]
        have e : ((s ++ x :: t) ++ ['\n']) ++ rest = s ++ x :: (t ++ '\n' :: rest) := by simp
        rw [e]
        have hx2 := hnl x hx
        exact sql_blank_pass s x _ (fun y hy => hnl y (List.mem_append_left _ hy))
          (fun h => hxb (Or.inl h)) (fun h => hxb (Or.inr h)) hx2.1 hx2.2

/-! ### The table of one row -/

theorem sql_column_name_ident (i : Nat) (h : Str) (hid : is_ident h = true) :
    sql_column_name i h = h := by
  have hne := sql_ident_ne_nil h hid
  have hall := sql_ident_chars h hid
  cases h with
  | nil => exact absurd rfl hne
  | cons c r =>
    have hsp : isspace c = false := (sql_ident_char c (hall c (List.mem_cons_self _ _))).1
    have e : (c :: r).dropWhile isspace = c :: r := by simp [List.dropWhile, hsp]
    unfold sql_column_name
    rw [e]
    simp

theorem sql_enum_names : ∀ (l : List Str) (i : Nat), (∀ h ∈ l, is_ident h = true) →
    (l.enumFrom i).map (fun (p : Nat × Str) => sql_column_name p.1 p.2) = l := by
  intro l
  induction l with
  | nil => intro i _; rfl
  | cons h l ih =>
    intro i hl
    simp only [List.enumFrom_cons, List.map_cons]
    rw [sql_column_name_ident i h (hl h (List.mem_cons_self _ _)),
      ih (i + 1) (fun y hy => hl y (List.mem_cons_of_mem _ hy))]

theorem sql_normalized_names_ident (header : List Str) (hid : ∀ h ∈ header, is_ident h = true) :
    sql_normalized_names header = header :=
  sql_enum_names header 0 hid

theorem sql_write_escaped_mem (c : Str) (x : Char) (h : x ∈ csv_write_escaped c) :
    x = '"' ∨ x ∈ c := by
  have hd : ∀ (s : Str), x ∈ csv_double_quotes s → x ∈ s := by
    intro s
    induction s with
    | nil => intro h; simp [csv_double_quotes] at h
    | cons a s ih =>
      intro h
      by_cases ha : a = '"'
      · subst ha
        simp only [csv_double_quotes, if_true, List.mem_cons] at h
        rcases h with h | h | h
        · exact List.mem_cons.2 (Or.inl h)
        · exact List.mem_cons.2 (Or.inl h)
        · exact List.mem_cons_of_mem _ (ih h)
      · simp only [csv_double_quotes, ha, if_false, List.mem_cons] at h
        rcases h with h | h
        · exact List.mem_cons.2 (Or.inl h)
        · exact List.mem_cons_of_mem _ (ih h)
  unfold csv_write_escaped at h
  split_ifs at h
  · simp only [List.mem_cons, List.mem_append, List.mem_singleton, List.not_mem_nil,
      or_false] at h
    rcases h with (h | h) | h
    · exact Or.inl h
    · exact Or.inr (hd c h)
    · exact Or.inl h
  · exact Or.inr h

theorem sql_write_line_mem (cells : List Str) (x : Char) (h : x ∈ csv_write_line cells) :
    x = ',' ∨ x = '\n' ∨ x = '"' ∨ ∃ c ∈ cells, x ∈ c := by
  unfold csv_write_line at h
  rcases List.mem_append.1 h with h | h
  · rcases sql_intercalate_mem _ _ _ h with h | ⟨q, hq, hxq⟩
    · simp only [List.mem_singleton] at h
      exact Or.inl h
    · obtain ⟨c, hc, rfl⟩ := List.mem_map.1 hq
      rcases sql_write_escaped_mem c x hxq with h | h
      · exact Or.inr (Or.inr (Or.inl h))
      · exact Or.inr (Or.inr (Or.inr ⟨c, hc, h⟩))
  · simp only [List.mem_singleton] at h
    exact Or.inr (Or.inl h)

/-- The CSV file of a table of one row, read by `csv_read_all`. -/
theorem sql_read_written (header row : List Str) (hh : header ≠ [])
    (hid : ∀ n ∈ header, is_ident n = true) (hlen : row.length = header.length)
    (hcells : ∀ c ∈ row, '\x00' ∉ c) (hnb : ¬ sql_row_blank row) :
    csv_read_all (csv_write header [row]) = some ⟨header, [row]⟩ := by
  have hrne : row ≠ [] := by
    intro e
    rw [e] at hlen
    exact hh (List.length_eq_zero.1 hlen.symm)
  have he : csv_write header [row] = csv_write_line header ++ csv_write_line row := by
    simp [csv_write]
  have hnul : '\x00' ∉ csv_write header [row] := by
    rw [he]
    intro h
    rcases List.mem_append.1 h with h | h
    · rcases sql_write_line_mem _ _ h with h | h | h | ⟨c, hc, h⟩
      · revert h; decide
      · revert h; decide
      · revert h; decide
      · exact (sql_ident_char _ (sql_ident_chars c (hid c hc) _ h)).2.2.2.2.2.2.1 rfl
    · rcases sql_write_line_mem _ _ h with h | h | h | ⟨c, hc, h⟩
      · revert h; decide
      · revert h; decide
      · revert h; decide
      · exact hcells c hc h
  have hhb : ¬ sql_row_blank header := by
    rintro ⟨c, hc, hb⟩
    have hci := hid c (by rw [hc]; exact List.mem_cons_self _ _)
    have hcn := sql_ident_ne_nil c hci
    cases c with
    | nil => exact hcn rfl
    | cons x c =>
      have hx := sql_ident_char x (sql_ident_chars _ hci x (List.mem_cons_self _ _))
      rcases hb x (List.mem_cons_self _ _) with h | h
      · exact hx.2.2.2.2.2.2.2.2.2.2.1 h
      · exact hx.2.2.2.2.2.2.2.2.2.2.2 h
  have hb1 := sql_row_line_not_blank header (csv_write_line row) hh hhb
  have hb2 := sql_row_line_not_blank row [] hrne hnb
  have hne1 := sql_write_line_ne_nil header (csv_write_line row)
  have hne2 := sql_write_line_ne_nil row []
  have hskip : ∀ n, csv_skip_leading n (csv_write_line header ++ csv_write_line row)
      = csv_write_line header ++ csv_write_line row := by
    intro n
    cases n with
    | zero => rfl
    | succ n => simp only [csv_skip_leading, if_neg hne1, hb1, Bool.false_eq_true, if_false]
  have hfuel : header.length ≤ (csv_write_line header ++ csv_write_line row).length := by
    have := sql_write_line_length header hh
    simp only [List.length_append]
    omega
  have hhead := sql_header_fields_written header _ (csv_write_line row) hh hfuel
  unfold csv_read_all
  rw [DataConvert.cstr_of_no_nul _ hnul, he]
  simp only [hskip, hhead, if_neg hh]
  have hrows : ∀ n, 0 < n → csv_rows_loop n header.length (csv_write_line row) = [row] := by
    intro n hn
    cases n with
    | zero => omega
    | succ n =>
      have e0 : csv_write_line row = csv_write_line row ++ [] := by simp
      have hf := sql_row_fields_written row header.length [] hrne (le_of_eq hlen)
      rw [← e0] at hf hb2
      have hrest : csv_rest_of_line [] = [] := rfl
      have hend : csv_rows_loop n header.length [] = [] := by
        cases n <;> simp [csv_rows_loop]
      have hne3 : csv_write_line row ≠ [] := by
        rw [e0]
        exact hne2
      simp only [csv_rows_loop, if_neg hne3, hb2, Bool.false_eq_true, if_false, hf, hrest, hend,
        hlen, Nat.sub_self, List.replicate_zero, List.append_nil]
  rw [hrows _ (List.length_pos.2 (by
    have := sql_write_line_ne_nil row []
    simpa using this))]

/-- The round trip of a table of one row. -/
theorem sql_round_trip_one (header row : List Str) (table : Str) (create_table : Bool)
    (hh : header ≠ []) (hid : ∀ n ∈ header, is_ident n = true) (ht : is_ident table = true)
    (hlen : row.length = header.length) (hcells : ∀ c ∈ row, '\x00' ∉ c ∧ '\n' ∉ c)
    (hnb : ¬ sql_row_blank row) :
    csv_to_sql (csv_write header [row]) table create_table
        = some (sql_text table header [row] create_table)
      ∧ sql_to_csv (sql_text table header [row] create_table)
        = some (csv_write header [row]) := by
  have hread := sql_read_written header row hh hid hlen (fun c hc => (hcells c hc).1) hnb
  constructor
  · unfold csv_to_sql
    rw [if_pos ht, hread]
    simp only
    rw [sql_normalize_names, sql_normalized_names_ident header hid, if_pos hid]
  · apply sql_to_csv_text table header [row] create_table ht hh hid (by simp)
    · intro r hr
      simp only [List.mem_singleton] at hr
      rw [hr, hlen]
    · intro r hr c hc
      simp only [List.mem_singleton] at hr
      rw [hr] at hc
      exact hcells c hc

end SqlConvert

/-- C16 (counterexample): the table of the header `a` and of one row whose only cell is
empty is written as the CSV file `a`, empty line; `csv_to_sql` skips the empty line, so
that its SQL holds no `INSERT` statement, and `sql_to_csv` on that SQL fails. -/
theorem c16_sql_blank_row_lost :
    SqlConvert.csv_write ["a".toList] [[[]]] = "a\n\n".toList
      ∧ SqlConvert.csv_to_sql "a\n\n".toList "t".toList false
        = some "-- Generated by dtconvert (csv -> sql)\n\n".toList
      ∧ SqlConvert.sql_to_csv "-- Generated by dtconvert (csv -> sql)\n\n".toList = none := by
  decide

/-- C16 (amended): for a table of at least one column whose header names are identifiers,
with one data row of as many cells, which are C strings without a line feed, and which is
not a single cell of spaces and tabs only, `csv_to_sql` on the CSV file of the table (for a
table identifier, with or without `CREATE TABLE`) gives SQL on which `sql_to_csv` gives the
CSV file of the table again. And for every CSV file: when `csv_to_sql` gives SQL, and
`csv_read_all` has read at least one row and no cell with a line feed, `sql_to_csv` on that
SQL gives the CSV file of the normalised header and of all the rows that were read, in
order. -/
theorem c16_sql_round_trip (header row : List DataConvert.Str) (table : DataConvert.Str)
    (create_table : Bool) (hh : header ≠ [])
    (hid : ∀ n ∈ header, SqlConvert.is_ident n = true) (ht : SqlConvert.is_ident table = true)
    (hlen : row.length = header.length) (hcells : ∀ c ∈ row, '\x00' ∉ c ∧ '\n' ∉ c)
    (hnb : ¬ SqlConvert.sql_row_blank row) :
    (∃ sql, SqlConvert.csv_to_sql (SqlConvert.csv_write header [row]) table create_table
          = some sql
        ∧ SqlConvert.sql_to_csv sql = some (SqlConvert.csv_write header [row]))
      ∧ ∀ (csv : List Char) (c : SqlConvert.Csv) (sql : List Char),
          SqlConvert.csv_read_all csv = some c →
          SqlConvert.csv_to_sql csv table create_table = some sql →
          c.rows ≠ [] → (∀ r ∈ c.rows, ∀ cell ∈ r, '\n' ∉ cell) →
          SqlConvert.sql_to_csv sql
            = some (SqlConvert.csv_write (SqlConvert.sql_normalized_names c.header) c.rows) :=
  ⟨⟨_, SqlConvert.sql_round_trip_one header row table create_table hh hid ht hlen hcells hnb⟩,
    fun csv c sql hc h hrows hcl =>
      SqlConvert.sql_read_back csv table create_table c sql hc h hrows hcl⟩

/-- C16 at the header `name,age` with the row `Alice,30` and the table `people`. -/
theorem c16_sql_round_trip_witness :
    SqlConvert.csv_write ["name".toList, "age".toList] [["Alice".toList, "30".toList]]
        = "name,age\nAlice,30\n".toList
      ∧ ∃ sql, SqlConvert.csv_to_sql
            (SqlConvert.csv_write ["name".toList, "age".toList] [["Alice".toList, "30".toList]])
            "people".toList true = some sql
          ∧ SqlConvert.sql_to_csv sql
            = some (SqlConvert.csv_write ["name".toList, "age".toList]
                [["Alice".toList, "30".toList]]) :=
  ⟨by decide,
    (c16_sql_round_trip ["name".toList, "age".toList] ["Alice".toList, "30".toList]
      "people".toList true (by simp) (by decide) (by decide) (by decide) (by decide)
      (by
        rintro ⟨c, hc, _⟩
        simp at hc)).1⟩

namespace Conversion

open DataConvert (Str)

/-! ## The path finder: nodes and their names -/

theorem node_name_getD (nodes : List Node) (v : Nat) :
    (nodes.map Node.name).getD v [] = (nodes.getD v Node.zero).name := by
  induction nodes generalizing v with
  | nil => rfl
  | cons nd nodes ih =>
    cases v with
    | zero => rfl
    | succ v => simpa using ih v

theorem format_index_some : ∀ (nodes : List Node) (t : Str) (v : Nat),
    format_index nodes t = some v → v < nodes.length ∧ (nodes.map Node.name).getD v [] = t := by
  intro nodes
  induction nodes with
  | nil => intro t v h; simp [format_index] at h
  | cons nd nodes ih =>
    intro t v h
    simp only [format_index] at h
    split_ifs at h with h1
    · simp only [Option.some.injEq] at h
      subst h
      exact ⟨by simp, by simpa using h1⟩
    · cases hr : format_index nodes t with
      | none => simp [hr] at h
      | some w =>
        simp only [hr, Option.map_some', Option.some.injEq] at h
        subst h
        have := ih t w hr
        exact ⟨by simp only [List.length_cons]; omega, by simpa using this.2⟩

theorem format_index_none : ∀ (nodes : List Node) (t : Str),
    format_index nodes t = none → t ∉ nodes.map Node.name := by
  intro nodes
  induction nodes with
  | nil => intro t _; simp
  | cons nd nodes ih =>
    intro t h
    simp only [format_index] at h
    split_ifs at h with h1
    cases hr : format_index nodes t with
    | none =>
      have := ih t hr
      simp only [List.map_cons, List.mem_cons, not_or]
      exact ⟨fun e => h1 e.symm, this⟩
    | some w => simp [hr] at h

theorem format_index_mem (nodes : List Node) (t : Str) (h : t ∈ nodes.map Node.name) :
    ∃ v, format_index nodes t = some v := by
  cases hr : format_index nodes t with
  | none => exact absurd h (format_index_none nodes t hr)
  | some v => exact ⟨v, rfl⟩

theorem format_index_congr : ∀ (nodes nodes2 : List Node) (t : Str),
    nodes.map Node.name = nodes2.map Node.name → format_index nodes t = format_index nodes2 t := by
  intro nodes
  induction nodes with
  | nil =>
    intro nodes2 t h
    cases nodes2 with
    | nil => rfl
    | cons a l => simp at h
  | cons nd nodes ih =>
    intro nodes2 t h
    cases nodes2 with
    | nil => simp at h
    | cons a l =>
      simp only [List.map_cons, List.cons.injEq] at h
      simp only [format_index, h.1, ih l t h.2]

/-- With distinct names, the index of the name of a node is the node. -/
theorem format_index_nodup : ∀ (nodes : List Node) (v : Nat),
    (nodes.map Node.name).Nodup → v < nodes.length →
    format_index nodes ((nodes.map Node.name).getD v []) = some v := by
  intro nodes
  induction nodes with
  | nil => intro v _ h; simp at h
  | cons nd nodes ih =>
    intro v hn hv
    simp only [List.map_cons, List.nodup_cons] at hn
    cases v with
    | zero => simp [format_index]
    | succ v =>
      have hv2 : v < nodes.length := by simp only [List.length_cons] at hv; omega
      have e : (List.map Node.name (nd :: nodes)).getD (v + 1) []
          = (nodes.map Node.name).getD v [] := by simp
      rw [e]
      have hmem : (nodes.map Node.name).getD v [] ∈ nodes.map Node.name := by
        rw [List.getD_eq_getElem _ _ (by simpa using hv2)]
        exact List.getElem_mem _
      have hne : nd.name ≠ (nodes.map Node.name).getD v [] := by
        intro e2
        rw [← e2] at hmem
        exact hn.1 hmem
      simp only [format_index, if_neg hne, ih v hn.2 hv2, Option.map_some']

theorem names_getD_inj (names : List Str) (hn : names.Nodup) (v w : Nat) (hv : v < names.length)
    (hw : w < names.length) (h : names.getD v [] = names.getD w []) : v = w := by
  rw [List.getD_eq_getElem _ _ hv, List.getD_eq_getElem _ _ hw] at h
  exact (List.Nodup.getElem_inj_iff hn).1 h

theorem set_names : ∀ (nodes : List Node) (v : Nat) (x : Node),
    x.name = (nodes.getD v Node.zero).name → (nodes.set v x).map Node.name = nodes.map Node.name := by
  intro nodes
  induction nodes with
  | nil => intro v x _; rfl
  | cons nd nodes ih =>
    intro v x h
    cases v with
    | zero =>
      simp only [List.set_cons_zero, List.map_cons, List.cons.injEq, and_true]
      simpa using h
    | succ v =>
      simp only [List.set_cons_succ, List.map_cons, List.cons.injEq, true_and]
      exact ih v x (by simpa using h)

theorem mark_names (nodes : List Node) (v u cid : Nat) :
    (mark nodes v u cid).map Node.name = nodes.map Node.name :=
  set_names nodes v _ rfl

theorem set_getD_self (nodes : List Node) (v : Nat) (x : Node) (hv : v < nodes.length) :
    (nodes.set v x).getD v Node.zero = x := by
  rw [List.getD_eq_getElem _ _ (by simpa using hv)]
  simp

theorem set_getD_ne (nodes : List Node) (v w : Nat) (x : Node) (h : w ≠ v) :
    (nodes.set v x).getD w Node.zero = nodes.getD w Node.zero := by
  simp only [List.getD_eq_getElem?_getD]
  rw [List.getElem?_set_ne (fun e => h e.symm)]

/-! ### `build_nodes` -/

theorem add_node_names (max_nodes : Nat) (nodes : List Node) (a : Str) :
    (add_node max_nodes nodes a).map Node.name = nodes.map Node.name
      ∨ (a ∉ nodes.map Node.name ∧ nodes.length < max_nodes
          ∧ (add_node max_nodes nodes a).map Node.name = nodes.map Node.name ++ [a]) := by
  unfold add_node
  split_ifs with h
  · right
    exact ⟨format_index_none nodes a h.1, h.2, by simp⟩
  · left
    rfl

theorem add_node_fresh (max_nodes : Nat) (nodes : List Node) (a : Str)
    (h : ∀ nd ∈ nodes, nd.seen = false ∧ nd.prev = none ∧ nd.prev_converter = none) :
    ∀ nd ∈ add_node max_nodes nodes a,
      nd.seen = false ∧ nd.prev = none ∧ nd.prev_converter = none := by
  unfold add_node
  split_ifs with h1
  · intro nd hnd
    rcases List.mem_append.1 hnd with hnd | hnd
    · exact h nd hnd
    · simp only [List.mem_singleton] at hnd
      subst hnd
      exact ⟨rfl, rfl, rfl⟩
  · exact h

/-- The node list that one statement of `build_nodes` leaves: names stay distinct and are
tags; the name `a` is among them unless the list is full. -/
theorem add_node_spec (max_nodes : Nat) (nodes : List Node) (a : Str) (tags : List Str)
    (hn : (nodes.map Node.name).Nodup) (hs : ∀ t ∈ nodes.map Node.name, t ∈ tags)
    (ha : a ∈ tags) :
    ((add_node max_nodes nodes a).map Node.name).Nodup
      ∧ (∀ t ∈ (add_node max_nodes nodes a).map Node.name, t ∈ tags)
      ∧ (∀ t ∈ nodes.map Node.name, t ∈ (add_node max_nodes nodes a).map Node.name)
      ∧ (a ∈ (add_node max_nodes nodes a).map Node.name ∨ max_nodes ≤ nodes.length) := by
  unfold add_node
  split_ifs with h
  · have hna := format_index_none nodes a h.1
    refine ⟨?_, ?_, ?_, ?_⟩
    · simp only [List.map_append, List.map_cons, List.map_nil]
      rw [List.nodup_append]
      refine ⟨hn, by simp, ?_⟩
      intro x hx hx2
      simp only [List.mem_singleton] at hx2
      subst hx2
      exact hna hx
    · intro t ht
      simp only [List.map_append, List.map_cons, List.map_nil, List.mem_append,
        List.mem_singleton] at ht
      rcases ht with ht | ht
      · exact hs t ht
      · rw [ht]
        exact ha
    · intro t ht
      simp only [List.map_append, List.mem_append]
      exact Or.inl ht
    · left
      simp
  · refine ⟨hn, hs, fun t ht => ht, ?_⟩
    by_cases h1 : format_index nodes a = none
    · right
      have : ¬ nodes.length < max_nodes := fun h2 => h ⟨h1, h2⟩
      omega
    · left
      cases hr : format_index nodes a with
      | none => exact absurd hr h1
      | some v =>
        have := format_index_some nodes a v hr
        rw [← this.2, List.getD_eq_getElem _ _ (by simpa using this.1)]
        exact List.getElem_mem _

end Conversion

namespace Conversion

open DataConvert (Str)

theorem names_length_le (names tags : List Str) (hn : names.Nodup) (hs : ∀ t ∈ names, t ∈ tags) :
    names.length ≤ tags.dedup.length := by
  rw [← List.toFinset_card_of_nodup hn, ← List.card_toFinset]
  apply Finset.card_le_card
  intro t ht
  rw [List.mem_toFinset] at ht ⊢
  exact hs t ht

/-- The loop of `build_nodes`: when the tags are no more than the nodes allowed, every tag
of the entries gets a node. -/
theorem build_nodes_loop_spec (max_nodes : Nat) (tags : List Str)
    (hcap : tags.dedup.length ≤ max_nodes) : ∀ (cs : List Converter) (nodes : List Node),
    (nodes.map Node.name).Nodup → (∀ t ∈ nodes.map Node.name, t ∈ tags) →
    (∀ c ∈ cs, c.from_format ∈ tags ∧ c.to_format ∈ tags) →
    ((build_nodes_loop max_nodes cs nodes).map Node.name).Nodup
      ∧ (∀ t ∈ (build_nodes_loop max_nodes cs nodes).map Node.name, t ∈ tags)
      ∧ (∀ t ∈ nodes.map Node.name, t ∈ (build_nodes_loop max_nodes cs nodes).map Node.name)
      ∧ (∀ c ∈ cs, c.from_format ∈ (build_nodes_loop max_nodes cs nodes).map Node.name
          ∧ c.to_format ∈ (build_nodes_loop max_nodes cs nodes).map Node.name) := by
  have hadd : ∀ (nodes : List Node) (a : Str), (nodes.map Node.name).Nodup →
      (∀ t ∈ nodes.map Node.name, t ∈ tags) → a ∈ tags →
      ((add_node max_nodes nodes a).map Node.name).Nodup
        ∧ (∀ t ∈ (add_node max_nodes nodes a).map Node.name, t ∈ tags)
        ∧ (∀ t ∈ nodes.map Node.name, t ∈ (add_node max_nodes nodes a).map Node.name)
        ∧ a ∈ (add_node max_nodes nodes a).map Node.name := by
    intro nodes a hn hs ha
    have h := add_node_spec max_nodes nodes a tags hn hs ha
    refine ⟨h.1, h.2.1, h.2.2.1, ?_⟩
    rcases h.2.2.2 with h1 | h1
    · exact h1
    · by_contra hna
      have hna2 : a ∉ nodes.map Node.name := fun hm => hna (h.2.2.1 a hm)
      have hn2 : (nodes.map Node.name ++ [a]).Nodup := by
        rw [List.nodup_append]
        refine ⟨hn, by simp, ?_⟩
        intro x hx hx2
        simp only [List.mem_singleton] at hx2
        subst hx2
        exact hna2 hx
      have hs2 : ∀ t ∈ nodes.map Node.name ++ [a], t ∈ tags := by
        intro t ht
        rcases List.mem_append.1 ht with ht | ht
        · exact hs t ht
        · simp only [List.mem_singleton] at ht
          rw [ht]
          exact ha
      have := names_length_le _ tags hn2 hs2
      simp only [List.length_append, List.length_map, List.length_cons, List.length_nil] at this
      omega
  intro cs
  induction cs with
  | nil => intro nodes hn hs _; exact ⟨hn, hs, fun t ht => ht, by simp⟩
  | cons c cs ih =>
    intro nodes hn hs hc
    have hct := hc c (List.mem_cons_self _ _)
    have h1 := hadd nodes c.from_format hn hs hct.1
    have h2 := hadd (add_node max_nodes nodes c.from_format) c.to_format h1.1 h1.2.1 hct.2
    have h3 := ih (add_node max_nodes (add_node max_nodes nodes c.from_format) c.to_format)
      h2.1 h2.2.1 (fun x hx => hc x (List.mem_cons_of_mem _ hx))
    simp only [build_nodes_loop]
    refine ⟨h3.1, h3.2.1, fun t ht => h3.2.2.1 t (h2.2.2.1 t (h1.2.2.1 t ht)), ?_⟩
    intro x hx
    rcases List.mem_cons.1 hx with e | e
    · subst e
      exact ⟨h3.2.2.1 _ (h2.2.2.1 _ h1.2.2.2), h3.2.2.1 _ h2.2.2.2⟩
    · exact h3.2.2.2 x e

theorem build_nodes_loop_fresh (max_nodes : Nat) : ∀ (cs : List Converter) (nodes : List Node),
    (∀ nd ∈ nodes, nd.seen = false ∧ nd.prev = none ∧ nd.prev_converter = none) →
    nodes.length ≤ max_nodes →
    (∀ nd ∈ build_nodes_loop max_nodes cs nodes,
      nd.seen = false ∧ nd.prev = none ∧ nd.prev_converter = none)
      ∧ (build_nodes_loop max_nodes cs nodes).length ≤ max_nodes := by
  have hlen : ∀ (nodes : List Node) (a : Str), nodes.length ≤ max_nodes →
      (add_node max_nodes nodes a).length ≤ max_nodes := by
    intro nodes a h
    unfold add_node
    split_ifs with h1
    · simp only [List.length_append, List.length_cons, List.length_nil]
      omega
    · exact h
  intro cs
  induction cs with
  | nil => intro nodes h hl; exact ⟨h, hl⟩
  | cons c cs ih =>
    intro nodes h hl
    simp only [build_nodes_loop]
    exact ih _ (add_node_fresh _ _ _ (add_node_fresh _ _ _ h)) (hlen _ _ (hlen _ _ hl))

theorem registry_tags_mem (reg : List Converter) (c : Converter) (h : c ∈ reg) :
    c.from_format ∈ registry_tags reg ∧ c.to_format ∈ registry_tags reg := by
  unfold registry_tags
  simp only [List.mem_flatMap, List.mem_cons, List.mem_singleton, List.not_mem_nil, or_false]
  exact ⟨⟨c, h, Or.inl rfl⟩, ⟨c, h, Or.inr rfl⟩⟩

/-- The nodes of `build_nodes` for a registry of at most 64 tags. -/
theorem build_nodes_spec (reg : List Converter) (hcap : (registry_tags reg).dedup.length ≤ 64) :
    ((build_nodes reg 64).map Node.name).Nodup
      ∧ (build_nodes reg 64).length ≤ 64
      ∧ (∀ nd ∈ build_nodes reg 64, nd.seen = false)
      ∧ (∀ c ∈ reg, c.from_format ∈ (build_nodes reg 64).map Node.name
          ∧ c.to_format ∈ (build_nodes reg 64).map Node.name) := by
  have h := build_nodes_loop_spec 64 (registry_tags reg) hcap reg [] (by simp) (by simp)
    (registry_tags_mem reg)
  have h2 := build_nodes_loop_fresh 64 reg [] (by simp) (by simp)
  exact ⟨h.1, h2.2, fun nd hnd => (h2.1 nd hnd).1, h.2.2.2⟩

/-! ### The steps of the loop over the edges -/

theorem edges_loop_skip_from (to_format : Str) (u cid : Nat) (c : Converter)
    (cs : List Converter) (s : Search) (h : c.from_format ≠ (s.nodes.getD u Node.zero).name) :
    edges_loop to_format u cid (c :: cs) s = edges_loop to_format u (cid + 1) cs s := by
  simp only [edges_loop, if_pos h]

theorem edges_loop_skip_storage (to_format : Str) (u cid : Nat) (c : Converter)
    (cs : List Converter) (s : Search) (h : ¬ edge_allowed to_format c) :
    edges_loop to_format u cid (c :: cs) s = edges_loop to_format u (cid + 1) cs s := by
  unfold edge_allowed at h
  have h2 : is_storage_format c.to_format = true ∧ to_format ≠ "postgresql".toList := by
    by_contra h3
    exact h h3
  simp only [edges_loop, if_pos h2]
  split_ifs <;> rfl

theorem edges_loop_skip_none (to_format : Str) (u cid : Nat) (c : Converter)
    (cs : List Converter) (s : Search) (h : format_index s.nodes c.to_format = none) :
    edges_loop to_format u cid (c :: cs) s = edges_loop to_format u (cid + 1) cs s := by
  simp only [edges_loop, h]
  split_ifs <;> rfl

theorem edges_loop_skip_seen (to_format : Str) (u cid v : Nat) (c : Converter)
    (cs : List Converter) (s : Search) (h : format_index s.nodes c.to_format = some v)
    (hs : (s.nodes.getD v Node.zero).seen = true) :
    edges_loop to_format u cid (c :: cs) s = edges_loop to_format u (cid + 1) cs s := by
  simp only [edges_loop, h, hs, if_true]
  split_ifs <;> rfl

theorem edges_loop_take (to_format : Str) (u cid v : Nat) (c : Converter)
    (cs : List Converter) (s : Search) (h1 : c.from_format = (s.nodes.getD u Node.zero).name)
    (h2 : edge_allowed to_format c) (h : format_index s.nodes c.to_format = some v)
    (hs : ¬ (s.nodes.getD v Node.zero).seen = true) :
    edges_loop to_format u cid (c :: cs) s
      = if 64 ≤ s.q.length + 1 then ⟨mark s.nodes v u cid, s.q ++ [v], s.qh⟩
        else edges_loop to_format u (cid + 1) cs ⟨mark s.nodes v u cid, s.q ++ [v], s.qh⟩ := by
  unfold edge_allowed at h2
  have h1' : ¬ c.from_format ≠ (s.nodes.getD u Node.zero).name := fun e => e h1
  simp only [edges_loop, if_neg h1', if_neg h2, h, if_neg hs]

/-- The invariant when the search takes the edge `c` from `u` to the new node `v`. -/
theorem searchInv_take (reg : List Converter) (to_format : Str) (names : List Str)
    (start : Nat) (nodes : List Node) (q : List Nat) (d : Nat → Nat) (u v cid : Nat)
    (c : Converter) (hi : SearchInv reg to_format names start nodes q d) (hu : u ∈ q)
    (hnear : ∀ x ∈ q, d x ≤ d u + 1) (hv : v < names.length) (hvq : v ∉ q)
    (hc : reg.get? cid = some c) (hfrom : c.from_format = names.getD u [])
    (hto : c.to_format = names.getD v []) (hal : edge_allowed to_format c)
    (hfirst : ∀ cid2 c2, cid2 < cid → reg.get? cid2 = some c2 →
      c2.from_format = names.getD u [] → c2.to_format ≠ names.getD v []) :
    SearchInv reg to_format names start (mark nodes v u cid) (q ++ [v])
      (Function.update d v (d u + 1)) := by
  have hd : ∀ x ∈ q, Function.update d v (d u + 1) x = d x := by
    intro x hx
    apply Function.update_noteq
    intro e
    rw [e] at hx
    exact hvq hx
  have hdv : Function.update d v (d u + 1) v = d u + 1 := Function.update_same _ _ _
  have hlen : nodes.length = names.length := by
    rw [← hi.names_eq]
    simp
  refine ⟨?_, ?_, ?_, ?_, ?_, ?_, ?_, ?_, ?_, ?_⟩
  · rw [mark_names]
    exact hi.names_eq
  · rw [List.nodup_append]
    refine ⟨hi.nodup, by simp, ?_⟩
    intro x hx hx2
    simp only [List.mem_singleton] at hx2
    subst hx2
    exact hvq hx
  · intro x hx
    rcases List.mem_append.1 hx with hx | hx
    · exact hi.lt x hx
    · simp only [List.mem_singleton] at hx
      rw [hx]
      exact hv
  · intro w hw
    by_cases e : w = v
    · subst e
      unfold mark
      rw [set_getD_self _ _ _ (by omega)]
      simp
    · unfold mark
      rw [set_getD_ne _ _ _ _ e, hi.seen_iff w hw]
      simp [e]
  · exact List.mem_append_left _ hi.start_mem
  · rw [hd start hi.start_mem]
    exact hi.d_start
  · rw [List.pairwise_append]
    refine ⟨?_, by simp, ?_⟩
    · apply List.Pairwise.imp_of_mem _ hi.sorted
      intro a b ha hb hab
      rw [hd a ha, hd b hb]
      exact hab
    · intro a ha b hb
      simp only [List.mem_singleton] at hb
      subst hb
      rw [hd a ha, hdv]
      exact hnear a ha
  · intro x hx
    simp only [List.length_append, List.length_cons, List.length_nil]
    rcases List.mem_append.1 hx with hx | hx
    · rw [hd x hx]
      have := hi.d_lt x hx
      omega
    · simp only [List.mem_singleton] at hx
      rw [hx, hdv]
      have := hi.d_lt u hu
      omega
  · intro w hw hws
    by_cases e : w = v
    · subst e
      refine ⟨u, cid, c, ?_, ?_, List.mem_append_left _ hu, hc, hfrom, hto, hal, ?_⟩
      · unfold mark
        rw [set_getD_self _ _ _ (by omega)]
      · unfold mark
        rw [set_getD_self _ _ _ (by omega)]
      · rw [hdv, hd u hu]
    · have hwq : w ∈ q := by
        rcases List.mem_append.1 hw with hw | hw
        · exact hw
        · simp only [List.mem_singleton] at hw
          exact absurd hw e
      obtain ⟨u2, cid2, c2, h1, h2, h3, h4, h5, h6, h7, h8⟩ := hi.tree w hwq hws
      refine ⟨u2, cid2, c2, ?_, ?_, List.mem_append_left _ h3, h4, h5, h6, h7, ?_⟩
      · unfold mark
        rw [set_getD_ne _ _ _ _ e]
        exact h1
      · unfold mark
        rw [set_getD_ne _ _ _ _ e]
        exact h2
      · rw [hd w hwq, hd u2 h3]
        exact h8
  · intro w hw hws u2 cid2 hp hpc
    by_cases e : w = v
    · subst e
      unfold mark at hp hpc
      rw [set_getD_self _ _ _ (by omega)] at hp hpc
      simp only [Option.some.injEq] at hp hpc
      rw [← hp, ← hpc]
      exact hfirst
    · have hwq : w ∈ q := by
        rcases List.mem_append.1 hw with hw | hw
        · exact hw
        · simp only [List.mem_singleton] at hw
          exact absurd hw e
      unfold mark at hp hpc
      rw [set_getD_ne _ _ _ _ e] at hp hpc
      exact hi.first w hwq hws u2 cid2 hp hpc

/-- A queue without repetition of nodes below `n` holds at most `n` nodes, and all of them
when it holds `n`. -/
theorem queue_full (q : List Nat) (n : Nat) (hn : q.Nodup) (hlt : ∀ v ∈ q, v < n) :
    q.length ≤ n ∧ (n ≤ q.length → ∀ w, w < n → w ∈ q) := by
  have hsub : q.toFinset ⊆ Finset.range n := by
    intro x hx
    rw [List.mem_toFinset] at hx
    exact Finset.mem_range.2 (hlt x hx)
  have hcard : q.toFinset.card = q.length := List.toFinset_card_of_nodup hn
  constructor
  · have := Finset.card_le_card hsub
    rw [hcard, Finset.card_range] at this
    exact this
  · intro hle w hw
    have heq : q.toFinset = Finset.range n := by
      apply Finset.eq_of_subset_of_card_le hsub
      rw [hcard, Finset.card_range]
      exact hle
    have : w ∈ q.toFinset := by
      rw [heq]
      exact Finset.mem_range.2 hw
    exact List.mem_toFinset.1 this

end Conversion

namespace Conversion

open DataConvert (Str)

/-! ### The loop over the edges of a node -/

theorem names_getD_mem (names : List Str) (w : Nat) (hw : w < names.length) :
    names.getD w [] ∈ names := by
  rw [List.getD_eq_getElem _ _ hw]
  exact List.getElem_mem _

theorem names_mem_getD (names : List Str) (t : Str) (h : t ∈ names) :
    ∃ w, w < names.length ∧ names.getD w [] = t := by
  obtain ⟨w, hw, e⟩ := List.getElem_of_mem h
  exact ⟨w, hw, by rw [List.getD_eq_getElem _ _ hw]; exact e⟩

/-- The loop over the edges of the node `u`: the invariant holds behind it, the nodes it
puts into the queue are one hop further than `u`, and all edges of `u` are done with. -/
theorem edges_loop_inv (reg : List Converter) (to_format : Str) (names : List Str)
    (start u : Nat) (hnn : names.Nodup) (hlen : names.length ≤ 64) :
    ∀ (cs pre : List Converter) (s : Search) (d : Nat → Nat), reg = pre ++ cs →
      SearchInv reg to_format names start s.nodes s.q d → u ∈ s.q →
      (∀ x ∈ s.q, d x ≤ d u + 1) → EdgesClosed to_format names s.q d u pre →
      ∃ (d2 : Nat → Nat) (new : List Nat),
        SearchInv reg to_format names start (edges_loop to_format u pre.length cs s).nodes
          (edges_loop to_format u pre.length cs s).q d2
        ∧ (edges_loop to_format u pre.length cs s).qh = s.qh
        ∧ (edges_loop to_format u pre.length cs s).q = s.q ++ new
        ∧ (∀ x ∈ s.q, d2 x = d x) ∧ (∀ x ∈ new, d2 x = d u + 1)
        ∧ EdgesClosed to_format names (edges_loop to_format u pre.length cs s).q d2 u reg := by
  intro cs
  induction cs with
  | nil =>
    intro pre s d hreg hi hu hnear hcl
    have e : reg = pre := by simpa using hreg
    refine ⟨d, [], ?_, rfl, ?_, fun _ _ => rfl, by simp, ?_⟩
    · exact hi
    · simp [edges_loop]
    · rw [e]
      exact hcl
  | cons c cs ih =>
    intro pre s d hreg hi hu hnear hcl
    have hreg2 : reg = (pre ++ [c]) ++ cs := by simp [hreg]
    have hlen2 : (pre ++ [c]).length = pre.length + 1 := by simp
    have hname : (s.nodes.getD u Node.zero).name = names.getD u [] := by
      rw [← hi.names_eq, node_name_getD]
    have hnl : s.nodes.length = names.length := by
      rw [← hi.names_eq]
      simp
    have hgo : EdgesClosed to_format names s.q d u [c] →
        ∃ (d2 : Nat → Nat) (new : List Nat),
          SearchInv reg to_format names start
            (edges_loop to_format u (pre.length + 1) cs s).nodes
            (edges_loop to_format u (pre.length + 1) cs s).q d2
          ∧ (edges_loop to_format u (pre.length + 1) cs s).qh = s.qh
          ∧ (edges_loop to_format u (pre.length + 1) cs s).q = s.q ++ new
          ∧ (∀ x ∈ s.q, d2 x = d x) ∧ (∀ x ∈ new, d2 x = d u + 1)
          ∧ EdgesClosed to_format names (edges_loop to_format u (pre.length + 1) cs s).q d2 u
              reg := by
      intro hc1
      have hcl2 : EdgesClosed to_format names s.q d u (pre ++ [c]) := by
        intro x hx
        rcases List.mem_append.1 hx with hx | hx
        · exact hcl x hx
        · exact hc1 x hx
      have := ih (pre ++ [c]) s d hreg2 hi hu hnear hcl2
      rw [hlen2] at this
      exact this
    by_cases h1 : c.from_format = (s.nodes.getD u Node.zero).name
    swap
    · rw [edges_loop_skip_from _ _ _ _ _ _ h1]
      apply hgo
      intro x hx hf
      simp only [List.mem_singleton] at hx
      subst hx
      exact absurd (hf.trans hname.symm) h1
    by_cases h2 : edge_allowed to_format c
    swap
    · rw [edges_loop_skip_storage _ _ _ _ _ _ h2]
      apply hgo
      intro x hx hf ha
      simp only [List.mem_singleton] at hx
      subst hx
      exact absurd ha h2
    cases h3 : format_index s.nodes c.to_format with
    | none =>
      rw [edges_loop_skip_none _ _ _ _ _ _ h3]
      apply hgo
      intro x hx hf ha w hw hwn
      simp only [List.mem_singleton] at hx
      subst hx
      exfalso
      apply format_index_none _ _ h3
      rw [hi.names_eq, ← hwn]
      exact names_getD_mem names w hw
    | some v =>
      have hv := format_index_some _ _ _ h3
      rw [hi.names_eq] at hv
      have hvlt : v < names.length := by omega
      by_cases h4 : (s.nodes.getD v Node.zero).seen = true
      · rw [edges_loop_skip_seen _ _ _ _ _ _ _ h3 h4]
        apply hgo
        intro x hx hf ha w hw hwn
        simp only [List.mem_singleton] at hx
        subst hx
        have e : w = v := names_getD_inj names hnn w v hw hvlt (hwn.trans hv.2.symm)
        subst e
        have hm := (hi.seen_iff w hvlt).1 h4
        exact ⟨hm, hnear w hm⟩
      · rw [edges_loop_take _ _ _ _ _ _ _ h1 h2 h3 h4]
        have hvq : v ∉ s.q := fun hm => h4 ((hi.seen_iff v hvlt).2 hm)
        have hc : reg.get? pre.length = some c := by
          rw [hreg, List.get?_eq_getElem?, List.getElem?_append_right (le_refl _)]
          simp
        have hfirst : ∀ cid2 c2, cid2 < pre.length → reg.get? cid2 = some c2 →
            c2.from_format = names.getD u [] → c2.to_format ≠ names.getD v [] := by
          intro cid2 c2 hlt hget hf hto
          have hmem : c2 ∈ pre := by
            rw [hreg, List.get?_eq_getElem?, List.getElem?_append_left hlt] at hget
            exact List.getElem?_mem hget
          have hal2 : edge_allowed to_format c2 := by
            unfold edge_allowed at h2 ⊢
            rw [hto, hv.2]
            exact h2
          exact hvq (hcl c2 hmem hf hal2 v hvlt hto.symm).1
        have hi2 := searchInv_take reg to_format names start s.nodes s.q d u v pre.length c hi
          hu hnear hvlt hvq hc (h1.trans hname) hv.2.symm h2 hfirst
        have hd1 : ∀ x ∈ s.q, Function.update d v (d u + 1) x = d x := by
          intro x hx
          apply Function.update_noteq
          intro e
          rw [e] at hx
          exact hvq hx
        have hd1v : Function.update d v (d u + 1) v = d u + 1 := Function.update_same _ _ _
        have hd1u := hd1 u hu
        have hnear2 : ∀ x ∈ s.q ++ [v],
            Function.update d v (d u + 1) x ≤ Function.update d v (d u + 1) u + 1 := by
          intro x hx
          rw [hd1u]
          rcases List.mem_append.1 hx with hx | hx
          · rw [hd1 x hx]
            exact hnear x hx
          · simp only [List.mem_singleton] at hx
            rw [hx, hd1v]
        have hcl1 : EdgesClosed to_format names (s.q ++ [v]) (Function.update d v (d u + 1)) u
            (pre ++ [c]) := by
          intro x hx hf ha w hw hwn
          rcases List.mem_append.1 hx with hx | hx
          · have := hcl x hx hf ha w hw hwn
            refine ⟨List.mem_append_left _ this.1, ?_⟩
            rw [hd1 w this.1, hd1u]
            exact this.2
          · simp only [List.mem_singleton] at hx
            subst hx
            have e : w = v := names_getD_inj names hnn w v hw hvlt (hwn.trans hv.2.symm)
            subst e
            refine ⟨by simp, ?_⟩
            rw [hd1v, hd1u]
        split_ifs with hfull
        · refine ⟨Function.update d v (d u + 1), [v], hi2, rfl, rfl, hd1, ?_, ?_⟩
          · intro x hx
            simp only [List.mem_singleton] at hx
            rw [hx, hd1v]
          · have hq := queue_full (s.q ++ [v]) names.length hi2.nodup hi2.lt
            have hall := hq.2 (by
              simp only [List.length_append, List.length_cons, List.length_nil]
              omega)
            intro x hx hf ha w hw hwn
            exact ⟨hall w hw, hnear2 w (hall w hw)⟩
        · have := ih (pre ++ [c]) ⟨mark s.nodes v u pre.length, s.q ++ [v], s.qh⟩
            (Function.update d v (d u + 1)) hreg2 hi2 (List.mem_append_left _ hu) hnear2 hcl1
          rw [hlen2] at this
          obtain ⟨d2, new, k1, k2, k3, k4, k5, k6⟩ := this
          refine ⟨d2, v :: new, k1, k2, ?_, ?_, ?_, k6⟩
          · rw [k3]
            simp
          · intro x hx
            rw [k4 x (List.mem_append_left _ hx), hd1 x hx]
          · intro x hx
            rcases List.mem_cons.1 hx with e | e
            · rw [e, k4 v (by simp), hd1v]
            · rw [k5 x e, hd1u]

/-! ### The search loop -/

theorem queue_drop (q : List Nat) (k : Nat) (hk : k < q.length) :
    q.drop k = q.getD k 0 :: q.drop (k + 1) := by
  rw [List.getD_eq_getElem _ _ hk]
  exact List.drop_eq_getElem_cons hk

theorem queue_take (q : List Nat) (k : Nat) (hk : k < q.length) (x : Nat)
    (hx : x ∈ q.take (k + 1)) : x ∈ q.take k ∨ x = q.getD k 0 := by
  rw [List.take_succ, List.getElem?_eq_getElem hk] at hx
  rw [List.getD_eq_getElem _ _ hk]
  rcases List.mem_append.1 hx with h | h
  · exact Or.inl h
  · right
    simpa using h

/-- The search loop: behind it the invariant holds, and every node in the queue either has
all its edges done with or stands in the queue behind the goal. -/
theorem search_loop_inv (reg : List Converter) (to_format : Str) (names : List Str)
    (start goal : Nat) (hnn : names.Nodup) (hlen : names.length ≤ 64) :
    ∀ (fuel : Nat) (s : Search) (d : Nat → Nat), names.length ≤ fuel + s.qh →
      SearchInv reg to_format names start s.nodes s.q d → s.qh ≤ s.q.length →
      (∀ x ∈ s.q.take s.qh, EdgesClosed to_format names s.q d x reg) →
      (∀ v ∈ s.q, ∀ y ∈ s.q.drop s.qh, d v ≤ d y + 1) →
      ∃ d2, SearchInv reg to_format names start (search_loop reg to_format goal fuel s).nodes
          (search_loop reg to_format goal fuel s).q d2
        ∧ ∀ x ∈ (search_loop reg to_format goal fuel s).q,
            EdgesClosed to_format names (search_loop reg to_format goal fuel s).q d2 x reg
              ∨ (goal ∈ (search_loop reg to_format goal fuel s).q ∧ d2 goal ≤ d2 x) := by
  have hend : ∀ (s : Search) (d : Nat → Nat), SearchInv reg to_format names start s.nodes s.q d →
      s.q.length ≤ s.qh → (∀ x ∈ s.q.take s.qh, EdgesClosed to_format names s.q d x reg) →
      ∃ d2, SearchInv reg to_format names start s.nodes s.q d2
        ∧ ∀ x ∈ s.q, EdgesClosed to_format names s.q d2 x reg ∨ (goal ∈ s.q ∧ d2 goal ≤ d2 x) := by
    intro s d hi hq hcl
    refine ⟨d, hi, fun x hx => Or.inl (hcl x ?_)⟩
    rw [List.take_of_length_le hq]
    exact hx
  intro fuel
  induction fuel with
  | zero =>
    intro s d hf hi hqh hcl _
    have hq := (queue_full s.q names.length hi.nodup hi.lt).1
    exact hend s d hi (by omega) hcl
  | succ fuel ih =>
    intro s d hf hi hqh hcl hnear
    by_cases hlt : s.qh < s.q.length
    swap
    · have e : search_loop reg to_format goal (fuel + 1) s = s := by
        simp only [search_loop, if_neg hlt]
      rw [e]
      exact hend s d hi (by omega) hcl
    have hdrop := queue_drop s.q s.qh hlt
    have hu : s.q.getD s.qh 0 ∈ s.q := by
      rw [List.getD_eq_getElem _ _ hlt]
      exact List.getElem_mem _
    have hsd : (s.q.drop s.qh).Pairwise (fun a b => d a ≤ d b) :=
      List.Pairwise.sublist (List.drop_sublist _ _) hi.sorted
    rw [hdrop, List.pairwise_cons] at hsd
    by_cases hg : s.q.getD s.qh 0 = goal
    · have e : search_loop reg to_format goal (fuel + 1) s = ⟨s.nodes, s.q, s.qh + 1⟩ := by
        simp only [search_loop, if_pos hlt, if_pos hg]
      rw [e]
      refine ⟨d, hi, ?_⟩
      intro x hx
      show EdgesClosed to_format names s.q d x reg ∨ (goal ∈ s.q ∧ d goal ≤ d x)
      rw [← List.take_append_drop s.qh s.q] at hx
      rcases List.mem_append.1 hx with hx | hx
      · exact Or.inl (hcl x hx)
      · right
        rw [← hg]
        refine ⟨hu, ?_⟩
        rw [hdrop] at hx
        rcases List.mem_cons.1 hx with e2 | e2
        · rw [e2]
        · exact hsd.1 x e2
    · have e : search_loop reg to_format goal (fuel + 1) s
          = search_loop reg to_format goal fuel
            (edges_loop to_format (s.q.getD s.qh 0) 0 reg ⟨s.nodes, s.q, s.qh + 1⟩) := by
        simp only [search_loop, if_pos hlt, if_neg hg]
      rw [e]
      have hnu : ∀ x ∈ s.q, d x ≤ d (s.q.getD s.qh 0) + 1 := by
        intro x hx
        apply hnear x hx
        rw [hdrop]
        exact List.mem_cons_self _ _
      obtain ⟨d2, new, k1, k2, k3, k4, k5, k6⟩ := edges_loop_inv reg to_format names start
        (s.q.getD s.qh 0) hnn hlen reg [] ⟨s.nodes, s.q, s.qh + 1⟩ d rfl hi hu hnu
        (by intro c hc; simp at hc)
      simp only [List.length_nil] at k1 k2 k3 k6
      apply ih _ d2 _ k1
      · rw [k2, k3]
        simp only [List.length_append]
        omega
      · rw [k2, k3]
        intro x hx
        rw [List.take_append_of_le_length (by omega)] at hx
        rcases queue_take s.q s.qh hlt x hx with hx | hx
        · have hxq : x ∈ s.q := List.mem_of_mem_take hx
          intro c hc hfr ha w hw hwn
          have := hcl x hx c hc hfr ha w hw hwn
          refine ⟨List.mem_append_left _ this.1, ?_⟩
          rw [k4 w this.1, k4 x hxq]
          exact this.2
        · rw [hx, ← k3]
          exact k6
      · rw [k2, k3]
        intro v hv y hy
        rw [List.drop_append_of_le_length (by omega)] at hy
        have hv2 : d2 v ≤ d (s.q.getD s.qh 0) + 1 := by
          rcases List.mem_append.1 hv with hv | hv
          · rw [k4 v hv]
            exact hnu v hv
          · rw [k5 v hv]
        have hy2 : d (s.q.getD s.qh 0) ≤ d2 y := by
          rcases List.mem_append.1 hy with hy | hy
          · rw [k4 y (List.mem_of_mem_drop hy)]
            exact hsd.1 y hy
          · rw [k5 y hy]
            omega
        omega
      · rw [k2]
        omega

end Conversion

namespace Conversion

open DataConvert (Str)

/-! ### Walks and the result of the search -/

theorem walk_edge_allowed (reg : List Converter) (to_format : Str) (c : Converter)
    (rest : List Nat) (hsink : rest ≠ [] → c.to_format ≠ "postgresql".toList)
    (hrest : walk_ok reg c.to_format to_format rest) : edge_allowed to_format c := by
  rintro ⟨h1, h2⟩
  have hpg : c.to_format = "postgresql".toList := by
    simpa [is_storage_format] using h1
  cases rest with
  | nil =>
    have e : c.to_format = to_format := hrest
    exact h2 (e ▸ hpg)
  | cons a l => exact hsink (by simp) hpg

theorem walk_target (reg : List Converter) : ∀ (ids : List Nat) (a b : Str),
    walk_ok reg a b ids → ids ≠ [] → ∃ c ∈ reg, c.to_format = b := by
  intro ids
  induction ids with
  | nil => intro a b _ h; exact absurd rfl h
  | cons cid rest ih =>
    intro a b h _
    obtain ⟨c, hget, _, _, hrest⟩ := h
    cases rest with
    | nil =>
      have e : c.to_format = b := hrest
      exact ⟨c, List.get?_mem hget, e⟩
    | cons x l => exact ih c.to_format b hrest (by simp)

/-- A walk that does not end in the storage format, with one more edge. -/
theorem walk_snoc (reg : List Converter) (c : Converter) (cid : Nat)
    (hget : reg.get? cid = some c) : ∀ (ids : List Nat) (a : Str),
    walk_ok reg a c.from_format ids → (ids ≠ [] → c.from_format ≠ "postgresql".toList) →
    walk_ok reg a c.to_format (ids ++ [cid]) := by
  intro ids
  induction ids with
  | nil =>
    intro a h _
    have e : a = c.from_format := h
    exact ⟨c, hget, e.symm, by simp, rfl⟩
  | cons i rest ih =>
    intro a h hm
    obtain ⟨ci, hgi, hfi, hsi, hri⟩ := h
    refine ⟨ci, hgi, hfi, ?_, ?_⟩
    · intro _
      cases rest with
      | nil =>
        have e : ci.to_format = c.from_format := hri
        rw [e]
        exact hm (by simp)
      | cons x l => exact hsi (by simp)
    · apply ih ci.to_format hri
      intro hne
      exact hm (by simp)

/-- Every walk to the target from a node in the queue shows that the goal is in the queue,
no more hops from the start than the node and the walk together. -/
theorem search_reach (reg : List Converter) (to_format : Str) (names : List Str)
    (start goal : Nat) (nodes : List Node) (q : List Nat) (d : Nat → Nat) (hnn : names.Nodup)
    (hi : SearchInv reg to_format names start nodes q d) (hg : goal < names.length)
    (hgn : names.getD goal [] = to_format) (hcover : ∀ c ∈ reg, c.to_format ∈ names)
    (hdone : ∀ x ∈ q, EdgesClosed to_format names q d x reg ∨ (goal ∈ q ∧ d goal ≤ d x)) :
    ∀ (ids : List Nat) (x : Nat), x ∈ q → walk_ok reg (names.getD x []) to_format ids →
      goal ∈ q ∧ d goal ≤ d x + ids.length := by
  intro ids
  induction ids with
  | nil =>
    intro x hx hw
    have e : names.getD x [] = to_format := hw
    have e2 : x = goal := names_getD_inj names hnn x goal (hi.lt x hx) hg (e.trans hgn.symm)
    subst e2
    exact ⟨hx, by simp⟩
  | cons cid rest ih =>
    intro x hx hw
    obtain ⟨c, hget, hfrom, hsink, hrest⟩ := hw
    rcases hdone x hx with hcl | ⟨h1, h2⟩
    · have hc : c ∈ reg := List.get?_mem hget
      obtain ⟨w, hw, hwn⟩ := names_mem_getD names c.to_format (hcover c hc)
      have hal := walk_edge_allowed reg to_format c rest hsink hrest
      have h3 := hcl c hc hfrom hal w hw hwn
      have h4 := ih w h3.1 (by rw [hwn]; exact hrest)
      refine ⟨h4.1, ?_⟩
      simp only [List.length_cons]
      omega
    · exact ⟨h1, by omega⟩

theorem search_d_pos (reg : List Converter) (to_format : Str) (names : List Str)
    (start : Nat) (nodes : List Node) (q : List Nat) (d : Nat → Nat)
    (hi : SearchInv reg to_format names start nodes q d) (v : Nat) (hv : v ∈ q)
    (h0 : d v = 0) : v = start := by
  by_contra hne
  obtain ⟨u, cid, c, _, _, _, _, _, _, _, h8⟩ := hi.tree v hv hne
  omega

/-- The loop back from a node in the queue gives the edges of a walk from the start to the
node, last edge first, as many as the node has hops. -/
theorem back_loop_spec (reg : List Converter) (to_format : Str) (names : List Str)
    (start goal : Nat) (nodes : List Node) (q : List Nat) (d : Nat → Nat) (hnn : names.Nodup)
    (hi : SearchInv reg to_format names start nodes q d) (hg : goal < names.length)
    (hgn : names.getD goal [] = to_format) :
    ∀ (fuel v : Nat), v ∈ q → d v ≤ fuel → d v ≤ d goal →
      ∃ l, back_loop nodes start fuel v = some l ∧ l.length = d v
        ∧ walk_ok reg (names.getD start []) (names.getD v []) l.reverse := by
  intro fuel
  induction fuel with
  | zero =>
    intro v hv hf _
    have e := search_d_pos reg to_format names start nodes q d hi v hv (by omega)
    refine ⟨[], rfl, ?_, ?_⟩
    · rw [e, hi.d_start]
      rfl
    · rw [e]
      rfl
  | succ fuel ih =>
    intro v hv hf hdg
    by_cases hs : v = start
    · subst hs
      refine ⟨[], ?_, ?_, rfl⟩
      · simp [back_loop]
      · rw [hi.d_start]
        rfl
    · obtain ⟨u, cid, c, h1, h2, h3, h4, h5, h6, h7, h8⟩ := hi.tree v hv hs
      obtain ⟨lu, k1, k2, k3⟩ := ih u h3 (by omega) (by omega)
      refine ⟨cid :: lu, ?_, ?_, ?_⟩
      · simp only [back_loop, if_neg hs, h1, h2, k1, Option.map_some']
      · simp only [List.length_cons]
        omega
      · rw [List.reverse_cons, ← h6]
        apply walk_snoc reg c cid h4
        · rw [h5]
          exact k3
        · intro hne hpg
          have hlu : lu ≠ [] := by
            intro e
            rw [e] at hne
            exact hne rfl
          have hdu : d u ≠ 0 := by
            intro e
            rw [e] at k2
            exact hlu (List.length_eq_zero.1 k2)
          have hus : u ≠ start := by
            intro e
            rw [e] at hdu
            exact hdu hi.d_start
          obtain ⟨u2, cid2, c2, _, _, _, _, _, j6, j7, _⟩ := hi.tree u h3 hus
          have hto : to_format = "postgresql".toList := by
            by_contra hto
            apply j7
            refine ⟨?_, hto⟩
            rw [j6, ← h5, hpg]
            rfl
          have e : u = goal := names_getD_inj names hnn u goal (hi.lt u h3) hg (by
            rw [hgn, hto, ← h5, hpg])
          rw [e] at h8
          omega

/-- The search of `find_path` from its first state. -/
theorem search_start (reg : List Converter) (to_format : Str) (start : Nat)
    (hfresh : ∀ nd ∈ build_nodes reg 64, nd.seen = false)
    (hs : start < (build_nodes reg 64).length) :
    SearchInv reg to_format ((build_nodes reg 64).map Node.name) start
      ((build_nodes reg 64).set start
        ⟨((build_nodes reg 64).getD start Node.zero).name,
          ((build_nodes reg 64).getD start Node.zero).prev,
          ((build_nodes reg 64).getD start Node.zero).prev_converter, true⟩)
      [start] (fun _ => 0) := by
  refine ⟨set_names _ _ _ rfl, by simp, ?_, ?_, by simp, rfl, by simp, by simp, ?_, ?_⟩
  · intro v hv
    simp only [List.mem_singleton] at hv
    rw [hv]
    simpa using hs
  · intro v hv
    by_cases e : v = start
    · subst e
      rw [set_getD_self _ _ _ hs]
      simp
    · rw [set_getD_ne _ _ _ _ e]
      have hv2 : v < (build_nodes reg 64).length := by simpa using hv
      have : ((build_nodes reg 64).getD v Node.zero).seen = false := by
        apply hfresh
        rw [List.getD_eq_getElem _ _ hv2]
        exact List.getElem_mem _
      rw [this]
      simp [e]
  · intro v hv hne
    simp only [List.mem_singleton] at hv
    exact absurd hv hne
  · intro v hv hne
    simp only [List.mem_singleton] at hv
    exact absurd hv hne

/-- The path finder on a registry of at most 64 tags, for a source and a target that
differ: when a walk within `max_steps` exists, it returns a walk of the least number of
edges. -/
theorem find_path_shortest (reg : List Converter) (from_format to_format : Str)
    (max_steps : Nat) (ids : List Nat) (hcap : (registry_tags reg).dedup.length ≤ 64)
    (hne : from_format ≠ to_format) (hw : walk_ok reg from_format to_format ids)
    (hmax : ids.length ≤ max_steps) :
    ∃ path, find_path reg from_format to_format max_steps = some path
      ∧ walk_ok reg from_format to_format path
      ∧ ∀ ids2, walk_ok reg from_format to_format ids2 → path.length ≤ ids2.length := by
  obtain ⟨hnn, hlen, hfresh, hcover⟩ := build_nodes_spec reg hcap
  have hids : ids ≠ [] := by
    intro e
    rw [e] at hw
    exact hne hw
  have hfrom : from_format ∈ (build_nodes reg 64).map Node.name := by
    cases ids with
    | nil => exact absurd rfl hids
    | cons cid rest =>
      obtain ⟨c, hget, hf, _, _⟩ := hw
      rw [← hf]
      exact (hcover c (List.get?_mem hget)).1
  have hto : to_format ∈ (build_nodes reg 64).map Node.name := by
    obtain ⟨c, hc, e⟩ := walk_target reg ids from_format to_format hw hids
    rw [← e]
    exact (hcover c hc).2
  obtain ⟨start, hstart⟩ := format_index_mem _ _ hfrom
  obtain ⟨goal, hgoal⟩ := format_index_mem _ _ hto
  have hs := format_index_some _ _ _ hstart
  have hg := format_index_some _ _ _ hgoal
  have hlen2 : ((build_nodes reg 64).map Node.name).length ≤ 64 := by simpa using hlen
  have hsg : goal ≠ start := by
    intro e
    rw [e] at hg
    exact hne (hs.2.symm.trans hg.2)
  have hi0 := search_start reg to_format start hfresh hs.1
  obtain ⟨d, hi, hdone⟩ := search_loop_inv reg to_format ((build_nodes reg 64).map Node.name)
    start goal hnn hlen2 64
    ⟨(build_nodes reg 64).set start
        ⟨((build_nodes reg 64).getD start Node.zero).name,
          ((build_nodes reg 64).getD start Node.zero).prev,
          ((build_nodes reg 64).getD start Node.zero).prev_converter, true⟩, [start], 0⟩
    (fun _ => 0) (by simpa using hlen) hi0 (by simp) (by simp) (by simp)
  have hgl : goal < ((build_nodes reg 64).map Node.name).length := by simpa using hg.1
  have hreach := search_reach reg to_format ((build_nodes reg 64).map Node.name) start goal _ _ d
    hnn hi hgl hg.2 (fun c hc => (hcover c hc).2) hdone
  have hr := hreach ids start hi.start_mem (by rw [hs.2]; exact hw)
  rw [hi.d_start] at hr
  have hq := (queue_full _ _ hi.nodup hi.lt).1
  have hdl := hi.d_lt goal hr.1
  obtain ⟨l, k1, k2, k3⟩ := back_loop_spec reg to_format ((build_nodes reg 64).map Node.name)
    start goal _ _ d hnn hi hgl hg.2 64 goal hr.1 (by omega) (le_refl _)
  have hd0 : d goal ≠ 0 := fun e =>
    hsg (search_d_pos reg to_format _ start _ _ d hi goal hr.1 e)
  have hseen := (hi.seen_iff goal hgl).2 hr.1
  refine ⟨l.reverse, ?_, ?_, ?_⟩
  · unfold find_path
    rw [hstart, hgoal]
    simp only [hseen, if_true, k1]
    have hcond : ¬ (l.length = 0 ∨ max_steps < l.length) := by
      rw [k2]
      omega
    rw [if_neg hcond]
  · rw [hs.2, hg.2] at k3
    exact k3
  · intro ids2 hw2
    have := hreach ids2 start hi.start_mem (by rw [hs.2]; exact hw2)
    rw [hi.d_start] at this
    rw [List.length_reverse, k2]
    omega

end Conversion

set_option maxRecDepth 100000

/-- C20 (counterexample): in the registry of the source the walk `csv -> json -> csv` leads
from `csv` to `csv` without entering `postgresql`, and `find_path` returns no path from
`csv` to `csv`. In a registry of 33 edges between 66 tags the last edge alone is a walk from
`a32` to `b32`, and `find_path` returns no path, because only the first 64 tags have nodes.
With the edges `csv -> json` and `json -> yaml` and `max_steps` 1, `find_path` returns no
path from `csv` to `yaml`. -/
theorem c20_find_path_no_path :
    (Conversion.walk_ok Conversion.converters "csv".toList "csv".toList [9, 10]
        ∧ Conversion.find_path Conversion.converters "csv".toList "csv".toList 64 = none)
      ∧ (Conversion.walk_ok (Conversion.registry_pairs 33) "a32".toList "b32".toList [32]
        ∧ Conversion.find_path (Conversion.registry_pairs 33) "a32".toList "b32".toList 64
          = none)
      ∧ (Conversion.walk_ok
          [⟨"csv".toList, "json".toList, [], []⟩, ⟨"json".toList, "yaml".toList, [], []⟩]
          "csv".toList "yaml".toList [0, 1]
        ∧ Conversion.find_path
          [⟨"csv".toList, "json".toList, [], []⟩, ⟨"json".toList, "yaml".toList, [], []⟩]
          "csv".toList "yaml".toList 1 = none) := by
  refine ⟨⟨?_, by decide⟩, ⟨?_, by decide⟩, ⟨?_, by decide⟩⟩
  · exact ⟨_, rfl, rfl, by decide, _, rfl, rfl, by decide, rfl⟩
  · exact ⟨⟨"a32".toList, "b32".toList, [], []⟩, by decide, rfl, by decide, rfl⟩
  · exact ⟨_, rfl, rfl, by decide, _, rfl, rfl, by decide, rfl⟩

/-- C20 (amended): for a registry of at most 64 format tags, a source and a target tag that
differ, and a bound `max_steps`: if a walk over registry edges leads from the source to the
target in at most `max_steps` edges, entering `postgresql` only with its last edge, then
`find_path` returns a path, which is such a walk, and no such walk has fewer edges. -/
theorem c20_find_path_shortest (reg : List Conversion.Converter)
    (from_format to_format : DataConvert.Str) (max_steps : Nat) (ids : List Nat)
    (hcap : (Conversion.registry_tags reg).dedup.length ≤ 64) (hne : from_format ≠ to_format)
    (hw : Conversion.walk_ok reg from_format to_format ids) (hmax : ids.length ≤ max_steps) :
    ∃ path, Conversion.find_path reg from_format to_format max_steps = some path
      ∧ Conversion.walk_ok reg from_format to_format path
      ∧ ∀ ids2, Conversion.walk_ok reg from_format to_format ids2 → path.length ≤ ids2.length :=
  Conversion.find_path_shortest reg from_format to_format max_steps ids hcap hne hw hmax

/-- C20 at the registry of the edges `csv -> json` and `json -> yaml`, from `csv` to `yaml`,
and at the registry of the source, from `csv` to `postgresql`, where the edge 18 leads
there directly. -/
theorem c20_find_path_shortest_witness :
    Conversion.find_path
        [⟨"csv".toList, "json".toList, [], []⟩, ⟨"json".toList, "yaml".toList, [], []⟩]
        "csv".toList "yaml".toList 64 = some [0, 1]
      ∧ Conversion.find_path Conversion.converters "csv".toList "postgresql".toList 64
        = some [18]
      ∧ ∃ path, Conversion.find_path
            [⟨"csv".toList, "json".toList, [], []⟩, ⟨"json".toList, "yaml".toList, [], []⟩]
            "csv".toList "yaml".toList 64 = some path
          ∧ Conversion.walk_ok
            [⟨"csv".toList, "json".toList, [], []⟩, ⟨"json".toList, "yaml".toList, [], []⟩]
            "csv".toList "yaml".toList path
          ∧ ∀ ids2, Conversion.walk_ok
              [⟨"csv".toList, "json".toList, [], []⟩, ⟨"json".toList, "yaml".toList, [], []⟩]
              "csv".toList "yaml".toList ids2 → path.length ≤ ids2.length :=
  ⟨by decide, by decide,
    c20_find_path_shortest
      [⟨"csv".toList, "json".toList, [], []⟩, ⟨"json".toList, "yaml".toList, [], []⟩]
      "csv".toList "yaml".toList 64 [0, 1] (by decide) (by decide)
      ⟨_, rfl, rfl, by decide, _, rfl, rfl, by decide, rfl⟩ (by decide)⟩

namespace SqlConvert

open DataConvert (Str isspace cstr getlines)

/-! ### The fuel of the loops of `sql_to_csv` -/

theorem sql_skip_ws_length (p : List Char) : (skip_ws p).length ≤ p.length :=
  (List.dropWhile_sublist _).length_le

theorem sql_consume_char_length (p : List Char) (ch : Char) :
    (consume_char p ch).2.length ≤ p.length := by
  have h := sql_skip_ws_length p
  unfold consume_char
  cases hs : skip_ws p with
  | nil => simp
  | cons c r =>
    rw [hs] at h
    simp only [List.length_cons] at h
    simp only
    split_ifs
    · simp only
      omega
    · simp only [List.length_cons]
      omega

/-- An identifier that `parse_ident` finds takes input. -/
theorem sql_parse_ident_progress (p : List Char) (col : Str)
    (h : (parse_ident p).1 = some col) : (parse_ident p).2.length < p.length := by
  have hl := sql_skip_ws_length p
  unfold parse_ident at h ⊢
  cases hs : skip_ws p with
  | nil =>
    rw [hs] at h
    simp [deref, isalpha] at h
  | cons c r =>
    rw [hs] at h hl
    have hd : deref (c :: r) = c := rfl
    rw [hd] at h ⊢
    by_cases hc : (isalpha c || decide (c = '_')) = true
    · rw [if_pos hc]
      have hc2 := sql_ident_head c hc
      have e : (c :: r).dropWhile (fun c => isalnum c || c = '_')
          = r.dropWhile (fun c => isalnum c || c = '_') := by
        simp [List.dropWhile, hc2]
      simp only [e]
      have := (List.dropWhile_sublist (fun c => isalnum c || decide (c = '_')) (l := r)).length_le
      simp only [List.length_cons] at hl
      omega
    · rw [if_neg hc] at h
      cases h

theorem sql_scan_literal_length : ∀ (n : Nat) (r : List Char), r.length ≤ n →
    (sql_scan_literal r).2.length ≤ r.length := by
  intro n
  induction n with
  | zero =>
    intro r hr
    have e : r = [] := List.length_eq_zero.1 (Nat.le_zero.1 hr)
    subst e
    simp [sql_scan_literal]
  | succ n ih =>
    intro r hr
    cases r with
    | nil => simp [sql_scan_literal]
    | cons ch r =>
      have hr1 : r.length ≤ n := by simp only [List.length_cons] at hr; omega
      by_cases hq : ch = '\''
      · subst hq
        cases r with
        | nil => simp [sql_scan_literal]
        | cons d r2 =>
          have hr2 : r2.length ≤ n := by simp only [List.length_cons] at hr1; omega
          simp only [sql_scan_literal, if_true]
          split_ifs
          · have := ih r2 hr2
            simp only [keep, List.length_cons]
            omega
          · simp
      · rw [sql_scan_literal_plain ch r hq]
        have := ih r hr1
        simp only [keep, List.length_cons]
        omega

/-- A literal that `parse_sql_string_literal` finds takes input. -/
theorem sql_parse_literal_progress (p : List Char) (v : Str)
    (h : (parse_sql_string_literal p).1 = some v) :
    (parse_sql_string_literal p).2.length < p.length := by
  have hl := sql_skip_ws_length p
  unfold parse_sql_string_literal at h ⊢
  cases hs : skip_ws p with
  | nil =>
    rw [hs] at h
    simp at h
  | cons c r =>
    rw [hs] at h hl
    simp only at h ⊢
    by_cases hc : c = '\''
    · rw [if_pos hc]
      have := sql_scan_literal_length r.length r (le_refl _)
      simp only [List.length_cons] at hl
      simp only
      omega
    · rw [if_neg hc] at h
      cases h

/-- The loop `parse columns` does not depend on its fuel, once it exceeds the input. -/
theorem sql_columns_loop_fuel : ∀ (n m : Nat) (p : List Char), p.length < n → p.length < m →
    sql_columns_loop n p = sql_columns_loop m p := by
  intro n
  induction n with
  | zero => intro m p h; omega
  | succ n ih =>
    intro m p hn hm
    cases m with
    | zero => omega
    | succ m =>
      simp only [sql_columns_loop]
      cases hid : (parse_ident p).1 with
      | none => rfl
      | some col =>
        have h1 := sql_parse_ident_progress p col hid
        have h2 := sql_consume_char_length (parse_ident p).2 ')'
        have h3 := sql_consume_char_length (consume_char (parse_ident p).2 ')').2 ','
        simp only
        split_ifs
        · rfl
        · rw [ih m _ (by omega) (by omega)]
        · rfl

/-- The loop `parse values` does not depend on its fuel, once it exceeds the input. -/
theorem sql_values_loop_fuel : ∀ (n m : Nat) (p : List Char), p.length < n → p.length < m →
    sql_values_loop n p = sql_values_loop m p := by
  intro n
  induction n with
  | zero => intro m p h; omega
  | succ n ih =>
    intro m p hn hm
    cases m with
    | zero => omega
    | succ m =>
      simp only [sql_values_loop]
      cases hid : (parse_sql_string_literal p).1 with
      | none => rfl
      | some v =>
        have h1 := sql_parse_literal_progress p v hid
        have h2 := sql_consume_char_length (parse_sql_string_literal p).2 ')'
        have h3 := sql_consume_char_length (consume_char (parse_sql_string_literal p).2 ')').2 ','
        simp only
        split_ifs
        · rfl
        · rw [ih m _ (by omega) (by omega)]
        · rfl

end SqlConvert

namespace SqlConvert

open DataConvert (Str isspace cstr getlines)

/-! ### The fuel of the loops of `csv_read_all` -/

theorem sql_csv_scan_length : ∀ (n : Nat) (q : Bool) (p : List Char), p.length ≤ n →
    (csv_scan_field q p).2.length ≤ p.length := by
  intro n
  induction n with
  | zero =>
    intro q p hp
    have e : p = [] := List.length_eq_zero.1 (Nat.le_zero.1 hp)
    subst e
    cases q <;> simp [csv_scan_field]
  | succ n ih =>
    intro q p hp
    cases p with
    | nil => cases q <;> simp [csv_scan_field]
    | cons ch r =>
      have hr : r.length ≤ n := by simp only [List.length_cons] at hp; omega
      cases q with
      | false =>
        simp only [csv_scan_field]
        split_ifs with h
        · simp
        · have := ih false r hr
          simp only [keep, List.length_cons]
          omega
      | true =>
        by_cases h : ch = '"'
        · cases r with
          | nil => simp [csv_scan_field, h]
          | cons d r2 =>
            have hr2 : r2.length ≤ n := by simp only [List.length_cons] at hr; omega
            simp only [csv_scan_field, h, if_true]
            split_ifs with hd
            · have := ih true r2 hr2
              simp only [keep, List.length_cons]
              omega
            · simp
        · rw [sql_scan_quoted_plain ch r h]
          have := ih true r hr
          simp only [keep, List.length_cons]
          omega

theorem sql_csv_scan_plain_rest : ∀ (p : List Char),
    (csv_scan_field false p).2 = []
      ∨ ∃ d r, (csv_scan_field false p).2 = d :: r ∧ (d = ',' ∨ d = '\n' ∨ d = '\r') := by
  intro p
  induction p with
  | nil => left; simp [csv_scan_field]
  | cons ch r ih =>
    by_cases h : ch = ',' ∨ ch = '\n' ∨ ch = '\r'
    · right
      exact ⟨ch, r, by simp only [csv_scan_field, if_pos h], h⟩
    · rw [sql_scan_plain_step ch r h]
      exact ih

theorem sql_csv_parse_field_length (p : List Char) :
    (csv_parse_field p).2.length ≤ p.length := by
  unfold csv_parse_field
  split_ifs with h
  · have := sql_csv_scan_length p.tail.length true p.tail (le_refl _)
    have h2 : p.tail.length ≤ p.length := by simp
    omega
  · exact sql_csv_scan_length p.length false p (le_refl _)

/-- A field that does not start at a comma or a line break takes input. -/
theorem sql_csv_parse_field_moves (d : Char) (r : List Char)
    (hd : ¬ (d = ',' ∨ d = '\n' ∨ d = '\r')) :
    (csv_parse_field (d :: r)).2.length < (d :: r).length := by
  unfold csv_parse_field
  have e : deref (d :: r) = d := rfl
  rw [e]
  split_ifs with h
  · have := sql_csv_scan_length r.length true r (le_refl _)
    simp only [List.tail_cons, List.length_cons]
    omega
  · rw [sql_scan_plain_step d r hd]
    have := sql_csv_scan_length r.length false r (le_refl _)
    simp only [keep, List.length_cons]
    omega

/-- Behind a field that did not start with a quote stands the end of the input, a comma or
a line break. -/
theorem sql_csv_parse_field_stop (p : List Char) (h1 : csv_at_eol (csv_parse_field p).2 = false)
    (h2 : deref (csv_parse_field p).2 ≠ ',') : (csv_parse_field p).2.length < p.length := by
  cases p with
  | nil =>
    exfalso
    have e : (csv_parse_field []).2 = [] := by simp [csv_parse_field, deref, csv_scan_field]
    rw [e] at h1
    simp [csv_at_eol, deref] at h1
  | cons d r =>
    by_cases hd : d = ',' ∨ d = '\n' ∨ d = '\r'
    · exfalso
      have hq : deref (d :: r) ≠ '"' := by
        show d ≠ '"'
        rcases hd with e | e | e <;> rw [e] <;> decide
      have e : (csv_parse_field (d :: r)).2 = d :: r := by
        unfold csv_parse_field
        rw [if_neg hq]
        simp only [csv_scan_field, if_pos hd]
      rw [e] at h1 h2
      rcases hd with e2 | e2 | e2
      · exact h2 e2
      · rw [e2] at h1
        simp [csv_at_eol, deref] at h1
      · rw [e2] at h1
        simp [csv_at_eol, deref] at h1
    · exact sql_csv_parse_field_moves d r hd

theorem sql_csv_consume_delim_length (p : List Char) : (csv_consume_delim p).length ≤ p.length := by
  cases p with
  | nil => simp [csv_consume_delim]
  | cons c r =>
    simp only [csv_consume_delim]
    split_ifs <;> simp only [List.length_cons, List.length_tail] <;> omega

theorem sql_csv_consume_delim_moves (p : List Char)
    (h : deref p = ',' ∨ deref p = '\n' ∨ deref p = '\r') :
    (csv_consume_delim p).length < p.length := by
  cases p with
  | nil =>
    exfalso
    rcases h with h | h | h <;> revert h <;> decide
  | cons c r =>
    have e : deref (c :: r) = c := rfl
    rw [e] at h
    simp only [csv_consume_delim]
    split_ifs with h1 h2 h3 h4
    · simp
    · simp only [List.length_cons, List.length_tail]
      omega
    · simp
    · simp
    · exfalso
      rcases h with h | h | h
      · exact h1 h
      · exact h4 h
      · exact h2 h

theorem sql_csv_blank_moves (p : List Char) (h : csv_blank_line p = true) :
    (csv_consume_delim (p.dropWhile (fun c => c = ' ' || c = '\t'))).length < p.length := by
  have h1 := (List.dropWhile_sublist (fun c => decide (c = ' ') || decide (c = '\t'))
    (l := p)).length_le
  unfold csv_blank_line at h
  simp only [Bool.or_eq_true, decide_eq_true_eq] at h
  have h2 := sql_csv_consume_delim_moves (p.dropWhile (fun c => c = ' ' || c = '\t')) (by
    rcases h with h | h
    · exact Or.inr (Or.inr h)
    · exact Or.inr (Or.inl h))
  omega

/-- The loop `skip leading empty lines` does not depend on its fuel, once it reaches the
length of the input. -/
theorem sql_csv_skip_leading_fuel : ∀ (n m : Nat) (p : List Char), p.length ≤ n →
    p.length ≤ m → csv_skip_leading n p = csv_skip_leading m p := by
  have hnil : ∀ k, csv_skip_leading k [] = [] := by
    intro k
    cases k <;> simp [csv_skip_leading]
  intro n
  induction n with
  | zero =>
    intro m p hn _
    have e : p = [] := List.length_eq_zero.1 (Nat.le_zero.1 hn)
    rw [e, hnil, hnil]
  | succ n ih =>
    intro m p hn hm
    cases m with
    | zero =>
      have e : p = [] := List.length_eq_zero.1 (Nat.le_zero.1 hm)
      rw [e, hnil, hnil]
    | succ m =>
      simp only [csv_skip_leading]
      split_ifs with h0 h1
      · rfl
      · have := sql_csv_blank_moves p h1
        exact ih m _ (by omega) (by omega)
      · rfl

theorem sql_csv_row_fields_length : ∀ (k : Nat) (p : List Char),
    (csv_row_fields k p).2.length ≤ p.length := by
  intro k
  induction k with
  | zero => intro p; simp [csv_row_fields]
  | succ k ih =>
    intro p
    have hf := sql_csv_parse_field_length p
    simp only [csv_row_fields]
    split_ifs with h1 h2
    · have := sql_csv_consume_delim_length (csv_parse_field p).2
      simp only
      omega
    · have := ih (csv_consume_delim (csv_parse_field p).2)
      have := sql_csv_consume_delim_length (csv_parse_field p).2
      simp only
      omega
    · have := ih (csv_parse_field p).2
      simp only
      omega

/-- The header loop does not depend on its fuel, once it reaches the length of the input. -/
theorem sql_csv_header_fields_fuel : ∀ (n m : Nat) (p : List Char), p.length ≤ n →
    p.length ≤ m → csv_header_fields n p = csv_header_fields m p := by
  have hnil : ∀ k, csv_header_fields k [] = ([], []) := by
    intro k
    cases k <;> simp [csv_header_fields]
  intro n
  induction n with
  | zero =>
    intro m p hn _
    have e : p = [] := List.length_eq_zero.1 (Nat.le_zero.1 hn)
    rw [e, hnil, hnil]
  | succ n ih =>
    intro m p hn hm
    cases m with
    | zero =>
      have e : p = [] := List.length_eq_zero.1 (Nat.le_zero.1 hm)
      rw [e, hnil, hnil]
    | succ m =>
      have hf := sql_csv_parse_field_length p
      simp only [csv_header_fields]
      split_ifs with h0 h1 h2
      · rfl
      · rfl
      · have := sql_csv_consume_delim_moves (csv_parse_field p).2 (Or.inl h2)
        rw [ih m _ (by omega) (by omega)]
      · have := sql_csv_parse_field_stop p (by simpa using h1) h2
        rw [ih m _ (by omega) (by omega)]

theorem sql_csv_rest_of_line_length (p : List Char) : (csv_rest_of_line p).length ≤ p.length := by
  unfold csv_rest_of_line
  have h1 := (List.dropWhile_sublist (fun c => c != '\n' && c != '\r') (l := p)).length_le
  have h2 := sql_csv_consume_delim_length (p.dropWhile (fun c => c != '\n' && c != '\r'))
  omega

/-- A row of `csv_read_all` takes input. -/
theorem sql_csv_row_moves (ncols : Nat) (p : List Char) (h0 : p ≠ [])
    (hb : csv_blank_line p = false) :
    (csv_rest_of_line (csv_row_fields ncols p).2).length < p.length := by
  cases p with
  | nil => exact absurd rfl h0
  | cons d r =>
    have hnl : d ≠ '\n' ∧ d ≠ '\r' := by
      rw [sql_blank_test] at hb
      constructor
      · intro e
        subst e
        exact hb.2 (by simp [List.dropWhile, deref])
      · intro e
        subst e
        exact hb.1 (by simp [List.dropWhile, deref])
    cases ncols with
    | zero =>
      have e : csv_row_fields 0 (d :: r) = ([], d :: r) := rfl
      rw [e]
      unfold csv_rest_of_line
      have hd : (d != '\n' && d != '\r') = true := by
        simp [hnl.1, hnl.2]
      have e2 : (d :: r).dropWhile (fun c => c != '\n' && c != '\r')
          = r.dropWhile (fun c => c != '\n' && c != '\r') := by
        simp only [List.dropWhile, hd]
      simp only [e2]
      have h1 := (List.dropWhile_sublist (fun c => c != '\n' && c != '\r') (l := r)).length_le
      have h2 := sql_csv_consume_delim_length (r.dropWhile (fun c => c != '\n' && c != '\r'))
      simp only [List.length_cons]
      omega
    | succ k =>
      have hrest := sql_csv_rest_of_line_length (csv_row_fields (k + 1) (d :: r)).2
      suffices h : (csv_row_fields (k + 1) (d :: r)).2.length < (d :: r).length by omega
      by_cases hc : d = ','
      · subst hc
        have e : csv_parse_field (',' :: r) = ([], ',' :: r) := by
          simp [csv_parse_field, deref, csv_scan_field]
        have h1 : csv_at_eol (',' :: r) = false := by simp [csv_at_eol, deref]
        have h2 : deref (',' :: r) = ',' := rfl
        have h3 : csv_consume_delim (',' :: r) = r := by simp [csv_consume_delim]
        simp only [csv_row_fields, e, h1, h2, h3, Bool.false_eq_true, if_false, if_true]
        have := sql_csv_row_fields_length k r
        simp only [List.length_cons]
        omega
      · have hm := sql_csv_parse_field_moves d r (by
          rintro (e | e | e)
          · exact hc e
          · exact hnl.1 e
          · exact hnl.2 e)
        simp only [csv_row_fields]
        split_ifs with h1 h2
        · have := sql_csv_consume_delim_length (csv_parse_field (d :: r)).2
          simp only
          omega
        · have := sql_csv_row_fields_length k (csv_consume_delim (csv_parse_field (d :: r)).2)
          have := sql_csv_consume_delim_length (csv_parse_field (d :: r)).2
          simp only
          omega
        · have := sql_csv_row_fields_length k (csv_parse_field (d :: r)).2
          simp only
          omega

/-- The row loop does not depend on its fuel, once it reaches the length of the input. -/
theorem sql_csv_rows_loop_fuel (ncols : Nat) : ∀ (n m : Nat) (p : List Char), p.length ≤ n →
    p.length ≤ m → csv_rows_loop n ncols p = csv_rows_loop m ncols p := by
  have hnil : ∀ k, csv_rows_loop k ncols [] = [] := by
    intro k
    cases k <;> simp [csv_rows_loop]
  intro n
  induction n with
  | zero =>
    intro m p hn _
    have e : p = [] := List.length_eq_zero.1 (Nat.le_zero.1 hn)
    rw [e, hnil, hnil]
  | succ n ih =>
    intro m p hn hm
    cases m with
    | zero =>
      have e : p = [] := List.length_eq_zero.1 (Nat.le_zero.1 hm)
      rw [e, hnil, hnil]
    | succ m =>
      simp only [csv_rows_loop]
      split_ifs with h0 h1
      · rfl
      · have := sql_csv_blank_moves p h1
        exact ih m _ (by omega) (by omega)
      · have := sql_csv_row_moves ncols p h0 (by simpa using h1)
        rw [ih m _ (by omega) (by omega)]

end SqlConvert

namespace DataConvert

/-! ## The table operations -/

theorem find_header_from_absent : ∀ (hs : List Str) (k : Str) (i : Nat),
    find_header_from hs k i = none → k ∉ hs := by
  intro hs
  induction hs with
  | nil => intro k i _; simp
  | cons a hs ih =>
    intro k i h
    by_cases h1 : a = k
    · simp [find_header_from, h1] at h
    · simp only [find_header_from, if_neg h1] at h
      have := ih k (i + 1) h
      simp only [List.mem_cons, not_or]
      exact ⟨fun e => h1 e.symm, this⟩

theorem find_header_from_index : ∀ (hs : List Str) (k : Str) (i j : Nat),
    find_header_from hs k i = some j → i ≤ j ∧ j - i < hs.length ∧ hs.get? (j - i) = some k := by
  intro hs
  induction hs with
  | nil => intro k i j h; simp [find_header_from] at h
  | cons a hs ih =>
    intro k i j h
    by_cases h1 : a = k
    · simp only [find_header_from, if_pos h1, Option.some.injEq] at h
      subst h
      simp [h1]
    · simp only [find_header_from, if_neg h1] at h
      obtain ⟨h2, h3, h4⟩ := ih k (i + 1) j h
      have e : j - i = (j - (i + 1)) + 1 := by omega
      refine ⟨by omega, ?_, ?_⟩
      · simp only [List.length_cons]
        omega
      · rw [e]
        simpa using h4

theorem find_header_index (t : Table) (k : Str) (idx : Nat) (h : find_header t k = some idx) :
    idx < t.headers.length ∧ t.headers.get? idx = some k := by
  have := find_header_from_index t.headers k 0 idx h
  simpa using this.2

theorem ensure_col_present (t : Table) (k : Str) (h : k ∈ t.headers) : ensure_col t k = t := by
  obtain ⟨j, hj⟩ := find_header_from_some h 0
  unfold ensure_col find_header
  rw [hj]

theorem ensure_col_absent (t : Table) (k : Str) (h : k ∉ t.headers) :
    ensure_col t k = ⟨t.headers ++ [k], t.rows.map (fun r => r ++ [[]])⟩ := by
  unfold ensure_col find_header
  rw [find_header_from_none h 0]

theorem ensure_col_mem (t : Table) (k : Str) : k ∈ (ensure_col t k).headers := by
  by_cases h : k ∈ t.headers
  · rw [ensure_col_present t k h]
    exact h
  · rw [ensure_col_absent t k h]
    simp

theorem table_wf_ensure_col (t : Table) (k : Str) (h : Table.WellFormed t) : Table.WellFormed (ensure_col t k) := by
  by_cases hk : k ∈ t.headers
  · rw [ensure_col_present t k hk]
    exact h
  · rw [ensure_col_absent t k hk]
    constructor
    · show (t.headers ++ [k]).Nodup
      rw [List.nodup_append]
      refine ⟨h.1, by simp, ?_⟩
      intro x hx hx2
      simp only [List.mem_singleton] at hx2
      subst hx2
      exact hk hx
    · intro r hr
      simp only [List.mem_map] at hr
      obtain ⟨r0, hr0, rfl⟩ := hr
      simp only [List.length_append, List.length_cons, List.length_nil]
      rw [h.2 r0 hr0]

theorem table_wf_add_row (t : Table) (h : Table.WellFormed t) : Table.WellFormed (table_add_row t).1 := by
  constructor
  · exact h.1
  · intro r hr
    simp only [table_add_row, List.mem_append, List.mem_singleton] at hr
    rcases hr with hr | hr
    · exact h.2 r hr
    · rw [hr]
      simp [table_add_row]

theorem table_set_eq (t : Table) (row : Nat) (k v : Str) :
    ∃ idx, find_header (ensure_col t k) k = some idx
      ∧ table_set t row k v
        = ⟨(ensure_col t k).headers,
            (ensure_col t k).rows.set row (((ensure_col t k).rows.getD row []).set idx v)⟩ := by
  obtain ⟨idx, h⟩ := find_header_from_some (ensure_col_mem t k) 0
  refine ⟨idx, h, ?_⟩
  unfold table_set
  have h2 : find_header (ensure_col t k) k = some idx := h
  simp only [h2]

theorem table_wf_set (t : Table) (row : Nat) (k v : Str) (h : Table.WellFormed t) :
    Table.WellFormed (table_set t row k v) := by
  obtain ⟨idx, _, e⟩ := table_set_eq t row k v
  have h1 := table_wf_ensure_col t k h
  rw [e]
  constructor
  · exact h1.1
  · intro r hr
    by_cases hrow : row < (ensure_col t k).rows.length
    · rcases List.mem_or_eq_of_mem_set hr with hr | hr
      · exact h1.2 r hr
      · rw [hr, List.length_set]
        show ((ensure_col t k).rows.getD row []).length = (ensure_col t k).headers.length
        rw [List.getD_eq_getElem _ _ hrow]
        exact h1.2 _ (List.getElem_mem _)
    · rw [List.set_eq_of_length_le (by omega)] at hr
      exact h1.2 r hr

theorem table_wf_apply (t : Table) (op : TableOp) (h : Table.WellFormed t) : Table.WellFormed (table_apply t op) := by
  cases op with
  | ensure key => exact table_wf_ensure_col t key h
  | add_row => exact table_wf_add_row t h
  | set row key value => exact table_wf_set t row key value h

theorem table_wf_run : ∀ (ops : List TableOp) (t : Table), Table.WellFormed t →
    Table.WellFormed (table_run t ops) := by
  intro ops
  induction ops with
  | nil => intro t h; exact h
  | cons op ops ih => intro t h; exact ih _ (table_wf_apply t op h)

end DataConvert

namespace DataConvert

theorem ensure_col_rows_length (t : Table) (k : Str) :
    (ensure_col t k).rows.length = t.rows.length := by
  by_cases h : k ∈ t.headers
  · rw [ensure_col_present t k h]
  · rw [ensure_col_absent t k h]
    simp

/-- The cells of the columns that exist already are not touched by `ensure_col`. -/
theorem table_get_ensure_col (t : Table) (k : Str) (h : Table.WellFormed t) (r c : Nat)
    (hc : c < t.headers.length) : table_get (ensure_col t k) r c = table_get t r c := by
  by_cases hk : k ∈ t.headers
  · rw [ensure_col_present t k hk]
  · rw [ensure_col_absent t k hk]
    unfold table_get
    simp only [List.get?_eq_getElem?, List.getElem?_map]
    cases hr : t.rows[r]? with
    | none => rfl
    | some row =>
      have hlen : row.length = t.headers.length := h.2 row (List.getElem?_mem hr)
      simp only [Option.map_some', Option.some_bind]
      rw [List.getElem?_append_left (by omega)]

/-- The cell of the new column is the empty string in every row. -/
theorem table_get_ensure_col_new (t : Table) (k : Str) (h : Table.WellFormed t) (hk : k ∉ t.headers)
    (r : Nat) (hr : r < t.rows.length) :
    table_get (ensure_col t k) r t.headers.length = some [] := by
  rw [ensure_col_absent t k hk]
  unfold table_get
  simp only [List.get?_eq_getElem?, List.getElem?_map, List.getElem?_eq_getElem hr,
    Option.map_some', Option.some_bind]
  have hlen : (t.rows[r]).length = t.headers.length := h.2 _ (List.getElem_mem _)
  rw [List.getElem?_append_right (by omega), hlen]
  simp

/-- What `table_set` does to the cells of the table that `ensure_col` leaves. -/
theorem table_get_set (t : Table) (row : Nat) (k v : Str) (h : Table.WellFormed t)
    (hrow : row < t.rows.length) :
    ∃ idx, find_header (table_set t row k v) k = some idx
      ∧ idx < (ensure_col t k).headers.length
      ∧ (table_set t row k v).headers = (ensure_col t k).headers
      ∧ (table_set t row k v).rows.length = t.rows.length
      ∧ table_get (table_set t row k v) row idx = some v
      ∧ ∀ r c, (r ≠ row ∨ c ≠ idx) →
          table_get (table_set t row k v) r c = table_get (ensure_col t k) r c := by
  obtain ⟨idx, hidx, e⟩ := table_set_eq t row k v
  have h1 := table_wf_ensure_col t k h
  have hi := find_header_index _ _ _ hidx
  have hrow1 : row < (ensure_col t k).rows.length := by
    rw [ensure_col_rows_length]
    exact hrow
  have hlen : ((ensure_col t k).rows.getD row []).length = (ensure_col t k).headers.length := by
    rw [List.getD_eq_getElem _ _ hrow1]
    exact h1.2 _ (List.getElem_mem _)
  refine ⟨idx, ?_, hi.1, ?_, ?_, ?_, ?_⟩
  · rw [e]
    exact hidx
  · rw [e]
  · rw [e]
    simp only [List.length_set]
    exact ensure_col_rows_length t k
  · rw [e]
    unfold table_get
    simp only [List.get?_eq_getElem?, List.getElem?_set_self hrow1, Option.some_bind]
    rw [List.getElem?_set_self (by omega)]
  · intro r c hne
    rw [e]
    unfold table_get
    simp only [List.get?_eq_getElem?]
    by_cases hr : r = row
    · subst hr
      have hc : c ≠ idx := by
        rcases hne with h2 | h2
        · exact absurd rfl h2
        · exact h2
      simp only [List.getElem?_set_self hrow1, Option.some_bind]
      rw [List.getElem?_set_ne (fun e2 => hc e2.symm), List.getElem?_eq_getElem hrow1,
        Option.some_bind, List.getD_eq_getElem _ _ hrow1]
    · rw [List.getElem?_set_ne (fun e2 => hr e2.symm)]

end DataConvert

/-- C27: starting from the empty table, after every sequence of calls of `ensure_col`,
`table_add_row` and `table_set`, each `table_set` with the index of a row that exists, the
column names are pairwise distinct and every row holds as many cells as there are
columns. -/
theorem c27_table_well_formed (ops : List DataConvert.TableOp)
    (_hv : DataConvert.table_ops_valid DataConvert.Table.empty ops) :
    (DataConvert.table_run DataConvert.Table.empty ops).headers.Nodup
      ∧ ∀ r ∈ (DataConvert.table_run DataConvert.Table.empty ops).rows,
          r.length = (DataConvert.table_run DataConvert.Table.empty ops).headers.length :=
  DataConvert.table_wf_run ops DataConvert.Table.empty ⟨List.nodup_nil, by
    intro r hr
    cases hr⟩

/-- C27 at a sequence that adds a row, sets two cells of it, of which the second makes a new
column, adds a row and names a column that exists. -/
theorem c27_table_well_formed_witness :
    DataConvert.table_run DataConvert.Table.empty
        [.ensure "a".toList, .add_row, .set 0 "a".toList "1".toList,
          .set 0 "b".toList "2".toList, .add_row, .ensure "a".toList]
        = ⟨["a".toList, "b".toList], [["1".toList, "2".toList], [[], []]]⟩
      ∧ (DataConvert.table_run DataConvert.Table.empty
          [.ensure "a".toList, .add_row, .set 0 "a".toList "1".toList,
            .set 0 "b".toList "2".toList, .add_row, .ensure "a".toList]).headers.Nodup
      ∧ ∀ r ∈ (DataConvert.table_run DataConvert.Table.empty
          [.ensure "a".toList, .add_row, .set 0 "a".toList "1".toList,
            .set 0 "b".toList "2".toList, .add_row, .ensure "a".toList]).rows,
          r.length = (DataConvert.table_run DataConvert.Table.empty
            [.ensure "a".toList, .add_row, .set 0 "a".toList "1".toList,
              .set 0 "b".toList "2".toList, .add_row, .ensure "a".toList]).headers.length :=
  ⟨by decide,
    c27_table_well_formed
      [.ensure "a".toList, .add_row, .set 0 "a".toList "1".toList,
        .set 0 "b".toList "2".toList, .add_row, .ensure "a".toList]
      ⟨by decide, by decide, trivial⟩⟩

/-- C28: `ensure_col` twice with the same name gives the table of `ensure_col` once, and
`ensure_col` with the name of a column of the table gives the table itself. -/
theorem c28_ensure_col_idempotent (t : DataConvert.Table) (k : DataConvert.Str) :
    DataConvert.ensure_col (DataConvert.ensure_col t k) k = DataConvert.ensure_col t k
      ∧ (k ∈ t.headers → DataConvert.ensure_col t k = t) :=
  ⟨DataConvert.ensure_col_present _ k (DataConvert.ensure_col_mem t k),
    DataConvert.ensure_col_present t k⟩

/-- C28 at a table of two columns and one row, with the name of its second column. -/
theorem c28_ensure_col_idempotent_witness :
    DataConvert.ensure_col ⟨["a".toList, "b".toList], [["1".toList, "2".toList]]⟩ "b".toList
      = ⟨["a".toList, "b".toList], [["1".toList, "2".toList]]⟩ :=
  (c28_ensure_col_idempotent ⟨["a".toList, "b".toList], [["1".toList, "2".toList]]⟩
    "b".toList).2 (by decide)

/-- C29: for a well-formed table and a name that is no column of it, `ensure_col` appends
the name as the last column and the empty string as the last cell of every row, and leaves
the row count and the cells of the other columns as they are. -/
theorem c29_ensure_col_backfill (t : DataConvert.Table) (k : DataConvert.Str)
    (hwf : DataConvert.Table.WellFormed t) (hk : k ∉ t.headers) :
    (DataConvert.ensure_col t k).headers = t.headers ++ [k]
      ∧ (DataConvert.ensure_col t k).rows = t.rows.map (fun r => r ++ [[]])
      ∧ (DataConvert.ensure_col t k).rows.length = t.rows.length
      ∧ (∀ r, r < t.rows.length →
          DataConvert.table_get (DataConvert.ensure_col t k) r t.headers.length = some [])
      ∧ ∀ r c, c < t.headers.length →
          DataConvert.table_get (DataConvert.ensure_col t k) r c = DataConvert.table_get t r c := by
  refine ⟨?_, ?_, DataConvert.ensure_col_rows_length t k,
    fun r hr => DataConvert.table_get_ensure_col_new t k hwf hk r hr,
    fun r c hc => DataConvert.table_get_ensure_col t k hwf r c hc⟩
  · rw [DataConvert.ensure_col_absent t k hk]
  · rw [DataConvert.ensure_col_absent t k hk]

/-- C29 at a table of two columns and two rows, with a new name. -/
theorem c29_ensure_col_backfill_witness :
    DataConvert.ensure_col
        ⟨["a".toList, "b".toList], [["1".toList, "2".toList], ["3".toList, "4".toList]]⟩
        "c".toList
      = ⟨["a".toList, "b".toList, "c".toList],
          [["1".toList, "2".toList, []], ["3".toList, "4".toList, []]]⟩
      ∧ ∀ r c, c < 2 →
          DataConvert.table_get (DataConvert.ensure_col
            ⟨["a".toList, "b".toList], [["1".toList, "2".toList], ["3".toList, "4".toList]]⟩
            "c".toList) r c
          = DataConvert.table_get
            ⟨["a".toList, "b".toList], [["1".toList, "2".toList], ["3".toList, "4".toList]]⟩
            r c :=
  ⟨by decide,
    (c29_ensure_col_backfill
      ⟨["a".toList, "b".toList], [["1".toList, "2".toList], ["3".toList, "4".toList]]⟩
      "c".toList (by decide) (by decide)).2.2.2.2⟩

/-- C30: for a well-formed table and the index of one of its rows, `table_set` leaves the
table with the column names of `ensure_col`, that is its own when the name is among them and
its own with the name behind them otherwise, and with the same row count; the cell of the
row in the column of the name holds the value, and every other cell of a column that the
table had holds what it held. A row of `table_add_row` has the previous row count as its
index and the empty string in every column, and the other rows are as they were. -/
theorem c30_table_set_frame (t : DataConvert.Table) (row : Nat) (k v : DataConvert.Str)
    (hwf : DataConvert.Table.WellFormed t) (hrow : row < t.rows.length) :
    (∃ idx, DataConvert.find_header (DataConvert.table_set t row k v) k = some idx
        ∧ (DataConvert.table_set t row k v).headers
          = (if k ∈ t.headers then t.headers else t.headers ++ [k])
        ∧ (DataConvert.table_set t row k v).rows.length = t.rows.length
        ∧ DataConvert.table_get (DataConvert.table_set t row k v) row idx = some v
        ∧ (∀ r c, c < t.headers.length → (r ≠ row ∨ c ≠ idx) →
            DataConvert.table_get (DataConvert.table_set t row k v) r c
              = DataConvert.table_get t r c)
        ∧ (k ∉ t.headers → idx = t.headers.length ∧ ∀ r, r < t.rows.length → r ≠ row →
            DataConvert.table_get (DataConvert.table_set t row k v) r idx = some []))
      ∧ (DataConvert.table_add_row t).2 = t.rows.length
      ∧ (DataConvert.table_add_row t).1.headers = t.headers
      ∧ (DataConvert.table_add_row t).1.rows.length = t.rows.length + 1
      ∧ (∀ c, c < t.headers.length →
          DataConvert.table_get (DataConvert.table_add_row t).1 t.rows.length c = some [])
      ∧ ∀ r c, r < t.rows.length →
          DataConvert.table_get (DataConvert.table_add_row t).1 r c
            = DataConvert.table_get t r c := by
  refine ⟨?_, rfl, rfl, by simp [DataConvert.table_add_row], ?_, ?_⟩
  · obtain ⟨idx, h1, h2, h3, h4, h5, h6⟩ := DataConvert.table_get_set t row k v hwf hrow
    refine ⟨idx, h1, ?_, h4, h5, ?_, ?_⟩
    · rw [h3]
      by_cases hk : k ∈ t.headers
      · rw [if_pos hk, DataConvert.ensure_col_present t k hk]
      · rw [if_neg hk, DataConvert.ensure_col_absent t k hk]
    · intro r c hc hne
      rw [h6 r c hne]
      exact DataConvert.table_get_ensure_col t k hwf r c hc
    · intro hk
      have hidx : idx = t.headers.length := by
        have hf := DataConvert.find_header_from_snoc hk 0
        have h7 : DataConvert.find_header (DataConvert.table_set t row k v) k
            = DataConvert.find_header_from (t.headers ++ [k]) k 0 := by
          unfold DataConvert.find_header
          rw [h3, DataConvert.ensure_col_absent t k hk]
        rw [h7, hf] at h1
        simp only [Option.some.injEq] at h1
        omega
      refine ⟨hidx, ?_⟩
      intro r hr hne
      rw [h6 r idx (Or.inl hne), hidx]
      exact DataConvert.table_get_ensure_col_new t k hwf hk r hr
  · intro c hc
    unfold DataConvert.table_get DataConvert.table_add_row
    simp only [List.get?_eq_getElem?]
    rw [List.getElem?_append_right (le_refl _)]
    simp [hc]
  · intro r c hr
    unfold DataConvert.table_get DataConvert.table_add_row
    simp only [List.get?_eq_getElem?]
    rw [List.getElem?_append_left hr]

/-- C30 at a table of two columns and two rows: a value for a new column in the second
row. -/
theorem c30_table_set_frame_witness :
    DataConvert.table_set
        ⟨["a".toList, "b".toList], [["1".toList, "2".toList], ["3".toList, "4".toList]]⟩ 1
        "c".toList "5".toList
      = ⟨["a".toList, "b".toList, "c".toList],
          [["1".toList, "2".toList, []], ["3".toList, "4".toList, "5".toList]]⟩
      ∧ ∃ idx, DataConvert.find_header (DataConvert.table_set
            ⟨["a".toList, "b".toList], [["1".toList, "2".toList], ["3".toList, "4".toList]]⟩ 1
            "c".toList "5".toList) "c".toList = some idx
          ∧ DataConvert.table_get (DataConvert.table_set
            ⟨["a".toList, "b".toList], [["1".toList, "2".toList], ["3".toList, "4".toList]]⟩ 1
            "c".toList "5".toList) 1 idx = some "5".toList :=
  ⟨by decide,
    (c30_table_set_frame
      ⟨["a".toList, "b".toList], [["1".toList, "2".toList], ["3".toList, "4".toList]]⟩ 1
      "c".toList "5".toList (by decide) (by decide)).1.imp
      (fun _ h => ⟨h.1, h.2.2.2.1⟩)⟩

namespace Conversion

open DataConvert (Str)

/-! ### The path finder on every registry -/

/-- The loop of `build_nodes` on every registry: the names of the nodes are distinct and are
tags of the registry. -/
theorem build_nodes_loop_names (max_nodes : Nat) (tags : List Str) :
    ∀ (cs : List Converter) (nodes : List Node),
    (nodes.map Node.name).Nodup → (∀ t ∈ nodes.map Node.name, t ∈ tags) →
    (∀ c ∈ cs, c.from_format ∈ tags ∧ c.to_format ∈ tags) →
    ((build_nodes_loop max_nodes cs nodes).map Node.name).Nodup
      ∧ ∀ t ∈ (build_nodes_loop max_nodes cs nodes).map Node.name, t ∈ tags := by
  intro cs
  induction cs with
  | nil => intro nodes hn hs _; exact ⟨hn, hs⟩
  | cons c cs ih =>
    intro nodes hn hs hc
    have hct := hc c (List.mem_cons_self _ _)
    have h1 := add_node_spec max_nodes nodes c.from_format tags hn hs hct.1
    have h2 := add_node_spec max_nodes (add_node max_nodes nodes c.from_format) c.to_format tags
      h1.1 h1.2.1 hct.2
    simp only [build_nodes_loop]
    exact ih _ h2.1 h2.2.1 (fun x hx => hc x (List.mem_cons_of_mem _ hx))

/-- The nodes of `build_nodes` on every registry. -/
theorem build_nodes_names (reg : List Converter) :
    ((build_nodes reg 64).map Node.name).Nodup
      ∧ (build_nodes reg 64).length ≤ 64
      ∧ (∀ nd ∈ build_nodes reg 64, nd.seen = false)
      ∧ ∀ t ∈ (build_nodes reg 64).map Node.name, t ∈ registry_tags reg := by
  have h := build_nodes_loop_names 64 (registry_tags reg) reg [] (by simp) (by simp)
    (registry_tags_mem reg)
  have h2 := build_nodes_loop_fresh 64 reg [] (by simp) (by simp)
  exact ⟨h.1, h2.2, fun nd hnd => (h2.1 nd hnd).1, h.2⟩

/-- The state in which the search of `find_path` ends, and the result in terms of it. -/
theorem find_path_search (reg : List Converter) (from_format to_format : Str)
    (start goal : Nat) (hstart : format_index (build_nodes reg 64) from_format = some start)
    (hgoal : format_index (build_nodes reg 64) to_format = some goal) :
    ∃ (nodes : List Node) (q : List Nat) (d : Nat → Nat),
      SearchInv reg to_format ((build_nodes reg 64).map Node.name) start nodes q d
      ∧ (∀ x ∈ q, EdgesClosed to_format ((build_nodes reg 64).map Node.name) q d x reg
          ∨ (goal ∈ q ∧ d goal ≤ d x))
      ∧ ∀ max_steps, find_path reg from_format to_format max_steps
          = if (nodes.getD goal Node.zero).seen = true then
              match back_loop nodes start 64 goal with
              | none => none
              | some tmp =>
                if tmp.length = 0 ∨ max_steps < tmp.length then none else some tmp.reverse
            else none := by
  obtain ⟨hnn, hlen, hfresh, _⟩ := build_nodes_names reg
  have hs := format_index_some _ _ _ hstart
  have hlen2 : ((build_nodes reg 64).map Node.name).length ≤ 64 := by simpa using hlen
  have hi0 := search_start reg to_format start hfresh hs.1
  obtain ⟨d, hi, hdone⟩ := search_loop_inv reg to_format ((build_nodes reg 64).map Node.name)
    start goal hnn hlen2 64
    ⟨(build_nodes reg 64).set start
        ⟨((build_nodes reg 64).getD start Node.zero).name,
          ((build_nodes reg 64).getD start Node.zero).prev,
          ((build_nodes reg 64).getD start Node.zero).prev_converter, true⟩, [start], 0⟩
    (fun _ => 0) (by simpa using hlen) hi0 (by simp) (by simp) (by simp)
  refine ⟨_, _, d, hi, hdone, ?_⟩
  intro max_steps
  unfold find_path
  rw [hstart, hgoal]

/-- What `find_path` returns is a walk of the registry from the source to the target that
enters the storage format only with its last edge; it has an edge and at most `max_steps`
of them. -/
theorem find_path_sound (reg : List Converter) (from_format to_format : Str) (max_steps : Nat)
    (path : List Nat) (h : find_path reg from_format to_format max_steps = some path) :
    walk_ok reg from_format to_format path ∧ path ≠ [] ∧ path.length ≤ max_steps := by
  cases hstart : format_index (build_nodes reg 64) from_format with
  | none =>
    unfold find_path at h
    rw [hstart] at h
    simp at h
  | some start =>
    cases hgoal : format_index (build_nodes reg 64) to_format with
    | none =>
      unfold find_path at h
      rw [hstart, hgoal] at h
      simp at h
    | some goal =>
      obtain ⟨nodes, q, d, hi, _, hres⟩ := find_path_search reg from_format to_format start goal
        hstart hgoal
      obtain ⟨hnn, hlen, _, _⟩ := build_nodes_names reg
      have hs := format_index_some _ _ _ hstart
      have hg := format_index_some _ _ _ hgoal
      have hgl : goal < ((build_nodes reg 64).map Node.name).length := by simpa using hg.1
      rw [hres max_steps] at h
      by_cases hseen : (nodes.getD goal Node.zero).seen = true
      swap
      · rw [if_neg hseen] at h
        cases h
      rw [if_pos hseen] at h
      have hgq := (hi.seen_iff goal hgl).1 hseen
      have hq := (queue_full _ _ hi.nodup hi.lt).1
      have hdl := hi.d_lt goal hgq
      have hlen2 : ((build_nodes reg 64).map Node.name).length ≤ 64 := by simpa using hlen
      obtain ⟨l, k1, k2, k3⟩ := back_loop_spec reg to_format
        ((build_nodes reg 64).map Node.name) start goal nodes q d hnn hi hgl hg.2 64 goal hgq
        (by omega) (le_refl _)
      rw [k1] at h
      simp only at h
      by_cases hc : l.length = 0 ∨ max_steps < l.length
      · rw [if_pos hc] at h
        cases h
      · rw [if_neg hc] at h
        simp only [Option.some.injEq] at h
        subst h
        rw [hs.2, hg.2] at k3
        refine ⟨k3, ?_, ?_⟩
        · intro e
          apply hc
          left
          simpa using e
        · rw [List.length_reverse]
          omega

/-- A source or a target that is no tag of the registry has no path. -/
theorem find_path_no_tag (reg : List Converter) (from_format to_format : Str) (max_steps : Nat)
    (h : from_format ∉ registry_tags reg ∨ to_format ∉ registry_tags reg) :
    find_path reg from_format to_format max_steps = none := by
  cases hp : find_path reg from_format to_format max_steps with
  | none => rfl
  | some path =>
    exfalso
    obtain ⟨hw, hne, _⟩ := find_path_sound reg from_format to_format max_steps path hp
    rcases h with h | h
    · cases path with
      | nil => exact hne rfl
      | cons cid rest =>
        obtain ⟨c, hget, hf, _, _⟩ := hw
        apply h
        rw [← hf]
        exact (registry_tags_mem reg c (List.get?_mem hget)).1
    · obtain ⟨c, hc, e⟩ := walk_target reg path from_format to_format hw hne
      apply h
      rw [← e]
      exact (registry_tags_mem reg c hc).2

/-- From a tag to itself `find_path` returns no path. -/
theorem find_path_self (reg : List Converter) (x : Str) (max_steps : Nat) :
    find_path reg x x max_steps = none := by
  cases hstart : format_index (build_nodes reg 64) x with
  | none =>
    unfold find_path
    rw [hstart]
  | some start =>
    obtain ⟨nodes, q, d, _, _, hres⟩ := find_path_search reg x x start start hstart hstart
    rw [hres max_steps]
    have e : back_loop nodes start 64 start = some [] := by
      simp [back_loop]
    rw [e]
    simp

/-- The edges of a walk, with their place in it. -/
theorem walk_hops (reg : List Converter) : ∀ (path : List Nat) (a b : Str),
    walk_ok reg a b path → ∀ k, k < path.length →
      ∃ c, reg.get? (path.getD k 0) = some c
        ∧ (k + 1 < path.length → c.to_format ≠ "postgresql".toList)
        ∧ (k + 1 = path.length → c.to_format = b) := by
  intro path
  induction path with
  | nil => intro a b _ k hk; simp at hk
  | cons cid rest ih =>
    intro a b hw k hk
    obtain ⟨c, hget, _, hsink, hrest⟩ := hw
    cases k with
    | zero =>
      refine ⟨c, by simpa using hget, ?_, ?_⟩
      · intro h1
        apply hsink
        intro e
        rw [e] at h1
        simp at h1
      · intro h1
        have e : rest = [] := by
          simp only [List.length_cons] at h1
          exact List.length_eq_zero.1 (by omega)
        rw [e] at hrest
        exact hrest
    | succ k =>
      have hk2 : k < rest.length := by simpa using hk
      obtain ⟨c2, h1, h2, h3⟩ := ih c.to_format b hrest k hk2
      refine ⟨c2, by simpa using h1, ?_, ?_⟩
      · intro h4
        apply h2
        simp only [List.length_cons] at h4
        omega
      · intro h4
        apply h3
        simp only [List.length_cons] at h4
        omega

/-! ### The direct lookup -/

theorem find_converter_loop_some (f t : Str) : ∀ (cs : List Converter) (i k : Nat),
    find_converter_loop f t i cs = some k ↔
      ∃ j c, k = i + j ∧ cs.get? j = some c ∧ c.from_format = f ∧ c.to_format = t
        ∧ ∀ j2 c2, j2 < j → cs.get? j2 = some c2 →
            ¬ (c2.from_format = f ∧ c2.to_format = t) := by
  intro cs
  induction cs with
  | nil =>
    intro i k
    simp [find_converter_loop]
  | cons c cs ih =>
    intro i k
    by_cases hc : c.from_format = f ∧ c.to_format = t
    · simp only [find_converter_loop, if_pos hc, Option.some.injEq]
      constructor
      · intro e
        refine ⟨0, c, by omega, rfl, hc.1, hc.2, ?_⟩
        intro j2 c2 hj
        omega
      · rintro ⟨j, c1, e, hget, hf, ht, hfirst⟩
        cases j with
        | zero => omega
        | succ j => exact absurd hc (hfirst 0 c (by omega) rfl)
    · simp only [find_converter_loop, if_neg hc]
      rw [ih (i + 1) k]
      constructor
      · rintro ⟨j, c1, e, hget, hf, ht, hfirst⟩
        refine ⟨j + 1, c1, by omega, by simpa using hget, hf, ht, ?_⟩
        intro j2 c2 hj hget2
        cases j2 with
        | zero =>
          have e2 : c2 = c := by simpa using hget2.symm
          rw [e2]
          exact hc
        | succ j2 => exact hfirst j2 c2 (by omega) (by simpa using hget2)
      · rintro ⟨j, c1, e, hget, hf, ht, hfirst⟩
        cases j with
        | zero =>
          have e2 : c1 = c := by simpa using hget.symm
          rw [e2] at hf ht
          exact absurd ⟨hf, ht⟩ hc
        | succ j =>
          refine ⟨j, c1, by omega, by simpa using hget, hf, ht, ?_⟩
          intro j2 c2 hj hget2
          exact hfirst (j2 + 1) c2 (by omega) (by simpa using hget2)

/-- The index that `find_converter` returns is that of the first edge of the registry from
the one format to the other. -/
theorem find_converter_some (reg : List Converter) (f t : Str) (k : Nat) :
    find_converter reg (some f) (some t) = some k ↔
      ∃ c, reg.get? k = some c ∧ c.from_format = f ∧ c.to_format = t
        ∧ ∀ k2 c2, k2 < k → reg.get? k2 = some c2 →
            ¬ (c2.from_format = f ∧ c2.to_format = t) := by
  unfold find_converter
  simp only
  rw [find_converter_loop_some]
  constructor
  · rintro ⟨j, c, e, h⟩
    have e2 : j = k := by omega
    subst e2
    exact ⟨c, h⟩
  · rintro ⟨c, h⟩
    exact ⟨k, c, by omega, h⟩

theorem back_loop_step (nodes : List Node) (start n cur u cid : Nat) (hne : cur ≠ start)
    (h1 : (nodes.getD cur Node.zero).prev = some u)
    (h2 : (nodes.getD cur Node.zero).prev_converter = some cid) :
    back_loop nodes start (n + 1) cur = (back_loop nodes start n u).map (fun l => cid :: l) := by
  simp only [back_loop, if_neg hne, h1, h2]

/-- A path of one edge is the first edge of the registry from the source to the target. -/
theorem find_path_one (reg : List Converter) (from_format to_format : Str) (max_steps : Nat)
    (cid : Nat) (h : find_path reg from_format to_format max_steps = some [cid]) :
    find_converter reg (some from_format) (some to_format) = some cid := by
  cases hstart : format_index (build_nodes reg 64) from_format with
  | none =>
    unfold find_path at h
    rw [hstart] at h
    simp at h
  | some start =>
    cases hgoal : format_index (build_nodes reg 64) to_format with
    | none =>
      unfold find_path at h
      rw [hstart, hgoal] at h
      simp at h
    | some goal =>
      obtain ⟨nodes, q, d, hi, _, hres⟩ := find_path_search reg from_format to_format start goal
        hstart hgoal
      obtain ⟨hnn, hlen, _, _⟩ := build_nodes_names reg
      have hs := format_index_some _ _ _ hstart
      have hg := format_index_some _ _ _ hgoal
      have hgl : goal < ((build_nodes reg 64).map Node.name).length := by simpa using hg.1
      have hlen2 : ((build_nodes reg 64).map Node.name).length ≤ 64 := by simpa using hlen
      rw [hres max_steps] at h
      by_cases hseen : (nodes.getD goal Node.zero).seen = true
      swap
      · rw [if_neg hseen] at h
        cases h
      rw [if_pos hseen] at h
      have hgq := (hi.seen_iff goal hgl).1 hseen
      have hq := (queue_full _ _ hi.nodup hi.lt).1
      have hdl := hi.d_lt goal hgq
      obtain ⟨l, k1, k2, _⟩ := back_loop_spec reg to_format
        ((build_nodes reg 64).map Node.name) start goal nodes q d hnn hi hgl hg.2 64 goal hgq
        (by omega) (le_refl _)
      rw [k1] at h
      simp only at h
      have hl : l = [cid] := by
        by_cases hc : l.length = 0 ∨ max_steps < l.length
        · rw [if_pos hc] at h
          cases h
        · rw [if_neg hc] at h
          simp only [Option.some.injEq] at h
          have := congrArg List.reverse h
          simpa using this
      rw [hl] at k2
      simp only [List.length_cons, List.length_nil] at k2
      have hgs : goal ≠ start := by
        intro e
        rw [e, hi.d_start] at k2
        omega
      obtain ⟨u, cid2, c, h1, h2, h3, h4, h5, h6, _, h8⟩ := hi.tree goal hgq hgs
      have hu : u = start :=
        search_d_pos reg to_format _ start nodes q d hi u h3 (by omega)
      have hcid : cid2 = cid := by
        have e : back_loop nodes start 64 goal
            = (back_loop nodes start 63 u).map (fun l => cid2 :: l) :=
          back_loop_step nodes start 63 goal u cid2 hgs h1 h2
        rw [e, hl] at k1
        cases hb : back_loop nodes start 63 u with
        | none =>
          rw [hb] at k1
          simp at k1
        | some lu =>
          rw [hb] at k1
          simp only [Option.map_some', Option.some.injEq, List.cons.injEq] at k1
          exact k1.1
      subst hcid
      rw [find_converter_some]
      rw [hu, hs.2] at h5
      rw [hg.2] at h6
      refine ⟨c, h4, h5, h6, ?_⟩
      rintro k2 c2 hlt hget ⟨hf, ht⟩
      refine hi.first goal hgq hgs u cid2 h1 h2 k2 c2 hlt hget ?_ ?_
      · rw [hu, hs.2]
        exact hf
      · rw [hg.2]
        exact ht

/-- On a registry of at most 64 tags without an edge from a format to itself, `find_path`
returns a path of one edge just when `find_converter` finds an edge, and the edge is the
same. -/
theorem find_path_direct (reg : List Converter)
    (hcap : (registry_tags reg).dedup.length ≤ 64)
    (hself : ∀ c ∈ reg, c.from_format ≠ c.to_format) (from_format to_format : Str)
    (max_steps : Nat) (hm : 1 ≤ max_steps) (cid : Nat) :
    find_path reg from_format to_format max_steps = some [cid]
      ↔ find_converter reg (some from_format) (some to_format) = some cid := by
  constructor
  · exact find_path_one reg from_format to_format max_steps cid
  · intro h
    have h0 := h
    rw [find_converter_some] at h
    obtain ⟨c, hget, hf, ht, _⟩ := h
    have hne : from_format ≠ to_format := by
      rw [← hf, ← ht]
      exact hself c (List.get?_mem hget)
    have hw : walk_ok reg from_format to_format [cid] := ⟨c, hget, hf, by simp, ht⟩
    obtain ⟨path, hp, hpw, hmin⟩ := find_path_shortest reg from_format to_format max_steps [cid]
      hcap hne hw (by simpa using hm)
    have hlen := hmin [cid] hw
    have hne2 := (find_path_sound reg from_format to_format max_steps path hp).2.1
    match path, hp, hlen, hne2 with
    | [], _, _, hne2 => exact absurd rfl hne2
    | [x], hp, _, _ =>
      have := find_path_one reg from_format to_format max_steps x hp
      rw [h0] at this
      simp only [Option.some.injEq] at this
      rw [this]
      exact hp
    | _ :: _ :: _, _, hlen, _ =>
      simp only [List.length_cons, List.length_nil] at hlen
      omega

end Conversion

namespace Conversion

open DataConvert (Str)

/-! ### The executor -/

theorem invocations_append (a b : List Event) :
    invocations (a ++ b) = invocations a ++ invocations b := by
  simp [invocations, List.filterMap_append]

theorem invocations_unlinks (ps : List Str) : invocations (ps.map Event.unlink) = [] := by
  induction ps with
  | nil => rfl
  | cons p ps ih =>
    simp only [invocations, List.map_cons, List.filterMap_cons] at ih ⊢
    exact ih

theorem cleanup_log : ∀ (temp_paths : List Str) (w : World),
    (cleanup temp_paths w).log = w.log ++ temp_paths.map Event.unlink := by
  intro temp_paths
  induction temp_paths with
  | nil => intro w; simp [cleanup]
  | cons p ps ih =>
    intro w
    simp only [cleanup, ih, unlink, List.map_cons, List.append_assoc, List.singleton_append]

theorem cleanup_mem : ∀ (temp_paths : List Str) (w : World) (p : Str),
    p ∈ (cleanup temp_paths w).files ↔ p ∈ w.files ∧ p ∉ temp_paths := by
  intro temp_paths
  induction temp_paths with
  | nil => intro w p; simp [cleanup]
  | cons x ps ih =>
    intro w p
    simp only [cleanup, ih, unlink, List.mem_filter, List.mem_cons, not_or, decide_eq_true_eq]
    tauto

/-- The log and the files behind `make_temp_with_ext`: the log has one entry for the call,
behind those of the calls of `unlink` made in it; when it returns none, the file that
`mkstemp` has created is gone. -/
theorem make_temp_with_ext_log (sys : Sys) (ext : Option Str) (w : World) :
    ∃ (tmpl : Option Str) (pre : List Str),
      (make_temp_with_ext sys ext w).2.log
        = w.log ++ (pre.map Event.unlink
            ++ [.make_temp_with_ext ext tmpl (make_temp_with_ext sys ext w).1])
      ∧ ((make_temp_with_ext sys ext w).1 = none →
          ∀ t, tmpl = some t → t ∉ (make_temp_with_ext sys ext w).2.files) := by
  unfold make_temp_with_ext
  cases hm : sys.mkstemp w with
  | none =>
    refine ⟨none, [], by simp [World.emit], ?_⟩
    intro _ t ht
    cases ht
  | some tmpl =>
    simp only
    split_ifs with h1 h2
    · refine ⟨some tmpl, [tmpl], by simp [World.emit, unlink], ?_⟩
      intro _ t ht
      simp only [Option.some.injEq] at ht
      subst ht
      simp [World.emit, unlink]
    · refine ⟨some tmpl, [tmpl], by simp [World.emit, unlink], ?_⟩
      intro _ t ht
      simp only [Option.some.injEq] at ht
      subst ht
      simp [World.emit, unlink]
    · refine ⟨some tmpl, [], by simp [World.emit], ?_⟩
      intro h
      cases h

theorem execute_converter_log (sys : Sys) (a b c : Option Str) (w : World) :
    (execute_converter sys a b c w).2.log
      = w.log ++ [.execute_converter a b c (execute_converter sys a b c w).1] := rfl

/-! ### The steps of the loop over the hops -/

theorem pipeline_loop_last (sys : Sys) (reg : List Converter) (output_path : Option Str)
    (cid : Nat) (current_input : Option Str) (temp_paths : List Str) (w : World) :
    pipeline_loop sys reg output_path [cid] current_input temp_paths w
      = if (execute_converter sys (some (converter_at reg cid).converter_path) current_input
            output_path w).1 ≠ 0 then
          (ERR_CONVERSION_FAILED, cleanup temp_paths
            ((execute_converter sys (some (converter_at reg cid).converter_path) current_input
              output_path w).2.emit
              (.print (.converter_failed
                (execute_converter sys (some (converter_at reg cid).converter_path)
                  current_input output_path w).1))))
        else
          (SUCCESS, cleanup temp_paths
            (execute_converter sys (some (converter_at reg cid).converter_path) current_input
              output_path w).2) := by
  simp only [pipeline_loop, if_true]

theorem pipeline_loop_storage (sys : Sys) (reg : List Converter) (output_path : Option Str)
    (cid : Nat) (rest : List Nat) (current_input : Option Str) (temp_paths : List Str)
    (w : World) (hrest : ¬ rest = [])
    (hst : is_storage_format (converter_at reg cid).to_format = true) :
    pipeline_loop sys reg output_path (cid :: rest) current_input temp_paths w
      = (ERR_CONVERSION_FAILED,
          cleanup temp_paths
            (w.emit (.print (.storage_target (converter_at reg cid).to_format)))) := by
  rw [pipeline_loop, if_neg hrest, if_pos hst]

theorem pipeline_loop_temp_failed (sys : Sys) (reg : List Converter)
    (output_path : Option Str) (cid : Nat) (rest : List Nat) (current_input : Option Str)
    (temp_paths : List Str) (w : World) (hrest : ¬ rest = [])
    (hst : ¬ is_storage_format (converter_at reg cid).to_format = true) (w1 : World)
    (hmk : make_temp_with_ext sys (some (converter_at reg cid).to_format) w = (none, w1)) :
    pipeline_loop sys reg output_path (cid :: rest) current_input temp_paths w
      = (ERR_CONVERSION_FAILED, cleanup temp_paths (w1.emit (.print .temp_failed))) := by
  rw [pipeline_loop, if_neg hrest, if_neg hst, hmk]

theorem pipeline_loop_hop (sys : Sys) (reg : List Converter) (output_path : Option Str)
    (cid : Nat) (rest : List Nat) (current_input : Option Str) (temp_paths : List Str)
    (w : World) (hrest : ¬ rest = [])
    (hst : ¬ is_storage_format (converter_at reg cid).to_format = true) (tmp : Str)
    (w1 : World)
    (hmk : make_temp_with_ext sys (some (converter_at reg cid).to_format) w = (some tmp, w1)) :
    pipeline_loop sys reg output_path (cid :: rest) current_input temp_paths w
      = if (execute_converter sys (some (converter_at reg cid).converter_path) current_input
            (some tmp) w1).1 ≠ 0 then
          (ERR_CONVERSION_FAILED, cleanup (temp_paths ++ [tmp])
            ((execute_converter sys (some (converter_at reg cid).converter_path) current_input
              (some tmp) w1).2.emit
              (.print (.converter_failed
                (execute_converter sys (some (converter_at reg cid).converter_path)
                  current_input (some tmp) w1).1))))
        else
          pipeline_loop sys reg output_path rest (some tmp) (temp_paths ++ [tmp])
            (execute_converter sys (some (converter_at reg cid).converter_path) current_input
              (some tmp) w1).2 := by
  rw [pipeline_loop, if_neg hrest, if_neg hst, hmk]

end Conversion

namespace Conversion

open DataConvert (Str)

theorem converter_at_get (reg : List Converter) (cid : Nat) (c : Converter)
    (h : reg.get? cid = some c) : converter_at reg cid = c := by
  unfold converter_at
  rw [List.getD_eq_getElem?_getD, ← List.get?_eq_getElem?, h]
  rfl

/-- On a walk the loop over the hops does not come to the message about a storage
target. -/
theorem pipeline_loop_no_storage (sys : Sys) (reg : List Converter)
    (output_path : Option Str) :
    ∀ (ids : List Nat) (current_input : Option Str) (temp_paths : List Str) (w : World),
    ∀ a b, walk_ok reg a b ids →
      ∃ new, (pipeline_loop sys reg output_path ids current_input temp_paths w).2.log
          = w.log ++ new
        ∧ ∀ e ∈ new, ∀ fmt, e ≠ .print (.storage_target fmt) := by
  refine pipeline_loop.induct sys reg output_path
    (fun ids current_input temp_paths w => ∀ a b, walk_ok reg a b ids →
      ∃ new, (pipeline_loop sys reg output_path ids current_input temp_paths w).2.log
          = w.log ++ new
        ∧ ∀ e ∈ new, ∀ fmt, e ≠ .print (.storage_target fmt)) ?_ ?_ ?_ ?_ ?_ ?_ ?_
  · intro cur temps w a b _
    rw [pipeline_loop]
    refine ⟨temps.map Event.unlink, cleanup_log _ _, ?_⟩
    intro e he fmt hfmt
    subst hfmt
    simp at he
  · intro cid cur temps w hrc a b _
    rw [pipeline_loop_last, if_pos hrc]
    refine ⟨_, by
      simp only [cleanup_log, World.emit, execute_converter_log, List.append_assoc]
      rfl, ?_⟩
    intro e he fmt hfmt
    subst hfmt
    simp at he
  · intro cid cur temps w hrc _ a b _
    rw [pipeline_loop_last, if_neg hrc]
    refine ⟨_, by
      simp only [cleanup_log, World.emit, execute_converter_log, List.append_assoc]
      rfl, ?_⟩
    intro e he fmt hfmt
    subst hfmt
    simp at he
  · intro cid rest cur temps w hrest hst a b hw
    exfalso
    obtain ⟨c, hget, _, hsink, _⟩ := hw
    rw [converter_at_get reg cid c hget] at hst
    apply hsink hrest
    simpa [is_storage_format] using hst
  · intro cid rest cur temps w hrest hst w1 hmk a b _
    rw [pipeline_loop_temp_failed sys reg output_path cid rest cur temps w hrest hst w1 hmk]
    obtain ⟨tmpl, pre, hlog, _⟩ :=
      make_temp_with_ext_log sys (some (converter_at reg cid).to_format) w
    rw [hmk] at hlog
    simp only at hlog
    refine ⟨_, by
      simp only [cleanup_log, World.emit, hlog, List.append_assoc]
      rfl, ?_⟩
    intro e he fmt hfmt
    subst hfmt
    simp at he
  · intro cid rest cur temps w hrest hst tmp w1 hmk hrc a b _
    rw [pipeline_loop_hop sys reg output_path cid rest cur temps w hrest hst tmp w1 hmk,
      if_pos hrc]
    obtain ⟨tmpl, pre, hlog, _⟩ :=
      make_temp_with_ext_log sys (some (converter_at reg cid).to_format) w
    rw [hmk] at hlog
    simp only at hlog
    refine ⟨_, by
      simp only [cleanup_log, World.emit, execute_converter_log, hlog, List.append_assoc]
      rfl, ?_⟩
    intro e he fmt hfmt
    subst hfmt
    simp at he
  · intro cid rest cur temps w hrest hst tmp w1 hmk hrc ih a b hw
    rw [pipeline_loop_hop sys reg output_path cid rest cur temps w hrest hst tmp w1 hmk,
      if_neg hrc]
    obtain ⟨tmpl, pre, hlog, _⟩ :=
      make_temp_with_ext_log sys (some (converter_at reg cid).to_format) w
    rw [hmk] at hlog
    simp only at hlog
    obtain ⟨c, _, _, _, hw2⟩ := hw
    obtain ⟨new, h1, h2⟩ := ih c.to_format b hw2
    refine ⟨_, by
      rw [h1]
      simp only [execute_converter_log, hlog, List.append_assoc]
      rfl, ?_⟩
    intro e he fmt hfmt
    subst hfmt
    simp only [List.mem_append, List.mem_map, List.mem_cons, List.mem_singleton,
      List.not_mem_nil, or_false] at he
    rcases he with ⟨p, _, hp⟩ | he | he | he
    · cases hp
    · cases he
    · cases he
    · exact h2 _ he fmt rfl

end Conversion

namespace Conversion

open DataConvert (Str)

theorem temp_gone_unlinks (files : List Str) (ps : List Str) :
    ∀ e ∈ ps.map Event.unlink, temp_gone files e := by
  intro e he
  simp only [List.mem_map] at he
  obtain ⟨p, _, hp⟩ := he
  subst hp
  trivial

/-- Behind the loop over the hops no temporary file is left: none of those it was given,
and nothing of what its calls of `make_temp_with_ext` made. -/
theorem pipeline_loop_clean (sys : Sys) (reg : List Converter) (output_path : Option Str) :
    ∀ (ids : List Nat) (current_input : Option Str) (temp_paths : List Str) (w : World),
      (∀ p ∈ temp_paths,
        p ∉ (pipeline_loop sys reg output_path ids current_input temp_paths w).2.files)
      ∧ ∃ new, (pipeline_loop sys reg output_path ids current_input temp_paths w).2.log
          = w.log ++ new
        ∧ ∀ e ∈ new, temp_gone
            (pipeline_loop sys reg output_path ids current_input temp_paths w).2.files e := by
  refine pipeline_loop.induct sys reg output_path
    (fun ids current_input temp_paths w =>
      (∀ p ∈ temp_paths,
        p ∉ (pipeline_loop sys reg output_path ids current_input temp_paths w).2.files)
      ∧ ∃ new, (pipeline_loop sys reg output_path ids current_input temp_paths w).2.log
          = w.log ++ new
        ∧ ∀ e ∈ new, temp_gone
            (pipeline_loop sys reg output_path ids current_input temp_paths w).2.files e)
    ?_ ?_ ?_ ?_ ?_ ?_ ?_
  · intro cur temps w
    rw [pipeline_loop]
    refine ⟨fun p hp hm => ((cleanup_mem _ _ p).1 hm).2 hp, temps.map Event.unlink,
      cleanup_log _ _, temp_gone_unlinks _ _⟩
  · intro cid cur temps w hrc
    rw [pipeline_loop_last, if_pos hrc]
    refine ⟨fun p hp hm => ((cleanup_mem _ _ p).1 hm).2 hp, _, by
      simp only [cleanup_log, World.emit, execute_converter_log, List.append_assoc]
      rfl, ?_⟩
    intro e he
    simp only [List.mem_append, List.mem_cons, List.mem_singleton, List.not_mem_nil,
      or_false] at he
    rcases he with he | he | he
    · subst he
      trivial
    · subst he
      trivial
    · exact temp_gone_unlinks _ _ e he
  · intro cid cur temps w hrc _
    rw [pipeline_loop_last, if_neg hrc]
    refine ⟨fun p hp hm => ((cleanup_mem _ _ p).1 hm).2 hp, _, by
      simp only [cleanup_log, World.emit, execute_converter_log, List.append_assoc]
      rfl, ?_⟩
    intro e he
    simp only [List.mem_append, List.mem_cons, List.mem_singleton, List.not_mem_nil,
      or_false] at he
    rcases he with he | he
    · subst he
      trivial
    · exact temp_gone_unlinks _ _ e he
  · intro cid rest cur temps w hrest hst
    rw [pipeline_loop_storage sys reg output_path cid rest cur temps w hrest hst]
    refine ⟨fun p hp hm => ((cleanup_mem _ _ p).1 hm).2 hp, _, by
      simp only [cleanup_log, World.emit, List.append_assoc]
      rfl, ?_⟩
    intro e he
    simp only [List.mem_append, List.mem_cons, List.mem_singleton, List.not_mem_nil,
      or_false] at he
    rcases he with he | he
    · subst he
      trivial
    · exact temp_gone_unlinks _ _ e he
  · intro cid rest cur temps w hrest hst w1 hmk
    rw [pipeline_loop_temp_failed sys reg output_path cid rest cur temps w hrest hst w1 hmk]
    obtain ⟨tmpl, pre, hlog, hgone⟩ :=
      make_temp_with_ext_log sys (some (converter_at reg cid).to_format) w
    rw [hmk] at hlog hgone
    simp only at hlog hgone
    refine ⟨fun p hp hm => ((cleanup_mem _ _ p).1 hm).2 hp, _, by
      simp only [cleanup_log, World.emit, hlog, List.append_assoc]
      rfl, ?_⟩
    intro e he
    simp only [List.mem_append, List.mem_cons, List.mem_singleton, List.not_mem_nil,
      or_false] at he
    rcases he with he | he | he | he
    · exact temp_gone_unlinks _ _ e he
    · subst he
      refine ⟨fun p hp => (by cases hp), fun _ t ht hm => ?_⟩
      exact hgone trivial t ht ((cleanup_mem _ _ t).1 hm).1
    · subst he
      trivial
    · exact temp_gone_unlinks _ _ e he
  · intro cid rest cur temps w hrest hst tmp w1 hmk hrc
    rw [pipeline_loop_hop sys reg output_path cid rest cur temps w hrest hst tmp w1 hmk,
      if_pos hrc]
    obtain ⟨tmpl, pre, hlog, _⟩ :=
      make_temp_with_ext_log sys (some (converter_at reg cid).to_format) w
    rw [hmk] at hlog
    simp only at hlog
    refine ⟨fun p hp hm => ((cleanup_mem _ _ p).1 hm).2 (List.mem_append_left _ hp), _, by
      simp only [cleanup_log, World.emit, execute_converter_log, hlog, List.append_assoc]
      rfl, ?_⟩
    intro e he
    simp only [List.mem_append, List.mem_cons, List.mem_singleton, List.not_mem_nil,
      or_false] at he
    rcases he with he | he | he | he | he
    · exact temp_gone_unlinks _ _ e he
    · subst he
      refine ⟨fun p hp hm => ?_, fun h => (by cases h)⟩
      simp only [Option.some.injEq] at hp
      subst hp
      exact ((cleanup_mem _ _ _).1 hm).2 (by simp)
    · subst he
      trivial
    · subst he
      trivial
    · exact temp_gone_unlinks _ _ e he
  · intro cid rest cur temps w hrest hst tmp w1 hmk hrc ih
    rw [pipeline_loop_hop sys reg output_path cid rest cur temps w hrest hst tmp w1 hmk,
      if_neg hrc]
    obtain ⟨tmpl, pre, hlog, _⟩ :=
      make_temp_with_ext_log sys (some (converter_at reg cid).to_format) w
    rw [hmk] at hlog
    simp only at hlog
    obtain ⟨h0, new, h1, h2⟩ := ih
    refine ⟨fun p hp => h0 p (List.mem_append_left _ hp), _, by
      rw [h1]
      simp only [execute_converter_log, hlog, List.append_assoc]
      rfl, ?_⟩
    intro e he
    simp only [List.mem_append, List.mem_cons, List.mem_singleton, List.not_mem_nil,
      or_false] at he
    rcases he with he | he | he | he
    · exact temp_gone_unlinks _ _ e he
    · subst he
      refine ⟨fun p hp => ?_, fun h => (by cases h)⟩
      simp only [Option.some.injEq] at hp
      subst hp
      exact h0 _ (by simp)
    · subst he
      trivial
    · exact h2 e he

theorem invocations_nil : invocations [] = [] := rfl

theorem invocations_exec (a b c : Option Str) (rc : Int) :
    invocations [.execute_converter a b c rc] = [(a, rc)] := rfl

theorem invocations_print (m : Message) : invocations [.print m] = [] := rfl

theorem invocations_make_temp (a b c : Option Str) :
    invocations [.make_temp_with_ext a b c] = [] := rfl

/-- The calls of `execute_converter` in the loop over the hops: the hops are run in order,
each once, up to the first that fails or cannot be run; the result is `SUCCESS` just when
all were run and none failed. -/
theorem pipeline_loop_invocations (sys : Sys) (reg : List Converter)
    (output_path : Option Str) :
    ∀ (ids : List Nat) (current_input : Option Str) (temp_paths : List Str) (w : World),
      ∃ (new : List Event) (rcs : List Int),
        (pipeline_loop sys reg output_path ids current_input temp_paths w).2.log = w.log ++ new
        ∧ rcs.length ≤ ids.length
        ∧ invocations new
          = ((ids.take rcs.length).map
              (fun cid => some (converter_at reg cid).converter_path)).zip rcs
        ∧ (∀ i, i < rcs.length → rcs.getD i 0 ≠ 0 → rcs.length = i + 1)
        ∧ ((pipeline_loop sys reg output_path ids current_input temp_paths w).1 = SUCCESS
            ↔ rcs.length = ids.length ∧ ∀ rc ∈ rcs, rc = 0)
        ∧ ((pipeline_loop sys reg output_path ids current_input temp_paths w).1 = SUCCESS
            ∨ (pipeline_loop sys reg output_path ids current_input temp_paths w).1
              = ERR_CONVERSION_FAILED) := by
  refine pipeline_loop.induct sys reg output_path
    (fun ids current_input temp_paths w =>
      ∃ (new : List Event) (rcs : List Int),
        (pipeline_loop sys reg output_path ids current_input temp_paths w).2.log = w.log ++ new
        ∧ rcs.length ≤ ids.length
        ∧ invocations new
          = ((ids.take rcs.length).map
              (fun cid => some (converter_at reg cid).converter_path)).zip rcs
        ∧ (∀ i, i < rcs.length → rcs.getD i 0 ≠ 0 → rcs.length = i + 1)
        ∧ ((pipeline_loop sys reg output_path ids current_input temp_paths w).1 = SUCCESS
            ↔ rcs.length = ids.length ∧ ∀ rc ∈ rcs, rc = 0)
        ∧ ((pipeline_loop sys reg output_path ids current_input temp_paths w).1 = SUCCESS
            ∨ (pipeline_loop sys reg output_path ids current_input temp_paths w).1
              = ERR_CONVERSION_FAILED))
    ?_ ?_ ?_ ?_ ?_ ?_ ?_
  · intro cur temps w
    rw [pipeline_loop]
    refine ⟨temps.map Event.unlink, [], cleanup_log _ _, by simp, ?_, ?_, by simp, Or.inl rfl⟩
    · rw [invocations_unlinks]
      rfl
    · intro i hi
      simp at hi
  · intro cid cur temps w hrc
    rw [pipeline_loop_last, if_pos hrc]
    refine ⟨_, [(execute_converter sys (some (converter_at reg cid).converter_path) cur
        output_path w).1], by
      simp only [cleanup_log, World.emit, execute_converter_log, List.append_assoc]
      rfl, by simp, ?_, ?_, ?_, Or.inr rfl⟩
    · simp only [invocations_append, invocations_unlinks, invocations_exec, invocations_print,
        invocations_make_temp, invocations_nil, List.nil_append, List.append_nil]
      simp
    · intro i hi _
      simp only [List.length_cons, List.length_nil] at hi ⊢
      omega
    · simp only [List.length_cons, List.length_nil, List.mem_singleton, forall_eq]
      constructor
      · intro h
        cases h
      · intro h
        exact absurd h.2 hrc
  · intro cid cur temps w hrc _
    rw [pipeline_loop_last, if_neg hrc]
    have hrc0 : (execute_converter sys (some (converter_at reg cid).converter_path) cur
        output_path w).1 = 0 := by
      by_contra h
      exact hrc h
    refine ⟨_, [(execute_converter sys (some (converter_at reg cid).converter_path) cur
        output_path w).1], by
      simp only [cleanup_log, execute_converter_log, List.append_assoc]
      rfl, by simp, ?_, ?_, ?_, Or.inl rfl⟩
    · simp only [invocations_append, invocations_unlinks, invocations_exec, invocations_print,
        invocations_make_temp, invocations_nil, List.nil_append, List.append_nil]
      simp
    · intro i hi _
      simp only [List.length_cons, List.length_nil] at hi ⊢
      omega
    · simp only [List.length_cons, List.length_nil, List.mem_singleton, forall_eq]
      simp [hrc0]
  · intro cid rest cur temps w hrest hst
    rw [pipeline_loop_storage sys reg output_path cid rest cur temps w hrest hst]
    refine ⟨_, [], by
      simp only [cleanup_log, World.emit, List.append_assoc]
      rfl, by simp, ?_, ?_, ?_, Or.inr rfl⟩
    · simp only [invocations_append, invocations_unlinks, invocations_exec, invocations_print,
        invocations_make_temp, invocations_nil, List.nil_append, List.append_nil]
      simp
    · intro i hi
      simp at hi
    · simp only [List.length_nil, List.length_cons]
      constructor
      · intro h
        cases h
      · intro h
        omega
  · intro cid rest cur temps w hrest hst w1 hmk
    rw [pipeline_loop_temp_failed sys reg output_path cid rest cur temps w hrest hst w1 hmk]
    obtain ⟨tmpl, pre, hlog, _⟩ :=
      make_temp_with_ext_log sys (some (converter_at reg cid).to_format) w
    rw [hmk] at hlog
    simp only at hlog
    refine ⟨_, [], by
      simp only [cleanup_log, World.emit, hlog, List.append_assoc]
      rfl, by simp, ?_, ?_, ?_, Or.inr rfl⟩
    · simp only [invocations_append, invocations_unlinks, invocations_exec, invocations_print,
        invocations_make_temp, invocations_nil, List.nil_append, List.append_nil]
      simp
    · intro i hi
      simp at hi
    · simp only [List.length_nil, List.length_cons]
      constructor
      · intro h
        cases h
      · intro h
        omega
  · intro cid rest cur temps w hrest hst tmp w1 hmk hrc
    rw [pipeline_loop_hop sys reg output_path cid rest cur temps w hrest hst tmp w1 hmk,
      if_pos hrc]
    obtain ⟨tmpl, pre, hlog, _⟩ :=
      make_temp_with_ext_log sys (some (converter_at reg cid).to_format) w
    rw [hmk] at hlog
    simp only at hlog
    refine ⟨_, [(execute_converter sys (some (converter_at reg cid).converter_path) cur
        (some tmp) w1).1], by
      simp only [cleanup_log, World.emit, execute_converter_log, hlog, List.append_assoc]
      rfl, by simp, ?_, ?_, ?_, Or.inr rfl⟩
    · simp only [invocations_append, invocations_unlinks, invocations_exec, invocations_print,
        invocations_make_temp, invocations_nil, List.nil_append, List.append_nil]
      simp
    · intro i hi _
      simp only [List.length_cons, List.length_nil] at hi ⊢
      omega
    · simp only [List.length_cons, List.length_nil, List.mem_singleton, forall_eq]
      constructor
      · intro h
        cases h
      · intro h
        exact absurd h.2 hrc
  · intro cid rest cur temps w hrest hst tmp w1 hmk hrc ih
    rw [pipeline_loop_hop sys reg output_path cid rest cur temps w hrest hst tmp w1 hmk,
      if_neg hrc]
    have hrc0 : (execute_converter sys (some (converter_at reg cid).converter_path) cur
        (some tmp) w1).1 = 0 := by
      by_contra h
      exact hrc h
    obtain ⟨tmpl, pre, hlog, _⟩ :=
      make_temp_with_ext_log sys (some (converter_at reg cid).to_format) w
    rw [hmk] at hlog
    simp only at hlog
    obtain ⟨new, rcs, h1, h2, h3, h4, h5, h6⟩ := ih
    refine ⟨_, (execute_converter sys (some (converter_at reg cid).converter_path) cur
        (some tmp) w1).1 :: rcs, by
      rw [h1]
      simp only [execute_converter_log, hlog, List.append_assoc]
      rfl, by simpa using h2, ?_, ?_, ?_, h6⟩
    · simp only [invocations_append, invocations_unlinks, invocations_exec, invocations_print,
        invocations_make_temp, invocations_nil, List.nil_append, List.append_nil, h3]
      simp
    · intro i hi hne
      cases i with
      | zero => exact absurd hrc0 hne
      | succ i =>
        have := h4 i (by simpa using hi) (by simpa using hne)
        simp only [List.length_cons]
        omega
    · rw [h5]
      simp only [List.length_cons, List.mem_cons, forall_eq_or_imp]
      constructor
      · rintro ⟨k1, k2⟩
        exact ⟨by omega, hrc0, k2⟩
      · rintro ⟨k1, _, k2⟩
        exact ⟨by omega, k2⟩

end Conversion

namespace Conversion

open DataConvert (Str)

theorem execute_pipeline_path (sys : Sys) (reg : List Converter) (request : ConversionRequest)
    (from_format output_format : Str) (w : World) (input : Document) (path : List Nat)
    (hin : request.input = some input) (hof : request.output_format = some output_format)
    (hpath : find_path reg from_format output_format 64 = some path) :
    execute_pipeline sys reg request (some from_format) w
      = some (pipeline_loop sys reg request.output_path path input.full_path []
          (w.emit (.find_path from_format output_format (some path)))) := by
  unfold execute_pipeline
  simp only [hof, hpath, hin]

theorem execute_pipeline_no_path (sys : Sys) (reg : List Converter)
    (request : ConversionRequest) (from_format output_format : Str) (w : World)
    (hof : request.output_format = some output_format)
    (hpath : find_path reg from_format output_format 64 = none) :
    execute_pipeline sys reg request (some from_format) w
      = some (ERR_NO_CONVERTER,
          ⟨w.files, w.log ++ [.find_path from_format output_format none,
            .print (.no_converter from_format output_format)]⟩) := by
  unfold execute_pipeline
  simp only [hof, hpath, World.emit, List.append_assoc]
  rfl

theorem converters_cap : (registry_tags converters).dedup.length ≤ 64 := by decide

theorem converters_no_self : ∀ c ∈ converters, c.from_format ≠ c.to_format := by decide

end Conversion

/-- C21: in a path that `find_path` returns every hop is an edge of the registry, no hop but
the last leads to `postgresql`, and when the target is not `postgresql` no hop at all does.
So `execute_pipeline`, which runs the path that `find_path` returns, ends without the
message `Cannot pipeline through storage target`. -/
theorem c21_sink_exclusion (reg : List Conversion.Converter)
    (from_format to_format : DataConvert.Str) :
    (∀ max_steps path, Conversion.find_path reg from_format to_format max_steps = some path →
      ∀ k, k < path.length → ∃ c, reg.get? (path.getD k 0) = some c
        ∧ (k + 1 < path.length → c.to_format ≠ "postgresql".toList)
        ∧ (to_format ≠ "postgresql".toList → c.to_format ≠ "postgresql".toList))
      ∧ ∀ (sys : Conversion.Sys) (request : Conversion.ConversionRequest)
          (input : Conversion.Document) (w : Conversion.World),
          request.input = some input → request.output_format = some to_format →
          ∃ code w2 new,
            Conversion.execute_pipeline sys reg request (some from_format) w = some (code, w2)
              ∧ w2.log = w.log ++ new
              ∧ ∀ fmt, Conversion.Event.print (.storage_target fmt) ∉ new := by
  constructor
  · intro max_steps path h k hk
    obtain ⟨hw, _, _⟩ := Conversion.find_path_sound reg from_format to_format max_steps path h
    obtain ⟨c, h1, h2, h3⟩ := Conversion.walk_hops reg path from_format to_format hw k hk
    refine ⟨c, h1, h2, ?_⟩
    intro hto
    by_cases hl : k + 1 < path.length
    · exact h2 hl
    · rw [h3 (by omega)]
      exact hto
  · intro sys request input w hin hof
    cases hp : Conversion.find_path reg from_format to_format 64 with
    | none =>
      refine ⟨_, _, _, Conversion.execute_pipeline_no_path sys reg request from_format
        to_format w hof hp, rfl, ?_⟩
      intro fmt hm
      simp at hm
    | some path =>
      obtain ⟨hw, _, _⟩ := Conversion.find_path_sound reg from_format to_format 64 path hp
      obtain ⟨new, h1, h2⟩ := Conversion.pipeline_loop_no_storage sys reg request.output_path
        path input.full_path [] (w.emit (.find_path from_format to_format (some path)))
        from_format to_format hw
      refine ⟨_, _, Conversion.Event.find_path from_format to_format (some path) :: new,
        (Conversion.execute_pipeline_path sys reg request from_format
          to_format w input path hin hof hp).trans rfl, ?_, ?_⟩
      · rw [h1]
        simp [Conversion.World.emit]
      · intro fmt hm
        rcases List.mem_cons.1 hm with e | e
        · cases e
        · exact h2 _ e fmt rfl

/-- C21 at the registry of the source, from `postgresql` to `json`: the path is the edges
19 and 9, of which the first leads to `csv` and the second to `json`. -/
theorem c21_sink_exclusion_witness :
    Conversion.find_path Conversion.converters "postgresql".toList "json".toList 64
        = some [19, 9]
      ∧ (∀ k, k < [19, 9].length →
          ∃ c, Conversion.converters.get? ([19, 9].getD k 0) = some c
            ∧ (k + 1 < [19, 9].length → c.to_format ≠ "postgresql".toList)
            ∧ ("json".toList ≠ "postgresql".toList → c.to_format ≠ "postgresql".toList))
      ∧ ∃ code w2 new,
          Conversion.execute_pipeline Conversion.sys_csv_to_txt_fails Conversion.converters
              (Conversion.request_from_postgresql "json".toList "/data/out.json".toList)
              (some "postgresql".toList) ⟨["/data/db.conf".toList], []⟩ = some (code, w2)
            ∧ w2.log = [] ++ new
            ∧ ∀ fmt, Conversion.Event.print (.storage_target fmt) ∉ new :=
  ⟨by decide,
    (c21_sink_exclusion Conversion.converters "postgresql".toList "json".toList).1 64 [19, 9]
      (by decide),
    (c21_sink_exclusion Conversion.converters "postgresql".toList "json".toList).2
      Conversion.sys_csv_to_txt_fails
      (Conversion.request_from_postgresql "json".toList "/data/out.json".toList) _
      ⟨["/data/db.conf".toList], []⟩ rfl rfl⟩

/-- C22: when the source or the target is no tag of the registry, or no walk of at least
one edge leads from the source to the target that enters `postgresql` only with its last
edge, `find_path` returns no path, and `execute_pipeline` returns `ERR_NO_CONVERTER`; it
leaves the files as they are and does no more than call `find_path` and print the message
that no converter was found: it runs no converter and makes no temporary file. -/
theorem c22_no_route_fails (sys : Conversion.Sys) (reg : List Conversion.Converter)
    (request : Conversion.ConversionRequest) (from_format output_format : DataConvert.Str)
    (w : Conversion.World) (hof : request.output_format = some output_format)
    (hno : from_format ∉ Conversion.registry_tags reg
      ∨ output_format ∉ Conversion.registry_tags reg
      ∨ ¬ ∃ ids, ids ≠ [] ∧ Conversion.walk_ok reg from_format output_format ids) :
    (∀ max_steps, Conversion.find_path reg from_format output_format max_steps = none)
      ∧ Conversion.execute_pipeline sys reg request (some from_format) w
        = some (Conversion.ERR_NO_CONVERTER,
            ⟨w.files, w.log ++ [.find_path from_format output_format none,
              .print (.no_converter from_format output_format)]⟩) := by
  have h : ∀ max_steps, Conversion.find_path reg from_format output_format max_steps = none := by
    intro max_steps
    rcases hno with h | h | h
    · exact Conversion.find_path_no_tag reg from_format output_format max_steps (Or.inl h)
    · exact Conversion.find_path_no_tag reg from_format output_format max_steps (Or.inr h)
    · cases hp : Conversion.find_path reg from_format output_format max_steps with
      | none => rfl
      | some path =>
        exfalso
        obtain ⟨hw, hne, _⟩ :=
          Conversion.find_path_sound reg from_format output_format max_steps path hp
        exact h ⟨path, hne, hw⟩
  exact ⟨h, Conversion.execute_pipeline_no_path sys reg request from_format output_format w
    hof (h 64)⟩

/-- C22 at the registry of the source, from `bmp`, which is no tag of it, to `pdf`. -/
theorem c22_no_route_fails_witness :
    "bmp".toList ∉ Conversion.registry_tags Conversion.converters
      ∧ Conversion.execute_pipeline Conversion.sys_csv_to_txt_fails Conversion.converters
          ⟨none, none, some "pdf".toList, some "/data/out.pdf".toList, false, false⟩
          (some "bmp".toList) ⟨["/data/in.bmp".toList], []⟩
        = some (5, ⟨["/data/in.bmp".toList],
            [.find_path "bmp".toList "pdf".toList none,
              .print (.no_converter "bmp".toList "pdf".toList)]⟩) :=
  ⟨by decide,
    (c22_no_route_fails Conversion.sys_csv_to_txt_fails Conversion.converters
      ⟨none, none, some "pdf".toList, some "/data/out.pdf".toList, false, false⟩
      "bmp".toList "pdf".toList ⟨["/data/in.bmp".toList], []⟩ rfl (Or.inl (by decide))).2⟩

/-- C23: on the registry of the source, for every pair of format tags and every bound of
at least one step, `find_path` returns a path of exactly one hop just when `find_converter`
returns an index, and the hop is the edge of that index, which is the first edge of the
registry from the one tag to the other. -/
theorem c23_direct_lookup_agrees (from_format to_format : DataConvert.Str) (max_steps : Nat)
    (hm : 1 ≤ max_steps) :
    ((∃ path, Conversion.find_path Conversion.converters from_format to_format max_steps
          = some path ∧ path.length = 1)
        ↔ ∃ i, Conversion.find_converter Conversion.converters (some from_format)
          (some to_format) = some i)
      ∧ (∀ cid, Conversion.find_path Conversion.converters from_format to_format max_steps
          = some [cid]
        ↔ Conversion.find_converter Conversion.converters (some from_format) (some to_format)
          = some cid)
      ∧ ∀ cid, Conversion.find_converter Conversion.converters (some from_format)
          (some to_format) = some cid →
        ∃ c, Conversion.converters.get? cid = some c ∧ c.from_format = from_format
          ∧ c.to_format = to_format
          ∧ ∀ k c2, k < cid → Conversion.converters.get? k = some c2 →
              ¬ (c2.from_format = from_format ∧ c2.to_format = to_format) := by
  have h := Conversion.find_path_direct Conversion.converters Conversion.converters_cap
    Conversion.converters_no_self from_format to_format max_steps hm
  refine ⟨?_, h, ?_⟩
  · constructor
    · rintro ⟨path, hp, hl⟩
      match path, hp, hl with
      | [cid], hp, _ => exact ⟨cid, (h cid).1 hp⟩
    · rintro ⟨i, hi⟩
      exact ⟨[i], (h i).2 hi, rfl⟩
  · intro cid hc
    exact (Conversion.find_converter_some Conversion.converters from_format to_format cid).1 hc

/-- C23 from `csv` to `json`, where both give the edge 9, and from `docx` to `odt`, where
both give the edge 1. -/
theorem c23_direct_lookup_agrees_witness :
    Conversion.find_path Conversion.converters "csv".toList "json".toList 64 = some [9]
      ∧ Conversion.find_converter Conversion.converters (some "csv".toList)
          (some "json".toList) = some 9
      ∧ Conversion.find_converter Conversion.converters (some "docx".toList)
          (some "odt".toList) = some 1
      ∧ (Conversion.find_path Conversion.converters "docx".toList "odt".toList 64 = some [1]
        ↔ Conversion.find_converter Conversion.converters (some "docx".toList)
          (some "odt".toList) = some 1) :=
  ⟨by decide, by decide, by decide,
    (c23_direct_lookup_agrees "docx".toList "odt".toList 64 (by decide)).2.1 1⟩

/-- C24: `execute_pipeline`, for a request with an input and an output format, returns, and
in the world it leaves, whatever the system calls and the converters did, no temporary file
of the call exists: every file that one of its calls of `make_temp_with_ext` returned has
been removed, and where such a call returned none, the file that `mkstemp` had created for
it has been removed. This covers the end after the last hop, the end at the first hop that
fails, whose temporary file is among those removed, and the end at a temporary file that
could not be made. -/
theorem c24_pipeline_temp_cleanup (sys : Conversion.Sys) (reg : List Conversion.Converter)
    (request : Conversion.ConversionRequest) (from_format output_format : DataConvert.Str)
    (w : Conversion.World) (input : Conversion.Document) (hin : request.input = some input)
    (hof : request.output_format = some output_format) :
    ∃ code w2 new,
      Conversion.execute_pipeline sys reg request (some from_format) w = some (code, w2)
        ∧ w2.log = w.log ++ new
        ∧ ∀ ext tmpl out, Conversion.Event.make_temp_with_ext ext tmpl out ∈ new →
            (∀ p, out = some p → p ∉ w2.files)
              ∧ (out = none → ∀ t, tmpl = some t → t ∉ w2.files) := by
  cases hp : Conversion.find_path reg from_format output_format 64 with
  | none =>
    refine ⟨_, _, _, Conversion.execute_pipeline_no_path sys reg request from_format
      output_format w hof hp, rfl, ?_⟩
    intro ext tmpl out hm
    simp at hm
  | some path =>
    obtain ⟨_, new, h1, h2⟩ := Conversion.pipeline_loop_clean sys reg request.output_path
      path input.full_path [] (w.emit (.find_path from_format output_format (some path)))
    refine ⟨_, _, Conversion.Event.find_path from_format output_format (some path) :: new,
      (Conversion.execute_pipeline_path sys reg request from_format
        output_format w input path hin hof hp).trans rfl, ?_, ?_⟩
    · rw [h1]
      simp [Conversion.World.emit]
    · intro ext tmpl out hm
      rcases List.mem_cons.1 hm with e | e
      · cases e
      · exact h2 _ e

/-- C24 at the registry of the source, from `postgresql` to `tokens`, which takes the three
hops 19, 5 and 17, of which the second fails: the call reports failure, and of the files
only the input is left, neither of the two temporary files. -/
theorem c24_pipeline_temp_cleanup_witness :
    Conversion.find_path Conversion.converters "postgresql".toList "tokens".toList 64
        = some [19, 5, 17]
      ∧ (Conversion.execute_pipeline Conversion.sys_csv_to_txt_fails Conversion.converters
          (Conversion.request_from_postgresql "tokens".toList "/data/out.tokens".toList)
          (some "postgresql".toList) ⟨["/data/db.conf".toList], []⟩).map
            (fun r => (r.1, r.2.files, r.2.log.filter (fun e =>
              match e with
              | .make_temp_with_ext _ _ _ => true
              | _ => false)))
        = some (4, ["/data/db.conf".toList],
            [.make_temp_with_ext (some "csv".toList) (some "/tmp/dtconvertAAAAAA".toList)
                (some "/tmp/dtconvertAAAAAA.csv".toList),
              .make_temp_with_ext (some "txt".toList) (some "/tmp/dtconvertBBBBBB".toList)
                (some "/tmp/dtconvertBBBBBB.txt".toList)])
      ∧ ∃ code w2 new,
          Conversion.execute_pipeline Conversion.sys_csv_to_txt_fails Conversion.converters
              (Conversion.request_from_postgresql "tokens".toList "/data/out.tokens".toList)
              (some "postgresql".toList) ⟨["/data/db.conf".toList], []⟩ = some (code, w2)
            ∧ w2.log = [] ++ new
            ∧ ∀ ext tmpl out, Conversion.Event.make_temp_with_ext ext tmpl out ∈ new →
                (∀ p, out = some p → p ∉ w2.files)
                  ∧ (out = none → ∀ t, tmpl = some t → t ∉ w2.files) :=
  ⟨by decide, by decide,
    c24_pipeline_temp_cleanup Conversion.sys_csv_to_txt_fails Conversion.converters
      (Conversion.request_from_postgresql "tokens".toList "/data/out.tokens".toList)
      "postgresql".toList "tokens".toList ⟨["/data/db.conf".toList], []⟩ _ rfl rfl⟩

/-- C26: for a request with an input, an output format and an output path that passes the
checks (a storage target has a readable configuration file; for another target the file
does not exist or may be overwritten): when `find_converter` finds an edge from the source
format to the output format, `convert_document` calls `execute_converter` once, with the
converter of that edge, the full path of the input and the output path, and beyond that
only prints a message, so that it neither calls `find_path` nor makes a temporary file; it
returns `SUCCESS` when the exit code is 0 and `ERR_CONVERSION_FAILED` otherwise. When
`find_converter` finds no edge, it returns what `execute_pipeline` returns. -/
theorem c26_direct_edge_first (sys : Conversion.Sys) (reg : List Conversion.Converter)
    (request : Conversion.ConversionRequest) (input : Conversion.Document)
    (output_format output_path : DataConvert.Str) (w : Conversion.World)
    (hin : request.input = some input) (hof : request.output_format = some output_format)
    (hop : request.output_path = some output_path)
    (hcfg : Conversion.is_storage_format output_format = true →
      sys.access output_path .R_OK w = true)
    (hnew : Conversion.is_storage_format output_format = false →
      request.overwrite = true ∨ sys.access output_path .F_OK w = false) :
    (∀ cid, Conversion.find_converter reg (Conversion.request_from_format request input)
        (some output_format) = some cid →
      ∃ w2 msgs, Conversion.convert_document sys reg (some request) w
          = some (if (sys.execute_converter (some (Conversion.converter_at reg cid).converter_path)
              input.full_path (some output_path) w).1 = 0 then Conversion.SUCCESS
            else Conversion.ERR_CONVERSION_FAILED, w2)
        ∧ w2.files = (sys.execute_converter (some (Conversion.converter_at reg cid).converter_path)
            input.full_path (some output_path) w).2
        ∧ w2.log = w.log
          ++ .execute_converter (some (Conversion.converter_at reg cid).converter_path)
              input.full_path (some output_path)
              (sys.execute_converter (some (Conversion.converter_at reg cid).converter_path)
                input.full_path (some output_path) w).1 :: msgs
        ∧ ∀ e ∈ msgs, ∃ m, e = .print m)
      ∧ (Conversion.find_converter reg (Conversion.request_from_format request input)
          (some output_format) = none →
        Conversion.convert_document sys reg (some request) w
          = Conversion.execute_pipeline sys reg request
              (Conversion.request_from_format request input)
              (if request.verbose = true then
                w.emit (.print (.no_direct (Conversion.request_from_format request input)
                  output_format))
              else w)) := by
  have h1 : ¬ (Conversion.is_storage_format output_format = true
      ∧ sys.access output_path .R_OK w = false) := by
    rintro ⟨a, b⟩
    rw [hcfg a] at b
    cases b
  have h2 : ¬ (Conversion.is_storage_format output_format = false ∧ request.overwrite = false
      ∧ sys.access output_path .F_OK w = true) := by
    rintro ⟨a, b, c⟩
    rcases hnew a with h | h
    · rw [h] at b
      cases b
    · rw [h] at c
      cases c
  constructor
  · intro cid hc
    unfold Conversion.convert_document
    simp only [hin, hof, hop, if_neg h1, if_neg h2, hc]
    by_cases hrc : (sys.execute_converter (some (Conversion.converter_at reg cid).converter_path)
        input.full_path (some output_path) w).1 = 0
    · have hrc2 : ¬ (Conversion.execute_converter sys
          (some (Conversion.converter_at reg cid).converter_path)
          input.full_path (some output_path) w).1 ≠ 0 := fun h => h hrc
      rw [if_neg hrc2, if_pos hrc]
      by_cases hv : request.verbose = true
      · rw [if_pos hv]
        exact ⟨_, [.print (.converter_executed (Conversion.converter_at reg cid).description)],
          rfl, rfl, by simp [Conversion.World.emit, Conversion.execute_converter], by simp⟩
      · rw [if_neg hv]
        exact ⟨_, [], rfl, rfl, rfl, by simp⟩
    · have hrc2 : (Conversion.execute_converter sys
          (some (Conversion.converter_at reg cid).converter_path)
          input.full_path (some output_path) w).1 ≠ 0 := hrc
      rw [if_pos hrc2, if_neg hrc]
      exact ⟨_, [.print (.converter_failed (sys.execute_converter
          (some (Conversion.converter_at reg cid).converter_path) input.full_path
          (some output_path) w).1)],
        rfl, rfl, by simp [Conversion.World.emit, Conversion.execute_converter], by simp⟩
  · intro hc
    unfold Conversion.convert_document
    simp only [hin, hof, hop, if_neg h1, if_neg h2, hc]

/-- C26 at the registry of the source, for the input `/data/in.csv` and the output format
`json`: the edge 9 is run once, and nothing else is done. -/
theorem c26_direct_edge_first_witness :
    Conversion.convert_document Conversion.sys_csv_to_txt_fails Conversion.converters
        (some ⟨some ⟨some "in.csv".toList, some "in.csv".toList, some "csv".toList,
            some "/data/in.csv".toList, true, 64⟩, none, some "json".toList,
          some "/data/out.json".toList, true, false⟩)
        ⟨["/data/in.csv".toList], []⟩
        = some (0, ⟨["/data/out.json".toList, "/data/in.csv".toList],
            [.execute_converter (some "lib/converters/data_convert".toList)
              (some "/data/in.csv".toList) (some "/data/out.json".toList) 0]⟩)
      ∧ ∃ w2 msgs, Conversion.convert_document Conversion.sys_csv_to_txt_fails
            Conversion.converters
            (some ⟨some ⟨some "in.csv".toList, some "in.csv".toList, some "csv".toList,
                some "/data/in.csv".toList, true, 64⟩, none, some "json".toList,
              some "/data/out.json".toList, true, false⟩)
            ⟨["/data/in.csv".toList], []⟩
          = some (if (Conversion.sys_csv_to_txt_fails.execute_converter
                (some (Conversion.converter_at Conversion.converters 9).converter_path)
                (some "/data/in.csv".toList) (some "/data/out.json".toList)
                ⟨["/data/in.csv".toList], []⟩).1 = 0 then Conversion.SUCCESS
              else Conversion.ERR_CONVERSION_FAILED, w2)
          ∧ w2.files = (Conversion.sys_csv_to_txt_fails.execute_converter
              (some (Conversion.converter_at Conversion.converters 9).converter_path)
              (some "/data/in.csv".toList) (some "/data/out.json".toList)
              ⟨["/data/in.csv".toList], []⟩).2
          ∧ w2.log = []
            ++ .execute_converter
                (some (Conversion.converter_at Conversion.converters 9).converter_path)
                (some "/data/in.csv".toList) (some "/data/out.json".toList)
                (Conversion.sys_csv_to_txt_fails.execute_converter
                  (some (Conversion.converter_at Conversion.converters 9).converter_path)
                  (some "/data/in.csv".toList) (some "/data/out.json".toList)
                  ⟨["/data/in.csv".toList], []⟩).1 :: msgs
          ∧ ∀ e ∈ msgs, ∃ m, e = .print m :=
  ⟨by decide,
    (c26_direct_edge_first Conversion.sys_csv_to_txt_fails Conversion.converters
      ⟨some ⟨some "in.csv".toList, some "in.csv".toList, some "csv".toList,
          some "/data/in.csv".toList, true, 64⟩, none, some "json".toList,
        some "/data/out.json".toList, true, false⟩
      ⟨some "in.csv".toList, some "in.csv".toList, some "csv".toList,
        some "/data/in.csv".toList, true, 64⟩
      "json".toList "/data/out.json".toList ⟨["/data/in.csv".toList], []⟩ rfl rfl rfl
      (by decide) (by decide)).1 9 (by decide)⟩

namespace SqlConvert

open DataConvert (Str isspace cstr getlines)

/-! ### Literals and fields at the end of the input -/

theorem sql_escape_length (s : Str) :
    (escape_sql_literal s).length = s.length + s.count '\'' := by
  induction s with
  | nil => rfl
  | cons c s ih =>
    by_cases hc : c = '\''
    · subst hc
      simp only [escape_sql_literal, if_true, List.length_cons, ih, List.count_cons_self]
      omega
    · have hc2 : ('\'' : Char) ≠ c := fun e => hc e.symm
      simp only [escape_sql_literal, if_neg hc, List.length_cons, ih,
        List.count_cons_of_ne hc2]
      omega

/-- The scan of a literal that the input ends with. -/
theorem sql_scan_literal_end : ∀ (c : Str),
    sql_scan_literal (escape_sql_literal c ++ ['\'']) = (c, []) := by
  intro c
  induction c with
  | nil => simp [escape_sql_literal, sql_scan_literal]
  | cons x c ih =>
    by_cases hx : x = '\''
    · subst hx
      simp [escape_sql_literal, sql_scan_literal, keep, ih]
    · simp only [escape_sql_literal, hx, if_false, List.cons_append]
      rw [sql_scan_literal_plain x _ hx, ih]
      rfl

theorem sql_scan_plain_end : ∀ (c : Str), (∀ x ∈ c, x ≠ ',' ∧ x ≠ '\n' ∧ x ≠ '\r') →
    csv_scan_field false c = (c, []) := by
  intro c
  induction c with
  | nil => intro _; rfl
  | cons x c ih =>
    intro hc
    have hx := hc x (List.mem_cons_self _ _)
    have hx2 : ¬ (x = ',' ∨ x = '\n' ∨ x = '\r') := by
      rintro (h | h | h)
      · exact hx.1 h
      · exact hx.2.1 h
      · exact hx.2.2 h
    rw [sql_scan_plain_step x c hx2, ih (fun y hy => hc y (List.mem_cons_of_mem _ hy))]
    rfl

theorem sql_scan_quoted_end : ∀ (c : Str),
    csv_scan_field true (csv_double_quotes c ++ ['"']) = (c, []) := by
  intro c
  induction c with
  | nil => simp [csv_double_quotes, csv_scan_field]
  | cons x c ih =>
    by_cases hx : x = '"'
    · subst hx
      simp [csv_double_quotes, csv_scan_field, keep, ih]
    · simp only [csv_double_quotes, hx, if_false, List.cons_append]
      rw [sql_scan_quoted_plain x _ hx, ih]
      rfl

theorem sql_need_quote_false (c : Str) (h : ¬ csv_need_quote c = true) :
    ∀ x ∈ c, x ≠ ',' ∧ x ≠ '"' ∧ x ≠ '\n' ∧ x ≠ '\r' := by
  induction c with
  | nil => intro x hx; cases hx
  | cons a c ih =>
    intro x hx
    by_cases ha : (a = ',' || a = '"' || a = '\n' || a = '\r') = true
    · simp only [csv_need_quote, ha, if_true, not_true_eq_false] at h
    · simp only [csv_need_quote, ha, Bool.false_eq_true, if_false] at h
      rcases List.mem_cons.1 hx with e | e
      · subst e
        simp only [Bool.or_eq_true, decide_eq_true_eq, not_or] at ha
        exact ⟨ha.1.1.1, ha.1.1.2, ha.1.2, ha.2⟩
      · exact ih h x e

theorem sql_parse_field_end (c : Str) : csv_parse_field (csv_write_escaped c) = (c, []) := by
  unfold csv_write_escaped csv_parse_field
  by_cases hq : csv_need_quote c = true
  · rw [if_pos hq]
    have hd0 : deref ('"' :: csv_double_quotes c ++ ['"']) = '"' := rfl
    rw [if_pos hd0]
    exact sql_scan_quoted_end c
  · rw [if_neg hq]
    have hall := sql_need_quote_false c hq
    have hd0 : ¬ deref c = '"' := by
      cases c with
      | nil => simp [deref]
      | cons a r =>
        simp only [deref, List.headD_cons]
        exact (hall a (List.mem_cons_self _ _)).2.1
    rw [if_neg hd0]
    exact sql_scan_plain_end c (fun x hx => ⟨(hall x hx).1, (hall x hx).2.2⟩)

end SqlConvert

namespace DataConvert

open DataConvert (Str isspace cstr getlines)

theorem yaml_escape_body_one_line (v : Str) :
    ∀ c ∈ yaml_escape_body v, c ≠ '\n' ∧ c ≠ '\r' ∧ c ≠ '\t' := by
  induction v with
  | nil => intro c hc; cases hc
  | cons a v ih =>
    intro c hc
    unfold yaml_escape_body yaml_escape_char at hc
    split_ifs at hc with h1 h2 h3 h4 h5
    all_goals
      simp only [List.cons_append, List.nil_append, List.mem_cons] at hc
    · rcases hc with e | e | e
      · subst e; decide
      · subst e; decide
      · exact ih c e
    · rcases hc with e | e | e
      · subst e; decide
      · subst e; decide
      · exact ih c e
    · rcases hc with e | e | e
      · subst e; decide
      · subst e; decide
      · exact ih c e
    · rcases hc with e | e | e
      · subst e; decide
      · subst e; decide
      · exact ih c e
    · rcases hc with e | e | e
      · subst e; decide
      · subst e; decide
      · exact ih c e
    · rcases hc with e | e
      · subst e
        exact ⟨h3, h4, h5⟩
      · exact ih c e

end DataConvert

/-- C31: for every text without NUL and without a byte below 0x20 other than backspace,
tab, line feed, form feed and carriage return, `jparse_string` on the literal that
`json_write_escaped` writes for it, whatever follows the literal, returns the text and
leaves as unread input what follows the closing quote. -/
theorem c31_json_string_round_trip (s : DataConvert.Str) (rest : List Char)
    (h : DataConvert.json_lossless s) :
    DataConvert.jparse_string (DataConvert.json_write_escaped s ++ rest) = some (s, rest) := by
  have e : DataConvert.json_write_escaped s ++ rest
      = [] ++ '"' :: (DataConvert.json_escape_body s ++ '"' :: rest) := by
    simp [DataConvert.json_write_escaped]
  rw [e]
  exact DataConvert.jparse_string_lit (DataConvert.jstrBody_escape h) [] rest
    DataConvert.isWs_nil

/-- C31 at a text with a quote, a backslash, a line feed and a tab, followed by a comma. -/
theorem c31_json_string_round_trip_witness :
    DataConvert.json_write_escaped "a\"b\\c\nd\te".toList = "\"a\\\"b\\\\c\\nd\\te\"".toList
      ∧ DataConvert.jparse_string
          (DataConvert.json_write_escaped "a\"b\\c\nd\te".toList ++ ",".toList)
        = some ("a\"b\\c\nd\te".toList, ",".toList) :=
  ⟨by decide, c31_json_string_round_trip "a\"b\\c\nd\te".toList ",".toList (by decide)⟩

/-- C32: for every text, the literal that `yaml_write_escaped` writes for it holds no line
feed, no carriage return and no tab, starts with a double quote and ends with one, and
`yaml_parse_value` on a space followed by the literal returns the text. -/
theorem c32_yaml_value_round_trip (s : DataConvert.Str) :
    (∀ c ∈ DataConvert.yaml_write_escaped s, c ≠ '\n' ∧ c ≠ '\r' ∧ c ≠ '\t')
      ∧ (DataConvert.yaml_write_escaped s).head? = some '"'
      ∧ (DataConvert.yaml_write_escaped s).getLast? = some '"'
      ∧ DataConvert.yaml_parse_value (' ' :: DataConvert.yaml_write_escaped s) = some s := by
  refine ⟨?_, rfl, ?_, DataConvert.yaml_parse_value_written s⟩
  · intro c hc
    unfold DataConvert.yaml_write_escaped at hc
    rcases List.mem_append.1 hc with e | e
    · rcases List.mem_cons.1 e with e | e
      · subst e; decide
      · exact DataConvert.yaml_escape_body_one_line s c e
    · simp only [List.mem_singleton] at e
      subst e; decide
  · have e : DataConvert.yaml_write_escaped s
        = ('"' :: DataConvert.yaml_escape_body s) ++ ['"'] := rfl
    rw [e, List.getLast?_append]
    rfl

/-- C33: `escape_sql_literal` writes as many bytes as the text has, and one more for each
single quote in it. `parse_sql_string_literal` on a single quote, the escaped text, a single
quote and a continuation that does not begin with a single quote (it may be empty) returns
the text and leaves the continuation as unread input. -/
theorem c33_sql_literal_round_trip (s : DataConvert.Str) (rest : List Char)
    (hrest : rest.head? ≠ some '\'') :
    (SqlConvert.escape_sql_literal s).length = s.length + s.count '\''
      ∧ SqlConvert.parse_sql_string_literal
          ('\'' :: SqlConvert.escape_sql_literal s ++ '\'' :: rest) = (some s, rest) := by
  refine ⟨SqlConvert.sql_escape_length s, ?_⟩
  cases rest with
  | nil =>
    simp [SqlConvert.parse_sql_string_literal, SqlConvert.sql_skip_ws_stay '\'' _ (by decide),
      SqlConvert.sql_scan_literal_end s]
  | cons d r =>
    have hd : d ≠ '\'' := by
      intro e
      apply hrest
      rw [e]
      rfl
    have := SqlConvert.sql_parse_literal_at s d r hd
    simpa using this

/-- C33 at a text with two single quotes, in front of a closing parenthesis. -/
theorem c33_sql_literal_round_trip_witness :
    SqlConvert.escape_sql_literal "it's 'x".toList = "it''s ''x".toList
      ∧ (SqlConvert.escape_sql_literal "it's 'x".toList).length
        = "it's 'x".toList.length + "it's 'x".toList.count '\''
      ∧ SqlConvert.parse_sql_string_literal
          ('\'' :: SqlConvert.escape_sql_literal "it's 'x".toList ++ '\'' :: ");".toList)
        = (some "it's 'x".toList, ");".toList) :=
  ⟨by decide, c33_sql_literal_round_trip "it's 'x".toList ");".toList (by decide)⟩

/-- C37: in the CSV reader of sql_convert.c, `csv_parse_field` on what `csv_write_escaped`
writes for a text, followed by a comma, a line feed, a carriage return or the end of the
input, returns the text and leaves the cursor on what follows. -/
theorem c37_sql_csv_field_round_trip (s : DataConvert.Str) (rest : List Char)
    (hrest : ∀ d ∈ rest.head?, d = ',' ∨ d = '\n' ∨ d = '\r') :
    SqlConvert.csv_parse_field (SqlConvert.csv_write_escaped s ++ rest) = (s, rest) := by
  cases rest with
  | nil =>
    rw [List.append_nil]
    exact SqlConvert.sql_parse_field_end s
  | cons d r => exact SqlConvert.sql_parse_field_written s d r (hrest d rfl)

/-- C37 at a text with a comma, a doubled quote and a line feed, in front of a comma, and
at a plain text at the end of the input. -/
theorem c37_sql_csv_field_round_trip_witness :
    SqlConvert.csv_write_escaped "a,\"b\"\nc".toList = "\"a,\"\"b\"\"\nc\"".toList
      ∧ SqlConvert.csv_parse_field
          (SqlConvert.csv_write_escaped "a,\"b\"\nc".toList ++ ",x".toList)
        = ("a,\"b\"\nc".toList, ",x".toList)
      ∧ SqlConvert.csv_parse_field (SqlConvert.csv_write_escaped "plain".toList ++ [])
        = ("plain".toList, []) :=
  ⟨by decide,
    c37_sql_csv_field_round_trip "a,\"b\"\nc".toList ",x".toList (by decide),
    c37_sql_csv_field_round_trip "plain".toList [] (by decide)⟩

namespace DataConvert

/-! ## YAML: the read behind a backslash -/

theorem getLast_tail_ne (l : List Char) (x : Char) (h : l.getLast? ≠ some x) :
    l.tail.getLast? ≠ some x := by
  cases l with
  | nil => exact h
  | cons a t =>
    cases t with
    | nil => simp
    | cons b t2 =>
      rw [List.getLast?_cons_cons] at h
      exact h

/-- The loop of `yaml_parse_value` returns for every text that does not end with a
backslash. -/
theorem yaml_value_loop_returns : ∀ (n : Nat) (r : List Char), r.length ≤ n →
    r.getLast? ≠ some '\\' → ∃ v, yaml_value_loop r = some v := by
  intro n
  induction n with
  | zero =>
    intro r hr _
    have : r = [] := List.length_eq_zero.1 (by omega)
    subst this
    exact ⟨[], rfl⟩
  | succ n ih =>
    intro r hr hl
    cases r with
    | nil => exact ⟨[], rfl⟩
    | cons ch r =>
      simp only [List.length_cons] at hr
      by_cases h1 : ch = '"'
      · exact ⟨[], by rw [h1]; exact yaml_value_loop_quote r⟩
      · by_cases h2 : ch = '\\'
        · cases r with
          | nil =>
            exfalso
            apply hl
            rw [h2]
            rfl
          | cons esc r2 =>
            simp only [List.length_cons] at hr
            have hl2 : r2.getLast? ≠ some '\\' :=
              getLast_tail_ne (esc :: r2) '\\' (getLast_tail_ne (ch :: esc :: r2) '\\' hl)
            obtain ⟨v, hv⟩ := ih r2 (by omega) hl2
            exact ⟨yaml_unescape esc :: v, by
              rw [h2, yaml_value_loop_esc, hv]
              rfl⟩
        · have hl2 : r.getLast? ≠ some '\\' := getLast_tail_ne (ch :: r) '\\' hl
          obtain ⟨v, hv⟩ := ih r (by omega) hl2
          exact ⟨ch :: v, by
            rw [yaml_value_loop_raw ch r h1 h2, hv]
            rfl⟩

end DataConvert

/-- C38 (defect): for a value that opens a double quote and ends with a backslash,
`yaml_parse_value` takes the string terminator as the escaped character, moves on behind it
and reads there: the model has no result for it. It makes no difference whether blanks
stand around the value. For every value that, without the blanks around it, does not end
with a backslash, the function stays within the string and returns a result. -/
theorem c38_yaml_parse_value_overread :
    DataConvert.yaml_parse_value "\"x\\".toList = none
      ∧ DataConvert.yaml_parse_value " \"x\\ \n".toList = none
      ∧ ∀ s : DataConvert.Str,
          (DataConvert.rstrip (DataConvert.lskip s)).getLast? ≠ some '\\' →
            ∃ v, DataConvert.yaml_parse_value s = some v := by
  refine ⟨by decide, by decide, ?_⟩
  intro s hs
  unfold DataConvert.yaml_parse_value
  split_ifs with h
  · exact DataConvert.yaml_value_loop_returns _ _ (le_refl _)
      (DataConvert.getLast_tail_ne _ _ hs)
  · exact ⟨_, rfl⟩

/-- C38 at a quoted value with an escaped line feed, which is read back, and at a quoted
value that ends with an escaped backslash. -/
theorem c38_yaml_parse_value_overread_witness :
    DataConvert.yaml_parse_value " \"a\\nb\"".toList = some "a\nb".toList
      ∧ DataConvert.yaml_parse_value " \"a\\\\".toList = some "a\\".toList
      ∧ ∃ v, DataConvert.yaml_parse_value " \"a\\nb\"".toList = some v :=
  ⟨by decide, by decide, c38_yaml_parse_value_overread.2.2 " \"a\\nb\"".toList (by decide)⟩

namespace DataConvert

/-! ## CSV: the loops of the reader end -/

theorem csv_header_loop_step (n : Nat) (t : Table) (c : List Char) (hc : c ≠ []) :
    csv_header_loop (n + 1) t c
      = if (csv_header_step t c).2.2 = true then
          csv_header_loop n (csv_header_step t c).1 (csv_header_step t c).2.1
        else ((csv_header_step t c).1, (csv_header_step t c).2.1) := by
  rw [csv_header_loop_succ n t c hc]
  unfold csv_header_step
  split_ifs <;> simp_all

theorem csv_consume_newline_none {c : List Char} (h : ¬ (csv_consume_newline c).1 = true) :
    (csv_consume_newline c).2 = c
      ∧ ¬ (cur_peek c = '\n' ∨ cur_peek c = '\r') := by
  cases c with
  | nil => simp [csv_consume_newline, cur_peek]
  | cons a r =>
    by_cases h1 : a = '\n'
    · simp [csv_consume_newline, h1] at h
    · by_cases h2 : a = '\r'
      · simp [csv_consume_newline, h2] at h
      · simp only [csv_consume_newline, if_neg h1, if_neg h2, cur_peek, List.headD_cons]
        exact ⟨trivial, fun e => e.elim h1 h2⟩

/-- Every round of the header loop moves the cursor on. -/
theorem csv_header_step_progress (t : Table) (c : List Char) (hc : c ≠ []) :
    (csv_header_step t c).2.1.length < c.length := by
  have hc0 : 0 < c.length := List.length_pos.2 hc
  have hp := csv_parse_field_length c
  have hn := csv_consume_newline_length (csv_parse_field c).2
  unfold csv_header_step
  split_ifs with h1 h2 h3
  · have := csv_tail_lt h1
    simp only
    omega
  · have := hn.2 h2
    simp only
    omega
  · simp only [h3, List.length_nil]
    exact hc0
  · obtain ⟨e, hno⟩ := csv_consume_newline_none h2
    simp only
    rw [e] at h3 ⊢
    exact csv_parse_field_moves c h3 h1 hno

theorem csv_header_loop_nil (n : Nat) (t : Table) : csv_header_loop n t [] = (t, []) := by
  cases n <;> simp [csv_header_loop]

/-- The header loop ends within as many rounds as the input has bytes: more rounds allowed
change nothing. -/
theorem csv_header_loop_fuel_indep : ∀ (n m : Nat) (t : Table) (c : List Char),
    c.length ≤ n → c.length ≤ m → csv_header_loop n t c = csv_header_loop m t c := by
  intro n
  induction n with
  | zero =>
    intro m t c hc _
    have : c = [] := List.length_eq_zero.1 (by omega)
    subst this
    rw [csv_header_loop_nil, csv_header_loop_nil]
  | succ n ih =>
    intro m t c hn hm
    by_cases hc : c = []
    · subst hc
      rw [csv_header_loop_nil, csv_header_loop_nil]
    · obtain ⟨m2, rfl⟩ : ∃ m2, m = m2 + 1 :=
        ⟨m - 1, by have := List.length_pos.2 hc; omega⟩
      rw [csv_header_loop_step n t c hc, csv_header_loop_step m2 t c hc]
      have hp := csv_header_step_progress t c hc
      split_ifs
      · exact ih m2 _ _ (by omega) (by omega)
      · rfl

theorem csv_read_table_fuel_eq (buf : List Char) :
    csv_read_table buf = csv_read_table_fuel buf.length
      (csv_skip_empty_lines buf).length
      (csv_header_loop (csv_skip_empty_lines buf).length Table.empty
        (csv_skip_empty_lines buf)).2.length buf := rfl

/-- The reader does not depend on the bounds of its loops once they are the length of the
input. -/
theorem csv_read_table_fuel_indep (buf : List Char) (n1 n2 n3 : Nat) (h1 : buf.length ≤ n1)
    (h2 : buf.length ≤ n2) (h3 : buf.length ≤ n3) :
    csv_read_table_fuel n1 n2 n3 buf = csv_read_table buf := by
  have e1 : csv_skip_empty_lines_fuel n1 buf = csv_skip_empty_lines buf :=
    csv_skip_fuel_enough n1 buf h1
  have hl := csv_skip_length buf
  have e2 : csv_header_loop n2 Table.empty (csv_skip_empty_lines buf)
      = csv_header_loop (csv_skip_empty_lines buf).length Table.empty
        (csv_skip_empty_lines buf) :=
    csv_header_loop_fuel_indep _ _ _ _ (by omega) (le_refl _)
  have hl2 := csv_header_loop_length (csv_skip_empty_lines buf).length Table.empty
    (csv_skip_empty_lines buf)
  unfold csv_read_table_fuel csv_read_table
  simp only [e1, e2]
  split_ifs
  · rfl
  · rw [csv_rows_loop_fuel_indep n3 _ _ _ (by omega) (le_refl _)]

end DataConvert

/-- C39: in `csv_read_table` every round of the header loop and every round of the record
loop leaves the cursor at least one byte further on than it found it, where a round of the
header loop is `csv_header_step` and a round of the record loop is the skip of the blank
lines and `csv_record_step`. So each loop ends within as many rounds as the input has
bytes: with any bounds on the rounds that are at least the length of the input, the reader
gives the result of `csv_read_table`, a table or the failure. -/
theorem c39_csv_read_table_terminates (buf : List Char) :
    (∀ (n : Nat) (t : DataConvert.Table) (c : List Char), c ≠ [] →
        DataConvert.csv_header_loop (n + 1) t c
          = (if (DataConvert.csv_header_step t c).2.2 = true then
              DataConvert.csv_header_loop n (DataConvert.csv_header_step t c).1
                (DataConvert.csv_header_step t c).2.1
            else ((DataConvert.csv_header_step t c).1, (DataConvert.csv_header_step t c).2.1))
          ∧ (DataConvert.csv_header_step t c).2.1.length < c.length)
      ∧ (∀ (n : Nat) (t : DataConvert.Table) (c : List Char),
          DataConvert.csv_skip_empty_lines c ≠ [] →
          DataConvert.csv_rows_loop (n + 1) t c
            = DataConvert.csv_rows_loop n
                (DataConvert.csv_record_step t (DataConvert.csv_skip_empty_lines c)).1
                (DataConvert.csv_record_step t (DataConvert.csv_skip_empty_lines c)).2
            ∧ (DataConvert.csv_record_step t (DataConvert.csv_skip_empty_lines c)).2.length
              < c.length)
      ∧ ∀ n1 n2 n3, buf.length ≤ n1 → buf.length ≤ n2 → buf.length ≤ n3 →
          DataConvert.csv_read_table_fuel n1 n2 n3 buf = DataConvert.csv_read_table buf := by
  refine ⟨?_, ?_, fun n1 n2 n3 => DataConvert.csv_read_table_fuel_indep buf n1 n2 n3⟩
  · intro n t c hc
    exact ⟨DataConvert.csv_header_loop_step n t c hc,
      DataConvert.csv_header_step_progress t c hc⟩
  · intro n t c hc
    have hne : c ≠ [] := by
      intro e
      apply hc
      rw [e]
      rfl
    constructor
    · rw [DataConvert.csv_rows_loop_succ, if_neg hne, if_neg hc]
    · have hp := DataConvert.csv_record_step_progress t _ hc (DataConvert.csv_skip_on_record c)
      have hl := DataConvert.csv_skip_length c
      omega

/-- C39 at a file of a blank line, a header of two names and two records, the second with
a quoted field that is not closed: with bounds of 100 rounds the reader gives the table
that `csv_read_table` gives, and the first round of the header loop moves the cursor behind
the first comma. -/
theorem c39_csv_read_table_terminates_witness :
    DataConvert.csv_read_table "\na,b\n1,2\n3,\"4".toList
        = some ⟨["a".toList, "b".toList],
            [["1".toList, "2".toList], ["3".toList, "4".toList]]⟩
      ∧ DataConvert.csv_read_table_fuel 100 100 100 "\na,b\n1,2\n3,\"4".toList
        = DataConvert.csv_read_table "\na,b\n1,2\n3,\"4".toList
      ∧ (DataConvert.csv_header_step DataConvert.Table.empty "a,b\n1,2\n".toList).2.1
        = "b\n1,2\n".toList
      ∧ (DataConvert.csv_header_step DataConvert.Table.empty "a,b\n1,2\n".toList).2.1.length
        < "a,b\n1,2\n".toList.length :=
  ⟨by decide,
    (c39_csv_read_table_terminates "\na,b\n1,2\n3,\"4".toList).2.2 100 100 100
      (by decide) (by decide) (by decide),
    by decide,
    ((c39_csv_read_table_terminates []).1 0 DataConvert.Table.empty "a,b\n1,2\n".toList
      (by decide)).2⟩

namespace Conversion

open DataConvert (Str)

/-! ### The shape of a path -/

/-- The edges of a walk hang together: each starts where the one before it ends. -/
theorem walk_chain (reg : List Converter) : ∀ (path : List Nat) (a b : Str),
    walk_ok reg a b path → ∀ k, k < path.length →
      ∃ c, reg.get? (path.getD k 0) = some c
        ∧ c.from_format = (walk_tags reg a path).getD k []
        ∧ c.to_format = (walk_tags reg a path).getD (k + 1) []
        ∧ (k + 1 = path.length → c.to_format = b) := by
  intro path
  induction path with
  | nil => intro a b _ k hk; simp at hk
  | cons cid rest ih =>
    intro a b hw k hk
    obtain ⟨c, hget, hfrom, _, hrest⟩ := hw
    have hat : converter_at reg cid = c := converter_at_get reg cid c hget
    cases k with
    | zero =>
      refine ⟨c, by simpa using hget, ?_, ?_, ?_⟩
      · simp [walk_tags, hfrom]
      · simp [walk_tags, hat]
      · intro h1
        have e : rest = [] := by
          simp only [List.length_cons] at h1
          exact List.length_eq_zero.1 (by omega)
        rw [e] at hrest
        exact hrest
    | succ k =>
      have hk2 : k < rest.length := by simpa using hk
      obtain ⟨c2, h1, h2, h3, h4⟩ := ih c.to_format b hrest k hk2
      refine ⟨c2, by simpa using h1, ?_, ?_, ?_⟩
      · rw [h2]
        simp [walk_tags, hat]
      · rw [h3]
        simp [walk_tags, hat]
      · intro h5
        apply h4
        simp only [List.length_cons] at h5
        omega

theorem walk_tags_snoc (reg : List Converter) (a : Str) (path : List Nat) (cid : Nat) :
    walk_tags reg a (path ++ [cid]) = walk_tags reg a path ++ [(converter_at reg cid).to_format] := by
  simp [walk_tags]

/-- The loop back from a node in the queue visits no node twice: the tags of the path it
gives are distinct, and each is the name of a node no more hops from the start. -/
theorem back_loop_nodup (reg : List Converter) (to_format : Str) (names : List Str)
    (start : Nat) (nodes : List Node) (q : List Nat) (d : Nat → Nat) (hnn : names.Nodup)
    (hi : SearchInv reg to_format names start nodes q d) :
    ∀ (fuel v : Nat) (l : List Nat), v ∈ q → d v ≤ fuel →
      back_loop nodes start fuel v = some l →
      (walk_tags reg (names.getD start []) l.reverse).Nodup
        ∧ ∀ t ∈ walk_tags reg (names.getD start []) l.reverse,
            ∃ w ∈ q, names.getD w [] = t ∧ d w ≤ d v := by
  have hbase : (walk_tags reg (names.getD start []) ([] : List Nat).reverse).Nodup
      ∧ ∀ v, ∀ t ∈ walk_tags reg (names.getD start []) ([] : List Nat).reverse,
          ∃ w ∈ q, names.getD w [] = t ∧ d w ≤ d v := by
    refine ⟨by simp [walk_tags], ?_⟩
    intro v t ht
    simp only [walk_tags, List.reverse_nil, List.map_nil, List.mem_singleton] at ht
    refine ⟨start, hi.start_mem, ht.symm, ?_⟩
    rw [hi.d_start]
    exact Nat.zero_le _
  intro fuel
  induction fuel with
  | zero =>
    intro v l hv hf hb
    have e : l = [] := by
      simp only [back_loop, Option.some.injEq] at hb
      exact hb.symm
    subst e
    exact ⟨hbase.1, hbase.2 v⟩
  | succ fuel ih =>
    intro v l hv hf hb
    by_cases hs : v = start
    · have e : l = [] := by
        simp only [back_loop, if_pos hs, Option.some.injEq] at hb
        exact hb.symm
      subst e
      exact ⟨hbase.1, hbase.2 v⟩
    · obtain ⟨u, cid, c, h1, h2, h3, h4, h5, h6, h7, h8⟩ := hi.tree v hv hs
      rw [back_loop_step nodes start fuel v u cid hs h1 h2] at hb
      cases hlu : back_loop nodes start fuel u with
      | none =>
        rw [hlu] at hb
        cases hb
      | some lu =>
        rw [hlu] at hb
        simp only [Option.map_some', Option.some.injEq] at hb
        subst hb
        obtain ⟨k1, k2⟩ := ih u lu h3 (by omega) hlu
        have hat : (converter_at reg cid).to_format = names.getD v [] := by
          rw [converter_at_get reg cid c h4]
          exact h6
        rw [List.reverse_cons, walk_tags_snoc, hat]
        constructor
        · rw [List.nodup_append]
          refine ⟨k1, by simp, ?_⟩
          intro t ht ht2
          simp only [List.mem_singleton] at ht2
          obtain ⟨w, hw, hwn, hwd⟩ := k2 t ht
          have e : w = v := names_getD_inj names hnn w v (hi.lt w hw) (hi.lt v hv)
            (hwn.trans ht2)
          rw [e] at hwd
          omega
        · intro t ht
          rcases List.mem_append.1 ht with ht | ht
          · obtain ⟨w, hw, hwn, hwd⟩ := k2 t ht
            exact ⟨w, hw, hwn, by omega⟩
          · simp only [List.mem_singleton] at ht
            exact ⟨v, hv, ht.symm, le_refl _⟩

/-- The path that `find_path` returns visits no format tag twice. -/
theorem find_path_nodup (reg : List Converter) (from_format to_format : Str) (max_steps : Nat)
    (path : List Nat) (h : find_path reg from_format to_format max_steps = some path) :
    (walk_tags reg from_format path).Nodup := by
  cases hstart : format_index (build_nodes reg 64) from_format with
  | none =>
    unfold find_path at h
    rw [hstart] at h
    simp at h
  | some start =>
    cases hgoal : format_index (build_nodes reg 64) to_format with
    | none =>
      unfold find_path at h
      rw [hstart, hgoal] at h
      simp at h
    | some goal =>
      obtain ⟨nodes, q, d, hi, _, hres⟩ := find_path_search reg from_format to_format start goal
        hstart hgoal
      obtain ⟨hnn, hlen, _, _⟩ := build_nodes_names reg
      have hs := format_index_some _ _ _ hstart
      have hg := format_index_some _ _ _ hgoal
      have hgl : goal < ((build_nodes reg 64).map Node.name).length := by simpa using hg.1
      have hlen2 : ((build_nodes reg 64).map Node.name).length ≤ 64 := by simpa using hlen
      rw [hres max_steps] at h
      by_cases hseen : (nodes.getD goal Node.zero).seen = true
      swap
      · rw [if_neg hseen] at h
        cases h
      rw [if_pos hseen] at h
      have hgq := (hi.seen_iff goal hgl).1 hseen
      have hq := (queue_full _ _ hi.nodup hi.lt).1
      have hdl := hi.d_lt goal hgq
      cases hb : back_loop nodes start 64 goal with
      | none =>
        rw [hb] at h
        cases h
      | some l =>
        rw [hb] at h
        simp only at h
        by_cases hc : l.length = 0 ∨ max_steps < l.length
        · rw [if_pos hc] at h
          cases h
        · rw [if_neg hc] at h
          simp only [Option.some.injEq] at h
          subst h
          have := (back_loop_nodup reg to_format _ start nodes q d hnn hi 64 goal l hgq
            (by omega) hb).1
          rw [hs.2] at this
          exact this

/-! ### The bounds of the search -/

theorem edges_loop_qh (to_format : Str) (u : Nat) : ∀ (cs : List Converter) (cid : Nat)
    (s : Search), (edges_loop to_format u cid cs s).qh = s.qh
      ∧ s.q.length ≤ (edges_loop to_format u cid cs s).q.length := by
  intro cs
  induction cs with
  | nil => intro cid s; exact ⟨rfl, le_refl _⟩
  | cons c cs ih =>
    intro cid s
    by_cases h1 : c.from_format ≠ (s.nodes.getD u Node.zero).name
    · rw [edges_loop_skip_from _ _ _ _ _ _ h1]
      exact ih _ _
    · by_cases h2 : edge_allowed to_format c
      swap
      · rw [edges_loop_skip_storage _ _ _ _ _ _ h2]
        exact ih _ _
      · cases h3 : format_index s.nodes c.to_format with
        | none =>
          rw [edges_loop_skip_none _ _ _ _ _ _ h3]
          exact ih _ _
        | some v =>
          by_cases h4 : (s.nodes.getD v Node.zero).seen = true
          · rw [edges_loop_skip_seen _ _ _ _ _ _ _ h3 h4]
            exact ih _ _
          · rw [edges_loop_take _ _ _ _ _ _ _ (not_not.1 h1) h2 h3 h4]
            split_ifs with h5
            · exact ⟨rfl, by simp⟩
            · have := ih (cid + 1) ⟨mark s.nodes v u cid, s.q ++ [v], s.qh⟩
              refine ⟨this.1, ?_⟩
              have h6 := this.2
              simp only [List.length_append, List.length_cons, List.length_nil] at h6
              omega

theorem edges_loop_checked_skip (to_format : Str) (u cid : Nat) (c : Converter)
    (cs : List Converter) (s : Search)
    (h : c.from_format ≠ (s.nodes.getD u Node.zero).name ∨ ¬ edge_allowed to_format c
      ∨ format_index s.nodes c.to_format = none
      ∨ ∃ v, format_index s.nodes c.to_format = some v
          ∧ (s.nodes.getD v Node.zero).seen = true) :
    edges_loop_checked to_format u cid (c :: cs) s
      = edges_loop_checked to_format u (cid + 1) cs s := by
  rcases h with h | h | h | ⟨v, h, hs⟩
  · simp only [edges_loop_checked, if_pos h]
  · unfold edge_allowed at h
    have h2 : is_storage_format c.to_format = true ∧ to_format ≠ "postgresql".toList := by
      by_contra h3
      exact h h3
    simp only [edges_loop_checked, if_pos h2]
    split_ifs <;> rfl
  · simp only [edges_loop_checked, h]
    split_ifs <;> rfl
  · simp only [edges_loop_checked, h, hs, if_true]
    split_ifs <;> rfl

theorem edges_loop_checked_take (to_format : Str) (u cid v : Nat) (c : Converter)
    (cs : List Converter) (s : Search) (h1 : c.from_format = (s.nodes.getD u Node.zero).name)
    (h2 : edge_allowed to_format c) (h : format_index s.nodes c.to_format = some v)
    (hs : ¬ (s.nodes.getD v Node.zero).seen = true) :
    edges_loop_checked to_format u cid (c :: cs) s
      = if 64 ≤ s.q.length then none
        else if 64 ≤ s.q.length + 1 then some ⟨mark s.nodes v u cid, s.q ++ [v], s.qh⟩
        else edges_loop_checked to_format u (cid + 1) cs
          ⟨mark s.nodes v u cid, s.q ++ [v], s.qh⟩ := by
  unfold edge_allowed at h2
  have h3 : ¬ c.from_format ≠ (s.nodes.getD u Node.zero).name := fun e => e h1
  simp only [edges_loop_checked, if_neg h3, if_neg h2, h, if_neg hs]

/-- The loop over the edges writes within `q` when the queue it leaves has at most 64
entries. -/
theorem edges_loop_checked_eq (to_format : Str) (u : Nat) : ∀ (cs : List Converter)
    (cid : Nat) (s : Search), (edges_loop to_format u cid cs s).q.length ≤ 64 →
    edges_loop_checked to_format u cid cs s = some (edges_loop to_format u cid cs s) := by
  intro cs
  induction cs with
  | nil => intro cid s _; rfl
  | cons c cs ih =>
    intro cid s
    by_cases h1 : c.from_format ≠ (s.nodes.getD u Node.zero).name
    · rw [edges_loop_skip_from _ _ _ _ _ _ h1,
        edges_loop_checked_skip _ _ _ _ _ _ (Or.inl h1)]
      exact ih _ _
    · by_cases h2 : edge_allowed to_format c
      swap
      · rw [edges_loop_skip_storage _ _ _ _ _ _ h2,
          edges_loop_checked_skip _ _ _ _ _ _ (Or.inr (Or.inl h2))]
        exact ih _ _
      · cases h3 : format_index s.nodes c.to_format with
        | none =>
          rw [edges_loop_skip_none _ _ _ _ _ _ h3,
            edges_loop_checked_skip _ _ _ _ _ _ (Or.inr (Or.inr (Or.inl h3)))]
          exact ih _ _
        | some v =>
          by_cases h4 : (s.nodes.getD v Node.zero).seen = true
          · rw [edges_loop_skip_seen _ _ _ _ _ _ _ h3 h4,
              edges_loop_checked_skip _ _ _ _ _ _ (Or.inr (Or.inr (Or.inr ⟨v, h3, h4⟩)))]
            exact ih _ _
          · rw [edges_loop_take _ _ _ _ _ _ _ (not_not.1 h1) h2 h3 h4,
              edges_loop_checked_take _ _ _ _ _ _ _ (not_not.1 h1) h2 h3 h4]
            intro h
            by_cases h5 : 64 ≤ s.q.length + 1
            · simp only [if_pos h5] at h ⊢
              simp only [List.length_append, List.length_cons, List.length_nil] at h
              rw [if_neg (by omega)]
            · simp only [if_neg h5] at h ⊢
              rw [if_neg (by omega)]
              exact ih _ _ h

theorem search_loop_length (reg : List Converter) (to_format : Str) (goal : Nat) :
    ∀ (fuel : Nat) (s : Search), s.q.length ≤ (search_loop reg to_format goal fuel s).q.length := by
  intro fuel
  induction fuel with
  | zero => intro s; exact le_refl _
  | succ fuel ih =>
    intro s
    simp only [search_loop]
    split_ifs with h1 h2
    · exact le_refl _
    · have h3 := (edges_loop_qh to_format (s.q.getD s.qh 0) reg 0 ⟨s.nodes, s.q, s.qh + 1⟩).2
      have h4 := ih (edges_loop to_format (s.q.getD s.qh 0) 0 reg ⟨s.nodes, s.q, s.qh + 1⟩)
      exact le_trans h3 h4
    · exact le_refl _

/-- The search loop writes within `q` and ends within the rounds allowed, when the queue it
leaves has at most 64 entries and the rounds allowed and the nodes taken make 64. -/
theorem search_loop_checked_eq (reg : List Converter) (to_format : Str) (goal : Nat) :
    ∀ (fuel : Nat) (s : Search), (search_loop reg to_format goal fuel s).q.length ≤ 64 →
      64 ≤ fuel + s.qh →
      search_loop_checked reg to_format goal fuel s
        = some (search_loop reg to_format goal fuel s) := by
  intro fuel
  induction fuel with
  | zero =>
    intro s h1 h2
    simp only [search_loop] at h1
    have : ¬ s.qh < s.q.length := by omega
    simp only [search_loop_checked, search_loop, if_neg this]
  | succ fuel ih =>
    intro s h1 h2
    simp only [search_loop] at h1
    simp only [search_loop_checked, search_loop]
    split_ifs at h1 ⊢ with h3 h4
    · rfl
    · have hm := search_loop_length reg to_format goal fuel
        (edges_loop to_format (s.q.getD s.qh 0) 0 reg ⟨s.nodes, s.q, s.qh + 1⟩)
      rw [edges_loop_checked_eq to_format (s.q.getD s.qh 0) reg 0 ⟨s.nodes, s.q, s.qh + 1⟩
        (by omega)]
      simp only
      apply ih _ h1
      rw [(edges_loop_qh to_format (s.q.getD s.qh 0) reg 0 ⟨s.nodes, s.q, s.qh + 1⟩).1]
      simp only
      omega
    · rfl

/-- A loop back that gives fewer edges than the steps allowed has arrived at the start
node. -/
theorem back_loop_checked_eq (nodes : List Node) (start : Nat) : ∀ (fuel cur : Nat)
    (l : List Nat), back_loop nodes start fuel cur = some l → l.length < fuel →
    back_loop_checked nodes start fuel cur = some l := by
  intro fuel
  induction fuel with
  | zero => intro cur l _ h; omega
  | succ fuel ih =>
    intro cur l hb hl
    by_cases hs : cur = start
    · simp only [back_loop, if_pos hs] at hb
      simp only [back_loop_checked, if_pos hs]
      exact hb
    · simp only [back_loop, if_neg hs] at hb
      simp only [back_loop_checked, if_neg hs]
      cases h1 : (nodes.getD cur Node.zero).prev_converter with
      | none =>
        rw [h1] at hb
        simp at hb
      | some cid =>
        cases h2 : (nodes.getD cur Node.zero).prev with
        | none =>
          rw [h1, h2] at hb
          simp at hb
        | some p =>
          rw [h1, h2] at hb
          simp only at hb ⊢
          cases h3 : back_loop nodes start fuel p with
          | none =>
            rw [h3] at hb
            cases hb
          | some lp =>
            rw [h3] at hb
            simp only [Option.map_some', Option.some.injEq] at hb
            subst hb
            simp only [List.length_cons] at hl
            rw [ih p lp h3 (by omega)]
            rfl

end Conversion

namespace Conversion

open DataConvert (Str)

/-- Source `find_path` in terms of the state in which its search starts. -/
theorem find_path_init (reg : List Converter) (from_format to_format : Str) (max_steps : Nat)
    (start goal : Nat) (hstart : format_index (build_nodes reg 64) from_format = some start)
    (hgoal : format_index (build_nodes reg 64) to_format = some goal) :
    find_path reg from_format to_format max_steps
      = if ((search_loop reg to_format goal 64 (search_init reg start)).nodes.getD goal
            Node.zero).seen = true then
          match back_loop (search_loop reg to_format goal 64 (search_init reg start)).nodes
              start 64 goal with
          | none => none
          | some tmp =>
            if tmp.length = 0 ∨ max_steps < tmp.length then none else some tmp.reverse
        else none := by
  unfold find_path
  rw [hstart, hgoal]
  all_goals rfl

/-- The invariant of the search in the state in which the search loop of `find_path`
ends. -/
theorem search_init_inv (reg : List Converter) (to_format : Str) (start goal : Nat)
    (hs : start < (build_nodes reg 64).length) :
    ∃ d, SearchInv reg to_format ((build_nodes reg 64).map Node.name) start
      (search_loop reg to_format goal 64 (search_init reg start)).nodes
      (search_loop reg to_format goal 64 (search_init reg start)).q d := by
  obtain ⟨hnn, hlen, hfresh, _⟩ := build_nodes_names reg
  have hlen2 : ((build_nodes reg 64).map Node.name).length ≤ 64 := by simpa using hlen
  have hi0 := search_start reg to_format start hfresh hs
  obtain ⟨d, hi, _⟩ := search_loop_inv reg to_format ((build_nodes reg 64).map Node.name)
    start goal hnn hlen2 64 (search_init reg start) (fun _ => 0) (by simpa using hlen) hi0
    (by simp [search_init]) (by simp [search_init]) (by simp [search_init])
  exact ⟨d, hi⟩

end Conversion

/-- C34: when `find_path` returns a path, it has at least one edge index, every index is
that of a registry entry, the source tag of the first entry is the source, the destination
tag of the last is the target, the destination tag of each entry is the source tag of the
next, and the tags visited, which are the source and then the destination of each entry,
are pairwise distinct. -/
theorem c34_find_path_chain (reg : List Conversion.Converter)
    (from_format to_format : DataConvert.Str) (max_steps : Nat) (path : List Nat)
    (h : Conversion.find_path reg from_format to_format max_steps = some path) :
    1 ≤ path.length
      ∧ (∀ cid ∈ path, cid < reg.length)
      ∧ (∃ c, reg.get? (path.getD 0 0) = some c ∧ c.from_format = from_format)
      ∧ (∃ c, reg.get? (path.getD (path.length - 1) 0) = some c ∧ c.to_format = to_format)
      ∧ (∀ k, k + 1 < path.length →
          ∃ c c2, reg.get? (path.getD k 0) = some c ∧ reg.get? (path.getD (k + 1) 0) = some c2
            ∧ c.to_format = c2.from_format)
      ∧ (from_format :: path.map (fun cid => (Conversion.converter_at reg cid).to_format)).Nodup := by
  obtain ⟨hw, hne, _⟩ := Conversion.find_path_sound reg from_format to_format max_steps path h
  have hpos : 0 < path.length := List.length_pos.2 hne
  have hch := Conversion.walk_chain reg path from_format to_format hw
  refine ⟨hpos, ?_, ?_, ?_, ?_, Conversion.find_path_nodup reg from_format to_format max_steps
    path h⟩
  · intro cid hc
    obtain ⟨k, hk, e⟩ := List.getElem_of_mem hc
    obtain ⟨c, h1, _⟩ := hch k hk
    rw [List.getD_eq_getElem _ _ hk, e] at h1
    by_contra hlt
    rw [List.get?_eq_getElem?, List.getElem?_eq_none (by omega)] at h1
    cases h1
  · obtain ⟨c, h1, h2, _⟩ := hch 0 hpos
    exact ⟨c, h1, by simpa [Conversion.walk_tags] using h2⟩
  · obtain ⟨c, h1, _, _, h4⟩ := hch (path.length - 1) (by omega)
    exact ⟨c, h1, h4 (by omega)⟩
  · intro k hk
    obtain ⟨c, h1, _, h3, _⟩ := hch k (by omega)
    obtain ⟨c2, k1, k2, _⟩ := hch (k + 1) hk
    exact ⟨c, c2, h1, k1, h3.trans k2.symm⟩

/-- C34 at the registry of the source, from `postgresql` to `tokens`: the path is the edges
19, 5 and 17, over the tags `postgresql`, `csv`, `txt` and `tokens`. -/
theorem c34_find_path_chain_witness :
    Conversion.find_path Conversion.converters "postgresql".toList "tokens".toList 64
        = some [19, 5, 17]
      ∧ ("postgresql".toList :: [19, 5, 17].map
          (fun cid => (Conversion.converter_at Conversion.converters cid).to_format))
        = ["postgresql".toList, "csv".toList, "txt".toList, "tokens".toList]
      ∧ ("postgresql".toList :: [19, 5, 17].map
          (fun cid => (Conversion.converter_at Conversion.converters cid).to_format)).Nodup :=
  ⟨by decide, by decide,
    (c34_find_path_chain Conversion.converters "postgresql".toList "tokens".toList 64
      [19, 5, 17] (by decide)).2.2.2.2.2⟩

/-- C36: for every registry and every source and target that have nodes, the search loop
of `find_path`, run from the state `search_init`, writes no entry of `q` at an index of 64
or more and ends within 64 rounds: the loop with these checks gives what the loop gives.
The queue it leaves holds no node twice and has at most as many entries as there are
nodes, which are at most 64. When the goal was reached, the loop back over `prev` arrives at
the start node without a `prev` of -1 and gives at most `n - 1` edges, `n` being the number
of nodes. -/
theorem c36_find_path_bounds (reg : List Conversion.Converter)
    (from_format to_format : DataConvert.Str) (start goal : Nat)
    (hstart : Conversion.format_index (Conversion.build_nodes reg 64) from_format = some start)
    (hgoal : Conversion.format_index (Conversion.build_nodes reg 64) to_format = some goal) :
    Conversion.search_loop_checked reg to_format goal 64 (Conversion.search_init reg start)
        = some (Conversion.search_loop reg to_format goal 64 (Conversion.search_init reg start))
      ∧ (Conversion.search_loop reg to_format goal 64 (Conversion.search_init reg start)).q.Nodup
      ∧ (Conversion.search_loop reg to_format goal 64
          (Conversion.search_init reg start)).q.length ≤ (Conversion.build_nodes reg 64).length
      ∧ (Conversion.build_nodes reg 64).length ≤ 64
      ∧ (((Conversion.search_loop reg to_format goal 64
            (Conversion.search_init reg start)).nodes.getD goal Conversion.Node.zero).seen = true →
          ∃ l, Conversion.back_loop_checked
                (Conversion.search_loop reg to_format goal 64
                  (Conversion.search_init reg start)).nodes start 64 goal = some l
            ∧ Conversion.back_loop
                (Conversion.search_loop reg to_format goal 64
                  (Conversion.search_init reg start)).nodes start 64 goal = some l
            ∧ l.length + 1 ≤ (Conversion.build_nodes reg 64).length) := by
  obtain ⟨hnn, hlen, _, _⟩ := Conversion.build_nodes_names reg
  have hs := Conversion.format_index_some _ _ _ hstart
  have hg := Conversion.format_index_some _ _ _ hgoal
  obtain ⟨d, hi⟩ := Conversion.search_init_inv reg to_format start goal hs.1
  have hq := (Conversion.queue_full _ _ hi.nodup hi.lt).1
  have hq2 : (Conversion.search_loop reg to_format goal 64
      (Conversion.search_init reg start)).q.length ≤ (Conversion.build_nodes reg 64).length := by
    simpa using hq
  refine ⟨?_, hi.nodup, hq2, hlen, ?_⟩
  · exact Conversion.search_loop_checked_eq reg to_format goal 64 _ (by omega)
      (by simp [Conversion.search_init])
  · intro hseen
    have hgl : goal < ((Conversion.build_nodes reg 64).map Conversion.Node.name).length := by
      simpa using hg.1
    have hgq := (hi.seen_iff goal hgl).1 hseen
    have hdl := hi.d_lt goal hgq
    obtain ⟨l, k1, k2, _⟩ := Conversion.back_loop_spec reg to_format _ start goal _ _ d hnn hi
      hgl hg.2 64 goal hgq (by omega) (le_refl _)
    exact ⟨l, Conversion.back_loop_checked_eq _ start 64 goal l k1 (by omega), k1, by omega⟩

/-- C36 at the registry of the source, from `postgresql`, the node 10, to `tokens`, the
node 9: the queue ends with nine of the eleven nodes, and the loop back gives the three
edges 17, 5 and 19. -/
theorem c36_find_path_bounds_witness :
    (Conversion.search_loop Conversion.converters "tokens".toList 9 64
        (Conversion.search_init Conversion.converters 10)).q = [10, 4, 3, 1, 5, 6, 7, 8, 9]
      ∧ Conversion.search_loop_checked Conversion.converters "tokens".toList 9 64
          (Conversion.search_init Conversion.converters 10)
        = some (Conversion.search_loop Conversion.converters "tokens".toList 9 64
          (Conversion.search_init Conversion.converters 10))
      ∧ Conversion.back_loop_checked
          (Conversion.search_loop Conversion.converters "tokens".toList 9 64
            (Conversion.search_init Conversion.converters 10)).nodes 10 64 9
        = some [17, 5, 19] :=
  ⟨by decide,
    (c36_find_path_bounds Conversion.converters "postgresql".toList "tokens".toList 10 9
      (by decide) (by decide)).1,
    by decide⟩

namespace Conversion

open DataConvert (Str)

/-! ### The chain of the hops -/

end Conversion

namespace PgStore

open DataConvert (Str isspace)
open SqlConvert (isalpha isalnum)

/-! ## The decimal digits of `%d` -/

theorem dec_digits_value : ∀ (fuel n : Nat), n < fuel → dec_value (dec_digits fuel n) = n := by
  intro fuel
  induction fuel with
  | zero => intro n h; omega
  | succ fuel ih =>
    intro n h
    by_cases h1 : n < 10
    · simp only [dec_digits, if_pos h1, dec_value]
      omega
    · simp only [dec_digits, if_neg h1, dec_value]
      rw [ih (n / 10) (by omega)]
      omega

theorem dec_digits_lt : ∀ (fuel n : Nat), ∀ d ∈ dec_digits fuel n, d < 10 := by
  intro fuel
  induction fuel with
  | zero => intro n d hd; cases hd
  | succ fuel ih =>
    intro n d hd
    by_cases h1 : n < 10
    · simp only [dec_digits, if_pos h1, List.mem_singleton] at hd
      omega
    · simp only [dec_digits, if_neg h1, List.mem_cons] at hd
      rcases hd with e | e
      · omega
      · exact ih _ d e

theorem dec_digits_length : ∀ (e fuel n : Nat), n < 10 ^ (e + 1) →
    (dec_digits fuel n).length ≤ e + 1 := by
  intro e
  induction e with
  | zero =>
    intro fuel n h
    cases fuel with
    | zero => simp [dec_digits]
    | succ fuel =>
      have h1 : n < 10 := by simpa using h
      simp [dec_digits, if_pos h1]
  | succ e ih =>
    intro fuel n h
    cases fuel with
    | zero => simp [dec_digits]
    | succ fuel =>
      by_cases h1 : n < 10
      · simp [dec_digits, if_pos h1]
      · simp only [dec_digits, if_neg h1, List.length_cons]
        have h2 : n / 10 < 10 ^ (e + 1) := by
          rw [Nat.div_lt_iff_lt_mul (by decide)]
          rw [pow_succ] at h
          exact h
        have := ih fuel (n / 10) h2
        omega

theorem digit_value_char (d : Nat) (h : d < 10) : digit_value (Char.ofNat (48 + d)) = d := by
  interval_cases d <;> rfl

theorem digit_char_ident (d : Nat) (h : d < 10) : ident_char (Char.ofNat (48 + d)) := by
  unfold ident_char
  interval_cases d <;> decide

theorem map_digit_value (ds : List Nat) (h : ∀ d ∈ ds, d < 10) :
    (ds.map (fun d => Char.ofNat (48 + d))).map digit_value = ds := by
  induction ds with
  | nil => rfl
  | cons d ds ih =>
    simp only [List.map_cons]
    rw [digit_value_char d (h d (List.mem_cons_self _ _)),
      ih (fun x hx => h x (List.mem_cons_of_mem _ hx))]

/-- Two numbers that `%d` prints alike are the same. -/
theorem fmt_d_inj (n m : Nat) (h : fmt_d n = fmt_d m) : n = m := by
  unfold fmt_d at h
  have h1 := List.reverse_injective h
  have h2 := congrArg (List.map digit_value) h1
  rw [map_digit_value _ (dec_digits_lt _ _), map_digit_value _ (dec_digits_lt _ _)] at h2
  have h3 := congrArg dec_value h2
  rw [dec_digits_value _ _ (Nat.lt_succ_self _), dec_digits_value _ _ (Nat.lt_succ_self _)] at h3
  exact h3

theorem fmt_d_ident (n : Nat) : ∀ c ∈ fmt_d n, ident_char c := by
  intro c hc
  unfold fmt_d at hc
  simp only [List.mem_reverse, List.mem_map] at hc
  obtain ⟨d, hd, e⟩ := hc
  rw [← e]
  exact digit_char_ident d (dec_digits_lt _ _ d hd)

theorem fmt_d_length (n : Nat) (h : n < 10000000000) : (fmt_d n).length ≤ 10 := by
  unfold fmt_d
  simp only [List.length_reverse, List.length_map]
  exact dec_digits_length 9 _ n (by simpa using h)

/-! ## Identifiers -/

theorem is_ident_iff (s : Str) :
    is_ident s = true ↔ ∃ c r, s = c :: r ∧ (isalpha c || c = '_') = true
      ∧ ∀ x ∈ r, ident_char x := by
  cases s with
  | nil => simp [is_ident]
  | cons c r =>
    simp only [is_ident, Bool.and_eq_true, List.all_eq_true, List.cons.injEq]
    constructor
    · rintro ⟨h1, h2⟩
      exact ⟨c, r, ⟨rfl, rfl⟩, h1, h2⟩
    · rintro ⟨c2, r2, ⟨e1, e2⟩, h1, h2⟩
      subst e1 e2
      exact ⟨h1, h2⟩

theorem is_ident_ne_nil (s : Str) (h : is_ident s = true) : s ≠ [] := by
  intro e
  rw [e] at h
  cases h

/-- An identifier cut off behind at least one character, with characters of an identifier
behind it, is an identifier. -/
theorem is_ident_take_append (s t : Str) (n : Nat) (hs : is_ident s = true) (hn : 0 < n)
    (ht : ∀ x ∈ t, ident_char x) : is_ident (s.take n ++ t) = true := by
  obtain ⟨c, r, e, h1, h2⟩ := (is_ident_iff s).1 hs
  subst e
  obtain ⟨m, rfl⟩ : ∃ m, n = m + 1 := ⟨n - 1, by omega⟩
  rw [is_ident_iff]
  refine ⟨c, r.take m ++ t, by simp, h1, ?_⟩
  intro x hx
  rcases List.mem_append.1 hx with hx | hx
  · exact h2 x (List.mem_of_mem_take hx)
  · exact ht x hx

theorem is_ident_take (s : Str) (n : Nat) (hs : is_ident s = true) (hn : 0 < n) :
    is_ident (s.take n) = true := by
  have := is_ident_take_append s [] n hs hn (fun x hx => by cases hx)
  simpa using this

/-- What `sanitize_identifier` leaves with the fallback `col` is an identifier of at most
127 characters. -/
theorem sanitize_identifier_ident (raw : Option Str) :
    is_ident (sanitize_identifier raw "col".toList) = true
      ∧ (sanitize_identifier raw "col".toList).length ≤ 127 := by
  have hcol : is_ident ("col".toList.take 127) = true
      ∧ ("col".toList.take 127).length ≤ 127 := by decide
  have hfin : ∀ out : Str, out.length ≤ 127 →
      is_ident (if !is_ident out then "col".toList.take 127 else out) = true
        ∧ (if !is_ident out then "col".toList.take 127 else out).length ≤ 127 := by
    intro out hl
    cases h : is_ident out with
    | false => exact hcol
    | true => exact ⟨h, hl⟩
  unfold sanitize_identifier
  by_cases h1 : (raw.getD []).dropWhile isspace = []
  · rw [if_pos h1]
    exact hcol
  · rw [if_neg h1]
    exact hfin _ (by split_ifs <;> exact List.length_take_le _ _)

/-! ## The candidates -/

theorem candidate_eq (base : Str) (k : Nat) (hk : k < 10000000000) :
    candidate base k = base.take 116 ++ '_' :: fmt_d k := by
  unfold candidate
  apply List.take_of_length_le
  have h1 := fmt_d_length k hk
  have h2 := List.length_take_le 116 base
  simp only [List.length_append, List.length_cons]
  omega

theorem candidate_inj (base : Str) (k k2 : Nat) (hk : k < 10000000000)
    (hk2 : k2 < 10000000000) (h : candidate base k = candidate base k2) : k = k2 := by
  rw [candidate_eq base k hk, candidate_eq base k2 hk2] at h
  have h1 := List.append_cancel_left h
  simp only [List.cons.injEq, true_and] at h1
  exact fmt_d_inj k k2 h1

theorem candidate_ident (base : Str) (k : Nat) (hb : is_ident base = true) :
    is_ident (candidate base k) = true ∧ (candidate base k).length ≤ 127 := by
  unfold candidate
  constructor
  · apply is_ident_take _ 127 _ (by decide)
    apply is_ident_take_append base _ 116 hb (by decide)
    intro x hx
    rcases List.mem_cons.1 hx with e | e
    · rw [e]
      unfold ident_char
      decide
    · exact fmt_d_ident k x e
  · exact List.length_take_le _ _

/-- What the loop over the candidates returns is a candidate that is none of the names. -/
theorem unique_loop_some (prev : List Str) (base : Str) : ∀ (fuel k : Nat) (c : Str),
    unique_loop prev base fuel k = some c → c ∉ prev ∧ ∃ k2, c = candidate base k2 := by
  intro fuel
  induction fuel with
  | zero => intro k c h; cases h
  | succ fuel ih =>
    intro k c h
    simp only [unique_loop] at h
    split_ifs at h with h1 h2
    · exact ih _ c h
    · simp only [Option.some.injEq] at h
      rw [← h]
      exact ⟨h1, k, rfl⟩

/-- When the loop over the candidates finds none, every candidate it was allowed is among
the names. -/
theorem unique_loop_none (prev : List Str) (base : Str) : ∀ (fuel k : Nat),
    k + fuel ≤ 2147483647 → unique_loop prev base fuel k = none →
    ∀ j, j < fuel → candidate base (k + j) ∈ prev := by
  intro fuel
  induction fuel with
  | zero => intro k _ _ j hj; omega
  | succ fuel ih =>
    intro k hk h j hj
    simp only [unique_loop] at h
    split_ifs at h with h1 h2
    · cases j with
      | zero => exact h1
      | succ j =>
        have := ih (k + 1) (by omega) h j (by omega)
        have e : k + 1 + j = k + (j + 1) := by omega
        rw [e] at this
        exact this
    · omega

theorem length_le_of_nodup_subset (a b : List Str) (hn : a.Nodup) (hs : ∀ x ∈ a, x ∈ b) :
    a.length ≤ b.length := by
  have h1 : a.length ≤ b.dedup.length := by
    rw [← List.toFinset_card_of_nodup hn, ← List.card_toFinset]
    apply Finset.card_le_card
    intro t ht
    rw [List.mem_toFinset] at ht ⊢
    exact hs t ht
  exact le_trans h1 (List.dedup_sublist b).length_le

/-- One more candidate than there are names: the loop finds one that is free. -/
theorem unique_loop_ends (prev : List Str) (base : Str) (hlen : prev.length + 3 ≤ 2147483647) :
    ∃ c, unique_loop prev base (prev.length + 1) 2 = some c := by
  cases h : unique_loop prev base (prev.length + 1) 2 with
  | some c => exact ⟨c, rfl⟩
  | none =>
    exfalso
    have hall := unique_loop_none prev base (prev.length + 1) 2 (by omega) h
    have hn : ((List.range (prev.length + 1)).map (fun j => candidate base (2 + j))).Nodup := by
      rw [List.nodup_map_iff_inj_on (List.nodup_range _)]
      intro x hx y hy e
      rw [List.mem_range] at hx hy
      have := candidate_inj base (2 + x) (2 + y) (by omega) (by omega) e
      omega
    have hl := length_le_of_nodup_subset _ prev hn (by
      intro x hx
      simp only [List.mem_map, List.mem_range] at hx
      obtain ⟨j, hj, e⟩ := hx
      rw [← e]
      exact hall j hj)
    simp only [List.length_map, List.length_range] at hl
    omega

/-- The loop over the names before the column leaves a name that is none of them, an
identifier of at most 127 characters. -/
theorem uniquify_loop_spec (prev : List Str) (hlen : prev.length + 3 ≤ 2147483647) :
    ∀ (js pre : List Str) (cur : Str), prev = pre ++ js → cur ∉ pre →
      is_ident cur = true → cur.length ≤ 127 →
      ∃ c, uniquify_loop prev js cur = some c ∧ c ∉ prev ∧ is_ident c = true
        ∧ c.length ≤ 127 := by
  intro js
  induction js with
  | nil =>
    intro pre cur hp hc hi hl
    rw [List.append_nil] at hp
    rw [hp]
    exact ⟨cur, rfl, hc, hi, hl⟩
  | cons x js ih =>
    intro pre cur hp hc hi hl
    have hp2 : prev = (pre ++ [x]) ++ js := by simp [hp]
    by_cases hx : cur = x
    · obtain ⟨c, hcand⟩ := unique_loop_ends prev (cur.take 127) hlen
      obtain ⟨h1, k2, h2⟩ := unique_loop_some prev _ _ _ c hcand
      have hbase : is_ident (cur.take 127) = true := is_ident_take cur 127 hi (by decide)
      have h3 := candidate_ident (cur.take 127) k2 hbase
      rw [← h2] at h3
      have hc2 : c ∉ pre ++ [x] := by
        intro hm
        apply h1
        rw [hp2]
        exact List.mem_append_left _ hm
      obtain ⟨r, k1, k3⟩ := ih (pre ++ [x]) c hp2 hc2 h3.1 h3.2
      refine ⟨r, ?_, k3⟩
      simp only [uniquify_loop, if_pos hx, hcand]
      exact k1
    · have hc2 : cur ∉ pre ++ [x] := by
        intro hm
        rcases List.mem_append.1 hm with hm | hm
        · exact hc hm
        · simp only [List.mem_singleton] at hm
          exact hx hm
      obtain ⟨r, k1, k3⟩ := ih (pre ++ [x]) cur hp2 hc2 hi hl
      refine ⟨r, ?_, k3⟩
      simp only [uniquify_loop, if_neg hx]
      exact k1

/-- The loop over the columns keeps the names distinct, identifiers and of at most 127
characters, one for each raw name. -/
theorem make_unique_idents_loop_spec : ∀ (rest : List (Option Str)) (done : List Str),
    done.length + rest.length + 2 ≤ 2147483647 → done.Nodup →
    (∀ x ∈ done, is_ident x = true ∧ x.length ≤ 127) →
    ∃ out, make_unique_idents_loop done rest = some out
      ∧ out.length = done.length + rest.length ∧ out.Nodup
      ∧ (∀ x ∈ out, is_ident x = true ∧ x.length ≤ 127)
      ∧ out.take done.length = done := by
  intro rest
  induction rest with
  | nil =>
    intro done _ hn hall
    exact ⟨done, rfl, by simp, hn, hall, by simp⟩
  | cons raw rest ih =>
    intro done hlen hn hall
    simp only [List.length_cons] at hlen
    have hs := sanitize_identifier_ident raw
    obtain ⟨c, h1, h2, h3, h4⟩ := uniquify_loop_spec done (by omega) done [] _ rfl
      (by simp) hs.1 hs.2
    have hc : (if !is_ident c then "col".toList else c) = c := by
      rw [h3]
      rfl
    have hn2 : (done ++ [c]).Nodup := by
      rw [List.nodup_append]
      refine ⟨hn, by simp, ?_⟩
      intro x hx hx2
      simp only [List.mem_singleton] at hx2
      subst hx2
      exact h2 hx
    have hall2 : ∀ x ∈ done ++ [c], is_ident x = true ∧ x.length ≤ 127 := by
      intro x hx
      rcases List.mem_append.1 hx with hx | hx
      · exact hall x hx
      · simp only [List.mem_singleton] at hx
        subst hx
        exact ⟨h3, h4⟩
    obtain ⟨out, k1, k2, k3, k4, k5⟩ := ih (done ++ [c]) (by
      simp only [List.length_append, List.length_cons, List.length_nil]
      omega) hn2 hall2
    refine ⟨out, ?_, ?_, k3, k4, ?_⟩
    · simp only [make_unique_idents_loop, h1, hc]
      exact k1
    · rw [k2]
      simp only [List.length_append, List.length_cons, List.length_nil]
      omega
    · have := congrArg (List.take done.length) k5
      rw [List.take_take] at this
      simp only [List.length_append, List.length_cons, List.length_nil] at this
      rw [min_eq_left (by omega)] at this
      rw [this]
      simp

end PgStore

/-- C40: for every list of fewer than 2147483646 raw header names (so that the counter `k`
of the candidates stays an `int`), `make_unique_idents` ends and leaves a list of the same
length, whose entries are pairwise distinct, each accepted by `is_ident` and each shorter
than 128 bytes. -/
theorem c40_make_unique_idents (cols : List (Option DataConvert.Str))
    (hlen : cols.length < 2147483646) :
    ∃ out, PgStore.make_unique_idents cols = some out
      ∧ out.length = cols.length ∧ out.Nodup
      ∧ ∀ x ∈ out, PgStore.is_ident x = true ∧ x.length < 128 := by
  obtain ⟨out, h1, h2, h3, h4, _⟩ := PgStore.make_unique_idents_loop_spec cols []
    (by simp only [List.length_nil]; omega) List.nodup_nil (by intro x hx; cases hx)
  refine ⟨out, h1, by simpa using h2, h3, ?_⟩
  intro x hx
  have := h4 x hx
  exact ⟨this.1, by omega⟩

/-- C40 at eight raw names, among them a name twice, a name that starts with a digit, a
name that is a candidate of another, an empty name, a name with characters outside an
identifier, and a missing name. -/
theorem c40_make_unique_idents_witness :
    PgStore.make_unique_idents
        [some " name".toList, some "name".toList, some "1st".toList, some "name_2".toList,
          some "".toList, some "a--b c".toList, none, some "NAME".toList]
        = some ["name".toList, "name_2".toList, "col_1st".toList, "name_2_2".toList,
            "col".toList, "a_b_c".toList, "col_2".toList, "NAME".toList]
      ∧ ∃ out, PgStore.make_unique_idents
            [some " name".toList, some "name".toList, some "1st".toList, some "name_2".toList,
              some "".toList, some "a--b c".toList, none, some "NAME".toList] = some out
          ∧ out.length = [some " name".toList, some "name".toList, some "1st".toList,
              some "name_2".toList, some "".toList, some "a--b c".toList, none,
              some "NAME".toList].length
          ∧ out.Nodup
          ∧ ∀ x ∈ out, PgStore.is_ident x = true ∧ x.length < 128 :=
  ⟨by decide,
    c40_make_unique_idents
      [some " name".toList, some "name".toList, some "1st".toList, some "name_2".toList,
        some "".toList, some "a--b c".toList, none, some "NAME".toList] (by decide)⟩

namespace Conversion

open DataConvert (Str)

/-! ### The run of the hops and what the converters return -/

theorem make_temp_with_ext_made (sys : Sys) (h : temps_can_be_made sys) (ext : Option Str)
    (w : World) : (make_temp_with_ext sys ext w).1 ≠ none := by
  unfold make_temp_with_ext
  cases hm : sys.mkstemp w with
  | none => exact absurd hm (h.1 w)
  | some tmpl =>
    simp only
    rw [if_neg (by simp [h.2.1]), if_neg (by simp [h.2.2])]
    simp

theorem mem_invocations (log : List Event) (cp : Option Str) (rc : Int) :
    (cp, rc) ∈ invocations log ↔ ∃ inp out, Event.execute_converter cp inp out rc ∈ log := by
  unfold invocations
  rw [List.mem_filterMap]
  constructor
  · rintro ⟨e, he, h⟩
    cases e with
    | execute_converter a b c d =>
      simp only [Option.some.injEq, Prod.mk.injEq] at h
      obtain ⟨h1, h2⟩ := h
      subst h1 h2
      exact ⟨b, c, he⟩
    | find_path _ _ _ => simp at h
    | make_temp_with_ext _ _ _ => simp at h
    | unlink _ => simp at h
    | print _ => simp at h
  · rintro ⟨inp, out, h⟩
    exact ⟨_, h, rfl⟩

/-- The calls in the log of the loop over the hops are real: every exit code in it is one
that the converter returned, every result of `make_temp_with_ext` one that the function
gave; and when not every hop was run, a hop that was run failed, or a temporary file could
not be made, or a hop that is not the last leads to a storage target. -/
theorem pipeline_loop_calls (sys : Sys) (reg : List Converter) (output_path : Option Str) :
    ∀ (ids : List Nat) (current_input : Option Str) (temp_paths : List Str) (w : World),
      ∃ new : List Event,
        (pipeline_loop sys reg output_path ids current_input temp_paths w).2.log = w.log ++ new
        ∧ (∀ cp inp out rc, Event.execute_converter cp inp out rc ∈ new →
            ∃ w1, (sys.execute_converter cp inp out w1).1 = rc)
        ∧ (∀ ext tmpl out, Event.make_temp_with_ext ext tmpl out ∈ new →
            ∃ w1, (make_temp_with_ext sys ext w1).1 = out)
        ∧ ((invocations new).length < ids.length →
            (∃ x ∈ invocations new, x.2 ≠ 0)
              ∨ (∃ ext tmpl, Event.make_temp_with_ext ext tmpl none ∈ new)
              ∨ ∃ fmt, Event.print (.storage_target fmt) ∈ new) := by
  refine pipeline_loop.induct sys reg output_path
    (fun ids current_input temp_paths w =>
      ∃ new : List Event,
        (pipeline_loop sys reg output_path ids current_input temp_paths w).2.log = w.log ++ new
        ∧ (∀ cp inp out rc, Event.execute_converter cp inp out rc ∈ new →
            ∃ w1, (sys.execute_converter cp inp out w1).1 = rc)
        ∧ (∀ ext tmpl out, Event.make_temp_with_ext ext tmpl out ∈ new →
            ∃ w1, (make_temp_with_ext sys ext w1).1 = out)
        ∧ ((invocations new).length < ids.length →
            (∃ x ∈ invocations new, x.2 ≠ 0)
              ∨ (∃ ext tmpl, Event.make_temp_with_ext ext tmpl none ∈ new)
              ∨ ∃ fmt, Event.print (.storage_target fmt) ∈ new))
    ?_ ?_ ?_ ?_ ?_ ?_ ?_
  · intro cur temps w
    rw [pipeline_loop]
    refine ⟨temps.map Event.unlink, cleanup_log _ _, ?_, ?_, ?_⟩
    · intro cp inp out rc h
      simp at h
    · intro ext tmpl out h
      simp at h
    · intro h
      simp at h
  · intro cid cur temps w hrc
    rw [pipeline_loop_last, if_pos hrc]
    refine ⟨[Event.execute_converter (some (converter_at reg cid).converter_path) cur
        output_path (execute_converter sys (some (converter_at reg cid).converter_path) cur
          output_path w).1,
        Event.print (.converter_failed (execute_converter sys
          (some (converter_at reg cid).converter_path) cur output_path w).1)]
        ++ temps.map Event.unlink, by
      simp only [cleanup_log, World.emit, execute_converter_log, List.append_assoc]
      rfl, ?_, ?_, ?_⟩
    · intro cp inp out rc h
      simp only [List.mem_append, List.mem_cons, List.mem_map, List.mem_singleton,
        List.not_mem_nil, or_false] at h
      rcases h with (h | h) | ⟨p, _, h⟩
      · cases h
        exact ⟨w, rfl⟩
      · cases h
      · cases h
    · intro ext tmpl out h
      simp only [List.mem_append, List.mem_cons, List.mem_map, List.mem_singleton,
        List.not_mem_nil, or_false] at h
      rcases h with (h | h) | ⟨p, _, h⟩
      · cases h
      · cases h
      · cases h
    · intro _
      left
      refine ⟨(some (converter_at reg cid).converter_path,
        (execute_converter sys (some (converter_at reg cid).converter_path) cur
          output_path w).1), ?_, hrc⟩
      rw [mem_invocations]
      exact ⟨cur, output_path, by simp⟩
  · intro cid cur temps w hrc _
    rw [pipeline_loop_last, if_neg hrc]
    refine ⟨[Event.execute_converter (some (converter_at reg cid).converter_path) cur
        output_path (execute_converter sys (some (converter_at reg cid).converter_path) cur
          output_path w).1]
        ++ temps.map Event.unlink, by
      simp only [cleanup_log, execute_converter_log, List.append_assoc]
      , ?_, ?_, ?_⟩
    · intro cp inp out rc h
      simp only [List.mem_append, List.mem_cons, List.mem_map, List.mem_singleton,
        List.not_mem_nil, or_false] at h
      rcases h with h | ⟨p, _, h⟩
      · cases h
        exact ⟨w, rfl⟩
      · cases h
    · intro ext tmpl out h
      simp only [List.mem_append, List.mem_cons, List.mem_map, List.mem_singleton,
        List.not_mem_nil, or_false] at h
      rcases h with h | ⟨p, _, h⟩
      · cases h
      · cases h
    · intro h
      exfalso
      simp only [invocations_append, invocations_unlinks, invocations_exec,
        List.append_nil, List.length_cons, List.length_nil] at h
      omega
  · intro cid rest cur temps w hrest hst
    rw [pipeline_loop_storage sys reg output_path cid rest cur temps w hrest hst]
    refine ⟨[Event.print (.storage_target (converter_at reg cid).to_format)]
        ++ temps.map Event.unlink, by
      simp only [cleanup_log, World.emit, List.append_assoc]
      , ?_, ?_, ?_⟩
    · intro cp inp out rc h
      simp only [List.mem_append, List.mem_cons, List.mem_map, List.mem_singleton,
        List.not_mem_nil, or_false] at h
      rcases h with h | ⟨p, _, h⟩
      · cases h
      · cases h
    · intro ext tmpl out h
      simp only [List.mem_append, List.mem_cons, List.mem_map, List.mem_singleton,
        List.not_mem_nil, or_false] at h
      rcases h with h | ⟨p, _, h⟩
      · cases h
      · cases h
    · intro _
      right
      right
      exact ⟨(converter_at reg cid).to_format, by simp⟩
  · intro cid rest cur temps w hrest hst w1 hmk
    rw [pipeline_loop_temp_failed sys reg output_path cid rest cur temps w hrest hst w1 hmk]
    obtain ⟨tmpl, pre, hlog, _⟩ :=
      make_temp_with_ext_log sys (some (converter_at reg cid).to_format) w
    have hres : (make_temp_with_ext sys (some (converter_at reg cid).to_format) w).1 = none := by
      rw [hmk]
    rw [hmk] at hlog
    simp only at hlog
    refine ⟨pre.map Event.unlink
        ++ [Event.make_temp_with_ext (some (converter_at reg cid).to_format) tmpl none,
          Event.print .temp_failed]
        ++ temps.map Event.unlink, by
      simp only [cleanup_log, World.emit, hlog, List.append_assoc]
      rfl, ?_, ?_, ?_⟩
    · intro cp inp out rc h
      simp only [List.mem_append, List.mem_cons, List.mem_map, List.mem_singleton,
        List.not_mem_nil, or_false] at h
      rcases h with (⟨p, _, h⟩ | h | h) | ⟨p, _, h⟩
      · cases h
      · cases h
      · cases h
      · cases h
    · intro ext tmpl2 out h
      simp only [List.mem_append, List.mem_cons, List.mem_map, List.mem_singleton,
        List.not_mem_nil, or_false] at h
      rcases h with (⟨p, _, h⟩ | h | h) | ⟨p, _, h⟩
      · cases h
      · cases h
        exact ⟨w, hres⟩
      · cases h
      · cases h
    · intro _
      right
      left
      exact ⟨some (converter_at reg cid).to_format, tmpl, by simp⟩
  · intro cid rest cur temps w hrest hst tmp w1 hmk hrc
    rw [pipeline_loop_hop sys reg output_path cid rest cur temps w hrest hst tmp w1 hmk,
      if_pos hrc]
    obtain ⟨tmpl, pre, hlog, _⟩ :=
      make_temp_with_ext_log sys (some (converter_at reg cid).to_format) w
    have hres : (make_temp_with_ext sys (some (converter_at reg cid).to_format) w).1
        = some tmp := by
      rw [hmk]
    rw [hmk] at hlog
    simp only at hlog
    refine ⟨pre.map Event.unlink
        ++ [Event.make_temp_with_ext (some (converter_at reg cid).to_format) tmpl (some tmp),
          Event.execute_converter (some (converter_at reg cid).converter_path) cur (some tmp)
            (execute_converter sys (some (converter_at reg cid).converter_path) cur
              (some tmp) w1).1,
          Event.print (.converter_failed (execute_converter sys
            (some (converter_at reg cid).converter_path) cur (some tmp) w1).1)]
        ++ (temps ++ [tmp]).map Event.unlink, by
      simp only [cleanup_log, World.emit, execute_converter_log, hlog, List.append_assoc]
      rfl, ?_, ?_, ?_⟩
    · intro cp inp out rc h
      simp only [List.mem_append, List.mem_cons, List.mem_map, List.mem_singleton,
        List.not_mem_nil, or_false] at h
      rcases h with (⟨p, _, h⟩ | h | h | h) | ⟨p, _, h⟩
      · cases h
      · cases h
      · cases h
        exact ⟨w1, rfl⟩
      · cases h
      · cases h
    · intro ext tmpl2 out h
      simp only [List.mem_append, List.mem_cons, List.mem_map, List.mem_singleton,
        List.not_mem_nil, or_false] at h
      rcases h with (⟨p, _, h⟩ | h | h | h) | ⟨p, _, h⟩
      · cases h
      · cases h
        exact ⟨w, hres⟩
      · cases h
      · cases h
      · cases h
    · intro _
      left
      refine ⟨(some (converter_at reg cid).converter_path,
        (execute_converter sys (some (converter_at reg cid).converter_path) cur
          (some tmp) w1).1), ?_, hrc⟩
      rw [mem_invocations]
      exact ⟨cur, some tmp, by simp⟩
  · intro cid rest cur temps w hrest hst tmp w1 hmk hrc ih
    rw [pipeline_loop_hop sys reg output_path cid rest cur temps w hrest hst tmp w1 hmk,
      if_neg hrc]
    obtain ⟨tmpl, pre, hlog, _⟩ :=
      make_temp_with_ext_log sys (some (converter_at reg cid).to_format) w
    have hres : (make_temp_with_ext sys (some (converter_at reg cid).to_format) w).1
        = some tmp := by
      rw [hmk]
    rw [hmk] at hlog
    simp only at hlog
    obtain ⟨new, h1, h2, h3, h4⟩ := ih
    refine ⟨pre.map Event.unlink
        ++ [Event.make_temp_with_ext (some (converter_at reg cid).to_format) tmpl (some tmp),
          Event.execute_converter (some (converter_at reg cid).converter_path) cur (some tmp)
            (execute_converter sys (some (converter_at reg cid).converter_path) cur
              (some tmp) w1).1]
        ++ new, by
      rw [h1]
      simp only [execute_converter_log, hlog, List.append_assoc]
      rfl, ?_, ?_, ?_⟩
    · intro cp inp out rc h
      simp only [List.mem_append, List.mem_cons, List.mem_map, List.mem_singleton,
        List.not_mem_nil, or_false] at h
      rcases h with (⟨p, _, h⟩ | h | h) | h
      · cases h
      · cases h
      · cases h
        exact ⟨w1, rfl⟩
      · exact h2 cp inp out rc h
    · intro ext tmpl2 out h
      simp only [List.mem_append, List.mem_cons, List.mem_map, List.mem_singleton,
        List.not_mem_nil, or_false] at h
      rcases h with (⟨p, _, h⟩ | h | h) | h
      · cases h
      · cases h
        exact ⟨w, hres⟩
      · cases h
      · exact h3 ext tmpl2 out h
    · intro hlen
      have hlen2 : (invocations new).length < rest.length := by
        simp only [invocations_append, invocations_unlinks, List.length_append,
          List.length_cons, List.nil_append] at hlen
        have e : (invocations
            [Event.make_temp_with_ext (some (converter_at reg cid).to_format) tmpl (some tmp),
              Event.execute_converter (some (converter_at reg cid).converter_path) cur
                (some tmp)
                (execute_converter sys (some (converter_at reg cid).converter_path) cur
                  (some tmp) w1).1]).length = 1 := rfl
        rw [e] at hlen
        omega
      rcases h4 hlen2 with ⟨x, hx, hne⟩ | ⟨ext, tmpl2, hm⟩ | ⟨fmt, hm⟩
      · left
        refine ⟨x, ?_, hne⟩
        rw [invocations_append]
        exact List.mem_append_right _ hx
      · right
        left
        exact ⟨ext, tmpl2, List.mem_append_right _ hm⟩
      · right
        right
        exact ⟨fmt, List.mem_append_right _ hm⟩

end Conversion

namespace Conversion

open DataConvert (Str)

theorem zip_take_mem (f : Nat → Option Str) (ids : List Nat) (rcs : List Int)
    (h : rcs.length ≤ ids.length) (i : Nat) (hi : i < rcs.length) :
    (f (ids.getD i 0), rcs.getD i 0) ∈ ((ids.take rcs.length).map f).zip rcs := by
  rw [List.mem_iff_getElem]
  refine ⟨i, by simp; omega, ?_⟩
  rw [List.getD_eq_getElem _ _ hi, List.getD_eq_getElem _ _ (by omega)]
  simp

theorem zip_take_length (f : Nat → Option Str) (ids : List Nat) (rcs : List Int)
    (h : rcs.length ≤ ids.length) :
    (((ids.take rcs.length).map f).zip rcs).length = rcs.length := by
  simp
  omega

/-- The run of the loop over the hops of a walk: the hops are run in order, each once, with
exit codes that the converters returned; the run ends before the last hop only behind a hop
that failed or when a temporary file could not be made. -/
theorem pipeline_loop_run (sys : Sys) (reg : List Converter) (output_path : Option Str)
    (ids : List Nat) (current_input : Option Str) (temp_paths : List Str) (w : World)
    (a b : Str) (hw : walk_ok reg a b ids) :
    ∃ (new : List Event) (rcs : List Int),
      (pipeline_loop sys reg output_path ids current_input temp_paths w).2.log = w.log ++ new
      ∧ rcs.length ≤ ids.length
      ∧ invocations new
        = ((ids.take rcs.length).map
            (fun cid => some (converter_at reg cid).converter_path)).zip rcs
      ∧ (∀ i, i < rcs.length → rcs.getD i 0 ≠ 0 → rcs.length = i + 1)
      ∧ ((pipeline_loop sys reg output_path ids current_input temp_paths w).1 = SUCCESS
          ↔ rcs.length = ids.length ∧ ∀ rc ∈ rcs, rc = 0)
      ∧ ((pipeline_loop sys reg output_path ids current_input temp_paths w).1 = SUCCESS
          ∨ (pipeline_loop sys reg output_path ids current_input temp_paths w).1
            = ERR_CONVERSION_FAILED)
      ∧ (rcs.length < ids.length →
          (∃ i, i < rcs.length ∧ rcs.getD i 0 ≠ 0)
            ∨ ∃ ext tmpl, Event.make_temp_with_ext ext tmpl none ∈ new)
      ∧ (∀ i, i < rcs.length → ∃ inp out w1,
          (sys.execute_converter (some (converter_at reg (ids.getD i 0)).converter_path)
            inp out w1).1 = rcs.getD i 0)
      ∧ (∀ ext tmpl out, Event.make_temp_with_ext ext tmpl out ∈ new →
          ∃ w1, (make_temp_with_ext sys ext w1).1 = out) := by
  obtain ⟨new, rcs, h1, h2, h3, h4, h5, h6⟩ := pipeline_loop_invocations sys reg output_path
    ids current_input temp_paths w
  obtain ⟨new2, k1, k2, k3, k4⟩ := pipeline_loop_calls sys reg output_path
    ids current_input temp_paths w
  obtain ⟨new3, n1, n2⟩ := pipeline_loop_no_storage sys reg output_path
    ids current_input temp_paths w a b hw
  have e2 : new2 = new := List.append_cancel_left (k1.symm.trans h1)
  have e3 : new3 = new := List.append_cancel_left (n1.symm.trans h1)
  rw [e2] at k2 k3 k4
  rw [e3] at n2
  have hlen : (invocations new).length = rcs.length := by
    rw [h3]
    exact zip_take_length _ ids rcs h2
  refine ⟨new, rcs, h1, h2, h3, h4, h5, h6, ?_, ?_, k3⟩
  · intro hlt
    rcases k4 (by rw [hlen]; exact hlt) with ⟨x, hx, hne⟩ | hm | ⟨fmt, hm⟩
    · left
      rw [h3] at hx
      have hx2 : x.2 ∈ rcs := (List.of_mem_zip (a := x.1) (b := x.2) hx).2
      obtain ⟨i, hi, e⟩ := List.getElem_of_mem hx2
      refine ⟨i, hi, ?_⟩
      rw [List.getD_eq_getElem _ _ hi, e]
      exact hne
    · right
      exact hm
    · exact absurd rfl (n2 _ hm fmt)
  · intro i hi
    have hm := zip_take_mem (fun cid => some (converter_at reg cid).converter_path) ids rcs
      h2 i hi
    rw [← h3, mem_invocations] at hm
    obtain ⟨inp, out, hm⟩ := hm
    obtain ⟨w1, hw1⟩ := k2 _ inp out _ hm
    exact ⟨inp, out, w1, hw1⟩

/-- With temporaries that can be made, the run over a walk whose hops up to `i` succeed and
whose hop `i` fails runs the hops up to `i` and no other. -/
theorem pipeline_loop_first_failure (sys : Sys) (reg : List Converter)
    (ids : List Nat) (new : List Event) (rcs : List Int)
    (h4 : ∀ i, i < rcs.length → rcs.getD i 0 ≠ 0 → rcs.length = i + 1)
    (h7 : rcs.length < ids.length →
      (∃ i, i < rcs.length ∧ rcs.getD i 0 ≠ 0)
        ∨ ∃ ext tmpl, Event.make_temp_with_ext ext tmpl none ∈ new)
    (h8 : ∀ i, i < rcs.length → ∃ inp out w1,
      (sys.execute_converter (some (converter_at reg (ids.getD i 0)).converter_path)
        inp out w1).1 = rcs.getD i 0)
    (h9 : ∀ ext tmpl out, Event.make_temp_with_ext ext tmpl out ∈ new →
      ∃ w1, (make_temp_with_ext sys ext w1).1 = out)
    (htemp : temps_can_be_made sys) (i : Nat) (hi : i < ids.length)
    (hs : ∀ j, j < i → hop_succeeds sys reg (ids.getD j 0))
    (hf : hop_fails sys reg (ids.getD i 0)) :
    rcs.length = i + 1 ∧ (∀ j, j < i → rcs.getD j 0 = 0) ∧ rcs.getD i 0 ≠ 0 := by
  have s1 : ∀ j, j < rcs.length → j < i → rcs.getD j 0 = 0 := by
    intro j hj hji
    obtain ⟨inp, out, w1, e⟩ := h8 j hj
    rw [← e]
    exact hs j hji inp out w1
  have s2 : i < rcs.length := by
    by_contra hlt
    rcases h7 (by omega) with ⟨k, hk, hne⟩ | ⟨ext, tmpl, hm⟩
    · exact hne (s1 k hk (by omega))
    · obtain ⟨w1, e⟩ := h9 ext tmpl none hm
      exact make_temp_with_ext_made sys htemp ext w1 e
  have s3 : rcs.getD i 0 ≠ 0 := by
    obtain ⟨inp, out, w1, e⟩ := h8 i s2
    rw [← e]
    exact hf inp out w1
  exact ⟨h4 i s2 s3, fun j hj => s1 j (by omega) hj, s3⟩

/-- With temporaries that can be made, the run over a walk whose hops all succeed runs every
hop. -/
theorem pipeline_loop_all_succeed (sys : Sys) (reg : List Converter)
    (ids : List Nat) (new : List Event) (rcs : List Int)
    (h2 : rcs.length ≤ ids.length)
    (h7 : rcs.length < ids.length →
      (∃ i, i < rcs.length ∧ rcs.getD i 0 ≠ 0)
        ∨ ∃ ext tmpl, Event.make_temp_with_ext ext tmpl none ∈ new)
    (h8 : ∀ i, i < rcs.length → ∃ inp out w1,
      (sys.execute_converter (some (converter_at reg (ids.getD i 0)).converter_path)
        inp out w1).1 = rcs.getD i 0)
    (h9 : ∀ ext tmpl out, Event.make_temp_with_ext ext tmpl out ∈ new →
      ∃ w1, (make_temp_with_ext sys ext w1).1 = out)
    (htemp : temps_can_be_made sys)
    (hs : ∀ cid ∈ ids, hop_succeeds sys reg cid) :
    rcs.length = ids.length ∧ ∀ rc ∈ rcs, rc = 0 := by
  have s1 : ∀ j, j < rcs.length → rcs.getD j 0 = 0 := by
    intro j hj
    obtain ⟨inp, out, w1, e⟩ := h8 j hj
    rw [← e]
    refine hs _ ?_ inp out w1
    rw [List.getD_eq_getElem _ _ (by omega)]
    exact List.getElem_mem _
  constructor
  · by_contra hne
    rcases h7 (by omega) with ⟨k, hk, hne2⟩ | ⟨ext, tmpl, hm⟩
    · exact hne2 (s1 k hk)
    · obtain ⟨w1, e⟩ := h9 ext tmpl none hm
      exact make_temp_with_ext_made sys htemp ext w1 e
  · intro rc hrc
    obtain ⟨j, hj, e⟩ := List.getElem_of_mem hrc
    rw [← e, ← List.getD_eq_getElem _ 0 hj]
    exact s1 j hj

end Conversion

/-- C25: `execute_pipeline`, for a request with an input and an output format for which
`find_path` returns a path, runs the converters of the first hops of the path, in order and
each once: the list `rcs` of exit codes has one entry for each hop run, and each entry is an
exit code that the converter of its hop returned. A hop whose exit code is not 0 is the
last hop run, and the result is then `ERR_CONVERSION_FAILED`. The result is `SUCCESS` just
when every hop of the path was run and every exit code was 0; otherwise it is
`ERR_CONVERSION_FAILED`. The run ends before the last hop only behind a hop that failed or
when a temporary file could not be made. So, when temporaries can be made: if the hops
before hop `i` succeed and hop `i` fails, exactly the hops 0 to `i` are run and the result
is `ERR_CONVERSION_FAILED`; if all hops succeed, all are run and the result is `SUCCESS`. -/
theorem c25_pipeline_abort (sys : Conversion.Sys) (reg : List Conversion.Converter)
    (request : Conversion.ConversionRequest) (from_format output_format : DataConvert.Str)
    (w : Conversion.World) (input : Conversion.Document) (path : List Nat)
    (hin : request.input = some input) (hof : request.output_format = some output_format)
    (hpath : Conversion.find_path reg from_format output_format 64 = some path) :
    ∃ code w2 new rcs,
      Conversion.execute_pipeline sys reg request (some from_format) w = some (code, w2)
        ∧ w2.log = w.log ++ new
        ∧ rcs.length ≤ path.length
        ∧ Conversion.invocations new
          = ((path.take rcs.length).map
              (fun cid => some (Conversion.converter_at reg cid).converter_path)).zip rcs
        ∧ (∀ i, i < rcs.length → rcs.getD i 0 ≠ 0 →
            rcs.length = i + 1 ∧ code = Conversion.ERR_CONVERSION_FAILED)
        ∧ (code = Conversion.SUCCESS ↔ rcs.length = path.length ∧ ∀ rc ∈ rcs, rc = 0)
        ∧ (code = Conversion.SUCCESS ∨ code = Conversion.ERR_CONVERSION_FAILED)
        ∧ (rcs.length < path.length →
            (∃ i, i < rcs.length ∧ rcs.getD i 0 ≠ 0)
              ∨ ∃ ext tmpl, Conversion.Event.make_temp_with_ext ext tmpl none ∈ new)
        ∧ (∀ i, i < rcs.length → ∃ inp out w1,
            (sys.execute_converter
              (some (Conversion.converter_at reg (path.getD i 0)).converter_path)
              inp out w1).1 = rcs.getD i 0)
        ∧ (Conversion.temps_can_be_made sys → ∀ i, i < path.length →
            (∀ j, j < i → Conversion.hop_succeeds sys reg (path.getD j 0)) →
            Conversion.hop_fails sys reg (path.getD i 0) →
            rcs.length = i + 1 ∧ (∀ j, j < i → rcs.getD j 0 = 0) ∧ rcs.getD i 0 ≠ 0
              ∧ code = Conversion.ERR_CONVERSION_FAILED)
        ∧ (Conversion.temps_can_be_made sys →
            (∀ cid ∈ path, Conversion.hop_succeeds sys reg cid) →
            rcs.length = path.length ∧ (∀ rc ∈ rcs, rc = 0) ∧ code = Conversion.SUCCESS) := by
  obtain ⟨hw, _, _⟩ := Conversion.find_path_sound reg from_format output_format 64 path hpath
  obtain ⟨new, rcs, h1, h2, h3, h4, h5, h6, h7, h8, h9⟩ := Conversion.pipeline_loop_run sys reg
    request.output_path path input.full_path []
    (w.emit (.find_path from_format output_format (some path))) from_format output_format hw
  have hmem : ∀ ext tmpl out, Conversion.Event.make_temp_with_ext ext tmpl out
      ∈ Conversion.Event.find_path from_format output_format (some path) :: new →
      Conversion.Event.make_temp_with_ext ext tmpl out ∈ new := by
    intro ext tmpl out hm
    rcases List.mem_cons.1 hm with e | e
    · cases e
    · exact e
  have hfail : ∀ i, i < rcs.length → rcs.getD i 0 ≠ 0 →
      (Conversion.pipeline_loop sys reg request.output_path path input.full_path []
        (w.emit (.find_path from_format output_format (some path)))).1
        = Conversion.ERR_CONVERSION_FAILED := by
    intro i hi hne
    rcases h6 with h6 | h6
    · exfalso
      have hall := (h5.1 h6).2
      apply hne
      rw [List.getD_eq_getElem _ _ hi]
      exact hall _ (List.getElem_mem _)
    · exact h6
  refine ⟨_, _, Conversion.Event.find_path from_format output_format (some path) :: new, rcs,
    (Conversion.execute_pipeline_path sys reg request from_format
      output_format w input path hin hof hpath).trans rfl, ?_, h2, ?_, ?_, h5, h6, ?_, h8,
      ?_, ?_⟩
  · rw [h1]
    simp [Conversion.World.emit]
  · rw [← h3]
    rfl
  · intro i hi hne
    exact ⟨h4 i hi hne, hfail i hi hne⟩
  · intro hlt
    rcases h7 hlt with h | ⟨ext, tmpl, hm⟩
    · exact Or.inl h
    · exact Or.inr ⟨ext, tmpl, List.mem_cons_of_mem _ hm⟩
  · intro htemp i hi hs hf
    obtain ⟨k1, k2, k3⟩ := Conversion.pipeline_loop_first_failure sys reg path new rcs h4 h7
      h8 h9 htemp i hi hs hf
    exact ⟨k1, k2, k3, hfail i (by omega) k3⟩
  · intro htemp hs
    have k := Conversion.pipeline_loop_all_succeed sys reg path new rcs h2 h7 h8 h9 htemp hs
    exact ⟨k.1, k.2, h5.2 k⟩

/-- C25 at the registry of the source, from `postgresql` to `tokens`, with the three hops 19,
5 and 17: temporaries can be made, the converter of hop 19 succeeds and that of hop 5 fails
whenever it is run. The converters of the first two hops are run, the third is not, and
the result is `ERR_CONVERSION_FAILED`. -/
theorem c25_pipeline_abort_witness :
    (Conversion.execute_pipeline Conversion.sys_csv_to_txt_fails Conversion.converters
        (Conversion.request_from_postgresql "tokens".toList "/data/out.tokens".toList)
        (some "postgresql".toList) ⟨["/data/db.conf".toList], []⟩).map
          (fun r => (r.1, Conversion.invocations r.2.log))
        = some (4, [(some "modules/postgresql_to_csv.sh".toList, 0),
            (some "modules/csv_to_txt.sh".toList, 1)])
      ∧ Conversion.temps_can_be_made Conversion.sys_csv_to_txt_fails
      ∧ Conversion.hop_succeeds Conversion.sys_csv_to_txt_fails Conversion.converters 19
      ∧ Conversion.hop_fails Conversion.sys_csv_to_txt_fails Conversion.converters 5
      ∧ ∃ code w2 new rcs,
          Conversion.execute_pipeline Conversion.sys_csv_to_txt_fails Conversion.converters
              (Conversion.request_from_postgresql "tokens".toList "/data/out.tokens".toList)
              (some "postgresql".toList) ⟨["/data/db.conf".toList], []⟩ = some (code, w2)
            ∧ w2.log = [] ++ new
            ∧ Conversion.invocations new
              = (([19, 5, 17].take rcs.length).map
                  (fun cid => some
                    (Conversion.converter_at Conversion.converters cid).converter_path)).zip rcs
            ∧ rcs.length = 2 ∧ rcs.getD 0 0 = 0 ∧ rcs.getD 1 0 ≠ 0
            ∧ code = Conversion.ERR_CONVERSION_FAILED := by
  have htemp : Conversion.temps_can_be_made Conversion.sys_csv_to_txt_fails := by
    refine ⟨?_, fun _ => rfl, fun _ _ _ => rfl⟩
    intro w
    show (if w.log.length ≤ 1 then some "/tmp/dtconvertAAAAAA".toList
      else some "/tmp/dtconvertBBBBBB".toList) ≠ none
    split_ifs <;> simp
  have h19 : Conversion.hop_succeeds Conversion.sys_csv_to_txt_fails Conversion.converters
      19 := by
    intro inp out w
    have e : (Conversion.converter_at Conversion.converters 19).converter_path
        = "modules/postgresql_to_csv.sh".toList := by decide
    rw [e]
    show (if some "modules/postgresql_to_csv.sh".toList = some "modules/csv_to_txt.sh".toList
      then (1 : Int) else 0) = 0
    decide
  have h5 : Conversion.hop_fails Conversion.sys_csv_to_txt_fails Conversion.converters 5 := by
    intro inp out w
    have e : (Conversion.converter_at Conversion.converters 5).converter_path
        = "modules/csv_to_txt.sh".toList := by decide
    rw [e]
    show (if some "modules/csv_to_txt.sh".toList = some "modules/csv_to_txt.sh".toList
      then (1 : Int) else 0) ≠ 0
    decide
  refine ⟨by decide, htemp, h19, h5, ?_⟩
  obtain ⟨code, w2, new, rcs, k1, k2, _, k4, _, _, _, _, _, k10, _⟩ :=
    c25_pipeline_abort Conversion.sys_csv_to_txt_fails Conversion.converters
      (Conversion.request_from_postgresql "tokens".toList "/data/out.tokens".toList)
      "postgresql".toList "tokens".toList ⟨["/data/db.conf".toList], []⟩ _ [19, 5, 17] rfl rfl
      (by decide)
  obtain ⟨m1, m2, m3, m4⟩ := k10 htemp 1 (by decide) (by
    intro j hj
    have e : j = 0 := by omega
    subst e
    exact h19) h5
  exact ⟨code, w2, new, rcs, k1, k2, k4, m1, m2 0 (by decide), m3, m4⟩

/-- C7 (defect): under the header `a,a,b` the record `1,2,3` is read as the row `1`, `2`:
the single column `a` keeps the value `1` of the earlier field and the column `b` gets the
value `2` of the second `a` field, while the field `3` is lost. By the claim the later field
overwrites the earlier, which gives the row `2`, `3`. The reader stores field `k` of a
record under the `k`-th distinct name instead of the name at position `k` of the header.
Under a header without a repeated name, here `a,b,c`, the reader gives the table of the
claim. -/
theorem c7_csv_duplicate_header_shift :
    DataConvert.csv_read_table "a,a,b\n1,2,3\n".toList
        = some ⟨["a".toList, "b".toList], [["1".toList, "2".toList]]⟩
      ∧ DataConvert.csv_spec_table ["a".toList, "a".toList, "b".toList]
          [["1".toList, "2".toList, "3".toList]]
        = ⟨["a".toList, "b".toList], [["2".toList, "3".toList]]⟩
      ∧ DataConvert.csv_read_table "a,a,b\n1,2,3\n".toList
        ≠ some (DataConvert.csv_spec_table ["a".toList, "a".toList, "b".toList]
            [["1".toList, "2".toList, "3".toList]])
      ∧ DataConvert.csv_read_table "a,b,c\n1,2,3\n".toList
        = some (DataConvert.csv_spec_table ["a".toList, "b".toList, "c".toList]
            [["1".toList, "2".toList, "3".toList]]) := by
  decide
